import Mathlib

/-!
Control-flow structuring pass of dcc (`src/control.cpp`).

A shallow embedding of the structuring pass: basic blocks live in a heap
addressed by block pointers (natural numbers), the DFS-last table is a list of
block pointers, `Int` is the unbounded integers, and an operation whose C++
behaviour is undefined (an index outside the DFS-last table, a loop that does
not end within the given fuel, a failing assertion) returns `none`.
-/

set_option autoImplicit false

namespace Dcc

/-! ## Data model -/

/-- Modelled from the spec: the out-of-band index values `NO_NODE`, `NO_DOM` and `MAX`
("distinguished out-of-band values in the index domain"); the header that defines them is
not among the sources, so they are parameters of the embedding. -/
structure Sentinels where
  NO_NODE : Int
  NO_DOM : Int
  MAX : Int

/-- Modelled from the spec: the node types of a basic block (one-way, two-way, multi-way,
fall-through, return, call, loop-self); `control.cpp` names `TWO_BRANCH`, `MULTI_BRANCH`
and `LOOP_NODE`. -/
inductive eBBKind where
  | ONE_BRANCH
  | TWO_BRANCH
  | MULTI_BRANCH
  | FALL_NODE
  | RETURN_NODE
  | CALL_NODE
  | LOOP_NODE
  deriving DecidableEq, Repr

/-- Modelled from the spec: the loop kinds (none, pre-test, post-test, endless);
`control.cpp` names `WHILE_TYPE`, `REPEAT_TYPE` and `ENDLESS_TYPE`. -/
inductive eNodeHeaderType where
  | NO_TYPE
  | WHILE_TYPE
  | REPEAT_TYPE
  | ENDLESS_TYPE
  deriving DecidableEq, Repr

/-- Modelled from the spec: the traversal marker (none, case-DFS, others). -/
inductive eDFS where
  | DFS_NONE
  | DFS_CASE
  | DFS_OTHER
  deriving DecidableEq, Repr

/-- Modelled from the spec: the `flg` bit-set of a block, of which the pass reads and
writes the bits `INVALID_BB` and `IS_LATCH_NODE`. -/
structure BBFlags where
  INVALID_BB : Bool := false
  IS_LATCH_NODE : Bool := false
  deriving DecidableEq, Repr

/-- Modelled from the spec: an interval, the ordered sequence of its nodes (block
pointers), header first. The `next` link is represented by the position of the interval
in the list of its level. -/
structure interval where
  nodes : List Nat
  deriving DecidableEq, Repr

/-- Modelled from the spec: the derived sequence, one entry per level, each the chain
`Ii, Ii->next, ...` of the intervals of that level. -/
abbrev derSeq := List (List interval)

/-- Modelled from the spec: the attributes of a basic block that `control.cpp` uses.
`edges` holds the `BBptr` of each out-edge, `inEdges` the predecessors. -/
structure BB where
  dfsFirstNum : Int := 0
  dfsLastNum : Int := 0
  nodeType : eBBKind := eBBKind.ONE_BRANCH
  flg : BBFlags := {}
  inEdges : List Nat := []
  numInEdges : Int := 0
  edges : List Nat := []
  numOutEdges : Int := 0
  numBackEdges : Int := 0
  immedDom : Int := 0
  loopHead : Int := 0
  loopType : eNodeHeaderType := eNodeHeaderType.NO_TYPE
  loopFollow : Int := 0
  latchNode : Int := 0
  caseHead : Int := 0
  caseTail : Int := 0
  traversed : eDFS := eDFS.DFS_NONE
  ifFollow : Int := 0
  start : Int := 0
  length : Int := 0
  numHlIcodes : Int := 0
  correspInt : Option interval := none
  deriving DecidableEq, Repr

/-- Modelled from the spec: the kinds of the boolean combinator (`combine(lhs, rhs, kind)`
with `kind` one of OR, AND); `control.cpp` names them `DBL_OR` and `DBL_AND`. -/
inductive condOp where
  | DBL_OR
  | DBL_AND
  deriving DecidableEq, Repr

/-- Modelled from the spec: a conditional expression. The expression trees are not among
the sources; the pass only combines two of them with `COND_EXPR::boolOp` and inverts one
with `inverseCondOp`, so they are the free terms over the conditions `leaf n` of the
input. -/
inductive COND_EXPR where
  | leaf (n : Nat)
  | boolOp (lhs rhs : COND_EXPR) (op : condOp)
  | inverse (e : COND_EXPR)
  deriving DecidableEq, Repr

/-- Modelled from the spec: `inverseCondOp`, the inversion of a conditional expression. -/
def inverseCondOp (e : COND_EXPR) : COND_EXPR := COND_EXPR.inverse e

/-- Modelled from the spec: the part of an instruction that the pass touches: the
`JX_LOOP` flag, through `SetLlFlag` and `GetLlFlag`, and the conditional expression
`ic.hl.oper.exp` of a high-level conditional jump. -/
structure ICODE where
  JX_LOOP : Bool := false
  exp : COND_EXPR := COND_EXPR.leaf 0
  deriving DecidableEq, Repr

/-- Modelled from the spec: a procedure. `blocks` is the heap of basic blocks (a `BB *`
is a natural number), `dfsLast` the DFS-last table, `Icode` the instruction store
indexed by instruction number. -/
structure Function where
  blocks : Nat → BB
  dfsLast : List Nat
  numBBs : Int
  hasCase : Bool := false
  Icode : Int → ICODE := fun _ => {}

/-- Modelled from the spec: the edge index of the THEN branch of a two-way block. -/
def THEN : Nat := 0

/-- Modelled from the spec: the edge index of the ELSE branch of a two-way block. -/
def ELSE : Nat := 1

/-- Writes the block `b` at the pointer `p`. -/
def Function.setBB (P : Function) (p : Nat) (b : BB) : Function :=
  { P with blocks := fun q => if q = p then b else P.blocks q }

/-- Reads `dfsLast[i]`; undefined outside the table. -/
def Function.dfsLastAt (P : Function) (i : Int) : Option Nat :=
  if 0 ≤ i then P.dfsLast.get? i.toNat else none

/-- Modelled from the spec: `SetLlFlag(i, JX_LOOP)` on the instruction store. -/
def Function.SetLlFlagJX_LOOP (P : Function) (i : Int) : Function :=
  { P with Icode := fun j => if j = i then { P.Icode j with JX_LOOP := true } else P.Icode j }

/-- Modelled from the spec: `GetLlFlag(i) & JX_LOOP` on the instruction store. -/
def Function.GetLlFlagJX_LOOP (P : Function) (i : Int) : Bool :=
  (P.Icode i).JX_LOOP

/-! ## Immediate dominators -/

/-- The `while` loop of `commonDom` (lines 53-61). -/
def commonDomLoop (K : Sentinels) (P : Function) : Nat → Int → Int → Option Int
  | 0, _, _ => none
  | fuel + 1, currImmDom, predImmDom =>
    if currImmDom ≠ K.NO_DOM ∧ predImmDom ≠ K.NO_DOM ∧ currImmDom ≠ predImmDom then
      if currImmDom < predImmDom then
        match P.dfsLastAt predImmDom with
        | none => none
        | some b => commonDomLoop K P fuel currImmDom (P.blocks b).immedDom
      else
        match P.dfsLastAt currImmDom with
        | none => none
        | some b => commonDomLoop K P fuel (P.blocks b).immedDom predImmDom
    else some currImmDom

/-- The function `commonDom` (lines 44-62). -/
def commonDom (K : Sentinels) (P : Function) (fuel : Nat) (currImmDom predImmDom : Int) :
    Option Int :=
  if currImmDom = K.NO_DOM then some predImmDom
  else if predImmDom = K.NO_DOM then some currImmDom
  else commonDomLoop K P fuel currImmDom predImmDom

/-- One iteration of the inner loop of `findImmedDom` (lines 82-86). -/
def findImmedDomEdge (K : Sentinels) (fuel : Nat) (currIdx : Int) (currNode : Nat)
    (P : Function) (inedge : Nat) : Option Function :=
  let predIdx := (P.blocks inedge).dfsLastNum
  if predIdx < currIdx then
    match commonDom K P fuel (P.blocks currNode).immedDom predIdx with
    | none => none
    | some d => some (P.setBB currNode { P.blocks currNode with immedDom := d })
  else some P

/-- One iteration of the outer loop of `findImmedDom` (lines 76-87). -/
def findImmedDomNode (K : Sentinels) (fuel : Nat) (P : Function) (currIdx : Nat) :
    Option Function :=
  match P.dfsLastAt currIdx with
  | none => none
  | some currNode =>
    if (P.blocks currNode).flg.INVALID_BB then some P
    else (P.blocks currNode).inEdges.foldlM (findImmedDomEdge K fuel currIdx currNode) P

/-- The function `Function::findImmedDom` (lines 69-89). -/
def findImmedDom (K : Sentinels) (fuel : Nat) (P : Function) : Option Function :=
  (List.range P.numBBs.toNat).foldlM (findImmedDomNode K fuel) P


/-! ## Loops -/

/-- Sets `loopHead` of the block `b`. -/
def Function.setLoopHead (P : Function) (b : Nat) (h : Int) : Function :=
  P.setBB b { P.blocks b with loopHead := h }

/-- Sets `loopType` of the block `b`. -/
def Function.setLoopType (P : Function) (b : Nat) (t : eNodeHeaderType) : Function :=
  P.setBB b { P.blocks b with loopType := t }

/-- Sets `loopFollow` of the block `b`. -/
def Function.setLoopFollow (P : Function) (b : Nat) (f : Int) : Function :=
  P.setBB b { P.blocks b with loopFollow := f }

/-- Sets `latchNode` of the block `b`. -/
def Function.setLatchNode (P : Function) (b : Nat) (l : Int) : Function :=
  P.setBB b { P.blocks b with latchNode := l }

/-- Sets the bit `IS_LATCH_NODE` in `flg` of the block `b`. -/
def Function.setIsLatchNode (P : Function) (b : Nat) : Function :=
  P.setBB b { P.blocks b with flg := { (P.blocks b).flg with IS_LATCH_NODE := true } }

/-- Increments `numBackEdges` of the block `b`. -/
def Function.incNumBackEdges (P : Function) (b : Nat) : Function :=
  P.setBB b { P.blocks b with numBackEdges := (P.blocks b).numBackEdges + 1 }

/-- The function `isBackEdge` (lines 33-41): the answer and the procedure with the
back-edge counter of `s` incremented. -/
def isBackEdge (P : Function) (p s : Nat) : Bool × Function :=
  if (P.blocks p).dfsFirstNum ≥ (P.blocks s).dfsFirstNum then
    (true, P.incNumBackEdges s)
  else (false, P)

/-- The function `insertList` (lines 93-96). -/
def insertList (l : List Int) (n : Int) : List Int := l ++ [n]

/-- The function `inList` (lines 101-104). -/
def inList (l : List Int) (n : Int) : Bool := decide (n ∈ l)

/-- The function `inInt` (lines 115-118). -/
def inInt (n : Nat) (q : List Nat) : Bool := decide (n ∈ q)

/-- Modelled from the spec: `appendQueue`, which is not among the sources, puts a block at
the end of the queue of interval nodes; the pass only asks the queue for membership. -/
def appendQueue (q : List Nat) (n : Nat) : List Nat := q ++ [n]

/-- Reads `b->edges[i].BBptr`; undefined outside the edge vector. -/
def Function.edge (P : Function) (b : Nat) (i : Nat) : Option Nat :=
  (P.blocks b).edges.get? i

/-- Reads `b->edges[i].BBptr->dfsLastNum`. -/
def Function.edgeDfs (P : Function) (b : Nat) (i : Nat) : Option Int :=
  match P.edge b i with
  | none => none
  | some s => some (P.blocks s).dfsLastNum

/-- The body of the inner loop of `findEndlessFollow` (lines 133-135). -/
def findEndlessFollowEdge (loopNodes : List Int) (head : Nat) (b : Nat) (P : Function)
    (j : Nat) : Option Function :=
  match P.edgeDfs b j with
  | none => none
  | some succ =>
    if inList loopNodes succ = false ∧ succ < (P.blocks head).loopFollow then
      some (P.setLoopFollow head succ)
    else some P

/-- The body of the outer loop of `findEndlessFollow` (lines 131-136). -/
def findEndlessFollowNode (loopNodes : List Int) (head : Nat) (P : Function) (p : Int) :
    Option Function :=
  match P.dfsLastAt p with
  | none => none
  | some b =>
    (List.range (P.blocks b).numOutEdges.toNat).foldlM
      (findEndlessFollowEdge loopNodes head b) P

/-- The function `findEndlessFollow` (lines 123-138). -/
def findEndlessFollow (K : Sentinels) (P : Function) (loopNodes : List Int) (head : Nat) :
    Option Function :=
  loopNodes.foldlM (findEndlessFollowNode loopNodes head) (P.setLoopFollow head K.MAX)

/-- The body of the tagging loop of `findNodesInLoop` (lines 158-167), on the procedure
and the list `loopNodes`. -/
def findNodesInLoopTag (K : Sentinels) (intNodes : List Nat) (headDfsNum : Int)
    (st : Function × List Int) (i : Int) : Option (Function × List Int) :=
  match st.1.dfsLastAt i with
  | none => none
  | some b =>
    if (st.1.blocks b).flg.INVALID_BB then some st
    else
      let immedDom := (st.1.blocks b).immedDom
      if inList st.2 immedDom = true ∧ inInt b intNodes = true then
        if (st.1.blocks b).loopHead = K.NO_NODE then
          some (st.1.setLoopHead b headDfsNum, insertList st.2 i)
        else some (st.1, insertList st.2 i)
      else some st

/-- The first part of `findNodesInLoop` (lines 153-171): flags the nodes of the loop and
returns the list `loopNodes`. -/
def findNodesInLoopNodes (K : Sentinels) (latchNode head : Nat) (P : Function)
    (intNodes : List Nat) : Option (Function × List Int) :=
  let headDfsNum := (P.blocks head).dfsLastNum
  let P1 := P.setLoopHead head headDfsNum
  let span := ((P1.blocks latchNode).dfsLastNum - (headDfsNum + 1)).toNat
  match ((List.range span).map (fun t : Nat => headDfsNum + 1 + (t : Int))).foldlM
      (findNodesInLoopTag K intNodes headDfsNum) (P1, insertList [] headDfsNum) with
  | none => none
  | some (P2, loopNodes) =>
    let P3 := P2.setLoopHead latchNode headDfsNum
    if latchNode ≠ head then some (P3, insertList loopNodes (P3.blocks latchNode).dfsLastNum)
    else some (P3, loopNodes)

/-- The `while (1)` loop of `findNodesInLoop` (lines 219-241): the procedure and the
block `pbb` at which the walk stopped. -/
def findNodesInLoopWalk (K : Sentinels) (loopNodes : List Int) (head : Nat)
    (thenDfs elseDfs : Int) : Nat → Function → Nat → Option (Function × Nat)
  | 0, _, _ => none
  | fuel + 1, P, pbb =>
    if (P.blocks pbb).dfsLastNum = thenDfs then
      some (P.setLoopFollow head elseDfs, pbb)
    else if (P.blocks pbb).dfsLastNum = elseDfs then
      some (P.setLoopFollow head thenDfs, pbb)
    else if (P.blocks pbb).dfsLastNum ≤ (P.blocks head).dfsLastNum then
      match findEndlessFollow K (P.setLoopType head eNodeHeaderType.ENDLESS_TYPE)
          loopNodes head with
      | none => none
      | some P' => some (P', pbb)
    else
      match P.dfsLastAt (P.blocks pbb).immedDom with
      | none => none
      | some b => findNodesInLoopWalk K loopNodes head thenDfs elseDfs fuel P b

/-- Sets `loopType` and `loopFollow` of the block `head`. -/
def Function.setLoop (P : Function) (head : Nat) (t : eNodeHeaderType) (follow : Int) :
    Function :=
  (P.setLoopType head t).setLoopFollow head follow

/-- The index of the last low-level instruction of the block `b`. -/
def Function.lastInstr (P : Function) (b : Nat) : Int :=
  (P.blocks b).start + (P.blocks b).length - 1

/-- The end of the pre-test branch of `findNodesInLoop` (lines 242-244), from the
procedure and the block `pbb` that the walk left. -/
def findNodesInLoopWalkEnd (K : Sentinels) (head : Nat) (P2 : Function) (pbb : Nat) :
    Option Function :=
  if (P2.blocks pbb).dfsLastNum > (P2.blocks head).dfsLastNum then
    match P2.dfsLastAt (P2.blocks head).loopFollow with
    | none => none
    | some f => some ((P2.setLoopHead f K.NO_NODE).SetLlFlagJX_LOOP (P2.lastInstr head))
  else some (P2.SetLlFlagJX_LOOP (P2.lastInstr head))

/-- The second part of `findNodesInLoop` (lines 174-250): determines the type of the loop
and its follow node. -/
def findNodesInLoopType (K : Sentinels) (fuel : Nat) (latchNode head : Nat) (P : Function)
    (loopNodes : List Int) : Option Function :=
  let intNodeType := (P.blocks head).nodeType
  if (P.blocks latchNode).nodeType = eBBKind.TWO_BRANCH then
    if intNodeType = eBBKind.TWO_BRANCH ∨ latchNode = head then
      match (if latchNode = head then some true else
          match P.edgeDfs head THEN with
          | none => none
          | some t =>
            if inList loopNodes t then
              match P.edgeDfs head ELSE with
              | none => none
              | some e => some (inList loopNodes e)
            else some false) with
      | none => none
      | some true =>
        match P.edge latchNode 0 with
        | none => none
        | some l0 =>
          match (if l0 = head then P.edgeDfs latchNode ELSE else P.edgeDfs latchNode THEN) with
          | none => none
          | some f =>
            some ((P.setLoop head eNodeHeaderType.REPEAT_TYPE f).SetLlFlagJX_LOOP
              (P.lastInstr latchNode))
      | some false =>
        match P.edgeDfs head THEN with
        | none => none
        | some t =>
          match (if inList loopNodes t then P.edgeDfs head ELSE else P.edgeDfs head THEN) with
          | none => none
          | some f =>
            some ((P.setLoop head eNodeHeaderType.WHILE_TYPE f).SetLlFlagJX_LOOP
              (P.lastInstr head))
    else
      match P.edge latchNode THEN with
      | none => none
      | some l0 =>
        match (if l0 = head then P.edgeDfs latchNode ELSE else P.edgeDfs latchNode THEN) with
        | none => none
        | some f =>
          some ((P.setLoop head eNodeHeaderType.REPEAT_TYPE f).SetLlFlagJX_LOOP
            (P.lastInstr latchNode))
  else if (P.blocks latchNode).nodeType = eBBKind.LOOP_NODE then
    match P.edgeDfs latchNode 0 with
    | none => none
    | some f => some (P.setLoop head eNodeHeaderType.REPEAT_TYPE f)
  else if intNodeType = eBBKind.TWO_BRANCH then
    let P1 := P.setLoopType head eNodeHeaderType.WHILE_TYPE
    match P1.edgeDfs head THEN with
    | none => none
    | some thenDfs =>
      match P1.edgeDfs head ELSE with
      | none => none
      | some elseDfs =>
        match findNodesInLoopWalk K loopNodes head thenDfs elseDfs fuel P1 latchNode with
        | none => none
        | some (P2, pbb) => findNodesInLoopWalkEnd K head P2 pbb
  else
    findEndlessFollow K (P.setLoopType head eNodeHeaderType.ENDLESS_TYPE) loopNodes head

/-- The function `findNodesInLoop` (lines 144-253). -/
def findNodesInLoop (K : Sentinels) (fuel : Nat) (latchNode head : Nat) (P : Function)
    (intNodes : List Nat) : Option Function :=
  match findNodesInLoopNodes K latchNode head P intNodes with
  | none => none
  | some (P1, loopNodes) => findNodesInLoopType K fuel latchNode head P1 loopNodes

/-- The function `findNodesInInt` (lines 259-271); the level counts down to 1. -/
def findNodesInInt (P : Function) : Nat → interval → List Nat → Option (List Nat)
  | 0, _, _ => none
  | 1, Ii, intNodes => some (Ii.nodes.foldl appendQueue intNodes)
  | level + 2, Ii, intNodes =>
    Ii.nodes.foldlM (fun q en =>
      match (P.blocks en).correspInt with
      | none => none
      | some Ij => findNodesInInt P (level + 1) Ij q) intNodes

/-- The loop of `structLoops` that finds the interval of G1 heading `Ii` (lines 299-301),
run `n` times. -/
def initInt (P : Function) : Nat → interval → Option interval
  | 0, Ii => some Ii
  | n + 1, Ii =>
    match Ii.nodes.head? with
    | none => none
    | some b =>
      match (P.blocks b).correspInt with
      | none => none
      | some Ij => initInt P n Ij

/-- The body of the loop of `structLoops` over the in-edges of the interval header (lines
311-319), on the procedure and the latching node found so far. -/
def structLoopsPred (intNodes : List Nat) (intHead : Nat) (st : Function × Option Nat)
    (pred : Nat) : Function × Option Nat :=
  if inInt pred intNodes then
    let r := isBackEdge st.1 pred intHead
    if r.1 then
      match st.2 with
      | none => (r.2, some pred)
      | some latchNode =>
        if (r.2.blocks pred).dfsLastNum > (r.2.blocks latchNode).dfsLastNum then
          (r.2, some pred)
        else (r.2, some latchNode)
    else (r.2, st.2)
  else st

/-- The search for the greatest enclosing back edge in `structLoops` (lines 309-320). -/
def structLoopsLatch (intNodes : List Nat) (intHead : Nat) (P : Function) :
    Function × Option Nat :=
  (P.blocks intHead).inEdges.foldl (structLoopsPred intNodes intHead) (P, none)

/-- The acceptance of a latching node in `structLoops` (lines 323-335). -/
def structLoopsAccept (K : Sentinels) (fuel : Nat) (intNodes : List Nat) (intHead : Nat)
    (P : Function) : Option Nat → Option Function
  | none => some P
  | some latchNode =>
    if (P.blocks latchNode).caseHead = (P.blocks intHead).caseHead ∧
        (P.blocks latchNode).loopHead = K.NO_NODE then
      let P1 := P.setLatchNode intHead (P.blocks latchNode).dfsLastNum
      match findNodesInLoop K fuel latchNode intHead P1 intNodes with
      | none => none
      | some P2 => some (P2.setIsLatchNode latchNode)
    else some P

/-- The body of the loop of `structLoops` over the intervals of a level (lines 294-338). -/
def structLoopsInterval (K : Sentinels) (fuel : Nat) (level : Nat) (P : Function)
    (Ii : interval) : Option Function :=
  match initInt P (level - 1) Ii with
  | none => none
  | some initI =>
    match initI.nodes.head? with
    | none => none
    | some intHead =>
      match findNodesInInt P level Ii [] with
      | none => none
      | some intNodes =>
        if (P.blocks intHead).numInEdges = (P.blocks intHead).inEdges.length then
          let r := structLoopsLatch intNodes intHead P
          structLoopsAccept K fuel intNodes intHead r.1 r.2
        else none

/-- The body of the loop of `structLoops` over the derived sequence (lines 290-339), on
the level counter and the procedure. -/
def structLoopsLevel (K : Sentinels) (fuel : Nat) (st : Nat × Function)
    (Iis : List interval) : Option (Nat × Function) :=
  match Iis.foldlM (structLoopsInterval K fuel (st.1 + 1)) st.2 with
  | none => none
  | some P => some (st.1 + 1, P)

/-- The function `structLoops` (lines 275-343). -/
def structLoops (K : Sentinels) (fuel : Nat) (P : Function) (derivedG : derSeq) :
    Option Function :=
  match derivedG.foldlM (structLoopsLevel K fuel) (0, P) with
  | none => none
  | some r => some r.2

/-! ## Specification vocabulary -/

/-- The DFS-last table holds, at every index below `numBBs`, a block whose
`dfsLastNum` is that index. -/
def Function.DfsLastOK (P : Function) : Prop :=
  ∀ k : Nat, (k : Int) < P.numBBs →
    ∃ b, P.dfsLast.get? k = some b ∧ (P.blocks b).dfsLastNum = k

/-- Every `immedDom` is `NO_DOM` or a non-negative index below the block's own. -/
def Function.ImmedDomBelow (K : Sentinels) (P : Function) : Prop :=
  ∀ b, (P.blocks b).immedDom = K.NO_DOM ∨
    (0 ≤ (P.blocks b).immedDom ∧ (P.blocks b).immedDom < (P.blocks b).dfsLastNum)

/-- The two procedures differ at most in the `immedDom` fields of their blocks. -/
def Function.SameButImmedDom (P Q : Function) : Prop :=
  Q.dfsLast = P.dfsLast ∧ Q.numBBs = P.numBBs ∧ Q.hasCase = P.hasCase ∧ Q.Icode = P.Icode ∧
    ∀ b, { Q.blocks b with immedDom := 0 } = { P.blocks b with immedDom := 0 }

/-- The measure that decreases along the loop of `commonDom`. -/
def domMeasure (K : Sentinels) (x : Int) : Nat :=
  if x = K.NO_DOM then 0 else x.toNat + 1

/-- Every predecessor of a block of the DFS-last table carries a non-negative
`dfsLastNum`. -/
def Function.PredsNumbered (P : Function) : Prop :=
  ∀ (k : Nat) (b : Nat), (k : Int) < P.numBBs → P.dfsLast.get? k = some b →
    ∀ p ∈ (P.blocks b).inEdges, 0 ≤ (P.blocks p).dfsLastNum

/-- The block `b` is one of the first `numBBs` entries of the DFS-last table, i.e. it is a
block of the procedure. -/
def Function.IsBlock (P : Function) (b : Nat) : Prop :=
  ∃ k : Nat, (k : Int) < P.numBBs ∧ P.dfsLast.get? k = some b

/-- An edge of the CFG: an out-edge from a block of the procedure to a block of the
procedure. -/
def Function.CfgEdge (P : Function) (u v : Nat) : Prop :=
  P.IsBlock u ∧ P.IsBlock v ∧ v ∈ (P.blocks u).edges

/-- `P.CfgPath e π v`: the list `π` holds, last block first, the blocks of a path of the
CFG that starts at `e` and ends at `v`. -/
inductive Function.CfgPath (P : Function) (e : Nat) : List Nat → Nat → Prop where
  | entry : Function.CfgPath P e [e] e
  | step {π : List Nat} {u v : Nat} :
      Function.CfgPath P e π u → P.CfgEdge u v → Function.CfgPath P e (v :: π) v

/-- `d` dominates `v`: every path of the CFG from the entry `e` to `v` passes through
`d`. -/
def Function.Dominates (P : Function) (e d v : Nat) : Prop :=
  ∀ π, P.CfgPath e π v → d ∈ π

/-- `d` is the immediate dominator of `v`: a strict dominator of `v` that every strict
dominator of `v` dominates. -/
def Function.IsImmedDom (P : Function) (e d v : Nat) : Prop :=
  d ≠ v ∧ P.Dominates e d v ∧ ∀ d', d' ≠ v → P.Dominates e d' v → P.Dominates e d' d

/-- Reducibility with respect to the DFS-last numbering: every edge of the CFG either goes from a smaller to a larger DFS-last number or is a
back edge, whose target dominates its source. -/
def Function.Reducible (P : Function) (e : Nat) : Prop :=
  ∀ u v, P.CfgEdge u v →
    (P.blocks u).dfsLastNum < (P.blocks v).dfsLastNum ∨ P.Dominates e v u

/-- The block `b` is the entry `i` of the DFS-last table, `i < numBBs`. -/
def Function.BlockAt (P : Function) (i : Nat) (b : Nat) : Prop :=
  (i : Int) < P.numBBs ∧ P.dfsLast.get? i = some b

/-- The `immedDom` field of the block `b` in the state `Q` is right for the CFG of `P`:
`NO_DOM` for the entry `e`, and for another block the DFS-last number of its immediate
dominator, which is smaller than its own. -/
def Function.ImmedDomOK (K : Sentinels) (P : Function) (e : Nat) (Q : Function) (b : Nat) :
    Prop :=
  (b = e ∧ (Q.blocks b).immedDom = K.NO_DOM) ∨
  (b ≠ e ∧ ∃ d l, P.BlockAt l d ∧ (Q.blocks b).immedDom = l ∧
    (l : Int) < (P.blocks b).dfsLastNum ∧ P.IsImmedDom e d b)

/-- The state `Q` of the solver after the table entries below `k` have been processed. -/
def Function.SolvedBelow (K : Sentinels) (P : Function) (e : Nat) (k : Nat) (Q : Function) :
    Prop :=
  P.SameButImmedDom Q ∧ ∀ (j : Nat) (b : Nat), j < k → P.BlockAt j b → P.ImmedDomOK K e Q b

/-- The value accumulated in `immedDom` of the block `v` (table entry `k`) after the
in-edges `L` have been processed: still `NO_DOM` when none of them is a forward edge,
otherwise the number of a block whose dominators are the common dominators of the
forward predecessors in `L`. -/
def Function.DomAcc (K : Sentinels) (P : Function) (e : Nat) (Q : Function) (v k : Nat)
    (L : List Nat) : Prop :=
  ((∀ p ∈ L, ¬ (P.blocks p).dfsLastNum < k) ∧ (Q.blocks v).immedDom = K.NO_DOM) ∨
  (∃ l m, P.BlockAt l m ∧ (Q.blocks v).immedDom = l ∧ l < k ∧
    ∀ x, P.Dominates e x m ↔
      ∀ p ∈ L, (P.blocks p).dfsLastNum < k → P.Dominates e x p)

/-- The two procedures have the same DFS-last table, block count and case flag, and their
blocks agree after the fields removed by `er` are blanked. -/
def Function.SameUpTo (er : BB → BB) (P Q : Function) : Prop :=
  Q.dfsLast = P.dfsLast ∧ Q.numBBs = P.numBBs ∧ Q.hasCase = P.hasCase ∧
    ∀ b, er (Q.blocks b) = er (P.blocks b)

/-- Blanks `loopHead`. -/
def BB.eraseLoopHead (b : BB) : BB := { b with loopHead := 0 }

/-- Blanks `loopFollow`. -/
def BB.eraseLoopFollow (b : BB) : BB := { b with loopFollow := 0 }

/-- Blanks the fields that `findNodesInLoop` writes: `loopHead`, `loopType`,
`loopFollow`. -/
def BB.eraseLoop (b : BB) : BB :=
  { b with loopHead := 0, loopType := eNodeHeaderType.NO_TYPE, loopFollow := 0 }

/-- Blanks the fields that `structLoops` writes: those of `findNodesInLoop`, `latchNode`,
`numBackEdges` and the `IS_LATCH_NODE` bit. -/
def BB.eraseStructLoops (b : BB) : BB :=
  { b with loopHead := 0, loopType := eNodeHeaderType.NO_TYPE, loopFollow := 0,
           latchNode := 0, numBackEdges := 0,
           flg := { b.flg with IS_LATCH_NODE := false } }

/-- Blanks `numBackEdges`. -/
def BB.eraseNumBackEdges (b : BB) : BB := { b with numBackEdges := 0 }

/-- The predecessor `p` of the header `h` qualifies as a latching node for the interval
with the G1 nodes `intNodes`: it is one of them and the edge from it is a back edge. -/
def Function.Qualifies (P : Function) (intNodes : List Nat) (h p : Nat) : Prop :=
  p ∈ (P.blocks h).inEdges ∧ p ∈ intNodes ∧ (P.blocks p).dfsFirstNum ≥ (P.blocks h).dfsFirstNum

/-- The DFS-last numbers of the targets of the first `numOutEdges` out-edges of `b`. -/
def Function.succDfs (P : Function) (b : Nat) : List Int :=
  ((P.blocks b).edges.take (P.blocks b).numOutEdges.toNat).map
    (fun s => (P.blocks s).dfsLastNum)

/-- The DFS-last numbers that `findEndlessFollow` examines, in the order of the scan. -/
def Function.allSuccDfs (P : Function) : List Int → List Int
  | [] => []
  | p :: l =>
    (match P.dfsLastAt p with
      | none => []
      | some b => P.succDfs b) ++ Function.allSuccDfs P l

/-- The update of the follow candidate `m` by the successor number `succ` in
`findEndlessFollow`. -/
def pickFollow (loopNodes : List Int) (m succ : Int) : Int :=
  if inList loopNodes succ = false ∧ succ < m then succ else m

/-- `s` is the DFS-last number of an exit of the node list `loopNodes`: of the target of an
out-edge of a block of the list, and not itself in the list. -/
def Function.IsExitDfs (P : Function) (loopNodes : List Int) (s : Int) : Prop :=
  s ∉ loopNodes ∧ ∃ p ∈ loopNodes, ∃ b, P.dfsLastAt p = some b ∧
    ∃ t ∈ (P.blocks b).edges, (P.blocks t).dfsLastNum = s

/-- The blocks named by the node list are in the DFS-last table and their out-edge counter
is the size of their out-edge vector. -/
def Function.MembersOK (P : Function) (loopNodes : List Int) : Prop :=
  ∀ p ∈ loopNodes, ∃ b, P.dfsLastAt p = some b ∧
    (P.blocks b).numOutEdges = (P.blocks b).edges.length

/-- The index `i` is inside the DFS-last table. -/
def Function.InTable (P : Function) (i : Int) : Prop :=
  ∃ b, P.dfsLastAt i = some b

/-- The out-edge counter of every block of the DFS-last table is the size of its out-edge
vector. -/
def Function.OutEdgesOK (P : Function) : Prop :=
  ∀ i b, P.dfsLastAt i = some b → (P.blocks b).numOutEdges = (P.blocks b).edges.length

/-- `P.WalkStops hd tD eD n b w`: following `immedDom` links from the block `b`, the first
block whose `dfsLastNum` is `tD`, or `eD`, or at most `hd`, is `w`, reached after `n`
links. -/
inductive Function.WalkStops (P : Function) (hd tD eD : Int) : Nat → Nat → Nat → Prop where
  | stop {w : Nat} :
      ((P.blocks w).dfsLastNum = tD ∨ (P.blocks w).dfsLastNum = eD ∨
        (P.blocks w).dfsLastNum ≤ hd) → Function.WalkStops P hd tD eD 0 w w
  | next {n b c w : Nat} :
      ¬ ((P.blocks b).dfsLastNum = tD ∨ (P.blocks b).dfsLastNum = eD ∨
        (P.blocks b).dfsLastNum ≤ hd) →
      P.dfsLastAt (P.blocks b).immedDom = some c →
      Function.WalkStops P hd tD eD n c w → Function.WalkStops P hd tD eD (n + 1) b w

/-- The conditions, on the parts of the procedure that the loop structurer does not
write, under which `findNodesInLoop` is defined for the header `H` and the latching node
`L`: both are numbered inside the DFS-last table; the out-edge counters are right; a
two-way block has a THEN and an ELSE edge and a loop-instruction latching node a first
edge; and for a two-way header with a latching node that is neither, the targets of the
header are numbered inside the table and the dominator walk from `L` stops within the
fuel. -/
def Function.LoopWF (P : Function) (fuel : Nat) (H L : Nat) : Prop :=
  P.InTable (P.blocks H).dfsLastNum ∧ P.InTable (P.blocks L).dfsLastNum ∧ P.OutEdgesOK ∧
  ((P.blocks L).nodeType = eBBKind.TWO_BRANCH →
    ∃ lt le, P.edge L THEN = some lt ∧ P.edge L ELSE = some le) ∧
  ((P.blocks L).nodeType = eBBKind.LOOP_NODE → ∃ l0, P.edge L 0 = some l0) ∧
  ((P.blocks H).nodeType = eBBKind.TWO_BRANCH →
    ∃ t e, P.edge H THEN = some t ∧ P.edge H ELSE = some e ∧
      ((P.blocks L).nodeType ≠ eBBKind.TWO_BRANCH →
        (P.blocks L).nodeType ≠ eBBKind.LOOP_NODE →
        P.InTable (P.blocks t).dfsLastNum ∧ P.InTable (P.blocks e).dfsLastNum ∧
        ∃ n w, n < fuel ∧
          P.WalkStops (P.blocks H).dfsLastNum (P.blocks t).dfsLastNum
            (P.blocks e).dfsLastNum n L w))

/-- The conditions under which the body of the loop of `structLoops` is defined for the
interval `Ii` at the given level: the chain of first nodes leads to a header in G1, the
nodes of the interval in G1 can be collected, the in-edge counter of the header is
right, and `findNodesInLoop` is defined for the header and each of its predecessors. -/
def Function.IntervalOK (P : Function) (fuel : Nat) (level : Nat) (Ii : interval) : Prop :=
  ∃ initI intHead intNodes, initInt P (level - 1) Ii = some initI ∧
    initI.nodes.head? = some intHead ∧ findNodesInInt P level Ii [] = some intNodes ∧
    (P.blocks intHead).numInEdges = (P.blocks intHead).inEdges.length ∧
    ∀ L ∈ (P.blocks intHead).inEdges, P.LoopWF fuel intHead L

/-- Every interval of the derived sequence is well formed at its level; `base` is the
number of levels that precede the sequence. -/
def Function.DerSeqOK (P : Function) (fuel : Nat) (base : Nat) (derivedG : derSeq) : Prop :=
  ∀ (l : Nat) (Iis : List interval), derivedG.get? l = some Iis →
    ∀ Ii ∈ Iis, P.IntervalOK fuel (base + l + 1) Ii

/-- Every block of the DFS-last table whose `latchNode` is set names, by its DFS-last
number, a block that carries `IS_LATCH_NODE`. -/
def Function.LatchesFlagged (K : Sentinels) (P : Function) : Prop :=
  ∀ h ∈ P.dfsLast, (P.blocks h).latchNode ≠ K.NO_NODE →
    ∃ L, (P.blocks L).flg.IS_LATCH_NODE = true ∧
      (P.blocks L).dfsLastNum = (P.blocks h).latchNode

/-! ## Invariant of the search for the latching node -/

/-- The state of the latch search after the predecessors `L` of `h` have been scanned. -/
def LatchInv (P : Function) (intNodes : List Nat) (h : Nat) (L : List Nat)
    (st : Function × Option Nat) : Prop :=
  P.SameUpTo BB.eraseNumBackEdges st.1 ∧
  (st.2 = none ↔ ∀ p ∈ L, ¬ (p ∈ intNodes ∧ (P.blocks p).dfsFirstNum ≥ (P.blocks h).dfsFirstNum)) ∧
  ∀ l, st.2 = some l → (l ∈ L ∧ l ∈ intNodes ∧
      (P.blocks l).dfsFirstNum ≥ (P.blocks h).dfsFirstNum) ∧
    ∀ p ∈ L, p ∈ intNodes → (P.blocks p).dfsFirstNum ≥ (P.blocks h).dfsFirstNum →
      (P.blocks p).dfsLastNum ≤ (P.blocks l).dfsLastNum

/-! ## Scenarios -/

/-- A block as the CFG builder and the dominator stage leave it: numbered, typed, with
its in- and out-edges, one instruction at `start`, its immediate dominator, and every
other structuring annotation unset. -/
def mkBB (K : Sentinels) (num : Int) (ty : eBBKind) (ins outs : List Nat) (idom : Int) : BB :=
  { dfsFirstNum := num, dfsLastNum := num, nodeType := ty,
    inEdges := ins, numInEdges := ins.length, edges := outs, numOutEdges := outs.length,
    immedDom := idom, loopHead := K.NO_NODE, loopFollow := K.MAX,
    latchNode := K.NO_NODE, caseHead := K.NO_NODE, caseTail := K.NO_NODE,
    ifFollow := K.MAX, start := num, length := 1, numHlIcodes := 1 }

/-- A node of a derived graph: it stands for the interval `Ij`. -/
def mkIntervalNode (Ij : interval) : BB :=
  { correspInt := some Ij }

/-- The loop annotations of the block `h` that the pass leaves: `loopType`, `latchNode`,
`loopFollow`. -/
def loopOf (o : Option Function) (h : Nat) : Option (eNodeHeaderType × Int × Int) :=
  o.map (fun P => ((P.blocks h).loopType, (P.blocks h).latchNode, (P.blocks h).loopFollow))

/-- Sentinel values for closed evaluations: the largest 32-bit integer for all three. -/
def K0 : Sentinels := ⟨2147483647, 2147483647, 2147483647⟩

/-- The pre-test scenario `A -> B`, `B -> C`, `B -> D`, `C -> B`, `C -> D`: the blocks
`A, B, C, D` are the pointers 10, 11, 12, 13 (DFS-last numbers 0, 1, 2, 3) and the nodes
of the second derived graph the pointers 20, 21. -/
def preTestProc (K : Sentinels) : Function :=
  { blocks := fun p =>
      match p with
      | 10 => mkBB K 0 eBBKind.FALL_NODE [] [11] K.NO_DOM
      | 11 => mkBB K 1 eBBKind.TWO_BRANCH [10, 12] [12, 13] 0
      | 12 => mkBB K 2 eBBKind.TWO_BRANCH [11] [11, 13] 1
      | 13 => mkBB K 3 eBBKind.RETURN_NODE [11, 12] [] 1
      | 20 => mkIntervalNode ⟨[10]⟩
      | 21 => mkIntervalNode ⟨[11, 12, 13]⟩
      | _ => {},
    dfsLast := [10, 11, 12, 13],
    numBBs := 4 }

/-- The derived sequence of the scenarios with the blocks `A, B, C, D`: the intervals
`{A}` and `{B, C, D}` of the CFG, and the interval of the second derived graph. -/
def seqABCD : derSeq := [[⟨[10]⟩, ⟨[11, 12, 13]⟩], [⟨[20, 21]⟩]]

/-- The post-test scenario `A -> B`, `B -> C`, `C -> B`, `C -> D`, with a two-way branch
in `C`. -/
def postTestProc (K : Sentinels) : Function :=
  { blocks := fun p =>
      match p with
      | 10 => mkBB K 0 eBBKind.FALL_NODE [] [11] K.NO_DOM
      | 11 => mkBB K 1 eBBKind.FALL_NODE [10, 12] [12] 0
      | 12 => mkBB K 2 eBBKind.TWO_BRANCH [11] [11, 13] 1
      | 13 => mkBB K 3 eBBKind.RETURN_NODE [12] [] 2
      | 20 => mkIntervalNode ⟨[10]⟩
      | 21 => mkIntervalNode ⟨[11, 12, 13]⟩
      | _ => {},
    dfsLast := [10, 11, 12, 13],
    numBBs := 4 }

/-- The endless scenario `A -> B`, `B -> C`, `C -> B`, without an exit edge. -/
def endlessProc (K : Sentinels) : Function :=
  { blocks := fun p =>
      match p with
      | 10 => mkBB K 0 eBBKind.FALL_NODE [] [11] K.NO_DOM
      | 11 => mkBB K 1 eBBKind.FALL_NODE [10, 12] [12] 0
      | 12 => mkBB K 2 eBBKind.ONE_BRANCH [11] [11] 1
      | 20 => mkIntervalNode ⟨[10]⟩
      | 21 => mkIntervalNode ⟨[11, 12]⟩
      | _ => {},
    dfsLast := [10, 11, 12],
    numBBs := 3 }

/-- The derived sequence of `endlessProc`. -/
def seqABC : derSeq := [[⟨[10]⟩, ⟨[11, 12]⟩], [⟨[20, 21]⟩]]

/-- A loop closed by a loop instruction: `A -> B`, `B -> C`, and `C` a loop-instruction
node whose first out-edge leaves to `D` and whose second goes back to `B`. -/
def loopNodeProc (K : Sentinels) : Function :=
  { blocks := fun p =>
      match p with
      | 10 => mkBB K 0 eBBKind.FALL_NODE [] [11] K.NO_DOM
      | 11 => mkBB K 1 eBBKind.FALL_NODE [10, 12] [12] 0
      | 12 => mkBB K 2 eBBKind.LOOP_NODE [11] [13, 11] 1
      | 13 => mkBB K 3 eBBKind.RETURN_NODE [12] [] 2
      | 20 => mkIntervalNode ⟨[10]⟩
      | 21 => mkIntervalNode ⟨[11, 12, 13]⟩
      | _ => {},
    dfsLast := [10, 11, 12, 13],
    numBBs := 4 }

/-- A while loop: `A -> B`, `B -> C`, `B -> D`, `C -> B`, with a two-way branch in `B` and
a one-way latching node `C`. -/
def whileProc (K : Sentinels) : Function :=
  { blocks := fun p =>
      match p with
      | 10 => mkBB K 0 eBBKind.FALL_NODE [] [11] K.NO_DOM
      | 11 => mkBB K 1 eBBKind.TWO_BRANCH [10, 12] [12, 13] 0
      | 12 => mkBB K 2 eBBKind.ONE_BRANCH [11] [11] 1
      | 13 => mkBB K 3 eBBKind.RETURN_NODE [11] [] 1
      | 20 => mkIntervalNode ⟨[10]⟩
      | 21 => mkIntervalNode ⟨[11, 12, 13]⟩
      | _ => {},
    dfsLast := [10, 11, 12, 13],
    numBBs := 4 }

/-- Two loops with one header: `E -> h`, `h -> L1`, `L1 -> h`, `L1 -> x`, `x -> y`,
`y -> x`, `y -> z`, `z -> h`, `z -> r`. The blocks `E, h, L1, x, y, z, r` are the pointers
10 to 16 (DFS-last numbers 0 to 6); the pointers 20, 21, 22 are the nodes of the second
derived graph and 30, 31 those of the third. -/
def twoLatchProc (K : Sentinels) : Function :=
  { blocks := fun p =>
      match p with
      | 10 => mkBB K 0 eBBKind.FALL_NODE [] [11] K.NO_DOM
      | 11 => mkBB K 1 eBBKind.FALL_NODE [10, 12, 15] [12] 0
      | 12 => mkBB K 2 eBBKind.TWO_BRANCH [11] [11, 13] 1
      | 13 => mkBB K 3 eBBKind.FALL_NODE [12, 14] [14] 2
      | 14 => mkBB K 4 eBBKind.TWO_BRANCH [13] [13, 15] 3
      | 15 => mkBB K 5 eBBKind.TWO_BRANCH [14] [11, 16] 4
      | 16 => mkBB K 6 eBBKind.RETURN_NODE [15] [] 5
      | 20 => mkIntervalNode ⟨[10]⟩
      | 21 => mkIntervalNode ⟨[11, 12]⟩
      | 22 => mkIntervalNode ⟨[13, 14, 15, 16]⟩
      | 30 => mkIntervalNode ⟨[20]⟩
      | 31 => mkIntervalNode ⟨[21, 22]⟩
      | _ => {},
    dfsLast := [10, 11, 12, 13, 14, 15, 16],
    numBBs := 7 }

/-- The derived sequence of `twoLatchProc`: the intervals `{E}`, `{h, L1}`,
`{x, y, z, r}` of the CFG; those of the second derived graph, the second of which is
headed by `h` again; and the interval of the third derived graph. -/
def twoLatchSeq : derSeq :=
  [[⟨[10]⟩, ⟨[11, 12]⟩, ⟨[13, 14, 15, 16]⟩], [⟨[20]⟩, ⟨[21, 22]⟩], [⟨[30, 31]⟩]]

/-- A scenario before the dominator stage: every `immedDom` is `NO_DOM`. -/
def rawOf (K : Sentinels) (P : Function) : Function :=
  { P with blocks := fun p => { P.blocks p with immedDom := K.NO_DOM } }

/-! ## Case statements -/

/-- Sets `caseTail` of the block `b`. -/
def Function.setCaseTail (P : Function) (b : Nat) (t : Int) : Function :=
  P.setBB b { P.blocks b with caseTail := t }

/-- Sets `caseHead` of the block `b`. -/
def Function.setCaseHead (P : Function) (b : Nat) (h : Int) : Function :=
  P.setBB b { P.blocks b with caseHead := h }

/-- Sets `traversed` of the block `b`. -/
def Function.setTraversed (P : Function) (b : Nat) (t : eDFS) : Function :=
  P.setBB b { P.blocks b with traversed := t }

/-- The loop of `successor` (lines 353-356) over the edge indices `is` of `header`. -/
def successorLoop (P : Function) (header : Nat) (s : Int) : List Nat → Option Bool
  | [] => some false
  | i :: is =>
    match P.edgeDfs header i with
    | none => none
    | some d => if d = s then some true else successorLoop P header s is

/-- The function `successor` (lines 346-357). -/
def successor (P : Function) (s h : Int) : Option Bool :=
  match P.dfsLastAt h with
  | none => none
  | some header =>
    successorLoop P header s (List.range (P.blocks header).numOutEdges.toNat)

/-- The function `tagNodesInCase` (lines 360-377) on the procedure and the list `l`; the
fuel bounds the depth of the recursion. -/
def tagNodesInCase (head tail : Int) :
    Nat → Nat → Function × List Int → Option (Function × List Int)
  | 0, _, _ => none
  | fuel + 1, pBB, st =>
    let P1 := st.1.setTraversed pBB eDFS.DFS_CASE
    let current := (P1.blocks pBB).dfsLastNum
    if current ≠ tail ∧ (P1.blocks pBB).nodeType ≠ eBBKind.MULTI_BRANCH ∧
        inList st.2 (P1.blocks pBB).immedDom = true then
      (List.range (P1.blocks pBB).numOutEdges.toNat).foldlM
        (fun (s : Function × List Int) (i : Nat) =>
          match s.1.edge pBB i with
          | none => none
          | some c =>
            if (s.1.blocks c).traversed ≠ eDFS.DFS_CASE then
              tagNodesInCase head tail fuel c s
            else some s)
        (P1.setCaseHead pBB head, insertList st.2 current)
    else some (P1, st.2)

/-- The body of the loop of `structCases` that looks for the exit node (lines 399-405),
on the exit node found so far. -/
def structCasesExit (K : Sentinels) (P : Function) (i : Int) (exitNode : Int) (j : Int) :
    Option Int :=
  match successor P j i with
  | none => none
  | some true => some exitNode
  | some false =>
    match P.dfsLastAt j with
    | none => none
    | some bj =>
      if (P.blocks bj).immedDom = i then
        if exitNode = K.NO_NODE then some j
        else
          match P.dfsLastAt exitNode with
          | none => none
          | some be =>
            if (P.blocks be).numInEdges < (P.blocks bj).numInEdges then some j
            else some exitNode
      else some exitNode

/-- The indices `lo, lo + 1, ...` below `hi`, in ascending order. -/
def indicesFrom (lo hi : Int) : List Int :=
  (List.range (hi - lo).toNat).map (fun t : Nat => lo + (t : Int))

/-- The loop of `structCases` that tags the nodes of the case (lines 412-414), over the
edge indices of the header. -/
def structCasesTag (fuel : Nat) (caseHeader : Nat) (i exitNode : Int)
    (st : Function × List Int) (j : Nat) : Option (Function × List Int) :=
  match st.1.edge caseHeader j with
  | none => none
  | some c => tagNodesInCase i exitNode fuel c st

/-- The body of the loop of `structCases` over the nodes (lines 391-417), on the
procedure, the variable `exitNode` and the list `caseNodes`, both of which live through
the whole loop. -/
def structCasesNode (K : Sentinels) (fuel : Nat) (st : Function × Int × List Int) (i : Int) :
    Option (Function × Int × List Int) :=
  match st.1.dfsLastAt i with
  | none => none
  | some caseHeader =>
    if (st.1.blocks caseHeader).nodeType = eBBKind.MULTI_BRANCH then
      match (indicesFrom (i + 2) st.1.numBBs).foldlM (structCasesExit K st.1 i) st.2.1 with
      | none => none
      | some exitNode =>
        let P1 := st.1.setCaseTail caseHeader exitNode
        let P2 := P1.setCaseHead caseHeader i
        match (List.range (P2.blocks caseHeader).numOutEdges.toNat).foldlM
            (structCasesTag fuel caseHeader i exitNode) (P2, insertList st.2.2 i) with
        | none => none
        | some (P3, caseNodes) =>
          if exitNode ≠ K.NO_NODE then
            match P3.dfsLastAt exitNode with
            | none => none
            | some be => some (P3.setCaseHead be i, exitNode, caseNodes)
          else some (P3, exitNode, caseNodes)
    else some st

/-- The indices `hi - 1, hi - 2, ..., 0`, in descending order. -/
def indicesDown (hi : Int) : List Int :=
  ((List.range hi.toNat).map (fun t : Nat => (t : Int))).reverse

/-- The function `structCases` (lines 380-419). -/
def structCases (K : Sentinels) (fuel : Nat) (P : Function) : Option Function :=
  ((indicesDown P.numBBs).foldlM (structCasesNode K fuel) (P, K.NO_NODE, [])).map
    (fun st => st.1)

/-! ## If statements -/

/-- Sets `ifFollow` of the block `b`. -/
def Function.setIfFollow (P : Function) (b : Nat) (f : Int) : Function :=
  P.setBB b { P.blocks b with ifFollow := f }

/-- The function `flagNodes` (lines 424-434): the procedure after every node of the list
`l` has got the follow `f`; the list is empty afterwards. -/
def flagNodes (P : Function) (l : List Int) (f : Int) : Option Function :=
  l.foldlM (fun (Q : Function) (p : Int) =>
    match Q.dfsLastAt p with
    | none => none
    | some b => some (Q.setIfFollow b f)) P

/-- The body of the loop of `structIfs` over the descendants (lines 464-473), on the
variables `follow` and `followInEdges`; the list `domDesc` is only written. -/
def structIfsDesc (P : Function) (curr : Int) (st : Int × Int) (desc : Int) :
    Option (Int × Int) :=
  match P.dfsLastAt desc with
  | none => none
  | some pbb =>
    if (P.blocks pbb).immedDom = curr then
      if (P.blocks pbb).numInEdges - (P.blocks pbb).numBackEdges ≥ st.2 then
        some (desc, (P.blocks pbb).numInEdges - (P.blocks pbb).numBackEdges)
      else some st
    else some st

/-- The body of the loop of `structIfs` over the nodes (lines 450-487), on the procedure
and the list `unresolved`. -/
def structIfsNode (st : Function × List Int) (curr : Int) : Option (Function × List Int) :=
  match st.1.dfsLastAt curr with
  | none => none
  | some currNode =>
    if (st.1.blocks currNode).flg.INVALID_BB then some st
    else if (st.1.blocks currNode).nodeType = eBBKind.TWO_BRANCH ∧
        st.1.GetLlFlagJX_LOOP (st.1.lastInstr currNode) = false then
      match (indicesFrom (curr + 1) st.1.numBBs).foldlM (structIfsDesc st.1 curr) (0, 0) with
      | none => none
      | some (follow, followInEdges) =>
        if follow ≠ 0 ∧ followInEdges > 1 then
          let P1 := st.1.setIfFollow currNode follow
          if st.2 ≠ [] then
            match flagNodes P1 st.2 follow with
            | none => none
            | some P2 => some (P2, [])
          else some (P1, st.2)
        else some (st.1, insertList st.2 curr)
    else some st

/-- The function `structIfs` (lines 437-490). -/
def structIfs (P : Function) : Option Function :=
  ((indicesDown P.numBBs).foldlM structIfsNode (P, [])).map (fun st => st.1)

/-! ## Compound conditions -/

/-- Reads `Icode.GetIcode(i)->ic.hl.oper.exp`. -/
def Function.condOf (P : Function) (i : Int) : COND_EXPR := (P.Icode i).exp

/-- Writes `Icode.GetIcode(i)->ic.hl.oper.exp`. -/
def Function.setExp (P : Function) (i : Int) (e : COND_EXPR) : Function :=
  { P with Icode := fun j => if j = i then { P.Icode j with exp := e } else P.Icode j }

/-- Writes `b->edges[i].BBptr`; undefined outside the edge vector. -/
def Function.setEdge (P : Function) (b : Nat) (i : Nat) (x : Nat) : Option Function :=
  if i < (P.blocks b).edges.length then
    some (P.setBB b { P.blocks b with edges := (P.blocks b).edges.set i x })
  else none

/-- Sets the in-edge vector of the block `b`. -/
def Function.setInEdges (P : Function) (b : Nat) (l : List Nat) : Function :=
  P.setBB b { P.blocks b with inEdges := l }

/-- Sets `numInEdges` of the block `b`. -/
def Function.setNumInEdges (P : Function) (b : Nat) (n : Int) : Function :=
  P.setBB b { P.blocks b with numInEdges := n }

/-- Sets the bit `INVALID_BB` in `flg` of the block `b`. -/
def Function.setInvalid (P : Function) (b : Nat) : Function :=
  P.setBB b { P.blocks b with flg := { (P.blocks b).flg with INVALID_BB := true } }

/-- Writes `dfsLast[i]`; undefined outside the table. -/
def Function.setDfsLast (P : Function) (i : Int) (b : Nat) : Option Function :=
  if 0 ≤ i ∧ i.toNat < P.dfsLast.length then
    some { P with dfsLast := P.dfsLast.set i.toNat b }
  else none

/-- The loop of lines 537-542 over the first `n` in-edges `l` of `obb`: the first entry
that is `t` becomes `pbb`; reading past the end of the vector is undefined. -/
def replaceInEdge (t pbb : Nat) : List Nat → Nat → Option (List Nat)
  | l, 0 => some l
  | [], _ + 1 => none
  | x :: xs, n + 1 =>
    if x = t then some (pbb :: xs)
    else
      match replaceInEdge t pbb xs n with
      | none => none
      | some r => some (x :: r)

/-- The first entry of `l` that is `t` becomes `pbb`. -/
def replaceFirst (t pbb : Nat) : List Nat → List Nat
  | [] => []
  | x :: xs => if x = t then pbb :: xs else x :: replaceFirst t pbb xs

/-- The statements `iter = std::find(obb->inEdges.begin(), obb->inEdges.end(), t);
assert(iter != obb->inEdges.end()); *iter = pbb;`. -/
def Function.replaceFound (P : Function) (obb t pbb : Nat) : Option Function :=
  if t ∈ (P.blocks obb).inEdges then
    some (P.setInEdges obb (replaceFirst t pbb (P.blocks obb).inEdges))
  else none

/-- The statements `iter = std::find(e->inEdges.begin(), e->inEdges.end(), t);
assert(iter != e->inEdges.end()); e->inEdges.erase(iter); e->numInEdges--;`. -/
def Function.eraseFound (P : Function) (e t : Nat) : Option Function :=
  if t ∈ (P.blocks e).inEdges then
    let P1 := P.setInEdges e ((P.blocks e).inEdges.erase t)
    some (P1.setNumInEdges e ((P1.blocks e).numInEdges - 1))
  else none

/-- The statement `assert(b->inEdges.size() == b->numInEdges)`. -/
def Function.assertInEdges (P : Function) (b : Nat) : Option Function :=
  if (P.blocks b).numInEdges = (P.blocks b).inEdges.length then some P else none

/-- The end of every merge (for the first pattern lines 553-559): the absorbed block `t`
becomes invalid; when `pbb` is a latching node the slot of `t` in the DFS-last table is
given to `pbb`, otherwise the index `i` is decremented. Returns the procedure and the
index. -/
def compoundCondEnd (P : Function) (pbb t : Nat) (i : Int) : Option (Function × Int) :=
  let P1 := P.setInvalid t
  if (P1.blocks pbb).flg.IS_LATCH_NODE then
    match P1.setDfsLast (P1.blocks t).dfsLastNum pbb with
    | none => none
    | some P2 => some (P2, i)
  else some (P1, i - 1)

/-- The merge of the pattern `X || Y` (lines 526-561): `pbb` absorbs its THEN successor
`t`, whose ELSE successor is `e`. -/
def compoundCondOr (P : Function) (pbb t e : Nat) (i : Int) : Option (Function × Int) :=
  match P.edge t THEN with
  | none => none
  | some obb =>
    let exp := COND_EXPR.boolOp (P.condOf (P.lastInstr pbb)) (P.condOf (P.lastInstr t))
      condOp.DBL_OR
    let P1 := P.setExp (P.lastInstr pbb) exp
    match replaceInEdge t pbb (P1.blocks obb).inEdges (P1.blocks obb).numInEdges.toNat with
    | none => none
    | some l =>
      let P2 := P1.setInEdges obb l
      match P2.setEdge pbb THEN obb with
      | none => none
      | some P3 =>
        match P3.eraseFound e t with
        | none => none
        | some P4 =>
          match P4.assertInEdges e with
          | none => none
          | some P5 => compoundCondEnd P5 pbb t i

/-- The merge of the pattern `!X && Y` (lines 566-600): `pbb` absorbs its THEN successor
`t`, whose THEN successor is `e`. -/
def compoundCondNotAnd (P : Function) (pbb t e : Nat) (i : Int) : Option (Function × Int) :=
  match P.edge t ELSE with
  | none => none
  | some obb =>
    let P0 := P.setExp (P.lastInstr pbb) (inverseCondOp (P.condOf (P.lastInstr pbb)))
    let exp := COND_EXPR.boolOp (P0.condOf (P0.lastInstr pbb)) (P0.condOf (P0.lastInstr t))
      condOp.DBL_AND
    let P1 := P0.setExp (P0.lastInstr pbb) exp
    match P1.replaceFound obb t pbb with
    | none => none
    | some P2 =>
      match P2.setEdge pbb THEN e with
      | none => none
      | some P3 =>
        match P3.setEdge pbb ELSE obb with
        | none => none
        | some P4 =>
          match P4.eraseFound e t with
          | none => none
          | some P5 =>
            match P5.assertInEdges t with
            | none => none
            | some P6 => compoundCondEnd P6 pbb t i

/-- The merge of the pattern `X && Y` (lines 605-636): `pbb` absorbs its ELSE successor
`e`, whose THEN successor is `t`. The second operand is read at the last instruction of
`t`, as line 610 has it. -/
def compoundCondAnd (P : Function) (pbb t e : Nat) (i : Int) : Option (Function × Int) :=
  match P.edge e ELSE with
  | none => none
  | some obb =>
    let exp := COND_EXPR.boolOp (P.condOf (P.lastInstr pbb)) (P.condOf (P.lastInstr t))
      condOp.DBL_AND
    let P1 := P.setExp (P.lastInstr pbb) exp
    match P1.replaceFound obb e pbb with
    | none => none
    | some P2 =>
      match P2.setEdge pbb ELSE obb with
      | none => none
      | some P3 =>
        match P3.eraseFound t e with
        | none => none
        | some P4 =>
          match P4.assertInEdges t with
          | none => none
          | some P5 => compoundCondEnd P5 pbb e i

/-- The merge of the pattern `!X || Y` (lines 641-676): `pbb` absorbs its ELSE successor
`e`, whose ELSE successor is `t`. The second operand is read at the last instruction of
`t`, as line 646 has it, and the assertion of line 667 is an assignment to
`t->numInEdges` that fails when the value is 0. -/
def compoundCondNotOr (P : Function) (pbb t e : Nat) (i : Int) : Option (Function × Int) :=
  match P.edge e THEN with
  | none => none
  | some obb =>
    let P0 := P.setExp (P.lastInstr pbb) (inverseCondOp (P.condOf (P.lastInstr pbb)))
    let exp := COND_EXPR.boolOp (P0.condOf (P0.lastInstr pbb)) (P0.condOf (P0.lastInstr t))
      condOp.DBL_OR
    let P1 := P0.setExp (P0.lastInstr pbb) exp
    match P1.assertInEdges obb with
    | none => none
    | some P2 =>
      match P2.replaceFound obb e pbb with
      | none => none
      | some P3 =>
        match P3.setEdge pbb THEN obb with
        | none => none
        | some P4 =>
          match P4.setEdge pbb ELSE t with
          | none => none
          | some P5 =>
            match P5.eraseFound t e with
            | none => none
            | some P6 =>
              let P7 := P6.setNumInEdges t (P6.blocks t).inEdges.length
              if (P7.blocks t).numInEdges = 0 then none
              else compoundCondEnd P7 pbb e i

/-- The test of a pattern (for the first one lines 524-525): the neighbour `n` is a
two-way block with one high-level instruction and one in-edge whose edge `k` leads to
`x`. -/
def compoundCondTest (P : Function) (n : Nat) (k : Nat) (x : Nat) : Option Bool :=
  if (P.blocks n).nodeType = eBBKind.TWO_BRANCH ∧ (P.blocks n).numHlIcodes = 1 ∧
      (P.blocks n).numInEdges = 1 then
    match P.edge n k with
    | none => none
    | some y => some (decide (y = x))
  else some false

/-- The body of the loop of `compoundCond` over the nodes (lines 512-677) at the index
`i`: the procedure, the index after the body and whether a merge happened. -/
def compoundCondNode (P : Function) (i : Int) : Option (Function × Int × Bool) :=
  match P.dfsLastAt i with
  | none => none
  | some pbb =>
    if (P.blocks pbb).flg.INVALID_BB then some (P, i, false)
    else if (P.blocks pbb).nodeType = eBBKind.TWO_BRANCH then
      match P.edge pbb THEN, P.edge pbb ELSE with
      | some t, some e =>
        match compoundCondTest P t ELSE e with
        | none => none
        | some true => (compoundCondOr P pbb t e i).map (fun r => (r.1, r.2, true))
        | some false =>
          match compoundCondTest P t THEN e with
          | none => none
          | some true => (compoundCondNotAnd P pbb t e i).map (fun r => (r.1, r.2, true))
          | some false =>
            match compoundCondTest P e THEN t with
            | none => none
            | some true => (compoundCondAnd P pbb t e i).map (fun r => (r.1, r.2, true))
            | some false =>
              match compoundCondTest P e ELSE t with
              | none => none
              | some true => (compoundCondNotOr P pbb t e i).map (fun r => (r.1, r.2, true))
              | some false => some (P, i, false)
      | _, _ => none
    else some (P, i, false)

/-- The loop of `compoundCond` over the nodes (lines 510-678), from the index `i` on. -/
def compoundCondScan : Nat → Function → Int → Bool → Option (Function × Bool)
  | 0, _, _, _ => none
  | fuel + 1, P, i, change =>
    if i < P.numBBs then
      match compoundCondNode P i with
      | none => none
      | some (P1, i1, c) => compoundCondScan fuel P1 (i1 + 1) (change || c)
    else some (P, change)

/-- The `while (change)` loop of `compoundCond` (lines 505-679). -/
def compoundCondLoop (fuel : Nat) : Nat → Function → Option Function
  | 0, _ => none
  | n + 1, P =>
    match compoundCondScan fuel P 0 false with
    | none => none
    | some (P1, change) => if change then compoundCondLoop fuel n P1 else some P1

/-- The function `Function::compoundCond` (lines 496-680). -/
def compoundCond (fuel : Nat) (P : Function) : Option Function :=
  compoundCondLoop fuel fuel P

/-! ## Scenarios for the case and the if structurer -/

/-- Two case statements, the second one a case target of the first: the header `H1`
(pointer and DFS-last number 0) branches to `a`, `b` (1, 2), which return, and to the
header `H2` (3), which branches to `p`, `q`, `r` (4, 5, 6), all of which go on to
`X2` (7). -/
def twoCaseProc (K : Sentinels) : Function :=
  { blocks := fun p =>
      match p with
      | 0 => mkBB K 0 eBBKind.MULTI_BRANCH [] [1, 2, 3] K.NO_DOM
      | 1 => mkBB K 1 eBBKind.RETURN_NODE [0] [] 0
      | 2 => mkBB K 2 eBBKind.RETURN_NODE [0] [] 0
      | 3 => mkBB K 3 eBBKind.MULTI_BRANCH [0] [4, 5, 6] 0
      | 4 => mkBB K 4 eBBKind.ONE_BRANCH [3] [7] 3
      | 5 => mkBB K 5 eBBKind.ONE_BRANCH [3] [7] 3
      | 6 => mkBB K 6 eBBKind.ONE_BRANCH [3] [7] 3
      | 7 => mkBB K 7 eBBKind.RETURN_NODE [4, 5, 6] [] 3
      | _ => {},
    dfsLast := [0, 1, 2, 3, 4, 5, 6, 7],
    numBBs := 8,
    hasCase := true }

/-- A case statement followed by nested conditionals: the header `H` (0) branches to `a`,
`b`, `g` (1, 2, 3), which all go on to `c` (4); `c` branches to `d` (5) and `e` (7),
`d` to `f` (9) and `x` (6), `e` to `f` and `y` (8), and `x`, `y` go on to `f`. -/
def deepJoinProc (K : Sentinels) : Function :=
  { blocks := fun p =>
      match p with
      | 0 => mkBB K 0 eBBKind.MULTI_BRANCH [] [1, 2, 3] K.NO_DOM
      | 1 => mkBB K 1 eBBKind.ONE_BRANCH [0] [4] 0
      | 2 => mkBB K 2 eBBKind.ONE_BRANCH [0] [4] 0
      | 3 => mkBB K 3 eBBKind.ONE_BRANCH [0] [4] 0
      | 4 => mkBB K 4 eBBKind.TWO_BRANCH [1, 2, 3] [5, 7] 0
      | 5 => mkBB K 5 eBBKind.TWO_BRANCH [4] [9, 6] 4
      | 6 => mkBB K 6 eBBKind.ONE_BRANCH [5] [9] 5
      | 7 => mkBB K 7 eBBKind.TWO_BRANCH [4] [9, 8] 4
      | 8 => mkBB K 8 eBBKind.ONE_BRANCH [7] [9] 7
      | 9 => mkBB K 9 eBBKind.RETURN_NODE [5, 6, 7, 8] [] 4
      | _ => {},
    dfsLast := [0, 1, 2, 3, 4, 5, 6, 7, 8, 9],
    numBBs := 10,
    hasCase := true }

/-- The multi-way scenario with `n` case targets: the header `H` (pointer and DFS-last
number 0) branches to `C1`, ..., `Cn` (1 to `n`), each of which has the single out-edge
to `X` (`n + 1`). Every `immedDom` is `NO_DOM`, as before the dominator stage. -/
def caseProc (K : Sentinels) (n : Nat) : Function :=
  { blocks := fun p =>
      if p = 0 then mkBB K 0 eBBKind.MULTI_BRANCH [] (List.range' 1 n) K.NO_DOM
      else if p ≤ n then mkBB K p eBBKind.ONE_BRANCH [0] [n + 1] K.NO_DOM
      else if p = n + 1 then mkBB K p eBBKind.RETURN_NODE (List.range' 1 n) [] K.NO_DOM
      else { immedDom := K.NO_DOM },
    dfsLast := List.range (n + 2),
    numBBs := n + 2,
    hasCase := true }

/-- A conditional followed by a conditional whose arms return: `c` (0) branches to `a`
(1) and `b` (2), which go on to `f` (3); `f` goes on to `u` (4), which branches to the
returning blocks `x` (5) and `y` (6). -/
def ifThenReturnProc (K : Sentinels) : Function :=
  { blocks := fun p =>
      match p with
      | 0 => mkBB K 0 eBBKind.TWO_BRANCH [] [1, 2] K.NO_DOM
      | 1 => mkBB K 1 eBBKind.ONE_BRANCH [0] [3] 0
      | 2 => mkBB K 2 eBBKind.ONE_BRANCH [0] [3] 0
      | 3 => mkBB K 3 eBBKind.ONE_BRANCH [1, 2] [4] 0
      | 4 => mkBB K 4 eBBKind.TWO_BRANCH [3] [5, 6] 3
      | 5 => mkBB K 5 eBBKind.RETURN_NODE [4] [] 4
      | 6 => mkBB K 6 eBBKind.RETURN_NODE [4] [] 4
      | _ => {},
    dfsLast := [0, 1, 2, 3, 4, 5, 6],
    numBBs := 7 }

/-- Nested conditionals that share a follow: `H` (0) branches to `I1` (1) and `I2` (4);
`I1` branches to `p` (2) and `q` (3); `p`, `q` and `I2` go on to `F` (5), which
returns. -/
def nestedIfProc (K : Sentinels) : Function :=
  { blocks := fun p =>
      match p with
      | 0 => mkBB K 0 eBBKind.TWO_BRANCH [] [1, 4] K.NO_DOM
      | 1 => mkBB K 1 eBBKind.TWO_BRANCH [0] [2, 3] 0
      | 2 => mkBB K 2 eBBKind.ONE_BRANCH [1] [5] 1
      | 3 => mkBB K 3 eBBKind.ONE_BRANCH [1] [5] 1
      | 4 => mkBB K 4 eBBKind.ONE_BRANCH [0] [5] 0
      | 5 => mkBB K 5 eBBKind.RETURN_NODE [2, 3, 4] [] 0
      | _ => {},
    dfsLast := [0, 1, 2, 3, 4, 5],
    numBBs := 6 }

/-- The annotations of the block `b` that the case structurer leaves: `caseHead` and
`caseTail`. -/
def caseOf (o : Option Function) (b : Nat) : Option (Int × Int) :=
  o.map (fun P => ((P.blocks b).caseHead, (P.blocks b).caseTail))

/-- The follow of the block `b` that the if structurer leaves. -/
def ifFollowOf (o : Option Function) (b : Nat) : Option Int :=
  o.map (fun P => (P.blocks b).ifFollow)

/-- A pre-test loop whose exit is the header of another loop: `A -> H`, `H -> X`,
`H -> D`, `X -> Y`, `Y -> X`, `Y -> L`, `L -> H`, `D -> D`, `D -> E`. The blocks
`A, H, X, Y, L, D, E` are the pointers 10 to 16 (DFS-last numbers 0 to 6); the pointers
20 to 23 are the nodes of the second derived graph and 30, 31 those of the third. -/
def exitLoopProc (K : Sentinels) : Function :=
  { blocks := fun p =>
      match p with
      | 10 => mkBB K 0 eBBKind.FALL_NODE [] [11] K.NO_DOM
      | 11 => mkBB K 1 eBBKind.TWO_BRANCH [10, 14] [12, 15] 0
      | 12 => mkBB K 2 eBBKind.FALL_NODE [11, 13] [13] 1
      | 13 => mkBB K 3 eBBKind.TWO_BRANCH [12] [12, 14] 2
      | 14 => mkBB K 4 eBBKind.ONE_BRANCH [13] [11] 3
      | 15 => mkBB K 5 eBBKind.TWO_BRANCH [11, 15] [15, 16] 1
      | 16 => mkBB K 6 eBBKind.RETURN_NODE [15] [] 5
      | 20 => mkIntervalNode ⟨[10]⟩
      | 21 => mkIntervalNode ⟨[11]⟩
      | 22 => mkIntervalNode ⟨[12, 13, 14]⟩
      | 23 => mkIntervalNode ⟨[15, 16]⟩
      | 30 => mkIntervalNode ⟨[20]⟩
      | 31 => mkIntervalNode ⟨[21, 22, 23]⟩
      | _ => {},
    dfsLast := [10, 11, 12, 13, 14, 15, 16],
    numBBs := 7 }

/-- The derived sequence of `exitLoopProc`: the intervals `{A}`, `{H}`, `{X, Y, L}`,
`{D, E}` of the CFG; those of the second derived graph, the second of which is headed by
`H` again; and the interval of the third derived graph. -/
def exitLoopSeq : derSeq :=
  [[⟨[10]⟩, ⟨[11]⟩, ⟨[12, 13, 14]⟩, ⟨[15, 16]⟩], [⟨[20]⟩, ⟨[21, 22, 23]⟩], [⟨[30, 31]⟩]]

/-! ## Scenarios for the compound conditions -/

/-- The pattern `X || Y`: `P` (pointer and DFS-last number 0) branches to `T` (1, THEN)
and `E` (3, ELSE); `T` branches to `O` (2, THEN) and `E` (ELSE); `O` and `E` return. The
last instruction of the block `n` is the instruction `n`, with the condition `leaf n`. -/
def orProc (K : Sentinels) : Function :=
  { blocks := fun p =>
      match p with
      | 0 => mkBB K 0 eBBKind.TWO_BRANCH [] [1, 3] K.NO_DOM
      | 1 => mkBB K 1 eBBKind.TWO_BRANCH [0] [2, 3] 0
      | 2 => mkBB K 2 eBBKind.RETURN_NODE [1] [] 1
      | 3 => mkBB K 3 eBBKind.RETURN_NODE [0, 1] [] 0
      | _ => {},
    dfsLast := [0, 1, 2, 3],
    numBBs := 4,
    Icode := fun i => { exp := COND_EXPR.leaf i.toNat } }

/-- The pattern `!X && Y`: as `orProc`, but the THEN edge of `T` leads to `E` and its
ELSE edge to `O`. -/
def notAndProc (K : Sentinels) : Function :=
  { blocks := fun p =>
      match p with
      | 0 => mkBB K 0 eBBKind.TWO_BRANCH [] [1, 3] K.NO_DOM
      | 1 => mkBB K 1 eBBKind.TWO_BRANCH [0] [3, 2] 0
      | 2 => mkBB K 2 eBBKind.RETURN_NODE [1] [] 1
      | 3 => mkBB K 3 eBBKind.RETURN_NODE [0, 1] [] 0
      | _ => {},
    dfsLast := [0, 1, 2, 3],
    numBBs := 4,
    Icode := fun i => { exp := COND_EXPR.leaf i.toNat } }

/-- The pattern `X && Y`: `P` (0) branches to `t` (2, THEN) and to the two-way block `T`
(1, ELSE); `T` branches to `t` (THEN) and `O` (3, ELSE); `t` and `O` return. The last
instruction of the block `n` is the instruction `n`, with the condition `leaf n`. -/
def andProc (K : Sentinels) : Function :=
  { blocks := fun p =>
      match p with
      | 0 => mkBB K 0 eBBKind.TWO_BRANCH [] [2, 1] K.NO_DOM
      | 1 => mkBB K 1 eBBKind.TWO_BRANCH [0] [2, 3] 0
      | 2 => mkBB K 2 eBBKind.RETURN_NODE [0, 1] [] 0
      | 3 => mkBB K 3 eBBKind.RETURN_NODE [1] [] 1
      | _ => {},
    dfsLast := [0, 1, 2, 3],
    numBBs := 4,
    Icode := fun i => { exp := COND_EXPR.leaf i.toNat } }

/-! ## Specification vocabulary for the members of a loop -/

/-- The index `i` meets the test of the tagging loop of `findNodesInLoop` with respect to
the node list `M`: its block is valid and in `intNodes`, and its immediate dominator is
an entry of `M` below `i`. -/
def Function.LoopMember (P : Function) (intNodes : List Nat) (M : List Int) (i : Int) : Prop :=
  ∃ b, P.dfsLastAt i = some b ∧ (P.blocks b).flg.INVALID_BB = false ∧ b ∈ intNodes ∧
    (P.blocks b).immedDom ∈ M ∧ (P.blocks b).immedDom < i

/-- The call of `findNodesInLoop` takes the pre-test branch with the dominator walk: the
header is two-way and the latching node neither two-way nor a loop-instruction node. -/
def Function.WalkCase (P : Function) (H L : Nat) : Prop :=
  (P.blocks H).nodeType = eBBKind.TWO_BRANCH ∧ (P.blocks L).nodeType ≠ eBBKind.TWO_BRANCH ∧
    (P.blocks L).nodeType ≠ eBBKind.LOOP_NODE

/-! ## Specification vocabulary for the case structurer -/

/-- Blanks the fields that `structCases` writes: `caseHead`, `caseTail` and
`traversed`. -/
def BB.eraseCases (b : BB) : BB :=
  { b with caseHead := 0, caseTail := 0, traversed := eDFS.DFS_NONE }

/-- The index `j` qualifies as the exit of the case headed by the index `i`: its block is
not a successor of the header and has the header as immediate dominator. -/
def Function.CaseExit (P : Function) (i j : Int) : Prop :=
  successor P j i = some false ∧ ∃ b, P.dfsLastAt j = some b ∧ (P.blocks b).immedDom = i

/-- The number of in-edges of the block at the index `j` of the DFS-last table. -/
def Function.numInAt (P : Function) (j : Int) : Int :=
  match P.dfsLastAt j with
  | none => 0
  | some b => (P.blocks b).numInEdges

/-- The number of entries of the DFS-last table whose block the case traversal has not
marked yet. -/
def Function.untraversed (P : Function) : Nat :=
  P.dfsLast.countP (fun b => decide ((P.blocks b).traversed ≠ eDFS.DFS_CASE))

/-- Every block of the DFS-last table has as many out-edges as its counter says, and they
lead to blocks of the table. -/
def Function.EdgesClosed (P : Function) : Prop :=
  ∀ b ∈ P.dfsLast, (P.blocks b).numOutEdges = (P.blocks b).edges.length ∧
    ∀ c ∈ (P.blocks b).edges, c ∈ P.dfsLast

/-- What a step of the case structurer may do to the procedure: it writes `caseHead`,
`caseTail` and `traversed` only, and no block loses the mark `DFS_CASE`. -/
def Function.CaseStep (P Q : Function) : Prop :=
  P.SameUpTo BB.eraseCases Q ∧ Q.Icode = P.Icode ∧
    ∀ b, (P.blocks b).traversed = eDFS.DFS_CASE → (Q.blocks b).traversed = eDFS.DFS_CASE

/-- What tagging the nodes of the case headed by `head` may do to the procedure and to the
list of case nodes: it is a step of the case structurer that writes no other `caseHead`
than `head`, and it only adds to the list. -/
def TagStep (head : Int) (s s' : Function × List Int) : Prop :=
  s.1.CaseStep s'.1 ∧
    (∀ b, (s'.1.blocks b).caseHead = (s.1.blocks b).caseHead ∨
      (s'.1.blocks b).caseHead = head) ∧
    ∀ x, x ∈ s.2 → x ∈ s'.2

/-! ## Specification vocabulary for the if structurer -/

/-- Blanks `ifFollow`. -/
def BB.eraseIfFollow (b : BB) : BB := { b with ifFollow := 0 }

/-- What the if structurer may do to the procedure: it writes `ifFollow` only. -/
def Function.IfStep (P Q : Function) : Prop :=
  P.SameUpTo BB.eraseIfFollow Q ∧ Q.Icode = P.Icode

/-- The index `k` holds a block that the if structurer handles: valid, two-way, and its
last instruction does not carry `JX_LOOP`. -/
def Function.IfHeader (P : Function) (k : Int) : Prop :=
  ∃ b, P.dfsLastAt k = some b ∧ (P.blocks b).flg.INVALID_BB = false ∧
    (P.blocks b).nodeType = eBBKind.TWO_BRANCH ∧
    P.GetLlFlagJX_LOOP (P.lastInstr b) = false

/-- The effective in-degree `numInEdges - numBackEdges` of the block at the index `d`. -/
def Function.effInAt (P : Function) (d : Int) : Int :=
  match P.dfsLastAt d with
  | none => 0
  | some b => (P.blocks b).numInEdges - (P.blocks b).numBackEdges

/-- The block at the index `d` is considered for the follow of the block at the index
`c`: `d` comes after `c` in the table and its `immedDom` is `c`. -/
def Function.IfDominee (P : Function) (c d : Int) : Prop :=
  c < d ∧ d < P.numBBs ∧ ∃ b, P.dfsLastAt d = some b ∧ (P.blocks b).immedDom = c

/-- The index `f` is the candidate follow of the index `c`: among the blocks considered
it has the maximum effective in-degree, and the highest index among those that have
it. -/
def Function.IfCandidate (P : Function) (c f : Int) : Prop :=
  P.IfDominee c f ∧ ∀ d, P.IfDominee c d →
    P.effInAt d ≤ P.effInAt f ∧ (P.effInAt d = P.effInAt f → d ≤ f)

/-- The block at the index `c` acquires the follow `f` of its own: the if structurer
handles it, and its candidate `f` has an effective in-degree greater than 1. -/
def Function.Acquires (P : Function) (c f : Int) : Prop :=
  P.IfHeader c ∧ P.IfCandidate c f ∧ 1 < P.effInAt f

/-- The block at the index `c` has no follow of its own: the if structurer handles it,
and no block considered has an effective in-degree greater than 1. -/
def Function.Unresolved (P : Function) (c : Int) : Prop :=
  P.IfHeader c ∧ ∀ d, P.IfDominee c d → P.effInAt d ≤ 1

/-- The state `st` of the loop of `structIfs` on the procedure `P` after the indices from
`m` on have been handled. The procedure differs from `P` in `ifFollow` only. The list
`unresolved` holds the indices from `m` on with no follow of their own below which, down
to `m`, no block has acquired one. A block that acquires a follow of its own carries it;
a block with no follow of its own carries the follow of the first block below it, down to
`m`, that acquires one; a block whose `ifFollow` has changed carries the follow that a
block between `m` and itself has acquired; and the blocks not among the indices from `m`
on are as in `P`. -/
def Function.IfsInv (P : Function) (m : Int) (st : Function × List Int) : Prop :=
  P.IfStep st.1 ∧
  (∀ k, k ∈ st.2 ↔ (m ≤ k ∧ k < P.numBBs ∧ P.Unresolved k ∧
    ∀ q f, m ≤ q → q < k → ¬ P.Acquires q f)) ∧
  (∀ k b, m ≤ k → k < P.numBBs → P.dfsLastAt k = some b →
    (∀ f, P.Acquires k f → (st.1.blocks b).ifFollow = f) ∧
    (P.Unresolved k → ∀ q f, m ≤ q → q < k → P.Acquires q f →
      (∀ q' f', q < q' → q' < k → ¬ P.Acquires q' f') → (st.1.blocks b).ifFollow = f) ∧
    ((st.1.blocks b).ifFollow ≠ (P.blocks b).ifFollow →
      ∃ q f, m ≤ q ∧ q ≤ k ∧ P.Acquires q f ∧ (st.1.blocks b).ifFollow = f ∧
        (q = k ∨ P.Unresolved k))) ∧
  (∀ b, (∀ k, m ≤ k → k < P.numBBs → P.dfsLastAt k ≠ some b) →
    (st.1.blocks b).ifFollow = (P.blocks b).ifFollow)

/-! ## The structuring pass -/

/-- The function `Function::structure` (lines 683-692). -/
def structurePass (K : Sentinels) (fuel : Nat) (P : Function) (derivedG : derSeq) :
    Option Function :=
  match findImmedDom K fuel P with
  | none => none
  | some P1 =>
    match (if P1.hasCase then structCases K fuel P1 else some P1) with
    | none => none
    | some P2 =>
      match structLoops K fuel P2 derivedG with
      | none => none
      | some P3 => structIfs P3

/-- The case structurer as a stage of the pipeline: it runs only when the flag `hasCase`
of the procedure is set. -/
def caseStage (K : Sentinels) (fuel : Nat) (P : Function) : Option Function :=
  if P.hasCase then structCases K fuel P else some P

/-- The pipeline in the words of the specification: the composition of the five stages
`findImmedDom`, `structCases` if `hasCase`, `structLoops`, `structIfs` and
`compoundCond`. -/
def fiveStages (K : Sentinels) (fuel : Nat) (P : Function) (derivedG : derSeq) :
    Option Function :=
  ((((findImmedDom K fuel P).bind (caseStage K fuel)).bind
    (fun Q => structLoops K fuel Q derivedG)).bind structIfs).bind (compoundCond fuel)

/-- The composition of the four stages `findImmedDom`, `structCases` if `hasCase`,
`structLoops` and `structIfs`. -/
def fourStages (K : Sentinels) (fuel : Nat) (P : Function) (derivedG : derSeq) :
    Option Function :=
  (((findImmedDom K fuel P).bind (caseStage K fuel)).bind
    (fun Q => structLoops K fuel Q derivedG)).bind structIfs

/-- The derived sequence of the scenarios of the compound conditions: one interval with
all the blocks. -/
def orSeq : derSeq := [[⟨[0, 1, 2, 3]⟩]]

/-- The in-edges of the block `b` that are back edges: those from a block whose
`dfsFirstNum` is not below that of `b`, the test of `isBackEdge`. -/
def Function.backInEdges (P : Function) (b : Nat) : List Nat :=
  (P.blocks b).inEdges.filter
    (fun p => decide ((P.blocks p).dfsFirstNum ≥ (P.blocks b).dfsFirstNum))

/-! ## Specification vocabulary for the dominator table -/

/-- `P.DomChain K a x`: following `immedDom` links in the DFS-last table from the index
`a` leads to the index `x`, which is an ancestor of `a` or `a` itself. -/
inductive Function.DomChain (K : Sentinels) (P : Function) : Int → Int → Prop where
  | self (a : Int) : Function.DomChain K P a a
  | link {a x : Int} {b : Nat} : P.dfsLastAt a = some b →
      (P.blocks b).immedDom ≠ K.NO_DOM → Function.DomChain K P (P.blocks b).immedDom x →
      Function.DomChain K P a x

/-- `P.WalkSafe K hd tD eD n b w`: the dominator walk of `findNodesInLoop` started at the
block `b` stops at the block `w` after `n` steps, and each step reads the DFS-last table
at an `immedDom` that is not `NO_DOM` and lies inside the table. -/
inductive Function.WalkSafe (K : Sentinels) (P : Function) (hd tD eD : Int) :
    Nat → Nat → Nat → Prop where
  | stop {w : Nat} :
      ((P.blocks w).dfsLastNum = tD ∨ (P.blocks w).dfsLastNum = eD ∨
        (P.blocks w).dfsLastNum ≤ hd) → Function.WalkSafe K P hd tD eD 0 w w
  | next {n b c w : Nat} :
      ¬ ((P.blocks b).dfsLastNum = tD ∨ (P.blocks b).dfsLastNum = eD ∨
        (P.blocks b).dfsLastNum ≤ hd) →
      (P.blocks b).immedDom ≠ K.NO_DOM → 0 ≤ (P.blocks b).immedDom →
      (P.blocks b).immedDom < P.numBBs →
      P.dfsLastAt (P.blocks b).immedDom = some c →
      Function.WalkSafe K P hd tD eD n c w → Function.WalkSafe K P hd tD eD (n + 1) b w

/-! ## Specification vocabulary for the merges of the compound conditions -/

/-- The block with the fields blanked that a merge of `compoundCond` may write: the
out-edges, the in-edges, `numInEdges` and the bit `INVALID_BB`. -/
def BB.eraseCond (b : BB) : BB :=
  { b with edges := [], inEdges := [], numInEdges := 0,
           flg := { b.flg with INVALID_BB := false } }

/-- `P.CondView Q E I N`: the procedure `Q` is `P` with the out-edges `E c`, the in-edges
`I c` and the in-edge counter `N c` at every block `c`, and with the instructions
possibly rewritten. -/
def Function.CondView (P Q : Function) (E I : Nat → List Nat) (N : Nat → Int) : Prop :=
  Q.numBBs = P.numBBs ∧ Q.dfsLast = P.dfsLast ∧
  ∀ c, (Q.blocks c).edges = E c ∧ (Q.blocks c).inEdges = I c ∧
    (Q.blocks c).numInEdges = N c ∧ (Q.blocks c).flg = (P.blocks c).flg ∧
    (Q.blocks c).eraseCond = (P.blocks c).eraseCond

/-- `P.MergeView P1 i i1 pbb a x obb`: one merge of `compoundCond` at the index `i` took
`P` to `P1` and `i` to `i1`. The valid two-way block `pbb` at the index `i` absorbed its
successor `a`, a two-way block of one instruction and one in-edge; `x` is the successor
that `pbb` and `a` share and `obb` the other successor of `a`. Afterwards `pbb` leads to
`obb` and `x`, the in-edge of `obb` from `a` is one from `pbb`, the in-edge of `x` from
`a` is erased, `a` is invalid, and the slot of `a` in the DFS-last table holds `pbb` when
`pbb` is a latching node. -/
structure Function.MergeView (P P1 : Function) (i i1 : Int) (pbb a x obb : Nat) : Prop where
  hpbb : P.dfsLastAt i = some pbb
  hvalid : (P.blocks pbb).flg.INVALID_BB = false
  htwo : (P.blocks pbb).nodeType = eBBKind.TWO_BRANCH
  ha : (P.blocks a).nodeType = eBBKind.TWO_BRANCH ∧ (P.blocks a).numHlIcodes = 1 ∧
    (P.blocks a).numInEdges = 1
  hedges : (P.edge pbb THEN = some a ∧ P.edge pbb ELSE = some x) ∨
    (P.edge pbb THEN = some x ∧ P.edge pbb ELSE = some a)
  haedges : (P.edge a THEN = some obb ∧ P.edge a ELSE = some x) ∨
    (P.edge a THEN = some x ∧ P.edge a ELSE = some obb)
  hedges1 : (P1.edge pbb THEN = some obb ∧ P1.edge pbb ELSE = some x) ∨
    (P1.edge pbb THEN = some x ∧ P1.edge pbb ELSE = some obb)
  hlen : (P1.blocks pbb).edges.length = (P.blocks pbb).edges.length
  hrest : ∀ k, 2 ≤ k → (P1.blocks pbb).edges.get? k = (P.blocks pbb).edges.get? k
  hother : ∀ c, c ≠ pbb → (P1.blocks c).edges = (P.blocks c).edges
  hin : ∃ R : List Nat, R.length = (P.blocks obb).inEdges.length ∧
    ((P.blocks obb).numInEdges = (P.blocks obb).inEdges.length →
      R = replaceFirst a pbb (P.blocks obb).inEdges) ∧
    a ∈ (if x = obb then R else (P.blocks x).inEdges) ∧
    ∀ c, (P1.blocks c).inEdges =
      if c = x then (if x = obb then R else (P.blocks x).inEdges).erase a
      else if c = obb then R else (P.blocks c).inEdges
  hnum : ∀ c, c ≠ x → (P1.blocks c).numInEdges = (P.blocks c).numInEdges
  hnumx : (P1.blocks x).numInEdges = (P.blocks x).numInEdges - 1 ∨
    (P1.blocks x).numInEdges = (P1.blocks x).inEdges.length
  hflg : ∀ c, (P1.blocks c).flg =
    if c = a then { (P.blocks c).flg with INVALID_BB := true } else (P.blocks c).flg
  hframe : ∀ c, (P1.blocks c).eraseCond = (P.blocks c).eraseCond
  hnumBBs : P1.numBBs = P.numBBs
  htable : ((P.blocks pbb).flg.IS_LATCH_NODE = false ∧ P1.dfsLast = P.dfsLast ∧ i1 = i - 1) ∨
    ((P.blocks pbb).flg.IS_LATCH_NODE = true ∧ i1 = i ∧ 0 ≤ (P.blocks a).dfsLastNum ∧
      (P.blocks a).dfsLastNum.toNat < P.dfsLast.length ∧
      P1.dfsLast = P.dfsLast.set (P.blocks a).dfsLastNum.toNat pbb)

/-- `CondRun P0 P i c m`: a run of `compoundCond` started on `P0` passes through the state
with the procedure `P`, the index `i` of the scan and the flag `change` equal to `c`,
after `m` merges. -/
inductive CondRun (P0 : Function) : Function → Int → Bool → Nat → Prop where
  | start : CondRun P0 P0 0 false 0
  | node {P P1 : Function} {i i1 : Int} {c c1 : Bool} {m : Nat} :
      CondRun P0 P i c m → i < P.numBBs → compoundCondNode P i = some (P1, i1, c1) →
      CondRun P0 P1 (i1 + 1) (c || c1) (m + (if c1 then 1 else 0))
  | again {P : Function} {i : Int} {m : Nat} :
      CondRun P0 P i true m → ¬ i < P.numBBs → CondRun P0 P 0 false m

/-- The counter `numInEdges` of every block is the size of its in-edge vector. -/
def Function.NumInOK (P : Function) : Prop :=
  ∀ b, (P.blocks b).numInEdges = (P.blocks b).inEdges.length

/-- Every slot of the DFS-last table holds a block whose `dfsLastNum` is the index of the
slot. -/
def Function.SlotsOK (P : Function) : Prop :=
  ∀ k b, P.dfsLastAt k = some b → (P.blocks b).dfsLastNum = k

/-- A loop whose latching node `P` (pointer 1, two instructions) can absorb the header
`H` (pointer 0): `H` leads to `P` and to the exit `E` (pointer 2), `P` leads back to `H`
and to `E`. -/
def latchCondProc (K : Sentinels) : Function :=
  { blocks := fun p =>
      match p with
      | 0 => mkBB K 0 eBBKind.TWO_BRANCH [1] [1, 2] K.NO_DOM
      | 1 => { mkBB K 1 eBBKind.TWO_BRANCH [0] [0, 2] 0 with
                 numHlIcodes := 2, length := 2, flg := { IS_LATCH_NODE := true } }
      | 2 => mkBB K 2 eBBKind.RETURN_NODE [0, 1] [] 0
      | _ => {},
    dfsLast := [0, 1, 2],
    numBBs := 3,
    Icode := fun i => { exp := COND_EXPR.leaf i.toNat } }

/-- Edge consistency among the valid blocks: for every block `s` that is not
`INVALID_BB`, the in-edge vector of `s` holds a block `p` as often as `p` has an out-edge
to `s` when `p` is not `INVALID_BB`, and not at all when `p` is `INVALID_BB`. -/
def Function.EdgesAgree (P : Function) : Prop :=
  ∀ s, (P.blocks s).flg.INVALID_BB = false → ∀ p,
    (P.blocks s).inEdges.count p =
      if (P.blocks p).flg.INVALID_BB = false then (P.blocks p).edges.count s else 0

/-- The out-edges of the blocks that are not `INVALID_BB` lead to blocks that are not
`INVALID_BB`. -/
def Function.ValidSuccs (P : Function) : Prop :=
  ∀ u, (P.blocks u).flg.INVALID_BB = false → ∀ v ∈ (P.blocks u).edges,
    (P.blocks v).flg.INVALID_BB = false

/-- Every two-way block that is not `INVALID_BB` has exactly two out-edges. -/
def Function.TwoWayOK (P : Function) : Prop :=
  ∀ b, (P.blocks b).flg.INVALID_BB = false → (P.blocks b).nodeType = eBBKind.TWO_BRANCH →
    (P.blocks b).edges.length = 2

/-- A valid two-way block `P` (pointer 0) whose successors `T` (pointer 1) and `E`
(pointer 2) are `INVALID_BB`; `T` is a two-way block that leads to the valid block 3 and
to `E`. -/
def staleCondProc (K : Sentinels) : Function :=
  { blocks := fun p =>
      match p with
      | 0 => mkBB K 0 eBBKind.TWO_BRANCH [] [1, 2] K.NO_DOM
      | 1 => { mkBB K 1 eBBKind.TWO_BRANCH [0] [3, 2] 0 with flg := { INVALID_BB := true } }
      | 2 => { mkBB K 2 eBBKind.RETURN_NODE [1] [] 0 with flg := { INVALID_BB := true } }
      | 3 => mkBB K 3 eBBKind.RETURN_NODE [] [] 0
      | _ => {},
    dfsLast := [0, 1, 2, 3],
    numBBs := 4,
    Icode := fun i => { exp := COND_EXPR.leaf i.toNat } }

/-- The total number of in-edges of the blocks `S`. -/
def Function.inTotal (P : Function) (S : List Nat) : Nat :=
  (S.map (fun b => (P.blocks b).inEdges.length)).sum

/-- The scenario of the pattern `X || Y` after the merge at its first block. -/
def orProcMerged : Function :=
  ((compoundCondNode (orProc K0) 0).map (fun r => r.1)).getD (orProc K0)

/-- The block with the annotations of the structuring pass blanked: the fields that
`structCases`, `structLoops` and `structIfs` write. -/
def BB.eraseAnnot (b : BB) : BB :=
  { b with caseHead := 0, caseTail := 0, traversed := eDFS.DFS_NONE,
           loopHead := 0, loopType := eNodeHeaderType.NO_TYPE, loopFollow := 0,
           latchNode := 0, numBackEdges := 0, ifFollow := 0,
           flg := { b.flg with IS_LATCH_NODE := false } }

/-- The two procedures have the same graph: the same DFS-last table and block count, and
at every block the same out-edges, in-edges, `dfsLastNum` and `INVALID_BB` bit. -/
def Function.SameGraph (P Q : Function) : Prop :=
  Q.dfsLast = P.dfsLast ∧ Q.numBBs = P.numBBs ∧
  ∀ b, (Q.blocks b).edges = (P.blocks b).edges ∧ (Q.blocks b).inEdges = (P.blocks b).inEdges ∧
    (Q.blocks b).dfsLastNum = (P.blocks b).dfsLastNum ∧
    (Q.blocks b).flg.INVALID_BB = (P.blocks b).flg.INVALID_BB

theorem dfsLastAt_natCast (P : Function) (k : Nat) :
    P.dfsLastAt (k : Int) = P.dfsLast.get? k := by
  simp [Function.dfsLastAt]

theorem dfsLastAt_of_range (P : Function) (h : P.DfsLastOK) (i : Int) (h0 : 0 ≤ i)
    (h1 : i < P.numBBs) :
    ∃ b, P.dfsLastAt i = some b ∧ (P.blocks b).dfsLastNum = i := by
  obtain ⟨k, rfl⟩ := Int.eq_ofNat_of_zero_le h0
  obtain ⟨b, hb, hn⟩ := h k h1
  exact ⟨b, by rw [dfsLastAt_natCast]; exact hb, hn⟩

theorem Function.SameButImmedDom.reflexive (P : Function) : P.SameButImmedDom P :=
  ⟨rfl, rfl, rfl, rfl, fun _ => rfl⟩

theorem Function.SameButImmedDom.transitive {P Q R : Function} (h1 : P.SameButImmedDom Q)
    (h2 : Q.SameButImmedDom R) : P.SameButImmedDom R :=
  ⟨h2.1.trans h1.1, h2.2.1.trans h1.2.1, h2.2.2.1.trans h1.2.2.1,
    h2.2.2.2.1.trans h1.2.2.2.1, fun b => (h2.2.2.2.2 b).trans (h1.2.2.2.2 b)⟩

theorem Function.SameButImmedDom.dfsLastNum {P Q : Function} (h : P.SameButImmedDom Q) (b : Nat) :
    (Q.blocks b).dfsLastNum = (P.blocks b).dfsLastNum := by
  have h1 := congrArg BB.dfsLastNum (h.2.2.2.2 b)
  exact h1

theorem Function.SameButImmedDom.inEdges {P Q : Function} (h : P.SameButImmedDom Q) (b : Nat) :
    (Q.blocks b).inEdges = (P.blocks b).inEdges := by
  have h1 := congrArg BB.inEdges (h.2.2.2.2 b)
  exact h1

theorem Function.SameButImmedDom.flg {P Q : Function} (h : P.SameButImmedDom Q) (b : Nat) :
    (Q.blocks b).flg = (P.blocks b).flg := by
  have h1 := congrArg BB.flg (h.2.2.2.2 b)
  exact h1

theorem Function.SameButImmedDom.edges {P Q : Function} (h : P.SameButImmedDom Q) (b : Nat) :
    (Q.blocks b).edges = (P.blocks b).edges := by
  have h1 := congrArg BB.edges (h.2.2.2.2 b)
  exact h1

theorem Function.SameButImmedDom.dfsLastOK {P Q : Function} (h : P.SameButImmedDom Q)
    (hP : P.DfsLastOK) : Q.DfsLastOK := by
  intro k hk
  rw [h.2.1] at hk
  obtain ⟨b, hb, hn⟩ := hP k hk
  exact ⟨b, by rw [h.1]; exact hb, by rw [h.dfsLastNum]; exact hn⟩

theorem Function.sameButImmedDom_setBB (P : Function) (c : Nat) (d : Int) :
    P.SameButImmedDom (P.setBB c { P.blocks c with immedDom := d }) := by
  refine ⟨rfl, rfl, rfl, rfl, fun b => ?_⟩
  by_cases hb : b = c
  · subst hb; simp [Function.setBB]
  · simp [Function.setBB, hb]

theorem setBB_blocks_same (P : Function) (c : Nat) (x : BB) :
    (P.setBB c x).blocks c = x := by
  simp [Function.setBB]

theorem setBB_blocks_ne (P : Function) (c : Nat) (x : BB) (b : Nat) (h : b ≠ c) :
    (P.setBB c x).blocks b = P.blocks b := by
  simp [Function.setBB, h]

theorem domMeasure_step (K : Sentinels) (P : Function) (hinv : P.ImmedDomBelow K)
    (b : Nat) (x : Int) (hx : x ≠ K.NO_DOM) (hb : (P.blocks b).dfsLastNum = x) :
    domMeasure K (P.blocks b).immedDom < domMeasure K x := by
  unfold domMeasure
  rw [if_neg hx]
  rcases hinv b with h | ⟨h0, h1⟩
  · rw [if_pos h]; omega
  · split
    · omega
    · rw [hb] at h1; omega

/-- Termination and range of the loop of `commonDom` on a table whose `immedDom`
links point downwards. -/
theorem commonDomLoop_below (K : Sentinels) (P : Function) (htab : P.DfsLastOK)
    (hinv : P.ImmedDomBelow K) :
    ∀ (fuel : Nat) (c p : Int),
      (c = K.NO_DOM ∨ (0 ≤ c ∧ c < P.numBBs)) → (p = K.NO_DOM ∨ (0 ≤ p ∧ p < P.numBBs)) →
      domMeasure K c + domMeasure K p < fuel →
      ∃ r, commonDomLoop K P fuel c p = some r ∧
        (r = K.NO_DOM ∨ (c ≠ K.NO_DOM ∧ 0 ≤ r ∧ r ≤ c)) := by
  intro fuel
  induction fuel with
  | zero => intro c p _ _ h; omega
  | succ fuel ih =>
    intro c p hc hp hfuel
    unfold commonDomLoop
    by_cases hcond : c ≠ K.NO_DOM ∧ p ≠ K.NO_DOM ∧ c ≠ p
    · rw [if_pos hcond]
      obtain ⟨hcN, hpN, hne⟩ := hcond
      have hc' : 0 ≤ c ∧ c < P.numBBs := hc.resolve_left hcN
      have hp' : 0 ≤ p ∧ p < P.numBBs := hp.resolve_left hpN
      by_cases hlt : c < p
      · rw [if_pos hlt]
        obtain ⟨b, hb, hn⟩ := dfsLastAt_of_range P htab p hp'.1 hp'.2
        rw [hb]
        have hm := domMeasure_step K P hinv b p hpN hn
        have hr : (P.blocks b).immedDom = K.NO_DOM ∨
            (0 ≤ (P.blocks b).immedDom ∧ (P.blocks b).immedDom < P.numBBs) := by
          rcases hinv b with h | ⟨h0, h1⟩
          · exact Or.inl h
          · exact Or.inr ⟨h0, by rw [hn] at h1; omega⟩
        exact ih c _ hc hr (by omega)
      · rw [if_neg hlt]
        obtain ⟨b, hb, hn⟩ := dfsLastAt_of_range P htab c hc'.1 hc'.2
        rw [hb]
        have hm := domMeasure_step K P hinv b c hcN hn
        have hr : (P.blocks b).immedDom = K.NO_DOM ∨
            (0 ≤ (P.blocks b).immedDom ∧ (P.blocks b).immedDom < P.numBBs) := by
          rcases hinv b with h | ⟨h0, h1⟩
          · exact Or.inl h
          · exact Or.inr ⟨h0, by rw [hn] at h1; omega⟩
        obtain ⟨r, hr1, hr2⟩ := ih _ p hr hp (by omega)
        refine ⟨r, hr1, ?_⟩
        rcases hr2 with h | ⟨hN, h0, h1⟩
        · exact Or.inl h
        · rcases hinv b with h' | ⟨_, h1'⟩
          · exact absurd h' hN
          · exact Or.inr ⟨hcN, h0, by rw [hn] at h1'; omega⟩
    · rw [if_neg hcond]
      refine ⟨c, rfl, ?_⟩
      by_cases h : c = K.NO_DOM
      · exact Or.inl h
      · exact Or.inr ⟨h, (hc.resolve_left h).1, le_refl _⟩

theorem domMeasure_le (K : Sentinels) (n : Int) (x : Int)
    (hx : x = K.NO_DOM ∨ (0 ≤ x ∧ x < n)) : (domMeasure K x : Int) ≤ n ⊔ 0 := by
  unfold domMeasure
  split
  · simp
  · have := hx.resolve_left (by assumption)
    have h1 : n ⊔ 0 = n := by omega
    rw [h1]; push_cast; omega

/-- One in-edge step of `findImmedDom` succeeds and keeps the `immedDom` links pointing
downwards. -/
theorem findImmedDomEdge_below (K : Sentinels) (fuel : Nat) (P : Function) (k : Nat)
    (currNode inedge : Nat) (htab : P.DfsLastOK) (hinv : P.ImmedDomBelow K)
    (hcur : (P.blocks currNode).dfsLastNum = k) (hk : (k : Int) < P.numBBs)
    (hpred : 0 ≤ (P.blocks inedge).dfsLastNum) (hfuel : 2 * P.numBBs < fuel) :
    ∃ P', findImmedDomEdge K fuel k currNode P inedge = some P' ∧
      P.SameButImmedDom P' ∧ P'.ImmedDomBelow K := by
  unfold findImmedDomEdge
  simp only
  by_cases hlt : (P.blocks inedge).dfsLastNum < k
  · rw [if_pos hlt]
    have key : ∃ d, commonDom K P fuel (P.blocks currNode).immedDom
        (P.blocks inedge).dfsLastNum = some d ∧ (d = K.NO_DOM ∨ (0 ≤ d ∧ d < k)) := by
      unfold commonDom
      by_cases h1 : (P.blocks currNode).immedDom = K.NO_DOM
      · rw [if_pos h1]; exact ⟨_, rfl, Or.inr ⟨hpred, hlt⟩⟩
      · rw [if_neg h1]
        have hc := (hinv currNode).resolve_left h1
        rw [hcur] at hc
        by_cases h2 : (P.blocks inedge).dfsLastNum = K.NO_DOM
        · rw [if_pos h2]; exact ⟨_, rfl, Or.inr hc⟩
        · rw [if_neg h2]
          have hc' : (P.blocks currNode).immedDom = K.NO_DOM ∨
              (0 ≤ (P.blocks currNode).immedDom ∧ (P.blocks currNode).immedDom < P.numBBs) :=
            Or.inr ⟨hc.1, by omega⟩
          have hp' : (P.blocks inedge).dfsLastNum = K.NO_DOM ∨
              (0 ≤ (P.blocks inedge).dfsLastNum ∧ (P.blocks inedge).dfsLastNum < P.numBBs) :=
            Or.inr ⟨hpred, by omega⟩
          have m1 := domMeasure_le K P.numBBs _ hc'
          have m2 := domMeasure_le K P.numBBs _ hp'
          obtain ⟨r, hr, hr'⟩ := commonDomLoop_below K P htab hinv fuel _ _ hc' hp' (by omega)
          refine ⟨r, hr, ?_⟩
          rcases hr' with h | ⟨_, h0, h1⟩
          · exact Or.inl h
          · exact Or.inr ⟨h0, by omega⟩
    obtain ⟨d, hd, hd'⟩ := key
    rw [hd]
    refine ⟨_, rfl, Function.sameButImmedDom_setBB P currNode d, ?_⟩
    intro b
    by_cases hb : b = currNode
    · subst hb
      rw [setBB_blocks_same]
      simp only
      rcases hd' with h | ⟨h0, h1⟩
      · exact Or.inl h
      · exact Or.inr ⟨h0, by rw [hcur]; exact h1⟩
    · rw [setBB_blocks_ne _ _ _ _ hb]; exact hinv b
  · rw [if_neg hlt]
    exact ⟨P, rfl, Function.SameButImmedDom.reflexive P, hinv⟩

/-- The inner loop of `findImmedDom` over a list of in-edges. -/
theorem findImmedDomEdges_below (K : Sentinels) (fuel : Nat) (P0 : Function) (k : Nat)
    (currNode : Nat) (htab : P0.DfsLastOK)
    (hcur : (P0.blocks currNode).dfsLastNum = k) (hk : (k : Int) < P0.numBBs)
    (hfuel : 2 * P0.numBBs < fuel) :
    ∀ (l : List Nat), (∀ p ∈ l, 0 ≤ (P0.blocks p).dfsLastNum) →
      ∀ P : Function, P0.SameButImmedDom P → P.ImmedDomBelow K →
      ∃ P', l.foldlM (findImmedDomEdge K fuel k currNode) P = some P' ∧
        P0.SameButImmedDom P' ∧ P'.ImmedDomBelow K := by
  intro l
  induction l with
  | nil => intro _ P hs hinv; exact ⟨P, rfl, hs, hinv⟩
  | cons a l ih =>
    intro hl P hs hinv
    obtain ⟨P1, h1, hs1, hinv1⟩ := findImmedDomEdge_below K fuel P k currNode a
      (hs.dfsLastOK htab) hinv (by rw [hs.dfsLastNum]; exact hcur) (by rw [hs.2.1]; exact hk)
      (by rw [hs.dfsLastNum]; exact hl a (List.mem_cons_self _ _)) (by rw [hs.2.1]; exact hfuel)
    obtain ⟨P2, h2, hs2, hinv2⟩ := ih (fun p hp => hl p (List.mem_cons_of_mem _ hp)) P1
      (hs.transitive hs1) hinv1
    refine ⟨P2, ?_, hs2, hinv2⟩
    rw [List.foldlM_cons, h1]
    exact h2

/-- One iteration of the outer loop of `findImmedDom`. -/
theorem findImmedDomNode_below (K : Sentinels) (fuel : Nat) (P0 : Function) (k : Nat)
    (htab : P0.DfsLastOK) (hpred : P0.PredsNumbered) (hk : (k : Int) < P0.numBBs)
    (hfuel : 2 * P0.numBBs < fuel) (P : Function) (hs : P0.SameButImmedDom P)
    (hinv : P.ImmedDomBelow K) :
    ∃ P', findImmedDomNode K fuel P k = some P' ∧
      P0.SameButImmedDom P' ∧ P'.ImmedDomBelow K := by
  obtain ⟨b, hb, hn⟩ := htab k hk
  unfold findImmedDomNode
  rw [dfsLastAt_natCast, hs.1, hb]
  simp only
  by_cases hinvalid : (P.blocks b).flg.INVALID_BB = true
  · rw [if_pos hinvalid]; exact ⟨P, rfl, hs, hinv⟩
  · rw [if_neg hinvalid, hs.inEdges]
    exact findImmedDomEdges_below K fuel P0 k b htab hn hk hfuel _ (hpred k b hk hb) P hs hinv

/-- The outer loop of `findImmedDom` over a list of indices. -/
theorem findImmedDomNodes_below (K : Sentinels) (fuel : Nat) (P0 : Function)
    (htab : P0.DfsLastOK) (hpred : P0.PredsNumbered) (hfuel : 2 * P0.numBBs < fuel) :
    ∀ (l : List Nat), (∀ k ∈ l, (k : Int) < P0.numBBs) →
      ∀ P : Function, P0.SameButImmedDom P → P.ImmedDomBelow K →
      ∃ P', l.foldlM (findImmedDomNode K fuel) P = some P' ∧
        P0.SameButImmedDom P' ∧ P'.ImmedDomBelow K := by
  intro l
  induction l with
  | nil => intro _ P hs hinv; exact ⟨P, rfl, hs, hinv⟩
  | cons a l ih =>
    intro hl P hs hinv
    obtain ⟨P1, h1, hs1, hinv1⟩ := findImmedDomNode_below K fuel P0 a htab hpred
      (hl a (List.mem_cons_self _ _)) hfuel P hs hinv
    obtain ⟨P2, h2, hs2, hinv2⟩ := ih (fun p hp => hl p (List.mem_cons_of_mem _ hp)) P1 hs1 hinv1
    refine ⟨P2, ?_, hs2, hinv2⟩
    rw [List.foldlM_cons, h1]
    exact h2

theorem range_toNat_lt (n : Int) : ∀ k ∈ List.range n.toNat, (k : Int) < n := by
  intro k hk
  rw [List.mem_range] at hk
  omega

/-- The solver returns and leaves every `immedDom` unset or below the number of its block. -/
theorem findImmedDom_below (K : Sentinels) (fuel : Nat) (P : Function)
    (htab : P.DfsLastOK) (hinit : ∀ b, (P.blocks b).immedDom = K.NO_DOM)
    (hpred : P.PredsNumbered) (hfuel : 2 * P.numBBs < fuel) :
    ∃ P', findImmedDom K fuel P = some P' ∧
      P.SameButImmedDom P' ∧ P'.ImmedDomBelow K := by
  exact findImmedDomNodes_below K fuel P htab hpred hfuel
    (List.range P.numBBs.toNat) (range_toNat_lt P.numBBs) P (Function.SameButImmedDom.reflexive P)
    (fun b => Or.inl (hinit b))

/-! ## Paths and dominators -/

theorem isBlock_num (P : Function) (htab : P.DfsLastOK) (b : Nat) (hb : P.IsBlock b) :
    ∃ k : Nat, (k : Int) < P.numBBs ∧ P.dfsLast.get? k = some b ∧
      (P.blocks b).dfsLastNum = k := by
  obtain ⟨k, hk, hkb⟩ := hb
  obtain ⟨b', hb', hn⟩ := htab k hk
  rw [hkb] at hb'
  cases hb'
  exact ⟨k, hk, hkb, hn⟩

theorem isBlock_num_inj (P : Function) (htab : P.DfsLastOK) (a b : Nat) (ha : P.IsBlock a)
    (hb : P.IsBlock b) (h : (P.blocks a).dfsLastNum = (P.blocks b).dfsLastNum) : a = b := by
  obtain ⟨i, _, hia, hi⟩ := isBlock_num P htab a ha
  obtain ⟨j, _, hjb, hj⟩ := isBlock_num P htab b hb
  have : i = j := by rw [hi, hj] at h; exact_mod_cast h
  subst this
  rw [hia] at hjb
  cases hjb
  rfl

theorem cfgPath_head (P : Function) (e : Nat) (π : List Nat) (v : Nat)
    (h : P.CfgPath e π v) : v ∈ π := by
  cases h with
  | entry => exact List.mem_singleton_self _
  | step _ _ => exact List.mem_cons_self _ _

theorem cfgPath_isBlock (P : Function) (e : Nat) (he : P.IsBlock e) (π : List Nat) (v : Nat)
    (h : P.CfgPath e π v) : ∀ x ∈ π, P.IsBlock x := by
  induction h with
  | entry => intro x hx; rw [List.mem_singleton] at hx; subst hx; exact he
  | step _ hedge ih =>
    intro x hx
    rcases List.mem_cons.mp hx with h | h
    · subst h; exact hedge.2.1
    · exact ih x h

/-- A path through `x` has a final part that is a path to `x`. -/
theorem cfgPath_suffix (P : Function) (e : Nat) (π : List Nat) (v : Nat)
    (h : P.CfgPath e π v) :
    ∀ x ∈ π, ∃ π', P.CfgPath e π' x ∧ π'.length ≤ π.length ∧ ∀ y ∈ π', y ∈ π := by
  induction h with
  | entry =>
    intro x hx
    rw [List.mem_singleton] at hx
    subst hx
    exact ⟨[x], Function.CfgPath.entry, le_refl _, fun y hy => hy⟩
  | @step π u v hp hedge ih =>
    intro x hx
    rcases List.mem_cons.mp hx with h | h
    · subst h
      exact ⟨x :: π, Function.CfgPath.step hp hedge, le_refl _, fun y hy => hy⟩
    · obtain ⟨π', h1, h2, h3⟩ := ih x h
      exact ⟨π', h1, by simp only [List.length_cons]; omega,
        fun y hy => List.mem_cons_of_mem _ (h3 y hy)⟩

theorem dominates_refl (P : Function) (e v : Nat) : P.Dominates e v v :=
  fun π h => cfgPath_head P e π v h

theorem dominates_trans (P : Function) (e x d b : Nat) (h1 : P.Dominates e x d)
    (h2 : P.Dominates e d b) : P.Dominates e x b := by
  intro π hπ
  obtain ⟨π', hp, _, hsub⟩ := cfgPath_suffix P e π b hπ d (h2 π hπ)
  exact hsub x (h1 π' hp)

theorem dominates_entry (P : Function) (e x : Nat) : P.Dominates e x e ↔ x = e := by
  constructor
  · intro h
    have := h [e] Function.CfgPath.entry
    exact List.mem_singleton.mp this
  · rintro rfl
    exact dominates_refl P x x

/-- On a reducible CFG, a path to a block other than the entry contains a path to one of
its forward predecessors. -/
theorem forward_pred_of_path (P : Function) (e v : Nat) (hred : P.Reducible e)
    (hv : v ≠ e) :
    ∀ (n : Nat) (π : List Nat), π.length ≤ n → P.CfgPath e π v →
      ∃ u π', P.CfgEdge u v ∧ (P.blocks u).dfsLastNum < (P.blocks v).dfsLastNum ∧
        P.CfgPath e π' u ∧ ∀ x ∈ π', x ∈ π := by
  intro n
  induction n with
  | zero =>
    intro π hlen hp
    have := cfgPath_head P e π v hp
    cases π with
    | nil => simp at this
    | cons a l => simp at hlen
  | succ n ih =>
    intro π hlen hp
    cases hp with
    | entry => exact absurd rfl hv
    | @step π0 u _ hp0 hedge =>
      rcases hred u v hedge with hlt | hdom
      · exact ⟨u, π0, hedge, hlt, hp0, fun x hx => List.mem_cons_of_mem _ hx⟩
      · obtain ⟨π1, hp1, hlen1, hsub1⟩ := cfgPath_suffix P e π0 u hp0 v (hdom π0 hp0)
        simp only [List.length_cons] at hlen
        obtain ⟨w, π', hw1, hw2, hw3, hw4⟩ := ih π1 (by omega) hp1
        exact ⟨w, π', hw1, hw2, hw3, fun x hx => List.mem_cons_of_mem _ (hsub1 x (hw4 x hx))⟩

/-- On a reducible CFG the strict dominators of a block other than the entry are the
common dominators of its forward predecessors. -/
theorem dominates_iff_forward_preds (P : Function) (e v x : Nat) (hred : P.Reducible e)
    (hv : v ≠ e) (hx : x ≠ v) :
    P.Dominates e x v ↔
      ∀ u, P.CfgEdge u v → (P.blocks u).dfsLastNum < (P.blocks v).dfsLastNum →
        P.Dominates e x u := by
  constructor
  · intro h u hedge _ π hπ
    have := h (v :: π) (Function.CfgPath.step hπ hedge)
    rcases List.mem_cons.mp this with h1 | h1
    · exact absurd h1 hx
    · exact h1
  · intro h π hπ
    obtain ⟨u, π', hu1, hu2, hu3, hu4⟩ := forward_pred_of_path P e v hred hv π.length π
      (le_refl _) hπ
    exact hu4 x (h u hu1 hu2 π' hu3)

/-! ## The solver computes immediate dominators -/

theorem blockAt_num (P : Function) (htab : P.DfsLastOK) {i b : Nat} (h : P.BlockAt i b) :
    (P.blocks b).dfsLastNum = i := by
  obtain ⟨b', hb', hn⟩ := htab i h.1
  rw [h.2] at hb'
  cases hb'
  exact hn

theorem blockAt_inj (P : Function) {i a c : Nat} (h1 : P.BlockAt i a) (h2 : P.BlockAt i c) :
    a = c := by
  have := h1.2.symm.trans h2.2
  exact Option.some.inj this

theorem blockAt_idx_inj (P : Function) (htab : P.DfsLastOK) {i j a : Nat}
    (h1 : P.BlockAt i a) (h2 : P.BlockAt j a) : i = j := by
  have e1 := blockAt_num P htab h1
  have e2 := blockAt_num P htab h2
  rw [e1] at e2
  exact_mod_cast e2

theorem dominates_step (P : Function) (e d b x : Nat) (hd : P.IsImmedDom e d b) :
    P.Dominates e x b ↔ x = b ∨ P.Dominates e x d := by
  constructor
  · intro h
    by_cases hx : x = b
    · exact Or.inl hx
    · exact Or.inr (hd.2.2 x hx h)
  · rintro (rfl | h)
    · exact dominates_refl P e x
    · exact dominates_trans P e x d b h hd.2.1

/-- The dominators of a solved block sit at table entries that are not above it. -/
theorem dominates_le (K : Sentinels) (P : Function) (e : Nat) (Q : Function) (k : Nat)
    (htab : P.DfsLastOK) (he : P.BlockAt 0 e) (hs : P.SolvedBelow K e k Q) :
    ∀ (j : Nat) (b : Nat), j < k → P.BlockAt j b → ∀ x, P.Dominates e x b →
      ∃ i, P.BlockAt i x ∧ i ≤ j := by
  intro j
  induction j using Nat.strong_induction_on with
  | _ j ih =>
    intro b hj hb x hx
    rcases hs.2 j b hj hb with ⟨hbe, _⟩ | ⟨_, d, l, hd, _, hl, hidom⟩
    · subst hbe
      have := (dominates_entry P b x).mp hx
      subst this
      exact ⟨0, he, Nat.zero_le _⟩
    · rw [blockAt_num P htab hb] at hl
      have hlj : l < j := by exact_mod_cast hl
      rcases (dominates_step P e d b x hidom).mp hx with h | h
      · subst h; exact ⟨j, hb, le_refl _⟩
      · obtain ⟨i, hi, hil⟩ := ih l hlj d (by omega) hd x h
        exact ⟨i, hi, by omega⟩

theorem noDom_ne_index (K : Sentinels) (P : Function)
    (hK : K.NO_DOM < 0 ∨ P.numBBs ≤ K.NO_DOM) {i b : Nat} (h : P.BlockAt i b) :
    (i : Int) ≠ K.NO_DOM := by
  have := h.1
  omega

/-- On solved table entries the loop of `commonDom` ends at the block whose dominators are
the common dominators of its two arguments. -/
theorem commonDomLoop_solved (K : Sentinels) (P : Function) (e : Nat) (Q : Function)
    (k : Nat) (htab : P.DfsLastOK) (hK : K.NO_DOM < 0 ∨ P.numBBs ≤ K.NO_DOM)
    (he : P.BlockAt 0 e) (hs : P.SolvedBelow K e k Q) :
    ∀ (fuel i j a c : Nat), P.BlockAt i a → P.BlockAt j c → i < k → j < k → i + j < fuel →
      ∃ l m, P.BlockAt l m ∧ l ≤ i ∧ l ≤ j ∧
        commonDomLoop K Q fuel i j = some (l : Int) ∧
        ∀ x, P.Dominates e x m ↔ (P.Dominates e x a ∧ P.Dominates e x c) := by
  intro fuel
  induction fuel with
  | zero => intro i j a c _ _ _ _ h; omega
  | succ fuel ih =>
    intro i j a c hi hj hik hjk hfuel
    have hiN := noDom_ne_index K P hK hi
    have hjN := noDom_ne_index K P hK hj
    unfold commonDomLoop
    by_cases hij : i = j
    · subst hij
      have hac := blockAt_inj P hi hj
      subst hac
      rw [if_neg (by simp)]
      exact ⟨i, a, hi, le_refl _, le_refl _, rfl, fun x => by simp⟩
    · have hijZ : (i : Int) ≠ j := by exact_mod_cast hij
      rw [if_pos ⟨hiN, hjN, hijZ⟩]
      by_cases hlt : i < j
      · rw [if_pos (by exact_mod_cast hlt), dfsLastAt_natCast, hs.1.1, hj.2]
        simp only
        rcases hs.2 j c hjk hj with ⟨hce, _⟩ | ⟨_, d, l, hd, himm, hl, hidom⟩
        · subst hce
          have := blockAt_idx_inj P htab hj he
          omega
        · rw [blockAt_num P htab hj] at hl
          have hlj : l < j := by exact_mod_cast hl
          rw [himm]
          obtain ⟨l', m, hm, h1, h2, h3, h4⟩ := ih i l a d hi hd hik (by omega) (by omega)
          refine ⟨l', m, hm, h1, by omega, h3, fun x => ?_⟩
          rw [h4 x, dominates_step P e d c x hidom]
          constructor
          · rintro ⟨hxa, hxd⟩; exact ⟨hxa, Or.inr hxd⟩
          · rintro ⟨hxa, hxc | hxd⟩
            · subst hxc
              obtain ⟨i', hi', hle⟩ := dominates_le K P e Q k htab he hs i a hik hi x hxa
              have := blockAt_idx_inj P htab hi' hj
              omega
            · exact ⟨hxa, hxd⟩
      · have hgt : j < i := by omega
        rw [if_neg (by omega), dfsLastAt_natCast, hs.1.1, hi.2]
        simp only
        rcases hs.2 i a hik hi with ⟨hae, _⟩ | ⟨_, d, l, hd, himm, hl, hidom⟩
        · subst hae
          have := blockAt_idx_inj P htab hi he
          omega
        · rw [blockAt_num P htab hi] at hl
          have hli : l < i := by exact_mod_cast hl
          rw [himm]
          obtain ⟨l', m, hm, h1, h2, h3, h4⟩ := ih l j d c hd hj (by omega) hjk (by omega)
          refine ⟨l', m, hm, by omega, h2, h3, fun x => ?_⟩
          rw [h4 x, dominates_step P e d a x hidom]
          constructor
          · rintro ⟨hxd, hxc⟩; exact ⟨Or.inr hxd, hxc⟩
          · rintro ⟨hxa | hxd, hxc⟩
            · subst hxa
              obtain ⟨i', hi', hle⟩ := dominates_le K P e Q k htab he hs j c hjk hj x hxc
              have := blockAt_idx_inj P htab hi' hi
              omega
            · exact ⟨hxd, hxc⟩

theorem solvedBelow_setBB (K : Sentinels) (P : Function) (e : Nat) (Q : Function) (k : Nat)
    (htab : P.DfsLastOK) (hs : P.SolvedBelow K e k Q) (v : Nat) (hv : P.BlockAt k v)
    (d : Int) : P.SolvedBelow K e k (Q.setBB v { Q.blocks v with immedDom := d }) := by
  refine ⟨hs.1.transitive (Function.sameButImmedDom_setBB Q v d), fun j b hj hb => ?_⟩
  have hbv : b ≠ v := by
    rintro rfl
    have := blockAt_idx_inj P htab hb hv
    omega
  have := hs.2 j b hj hb
  unfold Function.ImmedDomOK at this ⊢
  rw [setBB_blocks_ne _ _ _ _ hbv]
  exact this

/-- One in-edge step of `findImmedDom` on a solved prefix of the table. -/
theorem findImmedDomEdge_solved (K : Sentinels) (fuel : Nat) (P : Function) (e : Nat)
    (Q : Function) (k v a : Nat) (L : List Nat) (htab : P.DfsLastOK)
    (hK : K.NO_DOM < 0 ∨ P.numBBs ≤ K.NO_DOM) (he : P.BlockAt 0 e)
    (hs : P.SolvedBelow K e k Q) (hv : P.BlockAt k v) (ha : P.IsBlock a)
    (hacc : P.DomAcc K e Q v k L) (hfuel : 2 * P.numBBs < fuel) :
    ∃ Q', findImmedDomEdge K fuel k v Q a = some Q' ∧ P.SolvedBelow K e k Q' ∧
      P.DomAcc K e Q' v k (L ++ [a]) ∧
      ∀ b, b ≠ v → (Q'.blocks b).immedDom = (Q.blocks b).immedDom := by
  obtain ⟨i, hi⟩ := ha
  have hia : P.BlockAt i a := hi
  have hnum : (Q.blocks a).dfsLastNum = i := by
    rw [hs.1.dfsLastNum]; exact blockAt_num P htab hia
  have hnumP : (P.blocks a).dfsLastNum = i := blockAt_num P htab hia
  unfold findImmedDomEdge
  simp only
  rw [hnum]
  by_cases hlt : (i : Int) < k
  · rw [if_pos hlt]
    have hik : i < k := by exact_mod_cast hlt
    have hiN := noDom_ne_index K P hK hia
    unfold commonDom
    rcases hacc with ⟨hnone, himm⟩ | ⟨l, m, hm, himm, hlk, hdom⟩
    · rw [if_pos himm]
      simp only
      refine ⟨_, rfl, solvedBelow_setBB K P e Q k htab hs v hv _, ?_,
        fun b hb => by rw [setBB_blocks_ne _ _ _ _ hb]⟩
      refine Or.inr ⟨i, a, hia, by rw [setBB_blocks_same], hik, fun x => ?_⟩
      constructor
      · intro hx p hp hpk
        rcases List.mem_append.mp hp with h | h
        · exact absurd hpk (hnone p h)
        · rw [List.mem_singleton] at h; subst h; exact hx
      · intro hx
        exact hx a (by simp) (by rw [hnumP]; exact hlt)
    · have hlN := noDom_ne_index K P hK hm
      rw [himm, if_neg hlN, if_neg hiN]
      have hk := hv.1
      obtain ⟨l', m', hm', h1, h2, h3, h4⟩ := commonDomLoop_solved K P e Q k htab hK he hs
        fuel l i m a hm hia hlk hik (by omega)
      rw [h3]
      simp only
      refine ⟨_, rfl, solvedBelow_setBB K P e Q k htab hs v hv _, ?_,
        fun b hb => by rw [setBB_blocks_ne _ _ _ _ hb]⟩
      refine Or.inr ⟨l', m', hm', by rw [setBB_blocks_same], by omega, fun x => ?_⟩
      rw [h4 x, hdom x]
      constructor
      · rintro ⟨hL, hxa⟩ p hp hpk
        rcases List.mem_append.mp hp with h | h
        · exact hL p h hpk
        · rw [List.mem_singleton] at h; subst h; exact hxa
      · intro hx
        exact ⟨fun p hp hpk => hx p (List.mem_append_left _ hp) hpk,
          hx a (by simp) (by rw [hnumP]; exact hlt)⟩
  · rw [if_neg hlt]
    refine ⟨Q, rfl, hs, ?_, fun _ _ => rfl⟩
    rcases hacc with ⟨hnone, himm⟩ | ⟨l, m, hm, himm, hlk, hdom⟩
    · refine Or.inl ⟨fun p hp => ?_, himm⟩
      rcases List.mem_append.mp hp with h | h
      · exact hnone p h
      · rw [List.mem_singleton] at h; subst h; rw [hnumP]; exact hlt
    · refine Or.inr ⟨l, m, hm, himm, hlk, fun x => ?_⟩
      rw [hdom x]
      constructor
      · intro hx p hp hpk
        rcases List.mem_append.mp hp with h | h
        · exact hx p h hpk
        · rw [List.mem_singleton] at h; subst h; rw [hnumP] at hpk; exact absurd hpk hlt
      · intro hx p hp hpk
        exact hx p (List.mem_append_left _ hp) hpk

/-- The inner loop of `findImmedDom` on a solved prefix of the table. -/
theorem findImmedDomEdges_solved (K : Sentinels) (fuel : Nat) (P : Function) (e : Nat)
    (k v : Nat) (htab : P.DfsLastOK) (hK : K.NO_DOM < 0 ∨ P.numBBs ≤ K.NO_DOM)
    (he : P.BlockAt 0 e) (hv : P.BlockAt k v) (hfuel : 2 * P.numBBs < fuel) :
    ∀ (l L : List Nat), (∀ a ∈ l, P.IsBlock a) →
      ∀ Q : Function, P.SolvedBelow K e k Q → P.DomAcc K e Q v k L →
      ∃ Q', l.foldlM (findImmedDomEdge K fuel k v) Q = some Q' ∧ P.SolvedBelow K e k Q' ∧
        P.DomAcc K e Q' v k (L ++ l) ∧
        ∀ b, b ≠ v → (Q'.blocks b).immedDom = (Q.blocks b).immedDom := by
  intro l
  induction l with
  | nil =>
    intro L _ Q hs hacc
    exact ⟨Q, rfl, hs, by rw [List.append_nil]; exact hacc, fun _ _ => rfl⟩
  | cons a l ih =>
    intro L hl Q hs hacc
    obtain ⟨Q1, h1, hs1, hacc1, hfr1⟩ := findImmedDomEdge_solved K fuel P e Q k v a L htab hK
      he hs hv (hl a (List.mem_cons_self _ _)) hacc hfuel
    obtain ⟨Q2, h2, hs2, hacc2, hfr2⟩ := ih (L ++ [a])
      (fun p hp => hl p (List.mem_cons_of_mem _ hp)) Q1 hs1 hacc1
    refine ⟨Q2, ?_, hs2, ?_, fun b hb => (hfr2 b hb).trans (hfr1 b hb)⟩
    · rw [List.foldlM_cons, h1]; exact h2
    · rw [List.append_assoc] at hacc2; exact hacc2

/-- One iteration of the outer loop of `findImmedDom` on a solved prefix of the table. -/
theorem findImmedDomNode_solved (K : Sentinels) (fuel : Nat) (P : Function) (e : Nat)
    (k v : Nat) (htab : P.DfsLastOK) (hK : K.NO_DOM < 0 ∨ P.numBBs ≤ K.NO_DOM)
    (he : P.BlockAt 0 e) (hv : P.BlockAt k v) (hvalid : (P.blocks v).flg.INVALID_BB = false)
    (hin : ∀ p, p ∈ (P.blocks v).inEdges ↔ P.CfgEdge p v) (hred : P.Reducible e)
    (hreach : ∃ π, P.CfgPath e π v) (hfuel : 2 * P.numBBs < fuel)
    (Q : Function) (hs : P.SolvedBelow K e k Q) (hQv : (Q.blocks v).immedDom = K.NO_DOM) :
    ∃ Q', findImmedDomNode K fuel Q k = some Q' ∧ P.SolvedBelow K e (k + 1) Q' ∧
      ∀ b, b ≠ v → (Q'.blocks b).immedDom = (Q.blocks b).immedDom := by
  have hnumv := blockAt_num P htab hv
  obtain ⟨Q', hQ', hs', hacc, hfr⟩ := findImmedDomEdges_solved K fuel P e k v htab hK he hv
    hfuel (P.blocks v).inEdges [] (fun a ha => ((hin a).mp ha).1) Q hs
    (Or.inl ⟨by simp, hQv⟩)
  rw [List.nil_append] at hacc
  refine ⟨Q', ?_, ⟨hs'.1, fun j b hj hb => ?_⟩, hfr⟩
  · unfold findImmedDomNode
    rw [dfsLastAt_natCast, hs.1.1, hv.2]
    simp only
    rw [hs.1.flg, hvalid, if_neg (by simp), hs.1.inEdges]
    exact hQ'
  · by_cases hjk : j < k
    · exact hs'.2 j b hjk hb
    · have hjk' : j = k := by omega
      subst hjk'
      have hbv := blockAt_inj P hb hv
      subst hbv
      by_cases hbe : b = e
      · refine Or.inl ⟨hbe, ?_⟩
        rcases hacc with ⟨_, himm⟩ | ⟨l, m, _, _, hlk, _⟩
        · exact himm
        · subst hbe
          have := blockAt_idx_inj P htab hv he
          omega
      · refine Or.inr ⟨hbe, ?_⟩
        obtain ⟨π, hπ⟩ := hreach
        obtain ⟨u, _, hu1, hu2, _, _⟩ := forward_pred_of_path P e b hred hbe π.length π
          (le_refl _) hπ
        rw [hnumv] at hu2
        rcases hacc with ⟨hnone, _⟩ | ⟨l, m, hm, himm, hlk, hdom⟩
        · exact absurd hu2 (hnone u ((hin u).mpr hu1))
        · have hmb : m ≠ b := by
            rintro rfl
            have := blockAt_idx_inj P htab hm hv
            omega
          refine ⟨m, l, hm, himm, by rw [hnumv]; exact_mod_cast hlk, hmb, ?_, ?_⟩
          · refine (dominates_iff_forward_preds P e b m hred hbe hmb).mpr (fun w hw hlt => ?_)
            exact (hdom m).mp (dominates_refl P e m) w ((hin w).mpr hw) (by rw [← hnumv]; exact hlt)
          · intro d' hd' hdom'
            refine (hdom d').mpr (fun p hp hpk => ?_)
            exact (dominates_iff_forward_preds P e b d' hred hbe hd').mp hdom' p ((hin p).mp hp)
              (by rw [hnumv]; exact hpk)

/-- The outer loop of `findImmedDom` from the table entry `k` on. -/
theorem findImmedDomNodes_solved (K : Sentinels) (fuel : Nat) (P : Function) (e : Nat)
    (htab : P.DfsLastOK) (hK : K.NO_DOM < 0 ∨ P.numBBs ≤ K.NO_DOM) (he : P.BlockAt 0 e)
    (hvalid : ∀ b, P.IsBlock b → (P.blocks b).flg.INVALID_BB = false)
    (hin : ∀ v, P.IsBlock v → ∀ p, p ∈ (P.blocks v).inEdges ↔ P.CfgEdge p v)
    (hred : P.Reducible e) (hreach : ∀ b, P.IsBlock b → ∃ π, P.CfgPath e π b)
    (hfuel : 2 * P.numBBs < fuel) :
    ∀ (m k : Nat) (Q : Function), ((k + m : Nat) : Int) ≤ P.numBBs → P.SolvedBelow K e k Q →
      (∀ j b, k ≤ j → P.BlockAt j b → (Q.blocks b).immedDom = K.NO_DOM) →
      ∃ Q', (List.range' k m).foldlM (findImmedDomNode K fuel) Q = some Q' ∧
        P.SolvedBelow K e (k + m) Q' := by
  intro m
  induction m with
  | zero => intro k Q _ hs _; exact ⟨Q, rfl, hs⟩
  | succ m ih =>
    intro k Q hkm hs hrest
    have hk : (k : Int) < P.numBBs := by push_cast at hkm; omega
    obtain ⟨v, hv, _⟩ := htab k hk
    have hv' : P.BlockAt k v := ⟨hk, hv⟩
    have hbv : P.IsBlock v := ⟨k, hk, hv⟩
    obtain ⟨Q1, h1, hs1, hfr1⟩ := findImmedDomNode_solved K fuel P e k v htab hK he hv'
      (hvalid v hbv) (hin v hbv) hred (hreach v hbv) hfuel Q hs (hrest k v (le_refl _) hv')
    obtain ⟨Q2, h2, hs2⟩ := ih (k + 1) Q1 (by push_cast at hkm ⊢; omega) hs1 (by
      intro j b hj hb
      have hbv' : b ≠ v := by
        rintro rfl
        have := blockAt_idx_inj P htab hb hv'
        omega
      rw [hfr1 b hbv']
      exact hrest j b (by omega) hb)
    refine ⟨Q2, ?_, by rw [show k + (m + 1) = k + 1 + m by omega]; exact hs2⟩
    rw [List.range'_succ, List.foldlM_cons, h1]
    exact h2

/-- On a reducible CFG the solver returns the immediate dominators. -/
theorem findImmedDom_solves (K : Sentinels) (fuel : Nat)
    (P : Function) (e : Nat)
    (htab : P.DfsLastOK) (hK : K.NO_DOM < 0 ∨ P.numBBs ≤ K.NO_DOM) (he : P.BlockAt 0 e)
    (hvalid : ∀ b, P.IsBlock b → (P.blocks b).flg.INVALID_BB = false)
    (hin : ∀ v, P.IsBlock v → ∀ p, p ∈ (P.blocks v).inEdges ↔ P.CfgEdge p v)
    (hred : P.Reducible e) (hreach : ∀ b, P.IsBlock b → ∃ π, P.CfgPath e π b)
    (hinit : ∀ b, (P.blocks b).immedDom = K.NO_DOM)
    (hfuel : 2 * P.numBBs < fuel) :
    ∃ P', findImmedDom K fuel P = some P' ∧
      (P'.blocks e).immedDom = K.NO_DOM ∧
      ∀ b, P.IsBlock b → b ≠ e →
        ∃ d, P.IsBlock d ∧ (P'.blocks b).immedDom = (P.blocks d).dfsLastNum ∧
          P.IsImmedDom e d b ∧ ∀ d', P.IsImmedDom e d' b → d' = d := by
  have hn : 0 ≤ P.numBBs := by have := he.1; omega
  obtain ⟨P', hP', hs⟩ := findImmedDomNodes_solved K fuel P e htab hK he hvalid hin hred hreach
    hfuel P.numBBs.toNat 0 P (by rw [Nat.zero_add, Int.toNat_of_nonneg hn])
    ⟨Function.SameButImmedDom.reflexive P, fun j b hj _ => absurd hj (Nat.not_lt_zero j)⟩
    (fun j b _ _ => hinit b)
  rw [Nat.zero_add] at hs
  have hlt : ∀ j : Nat, (j : Int) < P.numBBs → j < P.numBBs.toNat := by intro j hj; omega
  refine ⟨P', ?_, ?_, fun b hb hbe => ?_⟩
  · unfold findImmedDom
    rw [List.range_eq_range']
    exact hP'
  · rcases hs.2 0 e (hlt 0 he.1) he with ⟨_, h⟩ | ⟨h, _⟩
    · exact h
    · exact absurd rfl h
  · obtain ⟨j, hj⟩ := hb
    have hjb : P.BlockAt j b := hj
    rcases hs.2 j b (hlt j hj.1) hjb with ⟨h, _⟩ | ⟨_, d, l, hd, himm, hl, hidom⟩
    · exact absurd h hbe
    · refine ⟨d, ⟨l, hd⟩, by rw [himm, blockAt_num P htab hd], hidom, fun d' hd' => ?_⟩
      have h1 : P.Dominates e d' d := hidom.2.2 d' hd'.1 hd'.2.1
      have h2 : P.Dominates e d d' := hd'.2.2 d hidom.1 hidom.2.1
      obtain ⟨i, hi, hil⟩ := dominates_le K P e P' P.numBBs.toNat htab he hs l d (hlt l hd.1)
        hd d' h1
      obtain ⟨i', hi', hil'⟩ := dominates_le K P e P' P.numBBs.toNat htab he hs i d'
        (hlt i hi.1) hi d h2
      have := blockAt_idx_inj P htab hi' hd
      have hil2 : i = l := by omega
      subst hil2
      exact blockAt_inj P hi hd

/-! ## The dominator stage: the claims -/

/-- C1: on a procedure whose blocks are all valid and reachable from the entry block
`dfsLast[0]`, whose CFG is reducible with respect to its DFS-last numbering
(`dfsLast[k].dfsLastNum = k`, every edge that is not a back edge goes from a smaller to a
larger index) and whose `immedDom` fields are all `NO_DOM` beforehand, `findImmedDom`
returns; afterwards the `immedDom` of the entry block is `NO_DOM` and the `immedDom` of
every other block is the DFS-last index of its immediate dominator, the unique closest
strict dominator of that block in the CFG. -/
theorem findImmedDom_computes_immediate_dominators (K : Sentinels) (fuel : Nat)
    (P : Function) (e : Nat)
    (htab : P.DfsLastOK) (hK : K.NO_DOM < 0 ∨ P.numBBs ≤ K.NO_DOM) (he : P.BlockAt 0 e)
    (hvalid : ∀ b, P.IsBlock b → (P.blocks b).flg.INVALID_BB = false)
    (hin : ∀ v, P.IsBlock v → ∀ p, p ∈ (P.blocks v).inEdges ↔ P.CfgEdge p v)
    (hred : P.Reducible e) (hreach : ∀ b, P.IsBlock b → ∃ π, P.CfgPath e π b)
    (hinit : ∀ b, (P.blocks b).immedDom = K.NO_DOM)
    (hfuel : 2 * P.numBBs < fuel) :
    ∃ P', findImmedDom K fuel P = some P' ∧
      (P'.blocks e).immedDom = K.NO_DOM ∧
      ∀ b, P.IsBlock b → b ≠ e →
        ∃ d, P.IsBlock d ∧ (P'.blocks b).immedDom = (P.blocks d).dfsLastNum ∧
          P.IsImmedDom e d b ∧ ∀ d', P.IsImmedDom e d' b → d' = d :=
  findImmedDom_solves K fuel P e htab hK he hvalid hin hred hreach hinit hfuel

/-- C2: if `dfsLast[k].dfsLastNum = k` for every `k`, every `immedDom` is `NO_DOM`
beforehand and the predecessors of the blocks of the table carry non-negative DFS-last
numbers, then `findImmedDom` returns, and afterwards every block that is not `INVALID_BB`
has `immedDom = NO_DOM` or `immedDom < dfsLastNum`. -/
theorem findImmedDom_immedDom_lt (K : Sentinels) (fuel : Nat) (P : Function)
    (htab : P.DfsLastOK) (hinit : ∀ b, (P.blocks b).immedDom = K.NO_DOM)
    (hpred : P.PredsNumbered) (hfuel : 2 * P.numBBs < fuel) :
    ∃ P', findImmedDom K fuel P = some P' ∧
      ∀ b, (P'.blocks b).flg.INVALID_BB = false →
        (P'.blocks b).immedDom = K.NO_DOM ∨
          (P'.blocks b).immedDom < (P'.blocks b).dfsLastNum := by
  obtain ⟨P', h, _, hinv⟩ := findImmedDom_below K fuel P htab hinit hpred hfuel
  refine ⟨P', h, fun b _ => ?_⟩
  rcases hinv b with h | ⟨_, h⟩
  · exact Or.inl h
  · exact Or.inr h

/-! ### The pre-test scenario before the dominator stage -/

theorem rawPreTest_dfsLastOK : (rawOf K0 (preTestProc K0)).DfsLastOK := by
  intro k hk
  have hk' : k < 4 := by
    have : (rawOf K0 (preTestProc K0)).numBBs = 4 := rfl
    rw [this] at hk
    omega
  interval_cases k <;> exact ⟨_, rfl, rfl⟩

theorem rawPreTest_isBlock (b : Nat) :
    (rawOf K0 (preTestProc K0)).IsBlock b ↔ b = 10 ∨ b = 11 ∨ b = 12 ∨ b = 13 := by
  constructor
  · rintro ⟨k, hk, hb⟩
    have hk' : k < 4 := by
      have : (rawOf K0 (preTestProc K0)).numBBs = 4 := rfl
      rw [this] at hk
      omega
    interval_cases k <;> simp [rawOf, preTestProc] at hb <;> omega
  · rintro (rfl | rfl | rfl | rfl)
    exacts [⟨0, by decide, rfl⟩, ⟨1, by decide, rfl⟩, ⟨2, by decide, rfl⟩, ⟨3, by decide, rfl⟩]

theorem rawPreTest_edge (u v : Nat) :
    (rawOf K0 (preTestProc K0)).CfgEdge u v ↔
      (u = 10 ∧ v = 11) ∨ (u = 11 ∧ v = 12) ∨ (u = 11 ∧ v = 13) ∨ (u = 12 ∧ v = 11) ∨
        (u = 12 ∧ v = 13) := by
  unfold Function.CfgEdge
  rw [rawPreTest_isBlock, rawPreTest_isBlock]
  constructor
  · rintro ⟨(rfl | rfl | rfl | rfl), _, h⟩ <;> simp [rawOf, preTestProc, mkBB] at h <;> omega
  · rintro (⟨rfl, rfl⟩ | ⟨rfl, rfl⟩ | ⟨rfl, rfl⟩ | ⟨rfl, rfl⟩ | ⟨rfl, rfl⟩) <;>
      simp [rawOf, preTestProc, mkBB]

theorem rawPreTest_inEdges (v : Nat) (hv : (rawOf K0 (preTestProc K0)).IsBlock v) (p : Nat) :
    p ∈ ((rawOf K0 (preTestProc K0)).blocks v).inEdges ↔
      (rawOf K0 (preTestProc K0)).CfgEdge p v := by
  rw [rawPreTest_edge]
  rw [rawPreTest_isBlock] at hv
  rcases hv with rfl | rfl | rfl | rfl <;> simp [rawOf, preTestProc, mkBB]

theorem rawPreTest_reducible : (rawOf K0 (preTestProc K0)).Reducible 10 := by
  intro u v huv
  rw [rawPreTest_edge] at huv
  rcases huv with ⟨rfl, rfl⟩ | ⟨rfl, rfl⟩ | ⟨rfl, rfl⟩ | ⟨rfl, rfl⟩ | ⟨rfl, rfl⟩
  · left; decide
  · left; decide
  · left; decide
  · right
    intro π hπ
    generalize hv : (12 : Nat) = v at hπ
    cases hπ with
    | entry => cases hv
    | @step π0 u _ hp hedge =>
      subst hv
      rw [rawPreTest_edge] at hedge
      have hu : u = 11 := by omega
      subst hu
      exact List.mem_cons_of_mem _ (cfgPath_head _ _ _ _ hp)
  · left; decide

theorem rawPreTest_reach (b : Nat) (hb : (rawOf K0 (preTestProc K0)).IsBlock b) :
    ∃ π, (rawOf K0 (preTestProc K0)).CfgPath 10 π b := by
  have p10 : (rawOf K0 (preTestProc K0)).CfgPath 10 [10] 10 := Function.CfgPath.entry
  have p11 := Function.CfgPath.step p10 ((rawPreTest_edge 10 11).mpr (by omega))
  have p12 := Function.CfgPath.step p11 ((rawPreTest_edge 11 12).mpr (by omega))
  have p13 := Function.CfgPath.step p11 ((rawPreTest_edge 11 13).mpr (by omega))
  rw [rawPreTest_isBlock] at hb
  rcases hb with rfl | rfl | rfl | rfl
  exacts [⟨_, p10⟩, ⟨_, p11⟩, ⟨_, p12⟩, ⟨_, p13⟩]

theorem rawPreTest_predsNumbered : (rawOf K0 (preTestProc K0)).PredsNumbered := by
  intro k b hk hb p hp
  have hbl : (rawOf K0 (preTestProc K0)).IsBlock b := ⟨k, hk, hb⟩
  have := ((rawPreTest_inEdges b hbl p).mp hp).1
  rw [rawPreTest_isBlock] at this
  rcases this with rfl | rfl | rfl | rfl <;> decide

/-- A witness for C1: the pre-test scenario. -/
theorem findImmedDom_computes_immediate_dominators_witness :
    ∃ P', findImmedDom K0 9 (rawOf K0 (preTestProc K0)) = some P' ∧
      (P'.blocks 10).immedDom = K0.NO_DOM ∧
      ∀ b, (rawOf K0 (preTestProc K0)).IsBlock b → b ≠ 10 →
        ∃ d, (rawOf K0 (preTestProc K0)).IsBlock d ∧
          (P'.blocks b).immedDom = ((rawOf K0 (preTestProc K0)).blocks d).dfsLastNum ∧
          (rawOf K0 (preTestProc K0)).IsImmedDom 10 d b ∧
          ∀ d', (rawOf K0 (preTestProc K0)).IsImmedDom 10 d' b → d' = d :=
  findImmedDom_computes_immediate_dominators K0 9 (rawOf K0 (preTestProc K0)) 10
    rawPreTest_dfsLastOK (Or.inr (by decide)) ⟨by decide, rfl⟩
    (fun b hb => by
      rw [rawPreTest_isBlock] at hb
      rcases hb with rfl | rfl | rfl | rfl <;> rfl)
    rawPreTest_inEdges rawPreTest_reducible rawPreTest_reach (fun _ => rfl) (by decide)

/-- A witness for C2: the pre-test scenario. -/
theorem findImmedDom_immedDom_lt_witness :
    ∃ P', findImmedDom K0 9 (rawOf K0 (preTestProc K0)) = some P' ∧
      ∀ b, (P'.blocks b).flg.INVALID_BB = false →
        (P'.blocks b).immedDom = K0.NO_DOM ∨
          (P'.blocks b).immedDom < (P'.blocks b).dfsLastNum :=
  findImmedDom_immedDom_lt K0 9 (rawOf K0 (preTestProc K0)) rawPreTest_dfsLastOK
    (fun _ => rfl) rawPreTest_predsNumbered (by decide)

/-! ## Frames -/

theorem Function.SameUpTo.refl (er : BB → BB) (P : Function) : P.SameUpTo er P :=
  ⟨rfl, rfl, rfl, fun _ => rfl⟩

theorem Function.SameUpTo.trans {er : BB → BB} {P Q R : Function} (h1 : P.SameUpTo er Q)
    (h2 : Q.SameUpTo er R) : P.SameUpTo er R :=
  ⟨h2.1.trans h1.1, h2.2.1.trans h1.2.1, h2.2.2.1.trans h1.2.2.1,
    fun b => (h2.2.2.2 b).trans (h1.2.2.2 b)⟩

theorem Function.SameUpTo.setBB (er : BB → BB) (P : Function) (c : Nat) (x : BB)
    (h : er x = er (P.blocks c)) : P.SameUpTo er (P.setBB c x) := by
  refine ⟨rfl, rfl, rfl, fun b => ?_⟩
  by_cases hb : b = c
  · subst hb; rw [setBB_blocks_same]; exact h
  · rw [setBB_blocks_ne _ _ _ _ hb]

theorem Function.SameUpTo.setLlFlag (er : BB → BB) (P : Function) (i : Int) :
    P.SameUpTo er (P.SetLlFlagJX_LOOP i) :=
  ⟨rfl, rfl, rfl, fun _ => rfl⟩

theorem Function.SameUpTo.dfsLastAt {er : BB → BB} {P Q : Function} (h : P.SameUpTo er Q)
    (i : Int) : Q.dfsLastAt i = P.dfsLastAt i := by
  unfold Function.dfsLastAt
  rw [h.1]

/-! ## The latching node -/

theorem isBackEdge_fst (P : Function) (p s : Nat) :
    (isBackEdge P p s).1 = decide ((P.blocks p).dfsFirstNum ≥ (P.blocks s).dfsFirstNum) := by
  unfold isBackEdge
  split <;> simp_all

theorem isBackEdge_sameUpTo (P : Function) (p s : Nat) :
    P.SameUpTo BB.eraseNumBackEdges (isBackEdge P p s).2 := by
  unfold isBackEdge
  split
  · exact Function.SameUpTo.setBB _ P s _ rfl
  · exact Function.SameUpTo.refl _ P

theorem eraseNumBackEdges_dfsLastNum {P Q : Function} (h : P.SameUpTo BB.eraseNumBackEdges Q)
    (b : Nat) : (Q.blocks b).dfsLastNum = (P.blocks b).dfsLastNum := by
  have h1 := congrArg BB.dfsLastNum (h.2.2.2 b)
  exact h1

theorem eraseNumBackEdges_dfsFirstNum {P Q : Function}
    (h : P.SameUpTo BB.eraseNumBackEdges Q) (b : Nat) :
    (Q.blocks b).dfsFirstNum = (P.blocks b).dfsFirstNum := by
  have h1 := congrArg BB.dfsFirstNum (h.2.2.2 b)
  exact h1

theorem structLoopsPred_inv (P : Function) (intNodes : List Nat) (h : Nat) (L : List Nat)
    (st : Function × Option Nat) (pred : Nat) (hinv : LatchInv P intNodes h L st) :
    LatchInv P intNodes h (L ++ [pred]) (structLoopsPred intNodes h st pred) := by
  obtain ⟨hs, hnone, hsome⟩ := hinv
  unfold structLoopsPred
  by_cases hin : pred ∈ intNodes
  · have hin' : inInt pred intNodes = true := by simp [inInt, hin]
    rw [if_pos hin']
    simp only
    have hs' := hs.trans (isBackEdge_sameUpTo st.1 pred h)
    rw [isBackEdge_fst, eraseNumBackEdges_dfsFirstNum hs, eraseNumBackEdges_dfsFirstNum hs]
    by_cases hback : (P.blocks pred).dfsFirstNum ≥ (P.blocks h).dfsFirstNum
    · rw [if_pos (by simp [hback])]
      cases hst : st.2 with
      | none =>
        simp only
        refine ⟨hs', ?_, ?_⟩
        · simp only [reduceCtorEq, false_iff, not_forall]
          exact ⟨pred, by simp, fun hc => hc ⟨hin, hback⟩⟩
        · intro l hl
          cases hl
          refine ⟨⟨by simp, hin, hback⟩, fun p hp hpi hpb => ?_⟩
          rcases List.mem_append.mp hp with hp | hp
          · exact absurd ⟨hpi, hpb⟩ ((hnone.mp hst) p hp)
          · rw [List.mem_singleton] at hp; subst hp; exact le_refl _
      | some latchNode =>
        simp only
        obtain ⟨⟨hl1, hl2, hl3⟩, hl4⟩ := hsome latchNode hst
        rw [eraseNumBackEdges_dfsLastNum hs', eraseNumBackEdges_dfsLastNum hs']
        by_cases hgt : (P.blocks pred).dfsLastNum > (P.blocks latchNode).dfsLastNum
        · rw [if_pos hgt]
          refine ⟨hs', ?_, ?_⟩
          · simp only [reduceCtorEq, false_iff, not_forall]
            exact ⟨pred, by simp, fun hc => hc ⟨hin, hback⟩⟩
          · intro l hl
            cases hl
            refine ⟨⟨by simp, hin, hback⟩, fun p hp hpi hpb => ?_⟩
            rcases List.mem_append.mp hp with hp | hp
            · have := hl4 p hp hpi hpb; omega
            · rw [List.mem_singleton] at hp; subst hp; exact le_refl _
        · rw [if_neg hgt]
          refine ⟨hs', ?_, ?_⟩
          · simp only [reduceCtorEq, false_iff, not_forall]
            exact ⟨pred, by simp, fun hc => hc ⟨hin, hback⟩⟩
          · intro l hl
            cases hl
            refine ⟨⟨List.mem_append_left _ hl1, hl2, hl3⟩, fun p hp hpi hpb => ?_⟩
            rcases List.mem_append.mp hp with hp | hp
            · exact hl4 p hp hpi hpb
            · rw [List.mem_singleton] at hp; subst hp; omega
    · rw [if_neg (by simp [hback])]
      refine ⟨hs', ?_, ?_⟩
      · rw [hnone]
        constructor
        · intro hall p hp
          rcases List.mem_append.mp hp with hp | hp
          · exact hall p hp
          · rw [List.mem_singleton] at hp; subst hp; exact fun hc => hback hc.2
        · intro hall p hp; exact hall p (List.mem_append_left _ hp)
      · intro l hl
        obtain ⟨⟨hl1, hl2, hl3⟩, hl4⟩ := hsome l hl
        refine ⟨⟨List.mem_append_left _ hl1, hl2, hl3⟩, fun p hp hpi hpb => ?_⟩
        rcases List.mem_append.mp hp with hp | hp
        · exact hl4 p hp hpi hpb
        · rw [List.mem_singleton] at hp; subst hp; exact absurd hpb hback
  · have hin' : ¬ inInt pred intNodes = true := by simp [inInt, hin]
    rw [if_neg hin']
    refine ⟨hs, ?_, ?_⟩
    · rw [hnone]
      constructor
      · intro hall p hp
        rcases List.mem_append.mp hp with hp | hp
        · exact hall p hp
        · rw [List.mem_singleton] at hp; subst hp; exact fun hc => hin hc.1
      · intro hall p hp; exact hall p (List.mem_append_left _ hp)
    · intro l hl
      obtain ⟨⟨hl1, hl2, hl3⟩, hl4⟩ := hsome l hl
      refine ⟨⟨List.mem_append_left _ hl1, hl2, hl3⟩, fun p hp hpi hpb => ?_⟩
      rcases List.mem_append.mp hp with hp | hp
      · exact hl4 p hp hpi hpb
      · rw [List.mem_singleton] at hp; subst hp; exact absurd hpi hin

theorem structLoopsPred_fold_inv (P : Function) (intNodes : List Nat) (h : Nat) :
    ∀ (l L : List Nat) (st : Function × Option Nat), LatchInv P intNodes h L st →
      LatchInv P intNodes h (L ++ l) (l.foldl (structLoopsPred intNodes h) st) := by
  intro l
  induction l with
  | nil => intro L st hinv; rw [List.append_nil]; exact hinv
  | cons a l ih =>
    intro L st hinv
    have := ih (L ++ [a]) _ (structLoopsPred_inv P intNodes h L st a hinv)
    rw [List.append_assoc] at this
    exact this

/-- What the search for the latching node returns. -/
theorem structLoopsLatch_spec (P : Function) (intNodes : List Nat) (h : Nat) :
    ((structLoopsLatch intNodes h P).2 = none ↔ ∀ p, ¬ P.Qualifies intNodes h p) ∧
    ∀ l, (structLoopsLatch intNodes h P).2 = some l →
      P.Qualifies intNodes h l ∧
      ∀ p, P.Qualifies intNodes h p → (P.blocks p).dfsLastNum ≤ (P.blocks l).dfsLastNum := by
  have hinv := structLoopsPred_fold_inv P intNodes h (P.blocks h).inEdges [] (P, none)
    ⟨Function.SameUpTo.refl _ P, by simp, by simp⟩
  rw [List.nil_append] at hinv
  obtain ⟨_, hnone, hsome⟩ := hinv
  unfold structLoopsLatch
  refine ⟨?_, fun l hl => ?_⟩
  · rw [hnone]
    constructor
    · intro hall p hp; exact hall p hp.1 ⟨hp.2.1, hp.2.2⟩
    · intro hall p hp hc; exact hall p ⟨hp, hc.1, hc.2⟩
  · obtain ⟨⟨h1, h2, h3⟩, h4⟩ := hsome l hl
    exact ⟨⟨h1, h2, h3⟩, fun p hp => h4 p hp.1 hp.2.1 hp.2.2⟩

/-! ## The follow of an endless loop -/

theorem setLoopFollow_setLoopFollow (P : Function) (head : Nat) (m m' : Int) :
    (P.setLoopFollow head m).setLoopFollow head m' = P.setLoopFollow head m' := by
  unfold Function.setLoopFollow Function.setBB
  simp only [if_true]
  congr 1
  funext q
  by_cases h : q = head <;> simp [h]

theorem setLoopFollow_blocks_head (P : Function) (head : Nat) (m : Int) :
    ((P.setLoopFollow head m).blocks head).loopFollow = m := by
  simp [Function.setLoopFollow, Function.setBB]

theorem setLoopFollow_dfsLastNum (P : Function) (head : Nat) (m : Int) (b : Nat) :
    ((P.setLoopFollow head m).blocks b).dfsLastNum = (P.blocks b).dfsLastNum := by
  unfold Function.setLoopFollow Function.setBB
  by_cases h : b = head <;> simp [h]

theorem setLoopFollow_edges (P : Function) (head : Nat) (m : Int) (b : Nat) :
    ((P.setLoopFollow head m).blocks b).edges = (P.blocks b).edges := by
  unfold Function.setLoopFollow Function.setBB
  by_cases h : b = head <;> simp [h]

theorem setLoopFollow_numOutEdges (P : Function) (head : Nat) (m : Int) (b : Nat) :
    ((P.setLoopFollow head m).blocks b).numOutEdges = (P.blocks b).numOutEdges := by
  unfold Function.setLoopFollow Function.setBB
  by_cases h : b = head <;> simp [h]

theorem setLoopFollow_dfsLastAt (P : Function) (head : Nat) (m : Int) (i : Int) :
    (P.setLoopFollow head m).dfsLastAt i = P.dfsLastAt i := rfl

/-- One step of the inner loop of `findEndlessFollow`. -/
theorem findEndlessFollowEdge_eq (loopNodes : List Int) (head b : Nat) (P : Function)
    (m : Int) (j s : Nat) (hj : (P.blocks b).edges.get? j = some s) :
    findEndlessFollowEdge loopNodes head b (P.setLoopFollow head m) j =
      some (P.setLoopFollow head (pickFollow loopNodes m (P.blocks s).dfsLastNum)) := by
  unfold findEndlessFollowEdge Function.edgeDfs Function.edge
  rw [setLoopFollow_edges, hj]
  simp only
  rw [setLoopFollow_dfsLastNum, setLoopFollow_blocks_head]
  unfold pickFollow
  split
  · change some ((P.setLoopFollow head m).setLoopFollow head _) = _
    rw [setLoopFollow_setLoopFollow]
  · rfl

/-- The inner loop of `findEndlessFollow` over the first `n` out-edges. -/
theorem findEndlessFollowEdges_eq (loopNodes : List Int) (head b : Nat) (P : Function) :
    ∀ (n : Nat) (m : Int), n ≤ (P.blocks b).edges.length →
      (List.range n).foldlM (findEndlessFollowEdge loopNodes head b) (P.setLoopFollow head m) =
        some (P.setLoopFollow head
          ((((P.blocks b).edges.take n).map (fun s => (P.blocks s).dfsLastNum)).foldl
            (pickFollow loopNodes) m)) := by
  intro n
  induction n with
  | zero => intro m _; simp
  | succ n ih =>
    intro m hn
    have hlt : n < (P.blocks b).edges.length := by omega
    rw [List.range_succ, List.foldlM_append, ih m (by omega)]
    have hget : (P.blocks b).edges.get? n = some ((P.blocks b).edges.get ⟨n, hlt⟩) :=
      List.get?_eq_get hlt
    have hget' : (P.blocks b).edges[n]? = some ((P.blocks b).edges.get ⟨n, hlt⟩) := by
      rw [← List.get?_eq_getElem?]; exact hget
    simp only [List.foldlM_cons, List.foldlM_nil, Option.some_bind, Option.bind_eq_bind]
    rw [findEndlessFollowEdge_eq loopNodes head b P _ n _ hget]
    simp only [Option.some_bind, Option.bind_some]
    rw [List.take_succ, hget']
    simp only [Option.toList_some, List.map_append, List.map_cons, List.map_nil,
      List.foldl_append, List.foldl_cons, List.foldl_nil]
    rfl

theorem findEndlessFollowNode_eq (loopNodes : List Int) (head : Nat) (P : Function)
    (m : Int) (p : Int) (b : Nat) (hb : P.dfsLastAt p = some b)
    (hnum : (P.blocks b).numOutEdges = (P.blocks b).edges.length) :
    findEndlessFollowNode loopNodes head (P.setLoopFollow head m) p =
      some (P.setLoopFollow head ((P.succDfs b).foldl (pickFollow loopNodes) m)) := by
  unfold findEndlessFollowNode
  rw [setLoopFollow_dfsLastAt, hb]
  simp only
  rw [setLoopFollow_numOutEdges, findEndlessFollowEdges_eq loopNodes head b P _ m (by omega)]
  rfl

/-- The outer loop of `findEndlessFollow` over a list of nodes. -/
theorem findEndlessFollowNodes_eq (loopNodes : List Int) (head : Nat) (P : Function) :
    ∀ (l : List Int) (m : Int), P.MembersOK l →
      l.foldlM (findEndlessFollowNode loopNodes head) (P.setLoopFollow head m) =
        some (P.setLoopFollow head ((P.allSuccDfs l).foldl (pickFollow loopNodes) m)) := by
  intro l
  induction l with
  | nil => intro m _; simp [Function.allSuccDfs]
  | cons p l ih =>
    intro m hl
    obtain ⟨b, hb, hnum⟩ := hl p (List.mem_cons_self _ _)
    rw [List.foldlM_cons, findEndlessFollowNode_eq loopNodes head P m p b hb hnum]
    simp only [Option.some_bind, Option.bind_eq_bind]
    rw [ih _ (fun q hq => hl q (List.mem_cons_of_mem _ hq))]
    simp [Function.allSuccDfs, hb, List.foldl_append]

/-- What `findEndlessFollow` returns. -/
theorem findEndlessFollow_eq (K : Sentinels) (P : Function) (loopNodes : List Int)
    (head : Nat) (h : P.MembersOK loopNodes) :
    findEndlessFollow K P loopNodes head =
      some (P.setLoopFollow head ((P.allSuccDfs loopNodes).foldl (pickFollow loopNodes) K.MAX)) :=
  findEndlessFollowNodes_eq loopNodes head P loopNodes K.MAX h

theorem pickFollow_foldl (loopNodes : List Int) :
    ∀ (l : List Int) (m : Int),
      (l.foldl (pickFollow loopNodes) m = m ∨
        (l.foldl (pickFollow loopNodes) m ∈ l ∧ l.foldl (pickFollow loopNodes) m ∉ loopNodes))
      ∧ l.foldl (pickFollow loopNodes) m ≤ m
      ∧ ∀ s ∈ l, s ∉ loopNodes → l.foldl (pickFollow loopNodes) m ≤ s := by
  intro l
  induction l with
  | nil => intro m; simp
  | cons a l ih =>
    intro m
    rw [List.foldl_cons]
    have hp : (pickFollow loopNodes m a = m ∧ (a ∈ loopNodes ∨ m ≤ a)) ∨
        (pickFollow loopNodes m a = a ∧ a ∉ loopNodes ∧ a < m) := by
      unfold pickFollow inList
      by_cases hc : a ∈ loopNodes
      · left; simp [hc]
      · by_cases hlt : a < m
        · right; simp [hc, hlt]
        · left; simp [hlt]; omega
    generalize pickFollow loopNodes m a = c at hp ⊢
    obtain ⟨h1, h2, h3⟩ := ih c
    refine ⟨?_, ?_, ?_⟩
    · rcases h1 with h1 | ⟨h1, h1'⟩
      · rcases hp with ⟨hp, _⟩ | ⟨hp, hp', _⟩
        · left; rw [h1, hp]
        · right; rw [h1, hp]; exact ⟨List.mem_cons_self _ _, hp'⟩
      · right; exact ⟨List.mem_cons_of_mem _ h1, h1'⟩
    · rcases hp with ⟨hp, _⟩ | ⟨hp, _, hp'⟩ <;> omega
    · intro s hs hsl
      rcases List.mem_cons.mp hs with hs | hs
      · subst hs
        rcases hp with ⟨hp, hp'⟩ | ⟨hp, _, _⟩
        · rcases hp' with hp' | hp'
          · exact absurd hp' hsl
          · omega
        · omega
      · exact h3 s hs hsl

theorem mem_allSuccDfs (P : Function) (s : Int) :
    ∀ (l : List Int), P.MembersOK l →
      (s ∈ P.allSuccDfs l ↔ ∃ p ∈ l, ∃ b, P.dfsLastAt p = some b ∧
        ∃ t ∈ (P.blocks b).edges, (P.blocks t).dfsLastNum = s) := by
  intro l
  induction l with
  | nil => intro _; simp [Function.allSuccDfs]
  | cons p l ih =>
    intro hl
    obtain ⟨b, hb, hnum⟩ := hl p (List.mem_cons_self _ _)
    have ih' := ih (fun q hq => hl q (List.mem_cons_of_mem _ hq))
    unfold Function.allSuccDfs
    rw [List.mem_append, ih', hb]
    simp only [Function.succDfs]
    have htake : (P.blocks b).edges.take (P.blocks b).numOutEdges.toNat = (P.blocks b).edges := by
      apply List.take_of_length_le
      omega
    rw [htake]
    constructor
    · rintro (h | ⟨q, hq, h⟩)
      · obtain ⟨t, ht, hts⟩ := List.mem_map.mp h
        exact ⟨p, List.mem_cons_self _ _, b, hb, t, ht, hts⟩
      · exact ⟨q, List.mem_cons_of_mem _ hq, h⟩
    · rintro ⟨q, hq, b', hb', t, ht, hts⟩
      rcases List.mem_cons.mp hq with hq | hq
      · subst hq
        rw [hb] at hb'
        cases hb'
        exact Or.inl (List.mem_map.mpr ⟨t, ht, hts⟩)
      · exact Or.inr ⟨q, hq, b', hb', t, ht, hts⟩

/-- The follow that `findEndlessFollow` assigns is the least DFS-last number of an exit of
the node list, and `MAX` when the list has no exit. -/
theorem findEndlessFollow_least_exit (K : Sentinels) (P : Function) (loopNodes : List Int)
    (head : Nat) (hmem : P.MembersOK loopNodes)
    (hmax : ∀ s, P.IsExitDfs loopNodes s → s ≤ K.MAX) :
    ∃ P', findEndlessFollow K P loopNodes head = some P' ∧
      ((∀ s, ¬ P.IsExitDfs loopNodes s) → (P'.blocks head).loopFollow = K.MAX) ∧
      ((∃ s, P.IsExitDfs loopNodes s) →
        P.IsExitDfs loopNodes (P'.blocks head).loopFollow ∧
        ∀ s, P.IsExitDfs loopNodes s → (P'.blocks head).loopFollow ≤ s) := by
  refine ⟨_, findEndlessFollow_eq K P loopNodes head hmem, ?_, ?_⟩
  all_goals rw [setLoopFollow_blocks_head]
  all_goals obtain ⟨h1, h2, h3⟩ := pickFollow_foldl loopNodes (P.allSuccDfs loopNodes) K.MAX
  · intro hno
    rcases h1 with h1 | ⟨h1, h1'⟩
    · exact h1
    · exact absurd ⟨h1', (mem_allSuccDfs P _ loopNodes hmem).mp h1⟩ (hno _)
  · rintro ⟨s0, hs0⟩
    have hle : ∀ s, P.IsExitDfs loopNodes s →
        (P.allSuccDfs loopNodes).foldl (pickFollow loopNodes) K.MAX ≤ s :=
      fun s hs => h3 s ((mem_allSuccDfs P s loopNodes hmem).mpr hs.2) hs.1
    refine ⟨?_, hle⟩
    rcases h1 with h1 | ⟨h1, h1'⟩
    · have e1 := hle s0 hs0
      have e2 := hmax s0 hs0
      have : s0 = (P.allSuccDfs loopNodes).foldl (pickFollow loopNodes) K.MAX := by omega
      rw [← this]; exact hs0
    · exact ⟨h1', (mem_allSuccDfs P _ loopNodes hmem).mp h1⟩

/-! ## The nodes of a loop -/

theorem inTable_iff (P : Function) (i : Int) :
    P.InTable i ↔ 0 ≤ i ∧ i < P.dfsLast.length := by
  unfold Function.InTable Function.dfsLastAt
  constructor
  · rintro ⟨b, hb⟩
    by_cases h0 : 0 ≤ i
    · rw [if_pos h0] at hb
      have := List.get?_eq_some.mp hb
      obtain ⟨hlt, _⟩ := this
      exact ⟨h0, by omega⟩
    · rw [if_neg h0] at hb; cases hb
  · rintro ⟨h0, h1⟩
    rw [if_pos h0]
    have hlt : i.toNat < P.dfsLast.length := by omega
    exact ⟨_, List.get?_eq_get hlt⟩

theorem eraseLoopHead_fields {P Q : Function} (h : P.SameUpTo BB.eraseLoopHead Q) (b : Nat) :
    (Q.blocks b).dfsLastNum = (P.blocks b).dfsLastNum ∧
    (Q.blocks b).dfsFirstNum = (P.blocks b).dfsFirstNum ∧
    (Q.blocks b).nodeType = (P.blocks b).nodeType ∧
    (Q.blocks b).flg = (P.blocks b).flg ∧
    (Q.blocks b).edges = (P.blocks b).edges ∧
    (Q.blocks b).numOutEdges = (P.blocks b).numOutEdges ∧
    (Q.blocks b).immedDom = (P.blocks b).immedDom ∧
    (Q.blocks b).start = (P.blocks b).start ∧
    (Q.blocks b).length = (P.blocks b).length ∧
    (Q.blocks b).latchNode = (P.blocks b).latchNode ∧
    (Q.blocks b).loopType = (P.blocks b).loopType ∧
    (Q.blocks b).loopFollow = (P.blocks b).loopFollow ∧
    (Q.blocks b).caseHead = (P.blocks b).caseHead ∧
    (Q.blocks b).numBackEdges = (P.blocks b).numBackEdges ∧
    (Q.blocks b).inEdges = (P.blocks b).inEdges := by
  have h0 := h.2.2.2 b
  refine ⟨?_, ?_, ?_, ?_, ?_, ?_, ?_, ?_, ?_, ?_, ?_, ?_, ?_, ?_, ?_⟩
  · have h1 := congrArg BB.dfsLastNum h0; exact h1
  · have h1 := congrArg BB.dfsFirstNum h0; exact h1
  · have h1 := congrArg BB.nodeType h0; exact h1
  · have h1 := congrArg BB.flg h0; exact h1
  · have h1 := congrArg BB.edges h0; exact h1
  · have h1 := congrArg BB.numOutEdges h0; exact h1
  · have h1 := congrArg BB.immedDom h0; exact h1
  · have h1 := congrArg BB.start h0; exact h1
  · have h1 := congrArg BB.length h0; exact h1
  · have h1 := congrArg BB.latchNode h0; exact h1
  · have h1 := congrArg BB.loopType h0; exact h1
  · have h1 := congrArg BB.loopFollow h0; exact h1
  · have h1 := congrArg BB.caseHead h0; exact h1
  · have h1 := congrArg BB.numBackEdges h0; exact h1
  · have h1 := congrArg BB.inEdges h0; exact h1

/-- One step of the tagging loop of `findNodesInLoop`. -/
theorem findNodesInLoopTag_ok (K : Sentinels) (intNodes : List Nat) (hd : Int)
    (st : Function × List Int) (i : Int) (hi : st.1.InTable i) :
    ∃ st', findNodesInLoopTag K intNodes hd st i = some st' ∧
      st.1.SameUpTo BB.eraseLoopHead st'.1 ∧ st'.1.Icode = st.1.Icode ∧
      (∀ x ∈ st'.2, x ∈ st.2 ∨ x = i) ∧ (∀ x ∈ st.2, x ∈ st'.2) ∧
      (∀ b, (st'.1.blocks b).loopHead = (st.1.blocks b).loopHead ∨
        ((st.1.blocks b).loopHead = K.NO_NODE ∧ (st'.1.blocks b).loopHead = hd)) := by
  obtain ⟨b, hb⟩ := hi
  unfold findNodesInLoopTag
  rw [hb]
  simp only
  split
  · exact ⟨st, rfl, Function.SameUpTo.refl _ _, rfl, fun x hx => Or.inl hx, fun x hx => hx,
      fun _ => Or.inl rfl⟩
  · split
    · split
      · refine ⟨_, rfl, Function.SameUpTo.setBB _ _ _ _ rfl, rfl, ?_, ?_, ?_⟩
        · intro x hx
          simp only [insertList, List.mem_append, List.mem_singleton] at hx
          exact hx
        · intro x hx
          simp only [insertList, List.mem_append, List.mem_singleton]
          exact Or.inl hx
        · intro c
          by_cases hc : c = b
          · subst hc
            right
            rename_i hN
            exact ⟨hN, by simp [Function.setLoopHead, Function.setBB]⟩
          · left; simp [Function.setLoopHead, Function.setBB, hc]
      · refine ⟨_, rfl, Function.SameUpTo.refl _ _, rfl, ?_, ?_, fun _ => Or.inl rfl⟩
        · intro x hx
          simp only [insertList, List.mem_append, List.mem_singleton] at hx
          exact hx
        · intro x hx
          simp only [insertList, List.mem_append, List.mem_singleton]
          exact Or.inl hx
    · exact ⟨st, rfl, Function.SameUpTo.refl _ _, rfl, fun x hx => Or.inl hx, fun x hx => hx,
        fun _ => Or.inl rfl⟩

/-- The tagging loop of `findNodesInLoop` over a list of indices of the table. -/
theorem findNodesInLoopTags_ok (K : Sentinels) (intNodes : List Nat) (hd : Int) :
    ∀ (l : List Int) (st : Function × List Int), (∀ i ∈ l, st.1.InTable i) →
      ∃ st', l.foldlM (findNodesInLoopTag K intNodes hd) st = some st' ∧
        st.1.SameUpTo BB.eraseLoopHead st'.1 ∧ st'.1.Icode = st.1.Icode ∧
        (∀ x ∈ st'.2, x ∈ st.2 ∨ x ∈ l) ∧ (∀ x ∈ st.2, x ∈ st'.2) ∧
        (∀ b, (st'.1.blocks b).loopHead = (st.1.blocks b).loopHead ∨
          ((st.1.blocks b).loopHead = K.NO_NODE ∧ (st'.1.blocks b).loopHead = hd)) := by
  intro l
  induction l with
  | nil =>
    intro st _
    exact ⟨st, rfl, Function.SameUpTo.refl _ _, rfl, fun x hx => Or.inl hx, fun x hx => hx,
      fun _ => Or.inl rfl⟩
  | cons a l ih =>
    intro st hl
    obtain ⟨st1, h1, hs1, hi1, hm1, hm1', hh1⟩ := findNodesInLoopTag_ok K intNodes hd st a
      (hl a (List.mem_cons_self _ _))
    obtain ⟨st2, h2, hs2, hi2, hm2, hm2', hh2⟩ := ih st1 (by
      intro i hi
      obtain ⟨b, hb⟩ := hl i (List.mem_cons_of_mem _ hi)
      exact ⟨b, by rw [hs1.dfsLastAt]; exact hb⟩)
    refine ⟨st2, by rw [List.foldlM_cons, h1]; exact h2, hs1.trans hs2, hi2.trans hi1, ?_,
      fun x hx => hm2' x (hm1' x hx), ?_⟩
    · intro x hx
      rcases hm2 x hx with h | h
      · rcases hm1 x h with h | h
        · exact Or.inl h
        · exact Or.inr (by rw [h]; exact List.mem_cons_self _ _)
      · exact Or.inr (List.mem_cons_of_mem _ h)
    · intro b
      rcases hh2 b with h | ⟨h, h'⟩
      · rcases hh1 b with g | ⟨g, g'⟩
        · exact Or.inl (h.trans g)
        · exact Or.inr ⟨g, h.trans g'⟩
      · rcases hh1 b with g | ⟨g, g'⟩
        · exact Or.inr ⟨by rw [← g]; exact h, h'⟩
        · exact Or.inr ⟨g, h'⟩

/-- The first part of `findNodesInLoop` returns; it changes `loopHead` fields only, and
the list it builds holds the number of the header, numbers between those of the header
and the latching node, and the number of the latching node. -/
theorem findNodesInLoopNodes_ok (K : Sentinels) (latchNode head : Nat) (P : Function)
    (intNodes : List Nat) (hH : P.InTable (P.blocks head).dfsLastNum)
    (hL : P.InTable (P.blocks latchNode).dfsLastNum) :
    ∃ P1 M, findNodesInLoopNodes K latchNode head P intNodes = some (P1, M) ∧
      P.SameUpTo BB.eraseLoopHead P1 ∧ P1.Icode = P.Icode ∧
      (P.blocks head).dfsLastNum ∈ M ∧
      (latchNode ≠ head → (P.blocks latchNode).dfsLastNum ∈ M) ∧
      (∀ x ∈ M, P.InTable x) ∧
      (P1.blocks latchNode).loopHead = (P.blocks head).dfsLastNum ∧
      (P1.blocks head).loopHead = (P.blocks head).dfsLastNum := by
  rw [inTable_iff] at hH hL
  unfold findNodesInLoopNodes
  simp only
  have hs0 : P.SameUpTo BB.eraseLoopHead (P.setLoopHead head (P.blocks head).dfsLastNum) :=
    Function.SameUpTo.setBB _ _ _ _ rfl
  rw [(eraseLoopHead_fields hs0 latchNode).1]
  obtain ⟨st', hst, hs1, hi1, hm1, hm1', hh1⟩ := findNodesInLoopTags_ok K intNodes
    (P.blocks head).dfsLastNum
    ((List.range ((P.blocks latchNode).dfsLastNum - ((P.blocks head).dfsLastNum + 1)).toNat).map
      (fun t : Nat => (P.blocks head).dfsLastNum + 1 + (t : Int)))
    (P.setLoopHead head (P.blocks head).dfsLastNum, insertList [] (P.blocks head).dfsLastNum)
    (by
      intro i hi
      obtain ⟨t, ht, rfl⟩ := List.mem_map.mp hi
      rw [List.mem_range] at ht
      rw [inTable_iff]
      change _ ∧ _ < (P.dfsLast.length : Int)
      omega)
  rw [hst]
  obtain ⟨P2, M2⟩ := st'
  simp only at hs1 hi1 hm1 hm1' hh1 ⊢
  have hs2 : P2.SameUpTo BB.eraseLoopHead (P2.setLoopHead latchNode (P.blocks head).dfsLastNum) :=
    Function.SameUpTo.setBB _ _ _ _ rfl
  have hsall := (hs0.trans hs1).trans hs2
  have hMem : ∀ x ∈ M2, P.InTable x := by
    intro x hx
    rw [inTable_iff]
    rcases hm1 x hx with h | h
    · simp only [insertList, List.nil_append, List.mem_singleton] at h
      rw [h]; exact hH
    · obtain ⟨t, ht, rfl⟩ := List.mem_map.mp h
      rw [List.mem_range] at ht
      omega
  have hheadM : (P.blocks head).dfsLastNum ∈ M2 := hm1' _ (by simp [insertList])
  have hLH : ((P2.setLoopHead latchNode (P.blocks head).dfsLastNum).blocks latchNode).loopHead =
      (P.blocks head).dfsLastNum := by simp [Function.setLoopHead, Function.setBB]
  have hHH : ((P2.setLoopHead latchNode (P.blocks head).dfsLastNum).blocks head).loopHead =
      (P.blocks head).dfsLastNum := by
    by_cases hlh : head = latchNode
    · subst hlh; exact hLH
    · have e1 : (P2.setLoopHead latchNode (P.blocks head).dfsLastNum).blocks head =
          P2.blocks head := setBB_blocks_ne _ _ _ _ hlh
      rw [e1]
      rcases hh1 head with h | ⟨_, h⟩
      · rw [h]; simp [Function.setLoopHead, Function.setBB]
      · exact h
  by_cases hne : latchNode = head
  · rw [if_neg (by simp [hne])]
    exact ⟨_, _, rfl, hsall, hi1, hheadM, fun h => absurd hne h, hMem, hLH, hHH⟩
  · rw [if_pos hne]
    refine ⟨_, _, rfl, hsall, hi1, ?_, fun _ => ?_, ?_, hLH, hHH⟩
    · simp only [insertList, List.mem_append, List.mem_singleton]
      exact Or.inl hheadM
    · simp only [insertList, List.mem_append, List.mem_singleton]
      right
      exact ((eraseLoopHead_fields hsall latchNode).1).symm
    · intro x hx
      simp only [insertList, List.mem_append, List.mem_singleton] at hx
      rcases hx with hx | hx
      · exact hMem x hx
      · rw [hx, (eraseLoopHead_fields hsall latchNode).1, inTable_iff]; exact hL

/-! ## The type of a loop -/

theorem edgeDfs_of_edge (P : Function) (b i s : Nat) (h : P.edge b i = some s) :
    P.edgeDfs b i = some (P.blocks s).dfsLastNum := by
  unfold Function.edgeDfs
  rw [h]

theorem ite_some_some {α : Type} (c : Prop) [Decidable c] (a b : α) :
    (if c then some a else some b) = some (if c then a else b) := by
  split <;> rfl

/-- Header and latching node two-way (lines 176-196). -/
theorem findNodesInLoopType_two_two (K : Sentinels) (fuel : Nat) (L H : Nat) (P : Function)
    (M : List Int) (t e lt le : Nat)
    (hL : (P.blocks L).nodeType = eBBKind.TWO_BRANCH)
    (hH : (P.blocks H).nodeType = eBBKind.TWO_BRANCH)
    (ht : P.edge H THEN = some t) (he : P.edge H ELSE = some e)
    (hlt : P.edge L THEN = some lt) (hle : P.edge L ELSE = some le) :
    findNodesInLoopType K fuel L H P M = some (
      if L = H ∨ ((P.blocks t).dfsLastNum ∈ M ∧ (P.blocks e).dfsLastNum ∈ M) then
        (P.setLoop H eNodeHeaderType.REPEAT_TYPE
          (if lt = H then (P.blocks le).dfsLastNum else (P.blocks lt).dfsLastNum)).SetLlFlagJX_LOOP
          (P.lastInstr L)
      else
        (P.setLoop H eNodeHeaderType.WHILE_TYPE
          (if (P.blocks t).dfsLastNum ∈ M then (P.blocks e).dfsLastNum
            else (P.blocks t).dfsLastNum)).SetLlFlagJX_LOOP (P.lastInstr H)) := by
  have hlt0 : P.edge L 0 = some lt := hlt
  unfold findNodesInLoopType
  simp only [hL, hH, if_true, true_or, edgeDfs_of_edge P H THEN t ht,
    edgeDfs_of_edge P H ELSE e he, edgeDfs_of_edge P L THEN lt hlt,
    edgeDfs_of_edge P L ELSE le hle, hlt0, inList, ite_some_some]
  by_cases h1 : L = H
  · subst h1
    simp
  · by_cases h2 : (P.blocks t).dfsLastNum ∈ M
    · by_cases h3 : (P.blocks e).dfsLastNum ∈ M
      · simp [h1, h2, h3]
      · simp [h1, h2, h3]
    · simp [h1, h2]

/-- Latching node two-way, header not (lines 197-206). -/
theorem findNodesInLoopType_other_two (K : Sentinels) (fuel : Nat) (L H : Nat) (P : Function)
    (M : List Int) (lt le : Nat)
    (hL : (P.blocks L).nodeType = eBBKind.TWO_BRANCH)
    (hH : (P.blocks H).nodeType ≠ eBBKind.TWO_BRANCH)
    (hlt : P.edge L THEN = some lt) (hle : P.edge L ELSE = some le) :
    findNodesInLoopType K fuel L H P M = some (
      (P.setLoop H eNodeHeaderType.REPEAT_TYPE
        (if lt = H then (P.blocks le).dfsLastNum else (P.blocks lt).dfsLastNum)).SetLlFlagJX_LOOP
        (P.lastInstr L)) := by
  have hne : L ≠ H := by
    rintro rfl
    exact hH hL
  unfold findNodesInLoopType
  simp only [hL, hH, hne, if_true, or_self, if_false, hlt,
    edgeDfs_of_edge P L THEN lt hlt, edgeDfs_of_edge P L ELSE le hle, ite_some_some]

/-- Latching node a loop-instruction node (lines 208-212). -/
theorem findNodesInLoopType_loop_node (K : Sentinels) (fuel : Nat) (L H : Nat) (P : Function)
    (M : List Int) (l0 : Nat)
    (hL : (P.blocks L).nodeType = eBBKind.LOOP_NODE)
    (hl0 : P.edge L 0 = some l0) :
    findNodesInLoopType K fuel L H P M =
      some (P.setLoop H eNodeHeaderType.REPEAT_TYPE (P.blocks l0).dfsLastNum) := by
  unfold findNodesInLoopType
  simp only [hL, edgeDfs_of_edge P L 0 l0 hl0, reduceCtorEq, if_false, if_true]

/-- Neither header nor latching node two-way, latching node not a loop-instruction node
(lines 246-250). -/
theorem findNodesInLoopType_endless (K : Sentinels) (fuel : Nat) (L H : Nat) (P : Function)
    (M : List Int)
    (hL : (P.blocks L).nodeType ≠ eBBKind.TWO_BRANCH)
    (hL' : (P.blocks L).nodeType ≠ eBBKind.LOOP_NODE)
    (hH : (P.blocks H).nodeType ≠ eBBKind.TWO_BRANCH) :
    findNodesInLoopType K fuel L H P M =
      findEndlessFollow K (P.setLoopType H eNodeHeaderType.ENDLESS_TYPE) M H := by
  unfold findNodesInLoopType
  simp only [hL, hL', hH, if_false]

/-! ## The dominator walk for a pre-test follow -/

theorem eraseLoop_fields {P Q : Function} (h : P.SameUpTo BB.eraseLoop Q) (b : Nat) :
    (Q.blocks b).dfsLastNum = (P.blocks b).dfsLastNum ∧
    (Q.blocks b).dfsFirstNum = (P.blocks b).dfsFirstNum ∧
    (Q.blocks b).nodeType = (P.blocks b).nodeType ∧
    (Q.blocks b).flg = (P.blocks b).flg ∧
    (Q.blocks b).edges = (P.blocks b).edges ∧
    (Q.blocks b).numOutEdges = (P.blocks b).numOutEdges ∧
    (Q.blocks b).immedDom = (P.blocks b).immedDom ∧
    (Q.blocks b).start = (P.blocks b).start ∧
    (Q.blocks b).length = (P.blocks b).length ∧
    (Q.blocks b).latchNode = (P.blocks b).latchNode ∧
    (Q.blocks b).caseHead = (P.blocks b).caseHead ∧
    (Q.blocks b).numBackEdges = (P.blocks b).numBackEdges ∧
    (Q.blocks b).inEdges = (P.blocks b).inEdges ∧
    (Q.blocks b).numInEdges = (P.blocks b).numInEdges := by
  have h0 := h.2.2.2 b
  refine ⟨?_, ?_, ?_, ?_, ?_, ?_, ?_, ?_, ?_, ?_, ?_, ?_, ?_, ?_⟩
  · have h1 := congrArg BB.dfsLastNum h0; exact h1
  · have h1 := congrArg BB.dfsFirstNum h0; exact h1
  · have h1 := congrArg BB.nodeType h0; exact h1
  · have h1 := congrArg BB.flg h0; exact h1
  · have h1 := congrArg BB.edges h0; exact h1
  · have h1 := congrArg BB.numOutEdges h0; exact h1
  · have h1 := congrArg BB.immedDom h0; exact h1
  · have h1 := congrArg BB.start h0; exact h1
  · have h1 := congrArg BB.length h0; exact h1
  · have h1 := congrArg BB.latchNode h0; exact h1
  · have h1 := congrArg BB.caseHead h0; exact h1
  · have h1 := congrArg BB.numBackEdges h0; exact h1
  · have h1 := congrArg BB.inEdges h0; exact h1
  · have h1 := congrArg BB.numInEdges h0; exact h1

theorem Function.SameUpTo.mono (er1 er2 : BB → BB) (hmono : ∀ b, er2 (er1 b) = er2 b)
    {P Q : Function} (h : P.SameUpTo er1 Q) : P.SameUpTo er2 Q :=
  ⟨h.1, h.2.1, h.2.2.1, fun b => by rw [← hmono (Q.blocks b), h.2.2.2 b, hmono]⟩

theorem sameUpTo_eraseLoop_of_head {P Q : Function} (h : P.SameUpTo BB.eraseLoopHead Q) :
    P.SameUpTo BB.eraseLoop Q :=
  Function.SameUpTo.mono BB.eraseLoopHead BB.eraseLoop (fun _ => rfl) h

theorem sameUpTo_edge {P Q : Function} (h : P.SameUpTo BB.eraseLoop Q) (b i : Nat) :
    Q.edge b i = P.edge b i := by
  unfold Function.edge
  rw [(eraseLoop_fields h b).2.2.2.2.1]

theorem sameUpTo_lastInstr {P Q : Function} (h : P.SameUpTo BB.eraseLoop Q) (b : Nat) :
    Q.lastInstr b = P.lastInstr b := by
  unfold Function.lastInstr
  rw [(eraseLoop_fields h b).2.2.2.2.2.2.2.1, (eraseLoop_fields h b).2.2.2.2.2.2.2.2.1]

theorem sameUpTo_inTable {P Q : Function} (h : P.SameUpTo BB.eraseLoop Q) (i : Int) :
    Q.InTable i ↔ P.InTable i := by
  unfold Function.InTable
  rw [h.dfsLastAt]

theorem sameUpTo_membersOK {P Q : Function} (h : P.SameUpTo BB.eraseLoop Q) (M : List Int)
    (hM : P.MembersOK M) : Q.MembersOK M := by
  intro p hp
  obtain ⟨b, hb, hn⟩ := hM p hp
  refine ⟨b, by rw [h.dfsLastAt]; exact hb, ?_⟩
  rw [(eraseLoop_fields h b).2.2.2.2.1, (eraseLoop_fields h b).2.2.2.2.2.1]
  exact hn

theorem sameUpTo_walkStops {P Q : Function} (h : P.SameUpTo BB.eraseLoop Q) (hd tD eD : Int)
    (n b w : Nat) (hw : P.WalkStops hd tD eD n b w) : Q.WalkStops hd tD eD n b w := by
  induction hw with
  | stop hs =>
    exact Function.WalkStops.stop (by rw [(eraseLoop_fields h _).1]; exact hs)
  | next hno hc _ ih =>
    exact Function.WalkStops.next (by rw [(eraseLoop_fields h _).1]; exact hno)
      (by rw [h.dfsLastAt, (eraseLoop_fields h _).2.2.2.2.2.2.1]; exact hc) ih

/-- The `while (1)` loop of `findNodesInLoop` stops at the first block of the `immedDom`
chain that passes one of its three tests. -/
theorem findNodesInLoopWalk_eq (K : Sentinels) (M : List Int) (H : Nat) (tD eD : Int)
    (P : Function) (n b w : Nat) (hw : P.WalkStops (P.blocks H).dfsLastNum tD eD n b w) :
    ∀ fuel, n < fuel →
      findNodesInLoopWalk K M H tD eD fuel P b =
        if (P.blocks w).dfsLastNum = tD then
          some (P.setLoopFollow H eD, w)
        else if (P.blocks w).dfsLastNum = eD then
          some (P.setLoopFollow H tD, w)
        else
          match findEndlessFollow K (P.setLoopType H eNodeHeaderType.ENDLESS_TYPE) M H with
          | none => none
          | some P' => some (P', w) := by
  induction hw with
  | @stop w hs =>
    intro fuel hf
    obtain ⟨f, rfl⟩ : ∃ f, fuel = f + 1 := ⟨fuel - 1, by omega⟩
    unfold findNodesInLoopWalk
    by_cases h1 : (P.blocks w).dfsLastNum = tD
    · rw [if_pos h1, if_pos h1]
    · rw [if_neg h1, if_neg h1]
      by_cases h2 : (P.blocks w).dfsLastNum = eD
      · rw [if_pos h2, if_pos h2]
      · rw [if_neg h2, if_neg h2]
        have h3 : (P.blocks w).dfsLastNum ≤ (P.blocks H).dfsLastNum := by
          rcases hs with h | h | h
          · exact absurd h h1
          · exact absurd h h2
          · exact h
        rw [if_pos h3]
  | @next n b c w hno hc _ ih =>
    intro fuel hf
    obtain ⟨f, rfl⟩ : ∃ f, fuel = f + 1 := ⟨fuel - 1, by omega⟩
    unfold findNodesInLoopWalk
    rw [if_neg (fun h => hno (Or.inl h)), if_neg (fun h => hno (Or.inr (Or.inl h))),
      if_neg (fun h => hno (Or.inr (Or.inr h))), hc]
    exact ih f (by omega)

theorem sameUpTo_succDfs {P Q : Function} (h : P.SameUpTo BB.eraseLoop Q) (b : Nat) :
    Q.succDfs b = P.succDfs b := by
  unfold Function.succDfs
  rw [(eraseLoop_fields h b).2.2.2.2.1, (eraseLoop_fields h b).2.2.2.2.2.1]
  apply List.map_congr_left
  intro s _
  exact (eraseLoop_fields h s).1

theorem sameUpTo_allSuccDfs {P Q : Function} (h : P.SameUpTo BB.eraseLoop Q) :
    ∀ M : List Int, Q.allSuccDfs M = P.allSuccDfs M := by
  intro M
  induction M with
  | nil => rfl
  | cons p l ih =>
    unfold Function.allSuccDfs
    rw [ih, h.dfsLastAt]
    cases P.dfsLastAt p with
    | none => rfl
    | some b => simp only; rw [sameUpTo_succDfs h]

theorem setLoopFollow_sameUpTo (P : Function) (H : Nat) (m : Int) :
    P.SameUpTo BB.eraseLoop (P.setLoopFollow H m) :=
  Function.SameUpTo.setBB _ _ _ _ rfl

/-- The follow computed by `findEndlessFollow` depends only on the parts of the procedure
that `findNodesInLoop` does not write. -/
theorem findEndlessFollow_congr (K : Sentinels) {P Q : Function}
    (h : P.SameUpTo BB.eraseLoop Q) (M : List Int) (H : Nat) (hM : P.MembersOK M) :
    ∃ P' Q', findEndlessFollow K P M H = some P' ∧ findEndlessFollow K Q M H = some Q' ∧
      (Q'.blocks H).loopFollow = (P'.blocks H).loopFollow ∧
      Q.SameUpTo BB.eraseLoop Q' ∧ Q'.Icode = Q.Icode ∧
      (Q'.blocks H).loopType = (Q.blocks H).loopType := by
  refine ⟨_, _, findEndlessFollow_eq K P M H hM,
    findEndlessFollow_eq K Q M H (sameUpTo_membersOK h M hM), ?_, setLoopFollow_sameUpTo _ _ _,
    rfl, ?_⟩
  · rw [setLoopFollow_blocks_head, setLoopFollow_blocks_head, sameUpTo_allSuccDfs h]
  · simp [Function.setLoopFollow, Function.setBB]

theorem setLoopType_sameUpTo (P : Function) (H : Nat) (t : eNodeHeaderType) :
    P.SameUpTo BB.eraseLoop (P.setLoopType H t) :=
  Function.SameUpTo.setBB _ _ _ _ rfl

theorem setLoopHead_sameUpTo (P : Function) (b : Nat) (h : Int) :
    P.SameUpTo BB.eraseLoopHead (P.setLoopHead b h) :=
  Function.SameUpTo.setBB _ _ _ _ rfl

theorem setLoopType_loopType (P : Function) (H : Nat) (t : eNodeHeaderType) :
    ((P.setLoopType H t).blocks H).loopType = t := by
  simp [Function.setLoopType, Function.setBB]

theorem setLoopFollow_loopType (P : Function) (H : Nat) (f : Int) :
    ((P.setLoopFollow H f).blocks H).loopType = (P.blocks H).loopType := by
  simp [Function.setLoopFollow, Function.setBB]

theorem setLoopFollow_loopHead (P : Function) (H : Nat) (f : Int) (b : Nat) :
    ((P.setLoopFollow H f).blocks b).loopHead = (P.blocks b).loopHead := by
  by_cases h : b = H <;> simp [Function.setLoopFollow, Function.setBB, h]

theorem setLoopType_loopHead (P : Function) (H : Nat) (t : eNodeHeaderType) (b : Nat) :
    ((P.setLoopType H t).blocks b).loopHead = (P.blocks b).loopHead := by
  by_cases h : b = H <;> simp [Function.setLoopType, Function.setBB, h]

theorem setLlFlag_mono (Q P : Function) (hQ : Q.Icode = P.Icode) (j i : Int)
    (hi : (P.Icode i).JX_LOOP = true) : ((Q.SetLlFlagJX_LOOP j).Icode i).JX_LOOP = true := by
  unfold Function.SetLlFlagJX_LOOP
  simp only
  split
  · rfl
  · rw [hQ]; exact hi

theorem setLlFlag_set (Q : Function) (j : Int) :
    ((Q.SetLlFlagJX_LOOP j).Icode j).JX_LOOP = true := by
  simp [Function.SetLlFlagJX_LOOP]

/-- The end of the pre-test branch (lines 242-244): it returns when the follow is in the
table, sets `JX_LOOP` on the last instruction of the header and leaves `loopType` and
`loopFollow` of the header as they are. -/
theorem findNodesInLoopWalkEnd_ok (K : Sentinels) (H : Nat) (P P2 : Function) (w : Nat)
    (hs2 : P.SameUpTo BB.eraseLoop P2) (hi2 : P2.Icode = P.Icode)
    (hfol : (P2.blocks w).dfsLastNum > (P2.blocks H).dfsLastNum →
      P.InTable (P2.blocks H).loopFollow) :
    ∃ P', findNodesInLoopWalkEnd K H P2 w = some P' ∧
      P.SameUpTo BB.eraseLoop P' ∧ (P'.Icode (P.lastInstr H)).JX_LOOP = true ∧
      (∀ i, (P.Icode i).JX_LOOP = true → (P'.Icode i).JX_LOOP = true) ∧
      (P'.blocks H).loopType = (P2.blocks H).loopType ∧
      (P'.blocks H).loopFollow = (P2.blocks H).loopFollow ∧
      (∀ b, (P'.blocks b).loopHead = (P2.blocks b).loopHead ∨
        (P'.blocks b).loopHead = K.NO_NODE) := by
  have hlast : P2.lastInstr H = P.lastInstr H := sameUpTo_lastInstr hs2 H
  unfold findNodesInLoopWalkEnd
  by_cases hgt : (P2.blocks w).dfsLastNum > (P2.blocks H).dfsLastNum
  · rw [if_pos hgt]
    obtain ⟨f, hf⟩ := hfol hgt
    rw [hs2.dfsLastAt, hf, hlast]
    simp only
    have hs3 := setLoopHead_sameUpTo P2 f K.NO_NODE
    refine ⟨_, rfl, (hs2.trans (sameUpTo_eraseLoop_of_head hs3)).trans
      (Function.SameUpTo.setLlFlag _ _ _), setLlFlag_set _ _,
      fun i hi => setLlFlag_mono _ P hi2 _ i hi, ?_, ?_, fun b => ?_⟩
    · exact (eraseLoopHead_fields hs3 H).2.2.2.2.2.2.2.2.2.2.1
    · exact (eraseLoopHead_fields hs3 H).2.2.2.2.2.2.2.2.2.2.2.1
    · by_cases hb : b = f
      · right; subst hb; simp [Function.SetLlFlagJX_LOOP, Function.setLoopHead, Function.setBB]
      · left; simp [Function.SetLlFlagJX_LOOP, Function.setLoopHead, Function.setBB, hb]
  · rw [if_neg hgt, hlast]
    exact ⟨_, rfl, hs2.trans (Function.SameUpTo.setLlFlag _ _ _), setLlFlag_set _ _,
      fun i hi => setLlFlag_mono _ P hi2 _ i hi, rfl, rfl, fun _ => Or.inl rfl⟩

theorem walkStops_last_le (P : Function) (hd tD eD : Int) (n b w : Nat)
    (hw : P.WalkStops hd tD eD n b w) (h1 : (P.blocks w).dfsLastNum ≠ tD)
    (h2 : (P.blocks w).dfsLastNum ≠ eD) : (P.blocks w).dfsLastNum ≤ hd := by
  induction hw with
  | stop hs =>
    rcases hs with h | h | h
    · exact absurd h h1
    · exact absurd h h2
    · exact h
  | next _ _ _ ih => exact ih h1 h2

/-- Header two-way, latching node neither two-way nor a loop-instruction node (lines
213-245). -/
theorem findNodesInLoopType_walk (K : Sentinels) (fuel : Nat) (L H : Nat) (P : Function)
    (M : List Int) (t e n w : Nat)
    (hL : (P.blocks L).nodeType ≠ eBBKind.TWO_BRANCH)
    (hL' : (P.blocks L).nodeType ≠ eBBKind.LOOP_NODE)
    (hH : (P.blocks H).nodeType = eBBKind.TWO_BRANCH)
    (ht : P.edge H THEN = some t) (he : P.edge H ELSE = some e)
    (hw : P.WalkStops (P.blocks H).dfsLastNum (P.blocks t).dfsLastNum
      (P.blocks e).dfsLastNum n L w) (hn : n < fuel)
    (hft : P.InTable (P.blocks t).dfsLastNum) (hfe : P.InTable (P.blocks e).dfsLastNum)
    (hmem : P.MembersOK M) :
    ∃ P', findNodesInLoopType K fuel L H P M = some P' ∧ P.SameUpTo BB.eraseLoop P' ∧
      (P'.Icode (P.lastInstr H)).JX_LOOP = true ∧
      (∀ i, (P.Icode i).JX_LOOP = true → (P'.Icode i).JX_LOOP = true) ∧
      (∀ b, (P'.blocks b).loopHead = (P.blocks b).loopHead ∨
        (P'.blocks b).loopHead = K.NO_NODE) ∧
      ((P.blocks w).dfsLastNum = (P.blocks t).dfsLastNum →
        (P'.blocks H).loopType = eNodeHeaderType.WHILE_TYPE ∧
        (P'.blocks H).loopFollow = (P.blocks e).dfsLastNum) ∧
      ((P.blocks w).dfsLastNum ≠ (P.blocks t).dfsLastNum →
        (P.blocks w).dfsLastNum = (P.blocks e).dfsLastNum →
        (P'.blocks H).loopType = eNodeHeaderType.WHILE_TYPE ∧
        (P'.blocks H).loopFollow = (P.blocks t).dfsLastNum) ∧
      ((P.blocks w).dfsLastNum ≠ (P.blocks t).dfsLastNum →
        (P.blocks w).dfsLastNum ≠ (P.blocks e).dfsLastNum →
        (P'.blocks H).loopType = eNodeHeaderType.ENDLESS_TYPE ∧
        ∃ Q, findEndlessFollow K P M H = some Q ∧
          (P'.blocks H).loopFollow = (Q.blocks H).loopFollow) := by
  have hunf : findNodesInLoopType K fuel L H P M =
      match findNodesInLoopWalk K M H (P.blocks t).dfsLastNum (P.blocks e).dfsLastNum fuel
          (P.setLoopType H eNodeHeaderType.WHILE_TYPE) L with
      | none => none
      | some (P2, pbb) => findNodesInLoopWalkEnd K H P2 pbb := by
    have hsx := setLoopType_sameUpTo P H eNodeHeaderType.WHILE_TYPE
    have ht1 : (P.setLoopType H eNodeHeaderType.WHILE_TYPE).edgeDfs H THEN =
        some (P.blocks t).dfsLastNum := by
      rw [edgeDfs_of_edge _ H THEN t (by rw [sameUpTo_edge hsx]; exact ht),
        (eraseLoop_fields hsx t).1]
    have he1 : (P.setLoopType H eNodeHeaderType.WHILE_TYPE).edgeDfs H ELSE =
        some (P.blocks e).dfsLastNum := by
      rw [edgeDfs_of_edge _ H ELSE e (by rw [sameUpTo_edge hsx]; exact he),
        (eraseLoop_fields hsx e).1]
    unfold findNodesInLoopType
    simp only [hL, hL', hH, if_false, if_true, ht1, he1]
  have hs1 := setLoopType_sameUpTo P H eNodeHeaderType.WHILE_TYPE
  have hty1 := setLoopType_loopType P H eNodeHeaderType.WHILE_TYPE
  have hic1 : (P.setLoopType H eNodeHeaderType.WHILE_TYPE).Icode = P.Icode := rfl
  have hlh1 := setLoopType_loopHead P H eNodeHeaderType.WHILE_TYPE
  generalize P.setLoopType H eNodeHeaderType.WHILE_TYPE = P1 at hs1 hty1 hunf hic1 hlh1
  have hd : ∀ b, (P1.blocks b).dfsLastNum = (P.blocks b).dfsLastNum :=
    fun b => (eraseLoop_fields hs1 b).1
  have hw1 := sameUpTo_walkStops hs1 _ _ _ _ _ _ hw
  rw [← hd H] at hw1
  have hwalk := findNodesInLoopWalk_eq K M H _ _ P1 n L w hw1 fuel hn
  rw [hunf, hwalk, hd]
  by_cases h1 : (P.blocks w).dfsLastNum = (P.blocks t).dfsLastNum
  · rw [if_pos h1]
    simp only
    obtain ⟨P', hP', hs', hj1, hj2, hty, hfo, hlh⟩ := findNodesInLoopWalkEnd_ok K H P _ w
      (hs1.trans (setLoopFollow_sameUpTo P1 H _)) hic1
      (fun _ => by rw [setLoopFollow_blocks_head]; exact hfe)
    refine ⟨P', hP', hs', hj1, hj2, ?_, fun _ => ⟨?_, ?_⟩, fun h => absurd h1 h,
      fun h => absurd h1 h⟩
    · intro b; rw [← hlh1 b, ← setLoopFollow_loopHead P1 H (P.blocks e).dfsLastNum b]; exact hlh b
    · rw [hty, setLoopFollow_loopType]; exact hty1
    · rw [hfo, setLoopFollow_blocks_head]
  · rw [if_neg h1]
    by_cases h2 : (P.blocks w).dfsLastNum = (P.blocks e).dfsLastNum
    · rw [if_pos h2]
      simp only
      obtain ⟨P', hP', hs', hj1, hj2, hty, hfo, hlh⟩ := findNodesInLoopWalkEnd_ok K H P _ w
        (hs1.trans (setLoopFollow_sameUpTo P1 H _)) hic1
        (fun _ => by rw [setLoopFollow_blocks_head]; exact hft)
      refine ⟨P', hP', hs', hj1, hj2, ?_, fun h => absurd h h1, fun _ _ => ⟨?_, ?_⟩,
        fun _ h => absurd h2 h⟩
      · intro b
        rw [← hlh1 b, ← setLoopFollow_loopHead P1 H (P.blocks t).dfsLastNum b]; exact hlh b
      · rw [hty, setLoopFollow_loopType]; exact hty1
      · rw [hfo, setLoopFollow_blocks_head]
    · rw [if_neg h2]
      have hsE : P.SameUpTo BB.eraseLoop (P1.setLoopType H eNodeHeaderType.ENDLESS_TYPE) :=
        hs1.trans (setLoopType_sameUpTo _ _ _)
      obtain ⟨Q, Q', hQ, hQ', hfol, hsQ, hiQ, htQ⟩ := findEndlessFollow_congr K hsE M H hmem
      rw [hQ']
      simp only
      have hstop := walkStops_last_le P _ _ _ _ _ _ hw h1 h2
      have hle : ¬ (Q'.blocks w).dfsLastNum > (Q'.blocks H).dfsLastNum := by
        rw [(eraseLoop_fields (hsE.trans hsQ) w).1, (eraseLoop_fields (hsE.trans hsQ) H).1]
        omega
      obtain ⟨P', hP', hs', hj1, hj2, hty, hfo, hlh⟩ := findNodesInLoopWalkEnd_ok K H P Q' w
        (hsE.trans hsQ) (hiQ.trans hic1) (fun h => absurd h hle)
      have hQlh : ∀ b, (Q'.blocks b).loopHead = (P.blocks b).loopHead := by
        intro b
        have e1 := findEndlessFollow_eq K (P1.setLoopType H eNodeHeaderType.ENDLESS_TYPE) M H
          (sameUpTo_membersOK hsE M hmem)
        rw [hQ'] at e1
        cases e1
        rw [setLoopFollow_loopHead, setLoopType_loopHead, hlh1]
      refine ⟨P', hP', hs', hj1, hj2, ?_, fun h => absurd h h1, fun _ h => absurd h h2,
        fun _ _ => ⟨?_, Q, hQ, ?_⟩⟩
      · intro b; rw [← hQlh b]; exact hlh b
      · rw [hty, htQ, setLoopType_loopType]
      · rw [hfo, hfol]

/-! ## `findNodesInLoop`, branch by branch -/

theorem findNodesInLoop_eq (K : Sentinels) (fuel : Nat) (L H : Nat) (P P1 : Function)
    (intNodes : List Nat) (M : List Int)
    (h : findNodesInLoopNodes K L H P intNodes = some (P1, M)) :
    findNodesInLoop K fuel L H P intNodes = findNodesInLoopType K fuel L H P1 M := by
  unfold findNodesInLoop
  rw [h]

theorem setLoop_loopType (P : Function) (H : Nat) (t : eNodeHeaderType) (f : Int) (j : Int) :
    (((P.setLoop H t f).SetLlFlagJX_LOOP j).blocks H).loopType = t := by
  simp [Function.setLoop, Function.SetLlFlagJX_LOOP, Function.setLoopFollow,
    Function.setLoopType, Function.setBB]

theorem setLoop_loopFollow (P : Function) (H : Nat) (t : eNodeHeaderType) (f : Int) (j : Int) :
    (((P.setLoop H t f).SetLlFlagJX_LOOP j).blocks H).loopFollow = f := by
  simp [Function.setLoop, Function.SetLlFlagJX_LOOP, Function.setLoopFollow,
    Function.setLoopType, Function.setBB]

theorem setLoop_sameUpTo (P : Function) (H : Nat) (t : eNodeHeaderType) (f : Int) :
    P.SameUpTo BB.eraseLoop (P.setLoop H t f) :=
  (setLoopType_sameUpTo P H t).trans (setLoopFollow_sameUpTo _ H f)

theorem setLoop_loopHead (P : Function) (H : Nat) (t : eNodeHeaderType) (f : Int) (b : Nat) :
    ((P.setLoop H t f).blocks b).loopHead = (P.blocks b).loopHead := by
  unfold Function.setLoop
  rw [setLoopFollow_loopHead, setLoopType_loopHead]

/-- Header and latching node both two-way. -/
theorem findNodesInLoop_two_two (K : Sentinels) (fuel : Nat) (L H : Nat) (P : Function)
    (intNodes : List Nat) (t e lt le : Nat)
    (hH : (P.blocks H).nodeType = eBBKind.TWO_BRANCH)
    (hL : (P.blocks L).nodeType = eBBKind.TWO_BRANCH)
    (hHt : P.InTable (P.blocks H).dfsLastNum) (hLt : P.InTable (P.blocks L).dfsLastNum)
    (ht : P.edge H THEN = some t) (he : P.edge H ELSE = some e)
    (hlt : P.edge L THEN = some lt) (hle : P.edge L ELSE = some le) :
    ∃ P1 M P', findNodesInLoopNodes K L H P intNodes = some (P1, M) ∧
      findNodesInLoop K fuel L H P intNodes = some P' ∧
      ((L = H ∨ ((P.blocks t).dfsLastNum ∈ M ∧ (P.blocks e).dfsLastNum ∈ M)) →
        (P'.blocks H).loopType = eNodeHeaderType.REPEAT_TYPE ∧
        (P'.blocks H).loopFollow =
          (if lt = H then (P.blocks le).dfsLastNum else (P.blocks lt).dfsLastNum) ∧
        (P'.Icode (P.lastInstr L)).JX_LOOP = true) ∧
      (¬ (L = H ∨ ((P.blocks t).dfsLastNum ∈ M ∧ (P.blocks e).dfsLastNum ∈ M)) →
        (P'.blocks H).loopType = eNodeHeaderType.WHILE_TYPE ∧
        (P'.blocks H).loopFollow =
          (if (P.blocks t).dfsLastNum ∈ M then (P.blocks e).dfsLastNum
            else (P.blocks t).dfsLastNum) ∧
        (P'.blocks H).loopFollow ∉ M ∧
        (P'.Icode (P.lastInstr H)).JX_LOOP = true) := by
  obtain ⟨P1, M, hN, hs, hic, _, _, _, _, _⟩ := findNodesInLoopNodes_ok K L H P intNodes hHt hLt
  have hs' := sameUpTo_eraseLoop_of_head hs
  have hty := findNodesInLoopType_two_two K fuel L H P1 M t e lt le
    (by rw [(eraseLoop_fields hs' L).2.2.1]; exact hL)
    (by rw [(eraseLoop_fields hs' H).2.2.1]; exact hH)
    (by rw [sameUpTo_edge hs']; exact ht) (by rw [sameUpTo_edge hs']; exact he)
    (by rw [sameUpTo_edge hs']; exact hlt) (by rw [sameUpTo_edge hs']; exact hle)
  rw [(eraseLoop_fields hs' t).1, (eraseLoop_fields hs' e).1, (eraseLoop_fields hs' lt).1,
    (eraseLoop_fields hs' le).1, sameUpTo_lastInstr hs' L, sameUpTo_lastInstr hs' H] at hty
  refine ⟨P1, M, _, hN, (findNodesInLoop_eq K fuel L H P P1 intNodes M hN).trans hty, ?_, ?_⟩
  · intro hc
    rw [if_pos hc]
    exact ⟨setLoop_loopType _ _ _ _ _, setLoop_loopFollow _ _ _ _ _, setLlFlag_set _ _⟩
  · intro hc
    rw [if_neg hc]
    refine ⟨setLoop_loopType _ _ _ _ _, setLoop_loopFollow _ _ _ _ _, ?_, setLlFlag_set _ _⟩
    rw [setLoop_loopFollow]
    by_cases h1 : (P.blocks t).dfsLastNum ∈ M
    · rw [if_pos h1]
      exact fun h2 => hc (Or.inr ⟨h1, h2⟩)
    · rw [if_neg h1]; exact h1

/-- Latching node two-way, header not. -/
theorem findNodesInLoop_other_two (K : Sentinels) (fuel : Nat) (L H : Nat) (P : Function)
    (intNodes : List Nat) (lt le : Nat)
    (hH : (P.blocks H).nodeType ≠ eBBKind.TWO_BRANCH)
    (hL : (P.blocks L).nodeType = eBBKind.TWO_BRANCH)
    (hHt : P.InTable (P.blocks H).dfsLastNum) (hLt : P.InTable (P.blocks L).dfsLastNum)
    (hlt : P.edge L THEN = some lt) (hle : P.edge L ELSE = some le) :
    ∃ P', findNodesInLoop K fuel L H P intNodes = some P' ∧
      (P'.blocks H).loopType = eNodeHeaderType.REPEAT_TYPE ∧
      (P'.blocks H).loopFollow =
        (if lt = H then (P.blocks le).dfsLastNum else (P.blocks lt).dfsLastNum) ∧
      (P'.Icode (P.lastInstr L)).JX_LOOP = true := by
  obtain ⟨P1, M, hN, hs, hic, _, _, _, _, _⟩ := findNodesInLoopNodes_ok K L H P intNodes hHt hLt
  have hs' := sameUpTo_eraseLoop_of_head hs
  have hty := findNodesInLoopType_other_two K fuel L H P1 M lt le
    (by rw [(eraseLoop_fields hs' L).2.2.1]; exact hL)
    (by rw [(eraseLoop_fields hs' H).2.2.1]; exact hH)
    (by rw [sameUpTo_edge hs']; exact hlt) (by rw [sameUpTo_edge hs']; exact hle)
  rw [(eraseLoop_fields hs' lt).1, (eraseLoop_fields hs' le).1, sameUpTo_lastInstr hs' L] at hty
  exact ⟨_, (findNodesInLoop_eq K fuel L H P P1 intNodes M hN).trans hty,
    setLoop_loopType _ _ _ _ _, setLoop_loopFollow _ _ _ _ _, setLlFlag_set _ _⟩

/-- Latching node a loop-instruction node: a post-test loop whose follow is the target of
the first out-edge of the latching node; no instruction flag is set. -/
theorem findNodesInLoop_loop_node (K : Sentinels) (fuel : Nat) (L H : Nat) (P : Function)
    (intNodes : List Nat) (l0 : Nat)
    (hL : (P.blocks L).nodeType = eBBKind.LOOP_NODE)
    (hHt : P.InTable (P.blocks H).dfsLastNum) (hLt : P.InTable (P.blocks L).dfsLastNum)
    (hl0 : P.edge L 0 = some l0) :
    ∃ P', findNodesInLoop K fuel L H P intNodes = some P' ∧
      (P'.blocks H).loopType = eNodeHeaderType.REPEAT_TYPE ∧
      (P'.blocks H).loopFollow = (P.blocks l0).dfsLastNum ∧
      P'.Icode = P.Icode := by
  obtain ⟨P1, M, hN, hs, hic, _, _, _, _, _⟩ := findNodesInLoopNodes_ok K L H P intNodes hHt hLt
  have hs' := sameUpTo_eraseLoop_of_head hs
  have hty := findNodesInLoopType_loop_node K fuel L H P1 M l0
    (by rw [(eraseLoop_fields hs' L).2.2.1]; exact hL)
    (by rw [sameUpTo_edge hs']; exact hl0)
  rw [(eraseLoop_fields hs' l0).1] at hty
  refine ⟨_, (findNodesInLoop_eq K fuel L H P P1 intNodes M hN).trans hty, ?_, ?_, hic⟩
  · simp [Function.setLoop, Function.setLoopFollow, Function.setLoopType, Function.setBB]
  · simp [Function.setLoop, Function.setLoopFollow, Function.setLoopType, Function.setBB]

theorem membersOK_of_inTable (P : Function) (hout : P.OutEdgesOK) (M : List Int)
    (hM : ∀ x ∈ M, P.InTable x) : P.MembersOK M := by
  intro p hp
  obtain ⟨b, hb⟩ := hM p hp
  exact ⟨b, hb, hout p b hb⟩

/-- Neither header nor latching node two-way, latching node not a loop-instruction node:
an endless loop whose follow is the one computed by `findEndlessFollow` on the node list of
the loop. -/
theorem findNodesInLoop_endless (K : Sentinels) (fuel : Nat) (L H : Nat) (P : Function)
    (intNodes : List Nat)
    (hH : (P.blocks H).nodeType ≠ eBBKind.TWO_BRANCH)
    (hL : (P.blocks L).nodeType ≠ eBBKind.TWO_BRANCH)
    (hL' : (P.blocks L).nodeType ≠ eBBKind.LOOP_NODE)
    (hHt : P.InTable (P.blocks H).dfsLastNum) (hLt : P.InTable (P.blocks L).dfsLastNum)
    (hout : P.OutEdgesOK) :
    ∃ P1 M P', findNodesInLoopNodes K L H P intNodes = some (P1, M) ∧
      findNodesInLoop K fuel L H P intNodes = some P' ∧
      (P'.blocks H).loopType = eNodeHeaderType.ENDLESS_TYPE ∧
      (∃ Q, findEndlessFollow K P M H = some Q ∧
        (P'.blocks H).loopFollow = (Q.blocks H).loopFollow) ∧
      P'.Icode = P.Icode := by
  obtain ⟨P1, M, hN, hs, hic, _, _, hM, _, _⟩ := findNodesInLoopNodes_ok K L H P intNodes hHt hLt
  have hs' := sameUpTo_eraseLoop_of_head hs
  have hty := findNodesInLoopType_endless K fuel L H P1 M
    (by rw [(eraseLoop_fields hs' L).2.2.1]; exact hL)
    (by rw [(eraseLoop_fields hs' L).2.2.1]; exact hL')
    (by rw [(eraseLoop_fields hs' H).2.2.1]; exact hH)
  obtain ⟨Q, Q', hQ, hQ', hfol, _, hiQ, htQ⟩ := findEndlessFollow_congr K
    (hs'.trans (setLoopType_sameUpTo P1 H eNodeHeaderType.ENDLESS_TYPE)) M H
    (membersOK_of_inTable P hout M hM)
  refine ⟨P1, M, Q', hN, ((findNodesInLoop_eq K fuel L H P P1 intNodes M hN).trans hty).trans hQ',
    ?_, ⟨Q, hQ, hfol⟩, hiQ.trans hic⟩
  rw [htQ, setLoopType_loopType]

/-- Header two-way, latching node neither two-way nor a
loop-instruction node. -/
theorem findNodesInLoop_walk (K : Sentinels) (fuel : Nat) (L H : Nat) (P : Function)
    (intNodes : List Nat) (t e n w : Nat)
    (hH : (P.blocks H).nodeType = eBBKind.TWO_BRANCH)
    (hL : (P.blocks L).nodeType ≠ eBBKind.TWO_BRANCH)
    (hL' : (P.blocks L).nodeType ≠ eBBKind.LOOP_NODE)
    (hHt : P.InTable (P.blocks H).dfsLastNum) (hLt : P.InTable (P.blocks L).dfsLastNum)
    (hout : P.OutEdgesOK)
    (ht : P.edge H THEN = some t) (he : P.edge H ELSE = some e)
    (hft : P.InTable (P.blocks t).dfsLastNum) (hfe : P.InTable (P.blocks e).dfsLastNum)
    (hw : P.WalkStops (P.blocks H).dfsLastNum (P.blocks t).dfsLastNum
      (P.blocks e).dfsLastNum n L w) (hn : n < fuel) :
    ∃ P1 M P', findNodesInLoopNodes K L H P intNodes = some (P1, M) ∧
      findNodesInLoop K fuel L H P intNodes = some P' ∧
      ((P.blocks w).dfsLastNum = (P.blocks t).dfsLastNum →
        (P'.blocks H).loopType = eNodeHeaderType.WHILE_TYPE ∧
        (P'.blocks H).loopFollow = (P.blocks e).dfsLastNum) ∧
      ((P.blocks w).dfsLastNum ≠ (P.blocks t).dfsLastNum →
        (P.blocks w).dfsLastNum = (P.blocks e).dfsLastNum →
        (P'.blocks H).loopType = eNodeHeaderType.WHILE_TYPE ∧
        (P'.blocks H).loopFollow = (P.blocks t).dfsLastNum) ∧
      ((P.blocks w).dfsLastNum ≠ (P.blocks t).dfsLastNum →
        (P.blocks w).dfsLastNum ≠ (P.blocks e).dfsLastNum →
        (P'.blocks H).loopType = eNodeHeaderType.ENDLESS_TYPE ∧
        ∃ Q, findEndlessFollow K P M H = some Q ∧
          (P'.blocks H).loopFollow = (Q.blocks H).loopFollow) ∧
      (P'.Icode (P.lastInstr H)).JX_LOOP = true := by
  obtain ⟨P1, M, hN, hs, hic, _, _, hM, _, _⟩ := findNodesInLoopNodes_ok K L H P intNodes hHt hLt
  have hs' := sameUpTo_eraseLoop_of_head hs
  have hd : ∀ b, (P1.blocks b).dfsLastNum = (P.blocks b).dfsLastNum :=
    fun b => (eraseLoop_fields hs' b).1
  have hw1 := sameUpTo_walkStops hs' _ _ _ _ _ _ hw
  rw [← hd H, ← hd t, ← hd e] at hw1
  obtain ⟨P', hP', _, hj, _, _, hA, hB, hC⟩ := findNodesInLoopType_walk K fuel L H P1 M t e n w
    (by rw [(eraseLoop_fields hs' L).2.2.1]; exact hL)
    (by rw [(eraseLoop_fields hs' L).2.2.1]; exact hL')
    (by rw [(eraseLoop_fields hs' H).2.2.1]; exact hH)
    (by rw [sameUpTo_edge hs']; exact ht) (by rw [sameUpTo_edge hs']; exact he)
    hw1 hn (by rw [sameUpTo_inTable hs', hd]; exact hft)
    (by rw [sameUpTo_inTable hs', hd]; exact hfe)
    (sameUpTo_membersOK hs' M (membersOK_of_inTable P hout M hM))
  rw [hd w, hd t, hd e] at hA hB hC
  rw [sameUpTo_lastInstr hs' H] at hj
  refine ⟨P1, M, P', hN, (findNodesInLoop_eq K fuel L H P P1 intNodes M hN).trans hP', hA, hB,
    ?_, hj⟩
  intro h1 h2
  obtain ⟨hty, Q1, hQ1, hfo⟩ := hC h1 h2
  obtain ⟨Q, Q1', hQ, hQ1', hfol, _, _, _⟩ := findEndlessFollow_congr K hs' M H
    (membersOK_of_inTable P hout M hM)
  rw [hQ1] at hQ1'
  cases hQ1'
  exact ⟨hty, Q, hQ, hfo.trans hfol⟩

/-! ## `findNodesInLoop` as a whole, and the acceptance of a latching node -/

theorem setLoop_icode (P : Function) (H : Nat) (t : eNodeHeaderType) (f : Int) :
    (P.setLoop H t f).Icode = P.Icode := rfl

theorem setLoop_loopType' (P : Function) (H : Nat) (t : eNodeHeaderType) (f : Int) :
    ((P.setLoop H t f).blocks H).loopType = t := by
  simp [Function.setLoop, Function.setLoopFollow, Function.setLoopType, Function.setBB]

/-- The function `findNodesInLoop` returns on well-formed arguments; it writes `loopHead`,
`loopType` and `loopFollow` fields only, never clears an instruction flag, sets `JX_LOOP`
on the last instruction of a two-way latching node when the loop comes out post-test and
on the last instruction of the header when it comes out pre-test, and leaves the number
of the header in `loopHead` of the latching node unless the pre-test branch resets it. -/
theorem findNodesInLoop_ok (K : Sentinels) (fuel : Nat) (L H : Nat) (P : Function)
    (intNodes : List Nat) (hwf : P.LoopWF fuel H L) :
    ∃ P', findNodesInLoop K fuel L H P intNodes = some P' ∧ P.SameUpTo BB.eraseLoop P' ∧
      (∀ i, (P.Icode i).JX_LOOP = true → (P'.Icode i).JX_LOOP = true) ∧
      ((P'.blocks H).loopType = eNodeHeaderType.REPEAT_TYPE →
        (P.blocks L).nodeType = eBBKind.TWO_BRANCH →
        (P'.Icode (P.lastInstr L)).JX_LOOP = true) ∧
      ((P'.blocks H).loopType = eNodeHeaderType.WHILE_TYPE →
        (P'.Icode (P.lastInstr H)).JX_LOOP = true) ∧
      ((P'.blocks L).loopHead = (P.blocks H).dfsLastNum ∨
        ((P.blocks H).nodeType = eBBKind.TWO_BRANCH ∧
          (P.blocks L).nodeType ≠ eBBKind.TWO_BRANCH ∧
          (P.blocks L).nodeType ≠ eBBKind.LOOP_NODE ∧
          (P'.blocks L).loopHead = K.NO_NODE)) := by
  obtain ⟨hHt, hLt, hout, hLtwo, hLloop, hHtwo⟩ := hwf
  obtain ⟨P1, M, hN, hs, hic, _, _, hM, hLH, _⟩ := findNodesInLoopNodes_ok K L H P intNodes hHt hLt
  have hs' := sameUpTo_eraseLoop_of_head hs
  have heq := findNodesInLoop_eq K fuel L H P P1 intNodes M hN
  have hnL : (P1.blocks L).nodeType = (P.blocks L).nodeType := (eraseLoop_fields hs' L).2.2.1
  have hnH : (P1.blocks H).nodeType = (P.blocks H).nodeType := (eraseLoop_fields hs' H).2.2.1
  have hlL := sameUpTo_lastInstr hs' L
  have hlH := sameUpTo_lastInstr hs' H
  by_cases hL : (P.blocks L).nodeType = eBBKind.TWO_BRANCH
  · obtain ⟨lt, le, hlt, hle⟩ := hLtwo hL
    by_cases hH : (P.blocks H).nodeType = eBBKind.TWO_BRANCH
    · obtain ⟨t, e, ht, he, _⟩ := hHtwo hH
      have hty := findNodesInLoopType_two_two K fuel L H P1 M t e lt le (hnL.trans hL)
        (hnH.trans hH) (by rw [sameUpTo_edge hs']; exact ht) (by rw [sameUpTo_edge hs']; exact he)
        (by rw [sameUpTo_edge hs']; exact hlt) (by rw [sameUpTo_edge hs']; exact hle)
      rw [hlL, hlH] at hty
      rw [heq, hty]
      split
      · refine ⟨_, rfl, (hs'.trans (setLoop_sameUpTo _ _ _ _)).trans
          (Function.SameUpTo.setLlFlag _ _ _),
          fun i hi => setLlFlag_mono _ P ((setLoop_icode _ _ _ _).trans hic) _ i hi,
          fun _ _ => setLlFlag_set _ _, ?_, Or.inl ?_⟩
        · intro h
          rw [setLoop_loopType] at h
          cases h
        · change ((P1.setLoop H _ _).blocks L).loopHead = _
          rw [setLoop_loopHead]; exact hLH
      · refine ⟨_, rfl, (hs'.trans (setLoop_sameUpTo _ _ _ _)).trans
          (Function.SameUpTo.setLlFlag _ _ _),
          fun i hi => setLlFlag_mono _ P ((setLoop_icode _ _ _ _).trans hic) _ i hi,
          ?_, fun _ => setLlFlag_set _ _, Or.inl ?_⟩
        · intro h
          rw [setLoop_loopType] at h
          cases h
        · change ((P1.setLoop H _ _).blocks L).loopHead = _
          rw [setLoop_loopHead]; exact hLH
    · have hty := findNodesInLoopType_other_two K fuel L H P1 M lt le (hnL.trans hL)
        (by rw [hnH]; exact hH) (by rw [sameUpTo_edge hs']; exact hlt)
        (by rw [sameUpTo_edge hs']; exact hle)
      rw [hlL] at hty
      rw [heq, hty]
      refine ⟨_, rfl, (hs'.trans (setLoop_sameUpTo _ _ _ _)).trans
        (Function.SameUpTo.setLlFlag _ _ _),
        fun i hi => setLlFlag_mono _ P ((setLoop_icode _ _ _ _).trans hic) _ i hi,
        fun _ _ => setLlFlag_set _ _, ?_, Or.inl ?_⟩
      · intro h
        rw [setLoop_loopType] at h
        cases h
      · change ((P1.setLoop H _ _).blocks L).loopHead = _
        rw [setLoop_loopHead]; exact hLH
  · by_cases hL' : (P.blocks L).nodeType = eBBKind.LOOP_NODE
    · obtain ⟨l0, hl0⟩ := hLloop hL'
      have hty := findNodesInLoopType_loop_node K fuel L H P1 M l0 (hnL.trans hL')
        (by rw [sameUpTo_edge hs']; exact hl0)
      rw [heq, hty]
      refine ⟨_, rfl, hs'.trans (setLoop_sameUpTo _ _ _ _),
        fun i hi => by rw [setLoop_icode, hic]; exact hi,
        fun _ h => absurd h hL, ?_, Or.inl ?_⟩
      · intro h
        rw [setLoop_loopType'] at h
        cases h
      · rw [setLoop_loopHead]; exact hLH
    · by_cases hH : (P.blocks H).nodeType = eBBKind.TWO_BRANCH
      · obtain ⟨t, e, ht, he, hrest⟩ := hHtwo hH
        obtain ⟨hft, hfe, n, w, hn, hw⟩ := hrest hL hL'
        have hd : ∀ b, (P1.blocks b).dfsLastNum = (P.blocks b).dfsLastNum :=
          fun b => (eraseLoop_fields hs' b).1
        have hw1 := sameUpTo_walkStops hs' _ _ _ _ _ _ hw
        rw [← hd H, ← hd t, ← hd e] at hw1
        obtain ⟨P', hP', hsP, hj, hmono, hlh, hA, hB, hC⟩ := findNodesInLoopType_walk K fuel L H
          P1 M t e n w (by rw [hnL]; exact hL) (by rw [hnL]; exact hL') (hnH.trans hH)
          (by rw [sameUpTo_edge hs']; exact ht) (by rw [sameUpTo_edge hs']; exact he)
          hw1 hn (by rw [sameUpTo_inTable hs', hd]; exact hft)
          (by rw [sameUpTo_inTable hs', hd]; exact hfe)
          (sameUpTo_membersOK hs' M (membersOK_of_inTable P hout M hM))
        rw [hlH] at hj
        rw [heq, hP']
        refine ⟨P', rfl, hs'.trans hsP, fun i hi => hmono i (by rw [hic]; exact hi),
          fun _ h => absurd h hL, fun _ => hj, ?_⟩
        rcases hlh L with h | h
        · exact Or.inl (h.trans hLH)
        · exact Or.inr ⟨hH, hL, hL', h⟩
      · have hty := findNodesInLoopType_endless K fuel L H P1 M (by rw [hnL]; exact hL)
          (by rw [hnL]; exact hL') (by rw [hnH]; exact hH)
        have hfe := findEndlessFollow_eq K (P1.setLoopType H eNodeHeaderType.ENDLESS_TYPE) M H
          (sameUpTo_membersOK (hs'.trans (setLoopType_sameUpTo _ _ _)) M
            (membersOK_of_inTable P hout M hM))
        rw [heq, hty, hfe]
        refine ⟨_, rfl, (hs'.trans (setLoopType_sameUpTo _ _ _)).trans
          (setLoopFollow_sameUpTo _ _ _), fun i hi => ?_, fun _ h => absurd h hL, ?_, Or.inl ?_⟩
        · change (P1.Icode i).JX_LOOP = true
          rw [hic]; exact hi
        · intro h
          rw [setLoopFollow_loopType, setLoopType_loopType] at h
          cases h
        · rw [setLoopFollow_loopHead, setLoopType_loopHead]; exact hLH

/-! ## What the loop structurer does not write -/

theorem static_fields {P Q : Function} (h : P.SameUpTo BB.eraseStructLoops Q) (b : Nat) :
    (Q.blocks b).dfsLastNum = (P.blocks b).dfsLastNum ∧
    (Q.blocks b).dfsFirstNum = (P.blocks b).dfsFirstNum ∧
    (Q.blocks b).nodeType = (P.blocks b).nodeType ∧
    (Q.blocks b).edges = (P.blocks b).edges ∧
    (Q.blocks b).numOutEdges = (P.blocks b).numOutEdges ∧
    (Q.blocks b).immedDom = (P.blocks b).immedDom ∧
    (Q.blocks b).start = (P.blocks b).start ∧
    (Q.blocks b).length = (P.blocks b).length ∧
    (Q.blocks b).caseHead = (P.blocks b).caseHead ∧
    (Q.blocks b).inEdges = (P.blocks b).inEdges ∧
    (Q.blocks b).numInEdges = (P.blocks b).numInEdges ∧
    (Q.blocks b).correspInt = (P.blocks b).correspInt := by
  have h0 := h.2.2.2 b
  refine ⟨?_, ?_, ?_, ?_, ?_, ?_, ?_, ?_, ?_, ?_, ?_, ?_⟩
  · have h1 := congrArg BB.dfsLastNum h0; exact h1
  · have h1 := congrArg BB.dfsFirstNum h0; exact h1
  · have h1 := congrArg BB.nodeType h0; exact h1
  · have h1 := congrArg BB.edges h0; exact h1
  · have h1 := congrArg BB.numOutEdges h0; exact h1
  · have h1 := congrArg BB.immedDom h0; exact h1
  · have h1 := congrArg BB.start h0; exact h1
  · have h1 := congrArg BB.length h0; exact h1
  · have h1 := congrArg BB.caseHead h0; exact h1
  · have h1 := congrArg BB.inEdges h0; exact h1
  · have h1 := congrArg BB.numInEdges h0; exact h1
  · have h1 := congrArg BB.correspInt h0; exact h1

theorem static_of_eraseLoop {P Q : Function} (h : P.SameUpTo BB.eraseLoop Q) :
    P.SameUpTo BB.eraseStructLoops Q :=
  Function.SameUpTo.mono BB.eraseLoop BB.eraseStructLoops (fun _ => rfl) h

theorem static_of_eraseNumBackEdges {P Q : Function}
    (h : P.SameUpTo BB.eraseNumBackEdges Q) : P.SameUpTo BB.eraseStructLoops Q :=
  Function.SameUpTo.mono BB.eraseNumBackEdges BB.eraseStructLoops (fun _ => rfl) h

theorem static_setLatchNode (P : Function) (b : Nat) (l : Int) :
    P.SameUpTo BB.eraseStructLoops (P.setLatchNode b l) :=
  Function.SameUpTo.setBB _ _ _ _ rfl

theorem static_setIsLatchNode (P : Function) (b : Nat) :
    P.SameUpTo BB.eraseStructLoops (P.setIsLatchNode b) :=
  Function.SameUpTo.setBB _ _ _ _ rfl

theorem static_edge {P Q : Function} (h : P.SameUpTo BB.eraseStructLoops Q) (b i : Nat) :
    Q.edge b i = P.edge b i := by
  unfold Function.edge
  rw [(static_fields h b).2.2.2.1]

theorem static_lastInstr {P Q : Function} (h : P.SameUpTo BB.eraseStructLoops Q) (b : Nat) :
    Q.lastInstr b = P.lastInstr b := by
  unfold Function.lastInstr
  rw [(static_fields h b).2.2.2.2.2.2.1, (static_fields h b).2.2.2.2.2.2.2.1]

theorem static_inTable {P Q : Function} (h : P.SameUpTo BB.eraseStructLoops Q) (i : Int) :
    Q.InTable i ↔ P.InTable i := by
  unfold Function.InTable
  rw [h.dfsLastAt]

theorem static_outEdgesOK {P Q : Function} (h : P.SameUpTo BB.eraseStructLoops Q)
    (hP : P.OutEdgesOK) : Q.OutEdgesOK := by
  intro i b hb
  rw [h.dfsLastAt] at hb
  rw [(static_fields h b).2.2.2.1, (static_fields h b).2.2.2.2.1]
  exact hP i b hb

theorem static_walkStops {P Q : Function} (h : P.SameUpTo BB.eraseStructLoops Q)
    (hd tD eD : Int) (n b w : Nat) (hw : P.WalkStops hd tD eD n b w) :
    Q.WalkStops hd tD eD n b w := by
  induction hw with
  | stop hs =>
    exact Function.WalkStops.stop (by rw [(static_fields h _).1]; exact hs)
  | next hno hc _ ih =>
    exact Function.WalkStops.next (by rw [(static_fields h _).1]; exact hno)
      (by rw [h.dfsLastAt, (static_fields h _).2.2.2.2.2.1]; exact hc) ih

/-- Well-formedness for `findNodesInLoop` only depends on what the loop structurer does
not write. -/
theorem static_loopWF {P Q : Function} (h : P.SameUpTo BB.eraseStructLoops Q) (fuel : Nat)
    (H L : Nat) (hwf : P.LoopWF fuel H L) : Q.LoopWF fuel H L := by
  obtain ⟨h1, h2, h3, h4, h5, h6⟩ := hwf
  have hd : ∀ b, (Q.blocks b).dfsLastNum = (P.blocks b).dfsLastNum :=
    fun b => (static_fields h b).1
  have hn : ∀ b, (Q.blocks b).nodeType = (P.blocks b).nodeType :=
    fun b => (static_fields h b).2.2.1
  refine ⟨by rw [static_inTable h, hd]; exact h1, by rw [static_inTable h, hd]; exact h2,
    static_outEdgesOK h h3, ?_, ?_, ?_⟩
  · intro hL
    rw [hn] at hL
    obtain ⟨lt, le, e1, e2⟩ := h4 hL
    exact ⟨lt, le, by rw [static_edge h]; exact e1, by rw [static_edge h]; exact e2⟩
  · intro hL
    rw [hn] at hL
    obtain ⟨l0, e1⟩ := h5 hL
    exact ⟨l0, by rw [static_edge h]; exact e1⟩
  · intro hH
    rw [hn] at hH
    obtain ⟨t, e, e1, e2, hrest⟩ := h6 hH
    refine ⟨t, e, by rw [static_edge h]; exact e1, by rw [static_edge h]; exact e2, ?_⟩
    intro hL hL'
    rw [hn] at hL hL'
    obtain ⟨f1, f2, n, w, hnf, hw⟩ := hrest hL hL'
    refine ⟨by rw [static_inTable h, hd]; exact f1, by rw [static_inTable h, hd]; exact f2,
      n, w, hnf, ?_⟩
    rw [hd, hd, hd]
    exact static_walkStops h _ _ _ _ _ _ hw

theorem setLatchNode_latchNode (P : Function) (b : Nat) (l : Int) :
    ((P.setLatchNode b l).blocks b).latchNode = l := by
  simp [Function.setLatchNode, Function.setBB]

theorem setIsLatchNode_flag (P : Function) (b : Nat) :
    ((P.setIsLatchNode b).blocks b).flg.IS_LATCH_NODE = true := by
  simp [Function.setIsLatchNode, Function.setBB]

theorem setIsLatchNode_fields (P : Function) (b c : Nat) :
    ((P.setIsLatchNode b).blocks c).latchNode = (P.blocks c).latchNode ∧
    ((P.setIsLatchNode b).blocks c).loopType = (P.blocks c).loopType ∧
    ((P.setIsLatchNode b).blocks c).loopHead = (P.blocks c).loopHead ∧
    ((P.setIsLatchNode b).blocks c).loopFollow = (P.blocks c).loopFollow ∧
    ((P.blocks c).flg.IS_LATCH_NODE = true →
      ((P.setIsLatchNode b).blocks c).flg.IS_LATCH_NODE = true) := by
  by_cases h : c = b <;> simp [Function.setIsLatchNode, Function.setBB, h]

theorem setLatchNode_fields (P : Function) (b : Nat) (l : Int) (c : Nat) :
    ((P.setLatchNode b l).blocks c).flg = (P.blocks c).flg ∧
    ((P.setLatchNode b l).blocks c).loopHead = (P.blocks c).loopHead ∧
    (c ≠ b → ((P.setLatchNode b l).blocks c).latchNode = (P.blocks c).latchNode) := by
  by_cases h : c = b <;> simp [Function.setLatchNode, Function.setBB, h]

/-- The acceptance of a latching node (lines 328-334) on well-formed arguments. -/
theorem structLoopsAccept_ok (K : Sentinels) (fuel : Nat) (intNodes : List Nat) (H L : Nat)
    (P : Function) (hwf : P.LoopWF fuel H L)
    (hcase : (P.blocks L).caseHead = (P.blocks H).caseHead)
    (hfree : (P.blocks L).loopHead = K.NO_NODE) :
    ∃ P', structLoopsAccept K fuel intNodes H P (some L) = some P' ∧
      P.SameUpTo BB.eraseStructLoops P' ∧
      (∀ i, (P.Icode i).JX_LOOP = true → (P'.Icode i).JX_LOOP = true) ∧
      (∀ b, (P.blocks b).flg.IS_LATCH_NODE = true → (P'.blocks b).flg.IS_LATCH_NODE = true) ∧
      (∀ b, b ≠ H → (P'.blocks b).latchNode = (P.blocks b).latchNode) ∧
      (P'.blocks L).flg.IS_LATCH_NODE = true ∧
      (P'.blocks H).latchNode = (P.blocks L).dfsLastNum ∧
      ((P'.blocks H).loopType = eNodeHeaderType.REPEAT_TYPE →
        (P.blocks L).nodeType = eBBKind.TWO_BRANCH →
        (P'.Icode (P.lastInstr L)).JX_LOOP = true) ∧
      ((P'.blocks H).loopType = eNodeHeaderType.WHILE_TYPE →
        (P'.Icode (P.lastInstr H)).JX_LOOP = true) ∧
      ((P'.blocks L).loopHead = (P.blocks H).dfsLastNum ∨
        ((P.blocks H).nodeType = eBBKind.TWO_BRANCH ∧
          (P.blocks L).nodeType ≠ eBBKind.TWO_BRANCH ∧
          (P.blocks L).nodeType ≠ eBBKind.LOOP_NODE ∧
          (P'.blocks L).loopHead = K.NO_NODE)) := by
  have hs0 := static_setLatchNode P H (P.blocks L).dfsLastNum
  obtain ⟨P2, hP2, hs2, hmono, hrep, hwh, hlh⟩ := findNodesInLoop_ok K fuel L H
    (P.setLatchNode H (P.blocks L).dfsLastNum) intNodes (static_loopWF hs0 fuel H L hwf)
  have hf2 := fun b => eraseLoop_fields hs2 b
  have hsall := (hs0.trans (static_of_eraseLoop hs2)).trans (static_setIsLatchNode P2 L)
  have hunf : structLoopsAccept K fuel intNodes H P (some L) = some (P2.setIsLatchNode L) := by
    unfold structLoopsAccept
    simp only
    rw [if_pos ⟨hcase, hfree⟩, hP2]
  rw [hunf]
  rw [static_lastInstr hs0 L, (static_fields hs0 L).2.2.1] at hrep
  rw [static_lastInstr hs0 H] at hwh
  rw [(static_fields hs0 H).1, (static_fields hs0 H).2.2.1, (static_fields hs0 L).2.2.1] at hlh
  refine ⟨_, rfl, hsall, fun i hi => hmono i hi, ?_, ?_, setIsLatchNode_flag _ _, ?_, ?_, ?_, ?_⟩
  · intro b hb
    apply (setIsLatchNode_fields P2 L b).2.2.2.2
    rw [(hf2 b).2.2.2.1, (setLatchNode_fields P H _ b).1]
    exact hb
  · intro b hb
    rw [(setIsLatchNode_fields P2 L b).1, (hf2 b).2.2.2.2.2.2.2.2.2.1]
    exact (setLatchNode_fields P H _ b).2.2 hb
  · rw [(setIsLatchNode_fields P2 L H).1, (hf2 H).2.2.2.2.2.2.2.2.2.1, setLatchNode_latchNode]
  · intro h hL
    rw [(setIsLatchNode_fields P2 L H).2.1] at h
    exact hrep h hL
  · intro h
    rw [(setIsLatchNode_fields P2 L H).2.1] at h
    exact hwh h
  · rw [(setIsLatchNode_fields P2 L L).2.2.1]
    exact hlh

/-! ## The loop structurer as a whole -/

theorem static_initInt {P Q : Function} (h : P.SameUpTo BB.eraseStructLoops Q) :
    ∀ (n : Nat) (Ii : interval), initInt Q n Ii = initInt P n Ii := by
  intro n
  induction n with
  | zero => intro Ii; rfl
  | succ n ih =>
    intro Ii
    unfold initInt
    cases Ii.nodes.head? with
    | none => rfl
    | some b =>
      simp only
      rw [(static_fields h b).2.2.2.2.2.2.2.2.2.2.2]
      cases (P.blocks b).correspInt with
      | none => rfl
      | some Ij => exact ih Ij

theorem static_findNodesInInt {P Q : Function} (h : P.SameUpTo BB.eraseStructLoops Q) :
    ∀ (level : Nat) (Ii : interval) (q : List Nat),
      findNodesInInt Q level Ii q = findNodesInInt P level Ii q := by
  intro level
  induction level using Nat.strong_induction_on with
  | _ level ih =>
    intro Ii q
    match level with
    | 0 => rfl
    | 1 => rfl
    | level + 2 =>
      unfold findNodesInInt
      congr 1
      funext q' en
      rw [(static_fields h en).2.2.2.2.2.2.2.2.2.2.2]
      cases (P.blocks en).correspInt with
      | none => rfl
      | some Ij => exact ih (level + 1) (by omega) Ij q'

theorem structLoopsPred_fst (intNodes : List Nat) (h : Nat) (st : Function × Option Nat)
    (pred : Nat) :
    (structLoopsPred intNodes h st pred).1 = st.1 ∨
      (structLoopsPred intNodes h st pred).1 = st.1.incNumBackEdges h := by
  unfold structLoopsPred isBackEdge
  by_cases h1 : inInt pred intNodes = true
  · rw [if_pos h1]
    by_cases h2 : (st.1.blocks pred).dfsFirstNum ≥ (st.1.blocks h).dfsFirstNum
    · right
      simp only [if_pos h2, if_true]
      cases st.2 with
      | none => rfl
      | some latchNode =>
        simp only
        split <;> rfl
    · left
      simp only [if_neg h2]
      rfl
  · rw [if_neg h1]
    exact Or.inl rfl

/-- One step of the latch search keeps every property that survives an increment of a
back-edge counter. -/
theorem structLoopsPred_keeps (Φ : Function → Prop)
    (hinc : ∀ Q s, Φ Q → Φ (Q.incNumBackEdges s)) (intNodes : List Nat) (h : Nat)
    (st : Function × Option Nat) (pred : Nat) (hΦ : Φ st.1) :
    Φ (structLoopsPred intNodes h st pred).1 := by
  rcases structLoopsPred_fst intNodes h st pred with e | e
  · rw [e]; exact hΦ
  · rw [e]; exact hinc _ _ hΦ

theorem structLoopsLatch_keeps (Φ : Function → Prop)
    (hinc : ∀ Q s, Φ Q → Φ (Q.incNumBackEdges s)) (intNodes : List Nat) (h : Nat)
    (P : Function) (hΦ : Φ P) : Φ (structLoopsLatch intNodes h P).1 := by
  unfold structLoopsLatch
  have : ∀ (l : List Nat) (st : Function × Option Nat), Φ st.1 →
      Φ (l.foldl (structLoopsPred intNodes h) st).1 := by
    intro l
    induction l with
    | nil => intro st hst; exact hst
    | cons a l ih =>
      intro st hst
      exact ih _ (structLoopsPred_keeps Φ hinc intNodes h st a hst)
  exact this _ _ hΦ

theorem structLoopsLatch_frame (intNodes : List Nat) (h : Nat) (P : Function) :
    P.SameUpTo BB.eraseNumBackEdges (structLoopsLatch intNodes h P).1 :=
  (structLoopsPred_fold_inv P intNodes h (P.blocks h).inEdges [] (P, none)
    ⟨Function.SameUpTo.refl _ P, by simp, by simp⟩).1

theorem structLoopsLatch_icode (intNodes : List Nat) (h : Nat) (P : Function) :
    (structLoopsLatch intNodes h P).1.Icode = P.Icode :=
  structLoopsLatch_keeps (fun Q => Q.Icode = P.Icode) (fun _ _ hQ => hQ) intNodes h P rfl

theorem static_incNumBackEdges (P : Function) (b : Nat) :
    P.SameUpTo BB.eraseStructLoops (P.incNumBackEdges b) :=
  Function.SameUpTo.setBB _ _ _ _ rfl

/-- The body of the loop of `structLoops` over the intervals returns on a well-formed
interval, and keeps every property `Φ` that survives an increment of a back-edge counter
and the acceptance of a latching node. -/
theorem structLoopsInterval_ok (K : Sentinels) (fuel : Nat) (P0 : Function) (Φ : Function → Prop)
    (hinc : ∀ Q s, P0.SameUpTo BB.eraseStructLoops Q → Φ Q → Φ (Q.incNumBackEdges s))
    (hacc : ∀ Q H L intNodes Q', P0.SameUpTo BB.eraseStructLoops Q → Φ Q →
      Q.LoopWF fuel H L → (Q.blocks L).caseHead = (Q.blocks H).caseHead →
      (Q.blocks L).loopHead = K.NO_NODE →
      structLoopsAccept K fuel intNodes H Q (some L) = some Q' → Φ Q')
    (level : Nat) (Ii : interval) (hok : P0.IntervalOK fuel level Ii)
    (Q : Function) (hs : P0.SameUpTo BB.eraseStructLoops Q) (hΦ : Φ Q) :
    ∃ Q', structLoopsInterval K fuel level Q Ii = some Q' ∧
      P0.SameUpTo BB.eraseStructLoops Q' ∧ Φ Q' := by
  obtain ⟨initI, intHead, intNodes, h1, h2, h3, h4, h5⟩ := hok
  have hkeep := structLoopsLatch_keeps (fun R => P0.SameUpTo BB.eraseStructLoops R ∧ Φ R)
    (fun R s hR => ⟨hR.1.trans (static_incNumBackEdges R s), hinc R s hR.1 hR.2⟩)
    intNodes intHead Q ⟨hs, hΦ⟩
  have hlatch := (structLoopsLatch_spec Q intNodes intHead).2
  have hunf : structLoopsInterval K fuel level Q Ii =
      structLoopsAccept K fuel intNodes intHead (structLoopsLatch intNodes intHead Q).1
        (structLoopsLatch intNodes intHead Q).2 := by
    unfold structLoopsInterval
    rw [static_initInt hs, h1]
    simp only
    rw [h2]
    simp only
    rw [static_findNodesInInt hs, h3]
    simp only
    rw [(static_fields hs intHead).2.2.2.2.2.2.2.2.2.2.1,
      (static_fields hs intHead).2.2.2.2.2.2.2.2.2.1, if_pos h4]
  rw [hunf]
  generalize structLoopsLatch intNodes intHead Q = r at hkeep hlatch
  obtain ⟨R, o⟩ := r
  obtain ⟨hsR, hΦR⟩ := hkeep
  simp only at hsR hΦR hlatch ⊢
  cases o with
  | none => exact ⟨R, rfl, hsR, hΦR⟩
  | some L =>
    have hLin : L ∈ (P0.blocks intHead).inEdges := by
      have := (hlatch L rfl).1.1
      rw [(static_fields hs intHead).2.2.2.2.2.2.2.2.2.1] at this
      exact this
    have hwf : R.LoopWF fuel intHead L := static_loopWF hsR fuel intHead L (h5 L hLin)
    by_cases hg : (R.blocks L).caseHead = (R.blocks intHead).caseHead ∧
        (R.blocks L).loopHead = K.NO_NODE
    · obtain ⟨Q', hQ', hsQ, _⟩ := structLoopsAccept_ok K fuel intNodes intHead L R hwf hg.1 hg.2
      exact ⟨Q', hQ', hsR.trans hsQ, hacc R intHead L intNodes Q' hsR hΦR hwf hg.1 hg.2 hQ'⟩
    · refine ⟨R, ?_, hsR, hΦR⟩
      unfold structLoopsAccept
      simp only
      rw [if_neg hg]

theorem structLoopsIntervals_ok (K : Sentinels) (fuel : Nat) (P0 : Function)
    (Φ : Function → Prop)
    (hinc : ∀ Q s, P0.SameUpTo BB.eraseStructLoops Q → Φ Q → Φ (Q.incNumBackEdges s))
    (hacc : ∀ Q H L intNodes Q', P0.SameUpTo BB.eraseStructLoops Q → Φ Q →
      Q.LoopWF fuel H L → (Q.blocks L).caseHead = (Q.blocks H).caseHead →
      (Q.blocks L).loopHead = K.NO_NODE →
      structLoopsAccept K fuel intNodes H Q (some L) = some Q' → Φ Q')
    (level : Nat) :
    ∀ (Iis : List interval), (∀ Ii ∈ Iis, P0.IntervalOK fuel level Ii) →
      ∀ Q : Function, P0.SameUpTo BB.eraseStructLoops Q → Φ Q →
      ∃ Q', Iis.foldlM (structLoopsInterval K fuel level) Q = some Q' ∧
        P0.SameUpTo BB.eraseStructLoops Q' ∧ Φ Q' := by
  intro Iis
  induction Iis with
  | nil => intro _ Q hs hΦ; exact ⟨Q, rfl, hs, hΦ⟩
  | cons a l ih =>
    intro hl Q hs hΦ
    obtain ⟨Q1, h1, hs1, hΦ1⟩ := structLoopsInterval_ok K fuel P0 Φ hinc hacc level a
      (hl a (List.mem_cons_self _ _)) Q hs hΦ
    obtain ⟨Q2, h2, hs2, hΦ2⟩ := ih (fun p hp => hl p (List.mem_cons_of_mem _ hp)) Q1 hs1 hΦ1
    exact ⟨Q2, by rw [List.foldlM_cons, h1]; exact h2, hs2, hΦ2⟩

theorem structLoopsLevels_ok (K : Sentinels) (fuel : Nat) (P0 : Function)
    (Φ : Function → Prop)
    (hinc : ∀ Q s, P0.SameUpTo BB.eraseStructLoops Q → Φ Q → Φ (Q.incNumBackEdges s))
    (hacc : ∀ Q H L intNodes Q', P0.SameUpTo BB.eraseStructLoops Q → Φ Q →
      Q.LoopWF fuel H L → (Q.blocks L).caseHead = (Q.blocks H).caseHead →
      (Q.blocks L).loopHead = K.NO_NODE →
      structLoopsAccept K fuel intNodes H Q (some L) = some Q' → Φ Q') :
    ∀ (derivedG : derSeq) (base : Nat), P0.DerSeqOK fuel base derivedG →
      ∀ Q : Function, P0.SameUpTo BB.eraseStructLoops Q → Φ Q →
      ∃ r, derivedG.foldlM (structLoopsLevel K fuel) (base, Q) = some r ∧
        P0.SameUpTo BB.eraseStructLoops r.2 ∧ Φ r.2 := by
  intro derivedG
  induction derivedG with
  | nil => intro base _ Q hs hΦ; exact ⟨(base, Q), rfl, hs, hΦ⟩
  | cons Iis rest ih =>
    intro base hok Q hs hΦ
    obtain ⟨Q1, h1, hs1, hΦ1⟩ := structLoopsIntervals_ok K fuel P0 Φ hinc hacc (base + 1) Iis
      (fun Ii hIi => hok 0 Iis rfl Ii hIi) Q hs hΦ
    obtain ⟨r, h2, hs2, hΦ2⟩ := ih (base + 1) (by
      intro l Iis' hl Ii hIi
      have := hok (l + 1) Iis' (by simpa using hl) Ii hIi
      rw [show base + 1 + l + 1 = base + (l + 1) + 1 by omega]
      exact this) Q1 hs1 hΦ1
    refine ⟨r, ?_, hs2, hΦ2⟩
    rw [List.foldlM_cons]
    unfold structLoopsLevel
    simp only
    rw [h1]
    exact h2

/-- The function `structLoops` returns on a well-formed derived sequence; it only writes
the loop annotations, and keeps every property `Φ` that survives an increment of a
back-edge counter and the acceptance of a latching node. -/
theorem structLoops_ok (K : Sentinels) (fuel : Nat) (P0 : Function) (derivedG : derSeq)
    (hok : P0.DerSeqOK fuel 0 derivedG) (Φ : Function → Prop)
    (hinc : ∀ Q s, P0.SameUpTo BB.eraseStructLoops Q → Φ Q → Φ (Q.incNumBackEdges s))
    (hacc : ∀ Q H L intNodes Q', P0.SameUpTo BB.eraseStructLoops Q → Φ Q →
      Q.LoopWF fuel H L → (Q.blocks L).caseHead = (Q.blocks H).caseHead →
      (Q.blocks L).loopHead = K.NO_NODE →
      structLoopsAccept K fuel intNodes H Q (some L) = some Q' → Φ Q')
    (h0 : Φ P0) :
    ∃ P', structLoops K fuel P0 derivedG = some P' ∧
      P0.SameUpTo BB.eraseStructLoops P' ∧ Φ P' := by
  obtain ⟨r, h, hs, hΦ⟩ := structLoopsLevels_ok K fuel P0 Φ hinc hacc derivedG 0 hok P0
    (Function.SameUpTo.refl _ P0) h0
  refine ⟨r.2, ?_, hs, hΦ⟩
  unfold structLoops
  rw [h]

theorem incNumBackEdges_fields (P : Function) (s b : Nat) :
    ((P.incNumBackEdges s).blocks b).latchNode = (P.blocks b).latchNode ∧
    ((P.incNumBackEdges s).blocks b).flg = (P.blocks b).flg ∧
    ((P.incNumBackEdges s).blocks b).dfsLastNum = (P.blocks b).dfsLastNum := by
  by_cases h : b = s <;> simp [Function.incNumBackEdges, Function.setBB, h]

theorem latchesFlagged_inc (K : Sentinels) (Q : Function) (s : Nat)
    (h : Q.LatchesFlagged K) : (Q.incNumBackEdges s).LatchesFlagged K := by
  intro b hmem hb
  rw [(incNumBackEdges_fields Q s b).1] at hb ⊢
  obtain ⟨L, h1, h2⟩ := h b hmem hb
  exact ⟨L, by rw [(incNumBackEdges_fields Q s L).2.1]; exact h1,
    by rw [(incNumBackEdges_fields Q s L).2.2]; exact h2⟩

theorem latchesFlagged_accept (K : Sentinels) (fuel : Nat) (Q : Function) (H L : Nat)
    (intNodes : List Nat) (Q' : Function) (h : Q.LatchesFlagged K) (hwf : Q.LoopWF fuel H L)
    (hcase : (Q.blocks L).caseHead = (Q.blocks H).caseHead)
    (hfree : (Q.blocks L).loopHead = K.NO_NODE)
    (hQ' : structLoopsAccept K fuel intNodes H Q (some L) = some Q') :
    Q'.LatchesFlagged K := by
  obtain ⟨Q'', h1, hs, _, hflag, hlatch, hL, hH, _⟩ :=
    structLoopsAccept_ok K fuel intNodes H L Q hwf hcase hfree
  rw [hQ'] at h1
  cases h1
  intro b hmem hb
  by_cases hbH : b = H
  · subst hbH
    exact ⟨L, hL, by rw [(static_fields hs L).1]; exact hH.symm⟩
  · rw [hlatch b hbH] at hb ⊢
    rw [hs.1] at hmem
    obtain ⟨L0, g1, g2⟩ := h b hmem hb
    exact ⟨L0, hflag L0 g1, by rw [(static_fields hs L0).1]; exact g2⟩

/-! ## The loop structurer: the claims -/

/-- C3: for a header `H` and a latching node `L` that are both two-way blocks, with `M` the
node list built by `findNodesInLoop`: if `L = H` or both `H.edges[THEN]` and
`H.edges[ELSE]` are in `M`, then `H.loopType` is post-test and `H.loopFollow` is the
DFS-last index of `L.edges[ELSE]` when `L.edges[0] = H` and of `L.edges[THEN]` otherwise;
in every other case `H.loopType` is pre-test and `H.loopFollow` is the DFS-last index of
the one of `H.edges[THEN]`, `H.edges[ELSE]` that is not in `M`. In particular, for the CFG
`A -> B`, `B -> C`, `B -> D`, `C -> B`, `C -> D` the loop structurer leaves
`B.loopType` pre-test, `B.latchNode = C.dfsLastNum` and `B.loopFollow = D.dfsLastNum`. -/
theorem findNodesInLoop_two_way_header_and_latch :
    (∀ (K : Sentinels) (fuel : Nat) (L H : Nat) (P : Function) (intNodes : List Nat)
      (t e lt le : Nat),
      (P.blocks H).nodeType = eBBKind.TWO_BRANCH → (P.blocks L).nodeType = eBBKind.TWO_BRANCH →
      P.InTable (P.blocks H).dfsLastNum → P.InTable (P.blocks L).dfsLastNum →
      P.edge H THEN = some t → P.edge H ELSE = some e →
      P.edge L THEN = some lt → P.edge L ELSE = some le →
      ∃ P1 M P', findNodesInLoopNodes K L H P intNodes = some (P1, M) ∧
        findNodesInLoop K fuel L H P intNodes = some P' ∧
        ((L = H ∨ ((P.blocks t).dfsLastNum ∈ M ∧ (P.blocks e).dfsLastNum ∈ M)) →
          (P'.blocks H).loopType = eNodeHeaderType.REPEAT_TYPE ∧
          (P'.blocks H).loopFollow =
            (if lt = H then (P.blocks le).dfsLastNum else (P.blocks lt).dfsLastNum)) ∧
        (¬ (L = H ∨ ((P.blocks t).dfsLastNum ∈ M ∧ (P.blocks e).dfsLastNum ∈ M)) →
          (P'.blocks H).loopType = eNodeHeaderType.WHILE_TYPE ∧
          (P'.blocks H).loopFollow =
            (if (P.blocks t).dfsLastNum ∈ M then (P.blocks e).dfsLastNum
              else (P.blocks t).dfsLastNum) ∧
          (P'.blocks H).loopFollow ∉ M)) ∧
    (∀ (K : Sentinels) (fuel : Nat),
      loopOf (structLoops K fuel (preTestProc K) seqABCD) 11 =
        some (eNodeHeaderType.WHILE_TYPE, ((preTestProc K).blocks 12).dfsLastNum,
          ((preTestProc K).blocks 13).dfsLastNum)) := by
  constructor
  · intro K fuel L H P intNodes t e lt le hH hL hHt hLt ht he hlt hle
    obtain ⟨P1, M, P', h1, h2, h3, h4⟩ := findNodesInLoop_two_two K fuel L H P intNodes t e lt le
      hH hL hHt hLt ht he hlt hle
    exact ⟨P1, M, P', h1, h2, fun hc => ⟨(h3 hc).1, (h3 hc).2.1⟩,
      fun hc => ⟨(h4 hc).1, (h4 hc).2.1, (h4 hc).2.2.1⟩⟩
  · intro K fuel
    simp [loopOf, preTestProc, List.range, List.range.loop,
      Function.dfsLastAt, mkBB, Function.setBB,
      structLoops, structLoopsLevel, seqABCD, structLoopsInterval, initInt,
      findNodesInInt, appendQueue, structLoopsLatch, structLoopsPred, inInt, isBackEdge,
      structLoopsAccept, findNodesInLoop, findNodesInLoopNodes, insertList,
      findNodesInLoopType, Function.edgeDfs, Function.edge, THEN, ELSE, inList,
      Function.setLoop, Function.SetLlFlagJX_LOOP, mkIntervalNode, Function.setLoopHead,
      Function.setLoopType, Function.setLoopFollow, Function.setLatchNode,
      Function.setIsLatchNode, Function.incNumBackEdges, Function.lastInstr]

/-- A witness for C3: the call of `findNodesInLoop` in the pre-test scenario. -/
theorem findNodesInLoop_two_way_header_and_latch_witness :
    ∃ P1 M P', findNodesInLoopNodes K0 12 11 (preTestProc K0) [11, 12, 13] = some (P1, M) ∧
      findNodesInLoop K0 10 12 11 (preTestProc K0) [11, 12, 13] = some P' ∧
      ((12 = 11 ∨ (((preTestProc K0).blocks 12).dfsLastNum ∈ M ∧
          ((preTestProc K0).blocks 13).dfsLastNum ∈ M)) →
        (P'.blocks 11).loopType = eNodeHeaderType.REPEAT_TYPE ∧
        (P'.blocks 11).loopFollow =
          (if 11 = 11 then ((preTestProc K0).blocks 13).dfsLastNum
            else ((preTestProc K0).blocks 11).dfsLastNum)) ∧
      (¬ (12 = 11 ∨ (((preTestProc K0).blocks 12).dfsLastNum ∈ M ∧
          ((preTestProc K0).blocks 13).dfsLastNum ∈ M)) →
        (P'.blocks 11).loopType = eNodeHeaderType.WHILE_TYPE ∧
        (P'.blocks 11).loopFollow =
          (if ((preTestProc K0).blocks 12).dfsLastNum ∈ M then
            ((preTestProc K0).blocks 13).dfsLastNum
            else ((preTestProc K0).blocks 12).dfsLastNum) ∧
        (P'.blocks 11).loopFollow ∉ M) :=
  findNodesInLoop_two_way_header_and_latch.1 K0 10 12 11 (preTestProc K0) [11, 12, 13]
    12 13 11 13 rfl rfl ⟨11, rfl⟩ ⟨12, rfl⟩ rfl rfl rfl rfl

/-- C4: for a latching node `L` that is a two-way block and a header `H` that is not:
`H.loopType` is post-test, `H.loopFollow` is the DFS-last index of the out-edge of `L`
that is not `H` (`L.edges[ELSE]` if `L.edges[THEN] = H`, else `L.edges[THEN]`), and
`JX_LOOP` is set on the last instruction of `L`. In particular, for the CFG `A -> B`,
`B -> C`, `C -> B`, `C -> D` the loop structurer leaves `B.loopType` post-test,
`B.latchNode = C.dfsLastNum` and `B.loopFollow = D.dfsLastNum`. -/
theorem findNodesInLoop_two_way_latch_only :
    (∀ (K : Sentinels) (fuel : Nat) (L H : Nat) (P : Function) (intNodes : List Nat)
      (lt le : Nat),
      (P.blocks H).nodeType ≠ eBBKind.TWO_BRANCH → (P.blocks L).nodeType = eBBKind.TWO_BRANCH →
      P.InTable (P.blocks H).dfsLastNum → P.InTable (P.blocks L).dfsLastNum →
      P.edge L THEN = some lt → P.edge L ELSE = some le →
      ∃ P', findNodesInLoop K fuel L H P intNodes = some P' ∧
        (P'.blocks H).loopType = eNodeHeaderType.REPEAT_TYPE ∧
        (P'.blocks H).loopFollow =
          (if lt = H then (P.blocks le).dfsLastNum else (P.blocks lt).dfsLastNum) ∧
        (P'.Icode ((P.blocks L).start + (P.blocks L).length - 1)).JX_LOOP = true) ∧
    (∀ (K : Sentinels) (fuel : Nat),
      loopOf (structLoops K fuel (postTestProc K) seqABCD) 11 =
        some (eNodeHeaderType.REPEAT_TYPE, ((postTestProc K).blocks 12).dfsLastNum,
          ((postTestProc K).blocks 13).dfsLastNum)) := by
  constructor
  · intro K fuel L H P intNodes lt le hH hL hHt hLt hlt hle
    exact findNodesInLoop_other_two K fuel L H P intNodes lt le hH hL hHt hLt hlt hle
  · intro K fuel
    simp [loopOf, postTestProc, List.range, List.range.loop,
      Function.dfsLastAt, mkBB, Function.setBB,
      structLoops, structLoopsLevel, seqABCD, structLoopsInterval, initInt,
      findNodesInInt, appendQueue, structLoopsLatch, structLoopsPred, inInt, isBackEdge,
      structLoopsAccept, findNodesInLoop, findNodesInLoopNodes, insertList,
      findNodesInLoopType, Function.edgeDfs, Function.edge, THEN, ELSE, inList,
      Function.setLoop, Function.SetLlFlagJX_LOOP, mkIntervalNode, Function.setLoopHead,
      Function.setLoopType, Function.setLoopFollow, Function.setLatchNode,
      Function.setIsLatchNode, Function.incNumBackEdges, Function.lastInstr]

/-- A witness for C4: the call of `findNodesInLoop` in the post-test scenario. -/
theorem findNodesInLoop_two_way_latch_only_witness :
    ∃ P', findNodesInLoop K0 10 12 11 (postTestProc K0) [11, 12, 13] = some P' ∧
      (P'.blocks 11).loopType = eNodeHeaderType.REPEAT_TYPE ∧
      (P'.blocks 11).loopFollow =
        (if 11 = 11 then ((postTestProc K0).blocks 13).dfsLastNum
          else ((postTestProc K0).blocks 11).dfsLastNum) ∧
      (P'.Icode (((postTestProc K0).blocks 12).start +
        ((postTestProc K0).blocks 12).length - 1)).JX_LOOP = true :=
  findNodesInLoop_two_way_latch_only.1 K0 10 12 11 (postTestProc K0) [11, 12, 13] 11 13
    (by decide) rfl ⟨11, rfl⟩ ⟨12, rfl⟩ rfl rfl

/-- C5, as the code has it: when neither the header nor the latching node is a two-way
block and the latching node is not a loop-instruction node, `findNodesInLoop` makes the
loop endless with the follow computed by `findEndlessFollow` on the node list of the loop,
and sets no instruction flag; when the latching node is a loop-instruction node
(`LOOP_NODE`), whatever the header, the loop is post-test and its follow is the DFS-last
index of `L.edges[0]`. -/
theorem findNodesInLoop_no_two_way_endless :
    (∀ (K : Sentinels) (fuel : Nat) (L H : Nat) (P : Function) (intNodes : List Nat),
      (P.blocks H).nodeType ≠ eBBKind.TWO_BRANCH → (P.blocks L).nodeType ≠ eBBKind.TWO_BRANCH →
      (P.blocks L).nodeType ≠ eBBKind.LOOP_NODE →
      P.InTable (P.blocks H).dfsLastNum → P.InTable (P.blocks L).dfsLastNum → P.OutEdgesOK →
      ∃ P1 M P', findNodesInLoopNodes K L H P intNodes = some (P1, M) ∧
        findNodesInLoop K fuel L H P intNodes = some P' ∧
        (P'.blocks H).loopType = eNodeHeaderType.ENDLESS_TYPE ∧
        (∃ Q, findEndlessFollow K P M H = some Q ∧
          (P'.blocks H).loopFollow = (Q.blocks H).loopFollow) ∧
        P'.Icode = P.Icode) ∧
    (∀ (K : Sentinels) (fuel : Nat) (L H : Nat) (P : Function) (intNodes : List Nat) (l0 : Nat),
      (P.blocks L).nodeType = eBBKind.LOOP_NODE →
      P.InTable (P.blocks H).dfsLastNum → P.InTable (P.blocks L).dfsLastNum →
      P.edge L 0 = some l0 →
      ∃ P', findNodesInLoop K fuel L H P intNodes = some P' ∧
        (P'.blocks H).loopType = eNodeHeaderType.REPEAT_TYPE ∧
        (P'.blocks H).loopFollow = (P.blocks l0).dfsLastNum ∧
        P'.Icode = P.Icode) :=
  ⟨fun K fuel L H P intNodes hH hL hL' hHt hLt hout =>
      findNodesInLoop_endless K fuel L H P intNodes hH hL hL' hHt hLt hout,
    fun K fuel L H P intNodes l0 hL hHt hLt hl0 =>
      findNodesInLoop_loop_node K fuel L H P intNodes l0 hL hHt hLt hl0⟩

/-! ## Well-formedness of the scenarios -/

theorem dfsLastAt_mem (P : Function) (i : Int) (b : Nat) (h : P.dfsLastAt i = some b) :
    b ∈ P.dfsLast := by
  unfold Function.dfsLastAt at h
  split at h
  · exact List.get?_mem h
  · cases h

theorem outEdgesOK_of_table (P : Function)
    (h : ∀ b ∈ P.dfsLast, (P.blocks b).numOutEdges = (P.blocks b).edges.length) :
    P.OutEdgesOK :=
  fun i b hb => h b (dfsLastAt_mem P i b hb)

theorem endlessProc_outEdgesOK : (endlessProc K0).OutEdgesOK :=
  outEdgesOK_of_table _ (by decide)

theorem whileProc_outEdgesOK : (whileProc K0).OutEdgesOK :=
  outEdgesOK_of_table _ (by decide)

theorem preTestProc_outEdgesOK : (preTestProc K0).OutEdgesOK :=
  outEdgesOK_of_table _ (by decide)

theorem postTestProc_outEdgesOK : (postTestProc K0).OutEdgesOK :=
  outEdgesOK_of_table _ (by decide)

/-- A witness for C5: the call of `findNodesInLoop` in the endless scenario. -/
theorem findNodesInLoop_no_two_way_endless_witness :
    ∃ P1 M P', findNodesInLoopNodes K0 12 11 (endlessProc K0) [11, 12] = some (P1, M) ∧
      findNodesInLoop K0 10 12 11 (endlessProc K0) [11, 12] = some P' ∧
      (P'.blocks 11).loopType = eNodeHeaderType.ENDLESS_TYPE ∧
      (∃ Q, findEndlessFollow K0 (endlessProc K0) M 11 = some Q ∧
        (P'.blocks 11).loopFollow = (Q.blocks 11).loopFollow) ∧
      P'.Icode = (endlessProc K0).Icode :=
  findNodesInLoop_no_two_way_endless.1 K0 10 12 11 (endlessProc K0) [11, 12]
    (by decide) (by decide) (by decide) ⟨11, rfl⟩ ⟨12, rfl⟩ endlessProc_outEdgesOK

/-- C5 fails for a latching node of type `LOOP_NODE`: in the CFG `A -> B`, `B -> C`,
`C -> D`, `C -> B`, where `B` is a fall-through block and `C` a loop-instruction node,
neither the header `B` nor the latching node `C` is two-way, and the loop structurer
makes the loop of `B` post-test, not endless. -/
theorem loop_node_latch_is_post_test :
    ((loopNodeProc K0).blocks 11).nodeType ≠ eBBKind.TWO_BRANCH ∧
    ((loopNodeProc K0).blocks 12).nodeType ≠ eBBKind.TWO_BRANCH ∧
    ((loopNodeProc K0).blocks 12).nodeType = eBBKind.LOOP_NODE ∧
    loopOf (structLoops K0 10 (loopNodeProc K0) seqABCD) 11 =
      some (eNodeHeaderType.REPEAT_TYPE, 2, 3) ∧
    (findNodesInLoop K0 10 12 11 (loopNodeProc K0) [11, 12, 13]).map
      (fun P => decide ((P.blocks 11).loopType = eNodeHeaderType.ENDLESS_TYPE)) =
      some false := by
  decide

/-- C6: `findEndlessFollow` returns and sets `head.loopFollow` to the least `dfsLastNum`
among the targets of the out-edges of the blocks of `loopNodes` whose `dfsLastNum` is not
in `loopNodes`, and to `MAX` when there is no such target; `MAX` is assumed to be at least
every DFS-last number. In particular, for the CFG `A -> B`, `B -> C`, `C -> B` the
loop structurer leaves `B.loopType` endless and `B.loopFollow = MAX`. -/
theorem findEndlessFollow_min_exit :
    (∀ (K : Sentinels) (P : Function) (loopNodes : List Int) (head : Nat),
      P.MembersOK loopNodes → (∀ s, P.IsExitDfs loopNodes s → s ≤ K.MAX) →
      ∃ P', findEndlessFollow K P loopNodes head = some P' ∧
        ((∀ s, ¬ P.IsExitDfs loopNodes s) → (P'.blocks head).loopFollow = K.MAX) ∧
        ((∃ s, P.IsExitDfs loopNodes s) →
          P.IsExitDfs loopNodes (P'.blocks head).loopFollow ∧
          ∀ s, P.IsExitDfs loopNodes s → (P'.blocks head).loopFollow ≤ s)) ∧
    (∀ (K : Sentinels) (fuel : Nat),
      loopOf (structLoops K fuel (endlessProc K) seqABC) 11 =
        some (eNodeHeaderType.ENDLESS_TYPE, ((endlessProc K).blocks 12).dfsLastNum, K.MAX)) := by
  constructor
  · intro K P loopNodes head hmem hmax
    exact findEndlessFollow_least_exit K P loopNodes head hmem hmax
  · intro K fuel
    simp [loopOf, endlessProc, List.range, List.range.loop,
      Function.dfsLastAt, mkBB, Function.setBB,
      structLoops, structLoopsLevel, seqABC, structLoopsInterval, initInt,
      findNodesInInt, appendQueue, structLoopsLatch, structLoopsPred, inInt, isBackEdge,
      structLoopsAccept, findNodesInLoop, findNodesInLoopNodes, insertList,
      findNodesInLoopType, Function.edgeDfs, Function.edge, THEN, ELSE, inList,
      Function.setLoop, Function.SetLlFlagJX_LOOP, mkIntervalNode, Function.setLoopHead,
      Function.setLoopType, Function.setLoopFollow, Function.setLatchNode,
      Function.setIsLatchNode, Function.incNumBackEdges, Function.lastInstr,
      findEndlessFollow, findEndlessFollowNode, findEndlessFollowEdge]

theorem postTestProc_membersOK : (postTestProc K0).MembersOK [1, 2] := by
  intro p hp
  simp only [List.mem_cons, List.mem_singleton, List.not_mem_nil, or_false] at hp
  rcases hp with rfl | rfl
  · exact ⟨11, rfl, rfl⟩
  · exact ⟨12, rfl, rfl⟩

theorem postTestProc_exit_le (s : Int) (h : (postTestProc K0).IsExitDfs [1, 2] s) :
    s ≤ K0.MAX := by
  obtain ⟨_, p, hp, b, hb, t, ht, rfl⟩ := h
  have hb' := dfsLastAt_mem _ _ _ hb
  have hall : ∀ b ∈ (postTestProc K0).dfsLast, ∀ t ∈ ((postTestProc K0).blocks b).edges,
      ((postTestProc K0).blocks t).dfsLastNum ≤ K0.MAX := by decide
  exact hall b hb' t ht

/-- A witness for C6: the members `B`, `C` of the loop of the post-test scenario. -/
theorem findEndlessFollow_min_exit_witness :
    ∃ P', findEndlessFollow K0 (postTestProc K0) [1, 2] 11 = some P' ∧
      ((∀ s, ¬ (postTestProc K0).IsExitDfs [1, 2] s) → (P'.blocks 11).loopFollow = K0.MAX) ∧
      ((∃ s, (postTestProc K0).IsExitDfs [1, 2] s) →
        (postTestProc K0).IsExitDfs [1, 2] (P'.blocks 11).loopFollow ∧
        ∀ s, (postTestProc K0).IsExitDfs [1, 2] s → (P'.blocks 11).loopFollow ≤ s) :=
  findEndlessFollow_min_exit.1 K0 (postTestProc K0) [1, 2] 11 postTestProc_membersOK
    postTestProc_exit_le

/-- C7: for a two-way header `H` and a latching node `L` that is neither two-way nor
`LOOP_NODE`, let `w` be the first block on the `immedDom` chain from `L` (`L` included,
reached within the fuel) whose `dfsLastNum` is that of `H.edges[THEN]`, or that of
`H.edges[ELSE]`, or at most `H.dfsLastNum`. If `w` matches THEN the loop of `H` is
pre-test with the follow of ELSE; otherwise, if `w` matches ELSE, it is pre-test with the
follow of THEN; otherwise it is endless with the follow computed by
`findEndlessFollow`. -/
theorem findNodesInLoop_dominator_walk (K : Sentinels) (fuel : Nat) (L H : Nat) (P : Function)
    (intNodes : List Nat) (t e n w : Nat)
    (hH : (P.blocks H).nodeType = eBBKind.TWO_BRANCH)
    (hL : (P.blocks L).nodeType ≠ eBBKind.TWO_BRANCH)
    (hL' : (P.blocks L).nodeType ≠ eBBKind.LOOP_NODE)
    (hHt : P.InTable (P.blocks H).dfsLastNum) (hLt : P.InTable (P.blocks L).dfsLastNum)
    (hout : P.OutEdgesOK)
    (ht : P.edge H THEN = some t) (he : P.edge H ELSE = some e)
    (hft : P.InTable (P.blocks t).dfsLastNum) (hfe : P.InTable (P.blocks e).dfsLastNum)
    (hw : P.WalkStops (P.blocks H).dfsLastNum (P.blocks t).dfsLastNum
      (P.blocks e).dfsLastNum n L w) (hn : n < fuel) :
    ∃ P1 M P', findNodesInLoopNodes K L H P intNodes = some (P1, M) ∧
      findNodesInLoop K fuel L H P intNodes = some P' ∧
      ((P.blocks w).dfsLastNum = (P.blocks t).dfsLastNum →
        (P'.blocks H).loopType = eNodeHeaderType.WHILE_TYPE ∧
        (P'.blocks H).loopFollow = (P.blocks e).dfsLastNum) ∧
      ((P.blocks w).dfsLastNum ≠ (P.blocks t).dfsLastNum →
        (P.blocks w).dfsLastNum = (P.blocks e).dfsLastNum →
        (P'.blocks H).loopType = eNodeHeaderType.WHILE_TYPE ∧
        (P'.blocks H).loopFollow = (P.blocks t).dfsLastNum) ∧
      ((P.blocks w).dfsLastNum ≠ (P.blocks t).dfsLastNum →
        (P.blocks w).dfsLastNum ≠ (P.blocks e).dfsLastNum →
        (P'.blocks H).loopType = eNodeHeaderType.ENDLESS_TYPE ∧
        ∃ Q, findEndlessFollow K P M H = some Q ∧
          (P'.blocks H).loopFollow = (Q.blocks H).loopFollow) := by
  obtain ⟨P1, M, P', h1, h2, h3, h4, h5, _⟩ := findNodesInLoop_walk K fuel L H P intNodes
    t e n w hH hL hL' hHt hLt hout ht he hft hfe hw hn
  exact ⟨P1, M, P', h1, h2, h3, h4, h5⟩

/-- A witness for C7: the while scenario, where the walk stops at the latching node `C`
itself, the THEN target of the header `B`. -/
theorem findNodesInLoop_dominator_walk_witness :
    ∃ P1 M P', findNodesInLoopNodes K0 12 11 (whileProc K0) [11, 12, 13] = some (P1, M) ∧
      findNodesInLoop K0 10 12 11 (whileProc K0) [11, 12, 13] = some P' ∧
      (((whileProc K0).blocks 12).dfsLastNum = ((whileProc K0).blocks 12).dfsLastNum →
        (P'.blocks 11).loopType = eNodeHeaderType.WHILE_TYPE ∧
        (P'.blocks 11).loopFollow = ((whileProc K0).blocks 13).dfsLastNum) ∧
      (((whileProc K0).blocks 12).dfsLastNum ≠ ((whileProc K0).blocks 12).dfsLastNum →
        ((whileProc K0).blocks 12).dfsLastNum = ((whileProc K0).blocks 13).dfsLastNum →
        (P'.blocks 11).loopType = eNodeHeaderType.WHILE_TYPE ∧
        (P'.blocks 11).loopFollow = ((whileProc K0).blocks 12).dfsLastNum) ∧
      (((whileProc K0).blocks 12).dfsLastNum ≠ ((whileProc K0).blocks 12).dfsLastNum →
        ((whileProc K0).blocks 12).dfsLastNum ≠ ((whileProc K0).blocks 13).dfsLastNum →
        (P'.blocks 11).loopType = eNodeHeaderType.ENDLESS_TYPE ∧
        ∃ Q, findEndlessFollow K0 (whileProc K0) M 11 = some Q ∧
          (P'.blocks 11).loopFollow = (Q.blocks 11).loopFollow) :=
  findNodesInLoop_dominator_walk K0 10 12 11 (whileProc K0) [11, 12, 13] 12 13 0 12
    rfl (by decide) (by decide) ⟨11, rfl⟩ ⟨12, rfl⟩ whileProc_outEdgesOK rfl rfl
    ⟨12, rfl⟩ ⟨13, rfl⟩ (Function.WalkStops.stop (Or.inl rfl)) (by decide)

/-! ## Acceptance of a latching node -/

/-- The acceptance of a latching node that is a loop-instruction node: the loop is
post-test and no instruction flag is written. -/
theorem structLoopsAccept_loop_node (K : Sentinels) (fuel : Nat) (intNodes : List Nat)
    (H L : Nat) (P : Function) (hwf : P.LoopWF fuel H L)
    (hcase : (P.blocks L).caseHead = (P.blocks H).caseHead)
    (hfree : (P.blocks L).loopHead = K.NO_NODE)
    (hL : (P.blocks L).nodeType = eBBKind.LOOP_NODE) (P' : Function)
    (hP' : structLoopsAccept K fuel intNodes H P (some L) = some P') :
    (P'.blocks H).loopType = eNodeHeaderType.REPEAT_TYPE ∧ P'.Icode = P.Icode := by
  have hs0 := static_setLatchNode P H (P.blocks L).dfsLastNum
  obtain ⟨hHt, hLt, _, _, hl0, _⟩ := static_loopWF hs0 fuel H L hwf
  have hL1 : ((P.setLatchNode H (P.blocks L).dfsLastNum).blocks L).nodeType =
      eBBKind.LOOP_NODE := by rw [(static_fields hs0 L).2.2.1]; exact hL
  obtain ⟨l0, hl0⟩ := hl0 hL1
  obtain ⟨P2, hP2, hty, _, hic⟩ := findNodesInLoop_loop_node K fuel L H
    (P.setLatchNode H (P.blocks L).dfsLastNum) intNodes l0 hL1 hHt hLt hl0
  have hunf : structLoopsAccept K fuel intNodes H P (some L) = some (P2.setIsLatchNode L) := by
    unfold structLoopsAccept
    simp only
    rw [if_pos ⟨hcase, hfree⟩, hP2]
  rw [hunf] at hP'
  cases hP'
  refine ⟨by rw [(setIsLatchNode_fields P2 L H).2.1]; exact hty, ?_⟩
  show P2.Icode = P.Icode
  rw [hic]
  rfl

theorem preTestProc_loopWF : (preTestProc K0).LoopWF 10 11 12 :=
  ⟨⟨11, rfl⟩, ⟨12, rfl⟩, preTestProc_outEdgesOK, fun _ => ⟨11, 13, rfl, rfl⟩,
    fun h => absurd h (by decide),
    fun _ => ⟨12, 13, rfl, rfl, fun h => absurd rfl h⟩⟩

theorem postTestProc_loopWF (L : Nat) (hL : L ∈ [10, 12]) :
    (postTestProc K0).LoopWF 10 11 L := by
  simp only [List.mem_cons, List.mem_singleton, List.not_mem_nil, or_false] at hL
  rcases hL with rfl | rfl
  · exact ⟨⟨11, rfl⟩, ⟨10, rfl⟩, postTestProc_outEdgesOK, fun h => absurd h (by decide),
      fun h => absurd h (by decide), fun h => absurd h (by decide)⟩
  · exact ⟨⟨11, rfl⟩, ⟨12, rfl⟩, postTestProc_outEdgesOK, fun _ => ⟨11, 13, rfl, rfl⟩,
      fun h => absurd h (by decide), fun h => absurd h (by decide)⟩

theorem postTestProc_derSeqOK : (postTestProc K0).DerSeqOK 10 0 seqABCD := by
  intro l Iis hl Ii hIi
  match l, hl with
  | 0, hl =>
    cases hl
    simp only [List.mem_cons, List.mem_singleton, List.not_mem_nil, or_false] at hIi
    rcases hIi with rfl | rfl
    · exact ⟨⟨[10]⟩, 10, [10], rfl, rfl, rfl, rfl, fun L hL => absurd hL (List.not_mem_nil L)⟩
    · exact ⟨⟨[11, 12, 13]⟩, 11, [11, 12, 13], rfl, rfl, rfl, rfl,
        fun L hL => postTestProc_loopWF L hL⟩
  | 1, hl =>
    cases hl
    simp only [List.mem_singleton] at hIi
    subst hIi
    exact ⟨⟨[10]⟩, 10, [10, 11, 12, 13], rfl, rfl, rfl, rfl,
      fun L hL => absurd hL (List.not_mem_nil L)⟩
  | n + 2, hl => cases hl

/-! ## The loop structurer: latching nodes -/

/-- C8, as the code has it: when `structLoops` accepts the latching node `L` for the
header `H`, afterwards `L` carries `IS_LATCH_NODE`, `H.latchNode = L.dfsLastNum`, the flag
`JX_LOOP` is set on the last instruction of `H` (index `H.start + H.length - 1`) whenever
`H.loopType` is pre-test, and on the last instruction of `L` (index
`L.start + L.length - 1`) whenever `H.loopType` is post-test and `L` is a two-way block; a
latching node of type `LOOP_NODE` makes the loop post-test without writing any instruction
flag. -/
theorem structLoopsAccept_latch_flags (K : Sentinels) (fuel : Nat) (intNodes : List Nat)
    (H L : Nat) (P : Function) (hwf : P.LoopWF fuel H L)
    (hcase : (P.blocks L).caseHead = (P.blocks H).caseHead)
    (hfree : (P.blocks L).loopHead = K.NO_NODE) :
    ∃ P', structLoopsAccept K fuel intNodes H P (some L) = some P' ∧
      (P'.blocks L).flg.IS_LATCH_NODE = true ∧
      (P'.blocks H).latchNode = (P'.blocks L).dfsLastNum ∧
      ((P'.blocks H).loopType = eNodeHeaderType.REPEAT_TYPE →
        (P.blocks L).nodeType = eBBKind.TWO_BRANCH →
        (P'.Icode ((P'.blocks L).start + (P'.blocks L).length - 1)).JX_LOOP = true) ∧
      ((P'.blocks H).loopType = eNodeHeaderType.WHILE_TYPE →
        (P'.Icode ((P'.blocks H).start + (P'.blocks H).length - 1)).JX_LOOP = true) ∧
      ((P.blocks L).nodeType = eBBKind.LOOP_NODE →
        (P'.blocks H).loopType = eNodeHeaderType.REPEAT_TYPE ∧ P'.Icode = P.Icode) := by
  obtain ⟨P', h1, hs, _, _, _, hflag, hlatch, hrep, hwh, _⟩ :=
    structLoopsAccept_ok K fuel intNodes H L P hwf hcase hfree
  have hli : ∀ b, P'.lastInstr b = P.lastInstr b := fun b => static_lastInstr hs b
  refine ⟨P', h1, hflag, by rw [(static_fields hs L).1]; exact hlatch, ?_, ?_, ?_⟩
  · intro h hL
    have := hrep h hL
    rw [← hli L] at this
    exact this
  · intro h
    have := hwh h
    rw [← hli H] at this
    exact this
  · intro hL
    exact structLoopsAccept_loop_node K fuel intNodes H L P hwf hcase hfree hL P' h1

/-- A witness for C8: the acceptance of `C` as the latching node of `B` in the pre-test
scenario. -/
theorem structLoopsAccept_latch_flags_witness :
    ∃ P', structLoopsAccept K0 10 [11, 12, 13] 11 (preTestProc K0) (some 12) = some P' ∧
      (P'.blocks 12).flg.IS_LATCH_NODE = true ∧
      (P'.blocks 11).latchNode = (P'.blocks 12).dfsLastNum ∧
      ((P'.blocks 11).loopType = eNodeHeaderType.REPEAT_TYPE →
        ((preTestProc K0).blocks 12).nodeType = eBBKind.TWO_BRANCH →
        (P'.Icode ((P'.blocks 12).start + (P'.blocks 12).length - 1)).JX_LOOP = true) ∧
      ((P'.blocks 11).loopType = eNodeHeaderType.WHILE_TYPE →
        (P'.Icode ((P'.blocks 11).start + (P'.blocks 11).length - 1)).JX_LOOP = true) ∧
      (((preTestProc K0).blocks 12).nodeType = eBBKind.LOOP_NODE →
        (P'.blocks 11).loopType = eNodeHeaderType.REPEAT_TYPE ∧
        P'.Icode = (preTestProc K0).Icode) :=
  structLoopsAccept_latch_flags K0 10 [11, 12, 13] 11 12 (preTestProc K0) preTestProc_loopWF
    rfl rfl

/-- C8 fails for a latching node of type `LOOP_NODE`: in the CFG `A -> B`, `B -> C`,
`C -> D`, `C -> B` with the loop-instruction node `C`, the loop structurer accepts `C` as
the latching node of `B` and makes the loop post-test, but `JX_LOOP` is not set on the
last instruction of `C`. -/
theorem loop_node_latch_no_JX_LOOP :
    (structLoops K0 10 (loopNodeProc K0) seqABCD).map
      (fun P => ((P.blocks 11).loopType, (P.blocks 11).latchNode, (P.blocks 12).dfsLastNum,
        (P.blocks 12).flg.IS_LATCH_NODE,
        (P.Icode ((P.blocks 12).start + (P.blocks 12).length - 1)).JX_LOOP)) =
      some (eNodeHeaderType.REPEAT_TYPE, 2, 2, true, false) := by
  decide

/-- C9, as the code has it: when `structLoops` runs on a well-formed derived sequence from
blocks whose `latchNode` is `NO_NODE`, it returns, and afterwards every block `h` of the
procedure whose `latchNode` is set has a block `L` with `IS_LATCH_NODE` and
`h.latchNode = L.dfsLastNum`;
and each acceptance of a latching node `L` for a header `H` leaves `L` with
`IS_LATCH_NODE`, `H.latchNode = L.dfsLastNum` and `L.loopHead = H.dfsLastNum`, unless `H`
is two-way and `L` neither two-way nor `LOOP_NODE`, where `L.loopHead` may be reset to
`NO_NODE`. Uniqueness of the latching node is not part of it. -/
theorem structLoops_latch_flagged :
    (∀ (K : Sentinels) (fuel : Nat) (P : Function) (derivedG : derSeq),
      P.DerSeqOK fuel 0 derivedG → (∀ b ∈ P.dfsLast, (P.blocks b).latchNode = K.NO_NODE) →
      ∃ P', structLoops K fuel P derivedG = some P' ∧
        ∀ h ∈ P.dfsLast, (P'.blocks h).latchNode ≠ K.NO_NODE →
          ∃ L, (P'.blocks L).flg.IS_LATCH_NODE = true ∧
            (P'.blocks h).latchNode = (P'.blocks L).dfsLastNum) ∧
    (∀ (K : Sentinels) (fuel : Nat) (intNodes : List Nat) (H L : Nat) (P : Function),
      P.LoopWF fuel H L → (P.blocks L).caseHead = (P.blocks H).caseHead →
      (P.blocks L).loopHead = K.NO_NODE →
      ∃ P', structLoopsAccept K fuel intNodes H P (some L) = some P' ∧
        (P'.blocks L).flg.IS_LATCH_NODE = true ∧
        (P'.blocks H).latchNode = (P'.blocks L).dfsLastNum ∧
        ((P'.blocks L).loopHead = (P'.blocks H).dfsLastNum ∨
          ((P.blocks H).nodeType = eBBKind.TWO_BRANCH ∧
            (P.blocks L).nodeType ≠ eBBKind.TWO_BRANCH ∧
            (P.blocks L).nodeType ≠ eBBKind.LOOP_NODE ∧
            (P'.blocks L).loopHead = K.NO_NODE))) := by
  constructor
  · intro K fuel P derivedG hok h0
    obtain ⟨P', h1, hs, hΦ⟩ := structLoops_ok K fuel P derivedG hok
      (fun Q => Q.LatchesFlagged K)
      (fun Q s _ hQ => latchesFlagged_inc K Q s hQ)
      (fun Q H L intNodes Q' _ hQ hwf hcase hfree hQ' =>
        latchesFlagged_accept K fuel Q H L intNodes Q' hQ hwf hcase hfree hQ')
      (fun h hmem hh => absurd (h0 h hmem) hh)
    refine ⟨P', h1, fun h hmem hh => ?_⟩
    obtain ⟨L, hL1, hL2⟩ := hΦ h (by rw [hs.1]; exact hmem) hh
    exact ⟨L, hL1, hL2.symm⟩
  · intro K fuel intNodes H L P hwf hcase hfree
    obtain ⟨P', h1, hs, _, _, _, hflag, hlatch, _, _, hhead⟩ :=
      structLoopsAccept_ok K fuel intNodes H L P hwf hcase hfree
    refine ⟨P', h1, hflag, by rw [(static_fields hs L).1]; exact hlatch, ?_⟩
    rw [(static_fields hs H).1]
    exact hhead

/-- A witness for C9: the whole run on the post-test scenario, and the acceptance of `C`
as the latching node of `B` in the pre-test scenario. -/
theorem structLoops_latch_flagged_witness :
    (∃ P', structLoops K0 10 (postTestProc K0) seqABCD = some P' ∧
      ∀ h ∈ (postTestProc K0).dfsLast, (P'.blocks h).latchNode ≠ K0.NO_NODE →
        ∃ L, (P'.blocks L).flg.IS_LATCH_NODE = true ∧
          (P'.blocks h).latchNode = (P'.blocks L).dfsLastNum) ∧
    (∃ P', structLoopsAccept K0 10 [11, 12, 13] 11 (preTestProc K0) (some 12) = some P' ∧
      (P'.blocks 12).flg.IS_LATCH_NODE = true ∧
      (P'.blocks 11).latchNode = (P'.blocks 12).dfsLastNum ∧
      ((P'.blocks 12).loopHead = (P'.blocks 11).dfsLastNum ∨
        (((preTestProc K0).blocks 11).nodeType = eBBKind.TWO_BRANCH ∧
          ((preTestProc K0).blocks 12).nodeType ≠ eBBKind.TWO_BRANCH ∧
          ((preTestProc K0).blocks 12).nodeType ≠ eBBKind.LOOP_NODE ∧
          (P'.blocks 12).loopHead = K0.NO_NODE))) :=
  ⟨structLoops_latch_flagged.1 K0 10 (postTestProc K0) seqABCD postTestProc_derSeqOK
      (by decide),
    structLoops_latch_flagged.2 K0 10 [11, 12, 13] 11 12 (preTestProc K0) preTestProc_loopWF
      rfl rfl⟩

/-- C9 fails when one header heads intervals at two levels: in the CFG `E -> h`,
`h -> L1`, `L1 -> h`, `L1 -> x`, `x -> y`, `y -> x`, `y -> z`, `z -> h`, `z -> r` the
header `h` (DFS-last number 1) gets the latching node `L1` at the first level and `z` at
the second, and after `structLoops` both `L1` and `z` carry `IS_LATCH_NODE` and have
`loopHead = h.dfsLastNum`. -/
theorem two_latches_one_header :
    (structLoops K0 10 (twoLatchProc K0) twoLatchSeq).map
      (fun P => ((P.blocks 11).dfsLastNum, (P.blocks 11).latchNode,
        (P.blocks 12).loopHead, (P.blocks 12).flg.IS_LATCH_NODE,
        (P.blocks 15).loopHead, (P.blocks 15).flg.IS_LATCH_NODE)) =
      some (1, 5, 1, true, 1, true) := by
  decide

/-- C10: the search of `structLoops` for the greatest enclosing back edge, for the header
`h` and the G1 nodes `intNodes` of the interval: it finds no latching node exactly when no
predecessor `p` of `h` has `p` in `intNodes` and `p.dfsFirstNum >= h.dfsFirstNum`, and a
latching node it finds is such a predecessor, with the greatest `dfsLastNum` among
them. -/
theorem structLoopsLatch_greatest_back_edge (P : Function) (intNodes : List Nat) (h : Nat) :
    ((structLoopsLatch intNodes h P).2 = none ↔ ∀ p, ¬ P.Qualifies intNodes h p) ∧
    ∀ l, (structLoopsLatch intNodes h P).2 = some l →
      P.Qualifies intNodes h l ∧
      ∀ p, P.Qualifies intNodes h p → (P.blocks p).dfsLastNum ≤ (P.blocks l).dfsLastNum :=
  structLoopsLatch_spec P intNodes h

/-! ## The members of a loop and the frame of `findNodesInLoop` -/

/-- One step of the tagging loop of `findNodesInLoop`, in closed form. -/
theorem findNodesInLoopTag_eq (K : Sentinels) (intNodes : List Nat) (hd : Int)
    (st : Function × List Int) (i : Int) (b : Nat) (hb : st.1.dfsLastAt i = some b) :
    findNodesInLoopTag K intNodes hd st i = some (
      if (st.1.blocks b).flg.INVALID_BB = false ∧ (st.1.blocks b).immedDom ∈ st.2 ∧
          b ∈ intNodes then
        (if (st.1.blocks b).loopHead = K.NO_NODE then st.1.setLoopHead b hd else st.1,
          st.2 ++ [i])
      else st) := by
  unfold findNodesInLoopTag
  rw [hb]
  simp only [inList, inInt, insertList, decide_eq_true_eq]
  by_cases h1 : (st.1.blocks b).flg.INVALID_BB = true
  · simp [h1]
  · have h1' : (st.1.blocks b).flg.INVALID_BB = false := by simpa using h1
    by_cases h2 : (st.1.blocks b).immedDom ∈ st.2 ∧ b ∈ intNodes
    · by_cases h3 : (st.1.blocks b).loopHead = K.NO_NODE
      · simp [h1', h2.1, h2.2, h3]
      · simp [h1', h2.1, h2.2, h3]
    · have h2' : ¬ ((st.1.blocks b).flg.INVALID_BB = false ∧ (st.1.blocks b).immedDom ∈ st.2 ∧
          b ∈ intNodes) := fun h => h2 ⟨h.2.1, h.2.2⟩
      rw [if_neg h1, if_neg h2, if_neg h2']

/-- The tagging loop of `findNodesInLoop` over an ascending list of indices: the list it
builds and the `loopHead` fields it writes. -/
theorem findNodesInLoopTags_spec (K : Sentinels) (intNodes : List Nat) (hd : Int) :
    ∀ (l : List Int) (st : Function × List Int), l.Pairwise (fun a b => a < b) →
      (∀ i ∈ l, ∀ x ∈ st.2, x < i) → (∀ i ∈ l, st.1.InTable i) →
      ∃ st', l.foldlM (findNodesInLoopTag K intNodes hd) st = some st' ∧
        st.1.SameUpTo BB.eraseLoopHead st'.1 ∧
        (∀ x ∈ st'.2, x ∈ st.2 ∨ x ∈ l) ∧ (∀ x ∈ st.2, x ∈ st'.2) ∧
        (∀ i ∈ l, (i ∈ st'.2 ↔ st.1.LoopMember intNodes st'.2 i)) ∧
        (∀ c, (st'.1.blocks c).loopHead = (st.1.blocks c).loopHead ∨
          ((st.1.blocks c).loopHead = K.NO_NODE ∧ (st'.1.blocks c).loopHead = hd ∧
            ∃ i ∈ l, i ∈ st'.2 ∧ st.1.dfsLastAt i = some c)) ∧
        (∀ c i, i ∈ l → i ∈ st'.2 → st.1.dfsLastAt i = some c →
          (st.1.blocks c).loopHead = K.NO_NODE → (st'.1.blocks c).loopHead = hd) := by
  intro l
  induction l with
  | nil =>
    intro st _ _ _
    exact ⟨st, rfl, Function.SameUpTo.refl _ _, fun x hx => Or.inl hx, fun x hx => hx,
      fun i hi => absurd hi (List.not_mem_nil i), fun _ => Or.inl rfl,
      fun c i hi => absurd hi (List.not_mem_nil i)⟩
  | cons a l ih =>
    intro st hpw hlt htab
    obtain ⟨b, hb⟩ := htab a (List.mem_cons_self _ _)
    have hstep := findNodesInLoopTag_eq K intNodes hd st a b hb
    have hpw' := (List.pairwise_cons.mp hpw)
    have ha_notin : a ∉ st.2 := fun h => lt_irrefl a (hlt a (List.mem_cons_self _ _) a h)
    have ha_notl : a ∉ l := fun h => lt_irrefl a (hpw'.1 a h)
    -- the state after the step
    obtain ⟨st1, hst1, hs1, hM1, hM1', hgood1, hlh1, hlh1'⟩ :
        ∃ st1, findNodesInLoopTag K intNodes hd st a = some st1 ∧
          st.1.SameUpTo BB.eraseLoopHead st1.1 ∧
          (∀ x ∈ st1.2, x ∈ st.2 ∨ x = a) ∧ (∀ x ∈ st.2, x ∈ st1.2) ∧
          (a ∈ st1.2 ↔ ((st.1.blocks b).flg.INVALID_BB = false ∧
            (st.1.blocks b).immedDom ∈ st.2 ∧ b ∈ intNodes)) ∧
          (∀ c, (st1.1.blocks c).loopHead = (st.1.blocks c).loopHead ∨
            ((st.1.blocks c).loopHead = K.NO_NODE ∧ (st1.1.blocks c).loopHead = hd ∧
              a ∈ st1.2 ∧ c = b)) ∧
          (a ∈ st1.2 → (st.1.blocks b).loopHead = K.NO_NODE →
            (st1.1.blocks b).loopHead = hd) := by
      by_cases hg : (st.1.blocks b).flg.INVALID_BB = false ∧ (st.1.blocks b).immedDom ∈ st.2 ∧
          b ∈ intNodes
      · rw [if_pos hg] at hstep
        refine ⟨_, hstep, ?_, ?_, ?_, ?_, ?_, ?_⟩
        · show st.1.SameUpTo BB.eraseLoopHead
            (if (st.1.blocks b).loopHead = K.NO_NODE then st.1.setLoopHead b hd else st.1)
          split
          · exact Function.SameUpTo.setBB _ _ _ _ rfl
          · exact Function.SameUpTo.refl _ _
        · intro x hx
          simpa using hx
        · intro x hx
          exact List.mem_append_left _ hx
        · constructor
          · intro _; exact hg
          · intro _; exact List.mem_append_right _ (List.mem_singleton_self a)
        · intro c
          show ((if (st.1.blocks b).loopHead = K.NO_NODE then st.1.setLoopHead b hd
            else st.1).blocks c).loopHead = _ ∨ _
          by_cases hN : (st.1.blocks b).loopHead = K.NO_NODE
          · rw [if_pos hN]
            by_cases hc : c = b
            · subst hc
              right
              exact ⟨hN, by simp [Function.setLoopHead, Function.setBB],
                List.mem_append_right _ (List.mem_singleton_self a), rfl⟩
            · left; simp [Function.setLoopHead, Function.setBB, hc]
          · rw [if_neg hN]; exact Or.inl rfl
        · intro _ hN
          show ((if (st.1.blocks b).loopHead = K.NO_NODE then st.1.setLoopHead b hd
            else st.1).blocks b).loopHead = hd
          rw [if_pos hN]
          simp [Function.setLoopHead, Function.setBB]
      · rw [if_neg hg] at hstep
        exact ⟨st, hstep, Function.SameUpTo.refl _ _, fun x hx => Or.inl hx, fun x hx => hx,
          ⟨fun h => absurd h ha_notin, fun h => absurd h hg⟩, fun _ => Or.inl rfl,
          fun h => absurd h ha_notin⟩
    have hf1 := fun c => eraseLoopHead_fields hs1 c
    obtain ⟨st2, h2, hs2, hM2, hM2', hgood2, hlh2, hlh2'⟩ := ih st1 hpw'.2
      (by
        intro i hi x hx
        rcases hM1 x hx with h | h
        · exact hlt i (List.mem_cons_of_mem _ hi) x h
        · rw [h]; exact hpw'.1 i hi)
      (by
        intro i hi
        obtain ⟨c, hc⟩ := htab i (List.mem_cons_of_mem _ hi)
        exact ⟨c, by rw [hs1.dfsLastAt]; exact hc⟩)
    have hmem_st2 : ∀ x, x ∈ st2.2 → x < a → x ∈ st.2 := by
      intro x hx hxa
      rcases hM2 x hx with h | h
      · rcases hM1 x h with h | h
        · exact h
        · rw [h] at hxa; exact absurd hxa (lt_irrefl a)
      · exact absurd (hpw'.1 x h) (not_lt.mpr (le_of_lt hxa))
    have hcongr : ∀ i, st1.1.LoopMember intNodes st2.2 i ↔ st.1.LoopMember intNodes st2.2 i := by
      intro i
      unfold Function.LoopMember
      constructor
      · rintro ⟨c, h1, h2, h3, h4, h5⟩
        rw [hs1.dfsLastAt] at h1
        rw [(hf1 c).2.2.2.1] at h2
        rw [(hf1 c).2.2.2.2.2.2.1] at h4 h5
        exact ⟨c, h1, h2, h3, h4, h5⟩
      · rintro ⟨c, h1, h2, h3, h4, h5⟩
        refine ⟨c, by rw [hs1.dfsLastAt]; exact h1, by rw [(hf1 c).2.2.2.1]; exact h2, h3, ?_, ?_⟩
        · rw [(hf1 c).2.2.2.2.2.2.1]; exact h4
        · rw [(hf1 c).2.2.2.2.2.2.1]; exact h5
    refine ⟨st2, by rw [List.foldlM_cons, hst1]; exact h2, hs1.trans hs2, ?_,
      fun x hx => hM2' x (hM1' x hx), ?_, ?_, ?_⟩
    · intro x hx
      rcases hM2 x hx with h | h
      · rcases hM1 x h with h | h
        · exact Or.inl h
        · exact Or.inr (by rw [h]; exact List.mem_cons_self _ _)
      · exact Or.inr (List.mem_cons_of_mem _ h)
    · intro i hi
      rcases List.mem_cons.mp hi with rfl | hi
      · constructor
        · intro hmem
          have h1 : i ∈ st1.2 := by
            rcases hM2 i hmem with h | h
            · exact h
            · exact absurd h ha_notl
          obtain ⟨g1, g2, g3⟩ := hgood1.mp h1
          exact ⟨b, hb, g1, g3, hM2' _ (hM1' _ g2), hlt i (List.mem_cons_self _ _) _ g2⟩
        · rintro ⟨c, h1, h2, h3, h4, h5⟩
          rw [hb] at h1
          cases h1
          exact hM2' _ (hgood1.mpr ⟨h2, hmem_st2 _ h4 h5, h3⟩)
      · rw [hgood2 i hi]
        exact hcongr i
    · intro c
      rcases hlh2 c with h | ⟨h, h', i, hi, hi', hc⟩
      · rcases hlh1 c with g | ⟨g, g', ga, gc⟩
        · exact Or.inl (h.trans g)
        · right
          refine ⟨g, h.trans g', a, List.mem_cons_self _ _, hM2' _ ga, ?_⟩
          rw [gc]; exact hb
      · rw [hs1.dfsLastAt] at hc
        rcases hlh1 c with g | ⟨g, g', ga, gc⟩
        · exact Or.inr ⟨by rw [← g]; exact h, h', i, List.mem_cons_of_mem _ hi, hi', hc⟩
        · exact Or.inr ⟨g, h', i, List.mem_cons_of_mem _ hi, hi', hc⟩
    · intro c i hi hmem hc hN
      rcases List.mem_cons.mp hi with rfl | hi
      · rw [hb] at hc
        cases hc
        have h1 : i ∈ st1.2 := by
          rcases hM2 i hmem with h | h
          · exact h
          · exact absurd h ha_notl
        have h2 := hlh1' h1 hN
        rcases hlh2 b with h | ⟨_, h, _⟩
        · rw [h]; exact h2
        · exact h
      · rcases hlh1 c with g | ⟨_, g', _, _⟩
        · exact hlh2' c i hi hmem (by rw [hs1.dfsLastAt]; exact hc) (by rw [g]; exact hN)
        · rcases hlh2 c with h | ⟨_, h, _⟩
          · rw [h]; exact g'
          · exact h

theorem indices_pairwise (lo : Int) (n : Nat) :
    ((List.range n).map (fun t : Nat => lo + (t : Int))).Pairwise (fun a b => a < b) := by
  rw [List.pairwise_map]
  have h := List.pairwise_lt_range n
  exact h.imp (fun {a b} hab => by omega)

theorem mem_indices (lo : Int) (n : Nat) (i : Int) :
    i ∈ (List.range n).map (fun t : Nat => lo + (t : Int)) ↔ lo ≤ i ∧ i < lo + n := by
  constructor
  · intro h
    obtain ⟨t, ht, rfl⟩ := List.mem_map.mp h
    rw [List.mem_range] at ht
    omega
  · rintro ⟨h1, h2⟩
    refine List.mem_map.mpr ⟨(i - lo).toNat, ?_, ?_⟩
    · rw [List.mem_range]; omega
    · omega

/-- The first part of `findNodesInLoop`: which indices between the header and the
latching node enter the node list, and which `loopHead` fields of the other blocks
change. -/
theorem findNodesInLoopNodes_spec (K : Sentinels) (latchNode head : Nat) (P : Function)
    (intNodes : List Nat) (hH : P.InTable (P.blocks head).dfsLastNum)
    (hL : P.InTable (P.blocks latchNode).dfsLastNum) :
    ∃ P1 M, findNodesInLoopNodes K latchNode head P intNodes = some (P1, M) ∧
      (∀ i, (P.blocks head).dfsLastNum < i → i < (P.blocks latchNode).dfsLastNum →
        (i ∈ M ↔ P.LoopMember intNodes M i)) ∧
      (∀ c, c ≠ head → c ≠ latchNode →
        (P1.blocks c).loopHead = (P.blocks c).loopHead ∨
        ((P.blocks c).loopHead = K.NO_NODE ∧
          (P1.blocks c).loopHead = (P.blocks head).dfsLastNum ∧
          ∃ i ∈ M, (P.blocks head).dfsLastNum < i ∧ i < (P.blocks latchNode).dfsLastNum ∧
            P.dfsLastAt i = some c)) ∧
      (∀ c i, c ≠ head → c ≠ latchNode → i ∈ M → (P.blocks head).dfsLastNum < i →
        i < (P.blocks latchNode).dfsLastNum → P.dfsLastAt i = some c →
        (P.blocks c).loopHead = K.NO_NODE →
        (P1.blocks c).loopHead = (P.blocks head).dfsLastNum) := by
  rw [inTable_iff] at hH hL
  unfold findNodesInLoopNodes
  simp only
  have hs0 : P.SameUpTo BB.eraseLoopHead (P.setLoopHead head (P.blocks head).dfsLastNum) :=
    Function.SameUpTo.setBB _ _ _ _ rfl
  have hf0 := fun c => eraseLoopHead_fields hs0 c
  rw [(hf0 latchNode).1]
  have hlh0 : ∀ c, c ≠ head →
      ((P.setLoopHead head (P.blocks head).dfsLastNum).blocks c).loopHead =
        (P.blocks c).loopHead := by
    intro c hc
    simp [Function.setLoopHead, Function.setBB, hc]
  have hmemI := mem_indices ((P.blocks head).dfsLastNum + 1)
    ((P.blocks latchNode).dfsLastNum - ((P.blocks head).dfsLastNum + 1)).toNat
  obtain ⟨st', hst, hs1, hM1, hM1', hgood, hlh1, hlh1'⟩ := findNodesInLoopTags_spec K intNodes
    (P.blocks head).dfsLastNum
    ((List.range ((P.blocks latchNode).dfsLastNum - ((P.blocks head).dfsLastNum + 1)).toNat).map
      (fun t : Nat => (P.blocks head).dfsLastNum + 1 + (t : Int)))
    (P.setLoopHead head (P.blocks head).dfsLastNum, insertList [] (P.blocks head).dfsLastNum)
    (indices_pairwise _ _)
    (by
      intro i hi x hx
      rw [hmemI] at hi
      simp only [insertList, List.nil_append, List.mem_singleton] at hx
      omega)
    (by
      intro i hi
      rw [hmemI] at hi
      rw [inTable_iff]
      change _ ∧ _ < (P.dfsLast.length : Int)
      omega)
  rw [hst]
  obtain ⟨P2, M2⟩ := st'
  simp only at hs1 hM1 hM1' hgood hlh1 hlh1' ⊢
  have hrange : ∀ i, (P.blocks head).dfsLastNum < i → i < (P.blocks latchNode).dfsLastNum →
      i ∈ (List.range ((P.blocks latchNode).dfsLastNum -
        ((P.blocks head).dfsLastNum + 1)).toNat).map
        (fun t : Nat => (P.blocks head).dfsLastNum + 1 + (t : Int)) := by
    intro i h1 h2
    rw [hmemI]
    omega
  have hlhP3 : ∀ c, c ≠ latchNode →
      ((P2.setLoopHead latchNode (P.blocks head).dfsLastNum).blocks c).loopHead =
        (P2.blocks c).loopHead := by
    intro c hc
    simp [Function.setLoopHead, Function.setBB, hc]
  -- membership in the list of the tagging loop
  have hmemM2 : ∀ i, (P.blocks head).dfsLastNum < i → i < (P.blocks latchNode).dfsLastNum →
      ∀ M : List Int, (∀ x, x ∈ M ↔ x ∈ M2 ∨ (x ∈ M ∧ x = (P.blocks latchNode).dfsLastNum)) →
      (i ∈ M ↔ P.LoopMember intNodes M i) := by
    intro i h1 h2 M hM
    have hiM : i ∈ M ↔ i ∈ M2 := by
      rw [hM i]
      constructor
      · rintro (h | ⟨_, h⟩)
        · exact h
        · omega
      · intro h; exact Or.inl h
    rw [hiM, hgood i (hrange i h1 h2)]
    unfold Function.LoopMember
    constructor
    · rintro ⟨c, g1, g2, g3, g4, g5⟩
      rw [hs0.dfsLastAt] at g1
      rw [(hf0 c).2.2.2.1] at g2
      rw [(hf0 c).2.2.2.2.2.2.1] at g4 g5
      exact ⟨c, g1, g2, g3, (hM _).mpr (Or.inl g4), g5⟩
    · rintro ⟨c, g1, g2, g3, g4, g5⟩
      refine ⟨c, by rw [hs0.dfsLastAt]; exact g1, by rw [(hf0 c).2.2.2.1]; exact g2, g3, ?_, ?_⟩
      · rw [(hf0 c).2.2.2.2.2.2.1]
        rcases (hM _).mp g4 with h | ⟨_, h⟩
        · exact h
        · omega
      · rw [(hf0 c).2.2.2.2.2.2.1]; exact g5
  have hframe : ∀ (M : List Int), (∀ x ∈ M2, x ∈ M) → ∀ c, c ≠ head → c ≠ latchNode →
      ((P2.setLoopHead latchNode (P.blocks head).dfsLastNum).blocks c).loopHead =
        (P.blocks c).loopHead ∨
      ((P.blocks c).loopHead = K.NO_NODE ∧
        ((P2.setLoopHead latchNode (P.blocks head).dfsLastNum).blocks c).loopHead =
          (P.blocks head).dfsLastNum ∧
        ∃ i ∈ M, (P.blocks head).dfsLastNum < i ∧ i < (P.blocks latchNode).dfsLastNum ∧
          P.dfsLastAt i = some c) := by
    intro M hM c hc1 hc2
    rw [hlhP3 c hc2]
    rcases hlh1 c with h | ⟨h, h', i, hi, hi', hci⟩
    · left; rw [h, hlh0 c hc1]
    · right
      rw [hlh0 c hc1] at h
      rw [hmemI] at hi
      rw [hs0.dfsLastAt] at hci
      exact ⟨h, h', i, hM i hi', by omega, by omega, hci⟩
  have hset : ∀ c i, c ≠ head → c ≠ latchNode → i ∈ M2 → (P.blocks head).dfsLastNum < i →
      i < (P.blocks latchNode).dfsLastNum → P.dfsLastAt i = some c →
      (P.blocks c).loopHead = K.NO_NODE →
      ((P2.setLoopHead latchNode (P.blocks head).dfsLastNum).blocks c).loopHead =
        (P.blocks head).dfsLastNum := by
    intro c i hc1 hc2 hi h1 h2 hci hN
    rw [hlhP3 c hc2]
    exact hlh1' c i (hrange i h1 h2) hi (by rw [hs0.dfsLastAt]; exact hci)
      (by rw [hlh0 c hc1]; exact hN)
  by_cases hne : latchNode = head
  · rw [if_neg (by simp [hne])]
    refine ⟨_, _, rfl, ?_, hframe M2 (fun x hx => hx), hset⟩
    intro i h1 h2
    exact hmemM2 i h1 h2 M2 (fun x => ⟨fun h => Or.inl h, fun h => h.elim id (fun g => g.1)⟩)
  · rw [if_pos hne]
    have hdl : ((P2.setLoopHead latchNode (P.blocks head).dfsLastNum).blocks latchNode).dfsLastNum =
        (P.blocks latchNode).dfsLastNum := by
      have hs2 : P2.SameUpTo BB.eraseLoopHead
          (P2.setLoopHead latchNode (P.blocks head).dfsLastNum) :=
        Function.SameUpTo.setBB _ _ _ _ rfl
      exact (eraseLoopHead_fields ((hs0.trans hs1).trans hs2) latchNode).1
    rw [hdl]
    refine ⟨_, _, rfl, ?_, hframe _ (fun x hx => by simp [insertList, hx]), ?_⟩
    · intro i h1 h2
      apply hmemM2 i h1 h2
      intro x
      simp only [insertList, List.mem_append, List.mem_singleton]
      constructor
      · rintro (h | h)
        · exact Or.inl h
        · exact Or.inr ⟨Or.inr h, h⟩
      · rintro (h | ⟨h, _⟩)
        · exact Or.inl h
        · exact h
    · intro c i hc1 hc2 hi h1 h2 hci hN
      simp only [insertList, List.mem_append, List.mem_singleton] at hi
      rcases hi with hi | hi
      · exact hset c i hc1 hc2 hi h1 h2 hci hN
      · omega

/-- A relation that every step of a loop keeps holds between the state before and the
state after the loop. -/
theorem foldlM_rel {σ α : Type} (f : σ → α → Option σ) (R : σ → σ → Prop)
    (hrefl : ∀ s, R s s) (htrans : ∀ s1 s2 s3, R s1 s2 → R s2 s3 → R s1 s3) :
    ∀ (l : List α), (∀ a ∈ l, ∀ s s', f s a = some s' → R s s') →
      ∀ s s', l.foldlM f s = some s' → R s s' := by
  intro l
  induction l with
  | nil =>
    intro _ s s' h
    rw [List.foldlM_nil] at h
    cases h
    exact hrefl s
  | cons a l ih =>
    intro hstep s s' h
    rw [List.foldlM_cons] at h
    cases h1 : f s a with
    | none => rw [h1] at h; cases h
    | some s1 =>
      rw [h1] at h
      exact htrans _ _ _ (hstep a (List.mem_cons_self _ _) s s1 h1)
        (ih (fun b hb => hstep b (List.mem_cons_of_mem _ hb)) s1 s' h)

theorem findEndlessFollowEdge_loopHead (loopNodes : List Int) (head b : Nat) (P : Function)
    (j : Nat) (Q : Function) (h : findEndlessFollowEdge loopNodes head b P j = some Q) :
    Q.dfsLast = P.dfsLast ∧ ∀ c, (Q.blocks c).loopHead = (P.blocks c).loopHead := by
  unfold findEndlessFollowEdge at h
  split at h
  · cases h
  · split at h
    · cases h
      exact ⟨rfl, fun c => setLoopFollow_loopHead _ _ _ c⟩
    · cases h
      exact ⟨rfl, fun _ => rfl⟩

theorem findEndlessFollowNode_loopHead (loopNodes : List Int) (head : Nat) (P : Function)
    (p : Int) (Q : Function) (h : findEndlessFollowNode loopNodes head P p = some Q) :
    Q.dfsLast = P.dfsLast ∧ ∀ c, (Q.blocks c).loopHead = (P.blocks c).loopHead := by
  unfold findEndlessFollowNode at h
  split at h
  · cases h
  · rename_i b _
    exact foldlM_rel (findEndlessFollowEdge loopNodes head b)
      (fun P Q => Q.dfsLast = P.dfsLast ∧ ∀ c, (Q.blocks c).loopHead = (P.blocks c).loopHead)
      (fun _ => ⟨rfl, fun _ => rfl⟩)
      (fun _ _ _ h1 h2 => ⟨h2.1.trans h1.1, fun c => (h2.2 c).trans (h1.2 c)⟩) _
      (fun a _ s s' hs => findEndlessFollowEdge_loopHead loopNodes head b s a s' hs) _ _ h

/-- The function `findEndlessFollow` leaves every `loopHead` as it is. -/
theorem findEndlessFollow_loopHead (K : Sentinels) (P : Function) (loopNodes : List Int)
    (head : Nat) (Q : Function) (h : findEndlessFollow K P loopNodes head = some Q) :
    Q.dfsLast = P.dfsLast ∧ ∀ c, (Q.blocks c).loopHead = (P.blocks c).loopHead := by
  unfold findEndlessFollow at h
  have := foldlM_rel (findEndlessFollowNode loopNodes head)
    (fun P Q => Q.dfsLast = P.dfsLast ∧ ∀ c, (Q.blocks c).loopHead = (P.blocks c).loopHead)
    (fun _ => ⟨rfl, fun _ => rfl⟩)
    (fun _ _ _ h1 h2 => ⟨h2.1.trans h1.1, fun c => (h2.2 c).trans (h1.2 c)⟩) _
    (fun a _ s s' hs => findEndlessFollowNode_loopHead loopNodes head s a s' hs) _ _ h
  exact ⟨this.1, fun c => (this.2 c).trans (setLoopFollow_loopHead _ _ _ c)⟩

/-- The dominator walk of `findNodesInLoop` leaves every `loopHead` as it is. -/
theorem findNodesInLoopWalk_loopHead (K : Sentinels) (loopNodes : List Int) (head : Nat)
    (thenDfs elseDfs : Int) :
    ∀ (fuel : Nat) (P : Function) (pbb : Nat) (Q : Function) (w : Nat),
      findNodesInLoopWalk K loopNodes head thenDfs elseDfs fuel P pbb = some (Q, w) →
      Q.dfsLast = P.dfsLast ∧ ∀ c, (Q.blocks c).loopHead = (P.blocks c).loopHead := by
  intro fuel
  induction fuel with
  | zero =>
    intro P pbb Q w h
    unfold findNodesInLoopWalk at h
    cases h
  | succ n ih =>
    intro P pbb Q w h
    unfold findNodesInLoopWalk at h
    split at h
    · cases h
      exact ⟨rfl, fun c => setLoopFollow_loopHead _ _ _ c⟩
    · split at h
      · cases h
        exact ⟨rfl, fun c => setLoopFollow_loopHead _ _ _ c⟩
      · split at h
        · split at h
          · cases h
          · rename_i P1 hP1
            cases h
            have := findEndlessFollow_loopHead K _ loopNodes head _ hP1
            exact ⟨this.1, fun c => (this.2 c).trans (setLoopType_loopHead _ _ _ c)⟩
        · split at h
          · cases h
          · exact ih P _ Q w h

/-- The end of the pre-test branch writes at most the `loopHead` of the block at the index
`loopFollow` of the header. -/
theorem findNodesInLoopWalkEnd_loopHead (K : Sentinels) (H : Nat) (P2 : Function) (w : Nat)
    (P' : Function) (h : findNodesInLoopWalkEnd K H P2 w = some P') :
    P'.dfsLast = P2.dfsLast ∧
    ∀ c, (P'.blocks c).loopHead = (P2.blocks c).loopHead ∨
      (P'.dfsLastAt (P'.blocks H).loopFollow = some c ∧ (P'.blocks c).loopHead = K.NO_NODE) := by
  unfold findNodesInLoopWalkEnd at h
  split at h
  · split at h
    · cases h
    · rename_i f hf
      cases h
      refine ⟨rfl, fun c => ?_⟩
      by_cases hc : c = f
      · subst hc
        right
        constructor
        · have e1 : (((P2.setLoopHead c K.NO_NODE).SetLlFlagJX_LOOP (P2.lastInstr H)).blocks
              H).loopFollow = (P2.blocks H).loopFollow := by
            by_cases hH : H = c <;>
              simp [Function.SetLlFlagJX_LOOP, Function.setLoopHead, Function.setBB, hH]
          rw [e1]
          exact hf
        · simp [Function.SetLlFlagJX_LOOP, Function.setLoopHead, Function.setBB]
      · left
        simp [Function.SetLlFlagJX_LOOP, Function.setLoopHead, Function.setBB, hc]
  · cases h
    exact ⟨rfl, fun _ => Or.inl rfl⟩

/-- The second part of `findNodesInLoop` writes a `loopHead` only in the pre-test branch
with the dominator walk, and there only that of the block at the index `loopFollow` of
the header, which becomes `NO_NODE`. -/
theorem findNodesInLoopType_loopHead (K : Sentinels) (fuel : Nat) (L H : Nat) (P : Function)
    (M : List Int) (P' : Function) (h : findNodesInLoopType K fuel L H P M = some P') :
    ∀ c, (P'.blocks c).loopHead = (P.blocks c).loopHead ∨
      (P.WalkCase H L ∧ P'.dfsLastAt (P'.blocks H).loopFollow = some c ∧
        (P'.blocks c).loopHead = K.NO_NODE) := by
  have hset : ∀ (t : eNodeHeaderType) (f : Int) (j : Int) (c : Nat),
      (((P.setLoop H t f).SetLlFlagJX_LOOP j).blocks c).loopHead = (P.blocks c).loopHead :=
    fun t f j c => setLoop_loopHead P H t f c
  unfold findNodesInLoopType at h
  simp only at h
  by_cases hL : (P.blocks L).nodeType = eBBKind.TWO_BRANCH
  · rw [if_pos hL] at h
    intro c
    left
    repeat' split at h
    all_goals first
      | (cases h; done)
      | (cases h; exact hset _ _ _ c)
  · rw [if_neg hL] at h
    by_cases hL' : (P.blocks L).nodeType = eBBKind.LOOP_NODE
    · rw [if_pos hL'] at h
      intro c
      left
      split at h
      · cases h
      · cases h
        exact setLoop_loopHead P H _ _ c
    · rw [if_neg hL'] at h
      by_cases hH : (P.blocks H).nodeType = eBBKind.TWO_BRANCH
      · rw [if_pos hH] at h
        split at h
        · cases h
        · split at h
          · cases h
          · split at h
            · cases h
            · rename_i P2 pbb hwalk
              have h1 := findNodesInLoopWalk_loopHead K M H _ _ fuel _ L P2 pbb hwalk
              have h2 := findNodesInLoopWalkEnd_loopHead K H P2 pbb P' h
              intro c
              rcases h2.2 c with g | ⟨g, g'⟩
              · left
                rw [g, h1.2 c, setLoopType_loopHead]
              · right
                exact ⟨⟨hH, hL, hL'⟩, g, g'⟩
      · rw [if_neg hH] at h
        intro c
        left
        rw [(findEndlessFollow_loopHead K _ M H P' h).2 c, setLoopType_loopHead]

/-- The frame of `findNodesInLoop` on `loopHead`: a block other than the header and the
latching node, and other than the block at the index `loopFollow` of the header when the
call takes the pre-test branch with the dominator walk, keeps its `loopHead`, unless this
was `NO_NODE` and the block was put on the node list, in which case it becomes the number
of the header. -/
theorem findNodesInLoop_frame (K : Sentinels) (fuel : Nat) (L H : Nat) (P : Function)
    (intNodes : List Nat) (hwf : P.LoopWF fuel H L) :
    ∃ P1 M P', findNodesInLoopNodes K L H P intNodes = some (P1, M) ∧
      findNodesInLoop K fuel L H P intNodes = some P' ∧
      (∀ i, (P.blocks H).dfsLastNum < i → i < (P.blocks L).dfsLastNum →
        (i ∈ M ↔ P.LoopMember intNodes M i)) ∧
      (∀ c, c ≠ H → c ≠ L →
        (P'.blocks c).loopHead = (P.blocks c).loopHead ∨
        ((P.blocks c).loopHead = K.NO_NODE ∧ (P'.blocks c).loopHead = (P.blocks H).dfsLastNum ∧
          ∃ i ∈ M, (P.blocks H).dfsLastNum < i ∧ i < (P.blocks L).dfsLastNum ∧
            P.dfsLastAt i = some c) ∨
        (P.WalkCase H L ∧ P'.dfsLastAt (P'.blocks H).loopFollow = some c ∧
          (P'.blocks c).loopHead = K.NO_NODE)) ∧
      (∀ c i, c ≠ H → c ≠ L → i ∈ M → (P.blocks H).dfsLastNum < i →
        i < (P.blocks L).dfsLastNum → P.dfsLastAt i = some c →
        (P.blocks c).loopHead = K.NO_NODE →
        (P'.blocks c).loopHead = (P.blocks H).dfsLastNum ∨
        (P.WalkCase H L ∧ P'.dfsLastAt (P'.blocks H).loopFollow = some c ∧
          (P'.blocks c).loopHead = K.NO_NODE)) := by
  obtain ⟨P1, M, hN, hmem, hfr, hset⟩ := findNodesInLoopNodes_spec K L H P intNodes hwf.1 hwf.2.1
  obtain ⟨P1', M', hN', hs, _⟩ := findNodesInLoopNodes_ok K L H P intNodes hwf.1 hwf.2.1
  rw [hN] at hN'
  cases hN'
  obtain ⟨P', hP', _⟩ := findNodesInLoop_ok K fuel L H P intNodes hwf
  have hty := (findNodesInLoop_eq K fuel L H P P1 intNodes M hN).symm.trans hP'
  have hlh := findNodesInLoopType_loopHead K fuel L H P1 M P' hty
  have hwc : P1.WalkCase H L → P.WalkCase H L := by
    rintro ⟨g1, g2, g3⟩
    rw [(eraseLoopHead_fields hs H).2.2.1] at g1
    rw [(eraseLoopHead_fields hs L).2.2.1] at g2 g3
    exact ⟨g1, g2, g3⟩
  refine ⟨P1, M, P', hN, hP', hmem, ?_, ?_⟩
  · intro c hc1 hc2
    rcases hlh c with g | ⟨g1, g2, g3⟩
    · rcases hfr c hc1 hc2 with f | ⟨f1, f2, f3⟩
      · exact Or.inl (g.trans f)
      · exact Or.inr (Or.inl ⟨f1, g.trans f2, f3⟩)
    · exact Or.inr (Or.inr ⟨hwc g1, g2, g3⟩)
  · intro c i hc1 hc2 hi h1 h2 hci hNo
    rcases hlh c with g | ⟨g1, g2, g3⟩
    · exact Or.inl (g.trans (hset c i hc1 hc2 hi h1 h2 hci hNo))
    · exact Or.inr ⟨hwc g1, g2, g3⟩

/-! ## The frame of `findNodesInLoop`: the claim -/

theorem whileProc_loopWF : (whileProc K0).LoopWF 10 11 12 :=
  ⟨⟨11, rfl⟩, ⟨12, rfl⟩, whileProc_outEdgesOK, fun h => absurd h (by decide),
    fun h => absurd h (by decide),
    fun _ => ⟨12, 13, rfl, rfl, fun _ _ => ⟨⟨12, rfl⟩, ⟨13, rfl⟩, 0, 12, by decide,
      Function.WalkStops.stop (Or.inl rfl)⟩⟩⟩

/-- The node list that the first part of `findNodesInLoop` returns holds the number of the
header, indices between the header and the latching node, and the number of the latching
node, nothing else. -/
theorem findNodesInLoopNodes_bounds (K : Sentinels) (latchNode head : Nat) (P : Function)
    (intNodes : List Nat) (hH : P.InTable (P.blocks head).dfsLastNum)
    (hL : P.InTable (P.blocks latchNode).dfsLastNum) :
    ∃ P1 M, findNodesInLoopNodes K latchNode head P intNodes = some (P1, M) ∧
      ∀ x ∈ M, x = (P.blocks head).dfsLastNum ∨
        ((P.blocks head).dfsLastNum < x ∧ x < (P.blocks latchNode).dfsLastNum) ∨
        x = (P.blocks latchNode).dfsLastNum := by
  rw [inTable_iff] at hH hL
  unfold findNodesInLoopNodes
  simp only
  have hs0 : P.SameUpTo BB.eraseLoopHead (P.setLoopHead head (P.blocks head).dfsLastNum) :=
    Function.SameUpTo.setBB _ _ _ _ rfl
  rw [(eraseLoopHead_fields hs0 latchNode).1]
  have hmemI := mem_indices ((P.blocks head).dfsLastNum + 1)
    ((P.blocks latchNode).dfsLastNum - ((P.blocks head).dfsLastNum + 1)).toNat
  obtain ⟨st', hst, hs1, hM1, _⟩ := findNodesInLoopTags_spec K intNodes
    (P.blocks head).dfsLastNum
    ((List.range ((P.blocks latchNode).dfsLastNum - ((P.blocks head).dfsLastNum + 1)).toNat).map
      (fun t : Nat => (P.blocks head).dfsLastNum + 1 + (t : Int)))
    (P.setLoopHead head (P.blocks head).dfsLastNum, insertList [] (P.blocks head).dfsLastNum)
    (indices_pairwise _ _)
    (by
      intro i hi x hx
      rw [hmemI] at hi
      simp only [insertList, List.nil_append, List.mem_singleton] at hx
      omega)
    (by
      intro i hi
      rw [hmemI] at hi
      rw [inTable_iff]
      change _ ∧ _ < (P.dfsLast.length : Int)
      omega)
  rw [hst]
  obtain ⟨P2, M2⟩ := st'
  simp only at hs1 hM1 ⊢
  have hM2 : ∀ x ∈ M2, x = (P.blocks head).dfsLastNum ∨
      ((P.blocks head).dfsLastNum < x ∧ x < (P.blocks latchNode).dfsLastNum) := by
    intro x hx
    rcases hM1 x hx with h | h
    · left
      simpa [insertList] using h
    · right
      rw [hmemI] at h
      omega
  by_cases hne : latchNode = head
  · rw [if_neg (by simp [hne])]
    refine ⟨_, _, rfl, fun x hx => ?_⟩
    rcases hM2 x hx with h | h
    · exact Or.inl h
    · exact Or.inr (Or.inl h)
  · rw [if_pos hne]
    have hdl : ((P2.setLoopHead latchNode (P.blocks head).dfsLastNum).blocks
        latchNode).dfsLastNum = (P.blocks latchNode).dfsLastNum := by
      have hs2 : P2.SameUpTo BB.eraseLoopHead
          (P2.setLoopHead latchNode (P.blocks head).dfsLastNum) :=
        Function.SameUpTo.setBB _ _ _ _ rfl
      exact (eraseLoopHead_fields ((hs0.trans hs1).trans hs2) latchNode).1
    rw [hdl]
    refine ⟨_, _, rfl, fun x hx => ?_⟩
    simp only [insertList, List.mem_append, List.mem_singleton] at hx
    rcases hx with hx | hx
    · rcases hM2 x hx with h | h
      · exact Or.inl h
      · exact Or.inr (Or.inl h)
    · exact Or.inr (Or.inr hx)

theorem exitLoopProc_loopWF : (exitLoopProc K0).LoopWF 10 11 14 :=
  ⟨⟨11, rfl⟩, ⟨14, rfl⟩, outEdgesOK_of_table _ (by decide), fun h => absurd h (by decide),
    fun h => absurd h (by decide),
    fun _ => ⟨12, 15, rfl, rfl, fun _ _ => ⟨⟨12, rfl⟩, ⟨15, rfl⟩, 2, 12, by decide,
      Function.WalkStops.next (b := 14) (c := 13) (by decide) rfl
        (Function.WalkStops.next (b := 13) (c := 12) (by decide) rfl
          (Function.WalkStops.stop (Or.inl rfl)))⟩⟩⟩

/-- C11, as the code has it: in a call `findNodesInLoop(latch, head, proc, intNodes)` on
well-formed arguments, the node list `M` starts from `head.dfsLastNum`, holds
`latch.dfsLastNum` when `latch` is not `head`, and holds nothing but these two and indices
between them; an index `i` with `head.dfsLastNum < i < latch.dfsLastNum` is on `M` iff its
block is valid and in `intNodes` and its `immedDom` is an entry of `M` below `i` (that
is, was on the list already). A block other than `head` and `latch` keeps its `loopHead`,
or had `loopHead = NO_NODE`, was put on the list and gets `loopHead = head.dfsLastNum`, or
is the block at the index `head.loopFollow` in the pre-test branch with the dominator walk
(two-way header, latching node neither two-way nor `LOOP_NODE`), where line 243 resets its
`loopHead` to `NO_NODE` whatever it was; and a block put on the list with
`loopHead = NO_NODE` gets `loopHead = head.dfsLastNum` unless it is that block. -/
theorem findNodesInLoop_members_and_loopHead (K : Sentinels) (fuel : Nat) (L H : Nat)
    (P : Function) (intNodes : List Nat) (hwf : P.LoopWF fuel H L) :
    ∃ P1 M P', findNodesInLoopNodes K L H P intNodes = some (P1, M) ∧
      findNodesInLoopType K fuel L H P1 M = some P' ∧
      findNodesInLoop K fuel L H P intNodes = some P' ∧
      (P.blocks H).dfsLastNum ∈ M ∧
      (L ≠ H → (P.blocks L).dfsLastNum ∈ M) ∧
      (∀ x ∈ M, x = (P.blocks H).dfsLastNum ∨
        ((P.blocks H).dfsLastNum < x ∧ x < (P.blocks L).dfsLastNum) ∨
        x = (P.blocks L).dfsLastNum) ∧
      (∀ i, (P.blocks H).dfsLastNum < i → i < (P.blocks L).dfsLastNum →
        (i ∈ M ↔ P.LoopMember intNodes M i)) ∧
      (∀ c, c ≠ H → c ≠ L →
        (P'.blocks c).loopHead = (P.blocks c).loopHead ∨
        ((P.blocks c).loopHead = K.NO_NODE ∧ (P'.blocks c).loopHead = (P.blocks H).dfsLastNum ∧
          ∃ i ∈ M, (P.blocks H).dfsLastNum < i ∧ i < (P.blocks L).dfsLastNum ∧
            P.dfsLastAt i = some c) ∨
        (P.WalkCase H L ∧ P'.dfsLastAt (P'.blocks H).loopFollow = some c ∧
          (P'.blocks c).loopHead = K.NO_NODE)) ∧
      (∀ c i, c ≠ H → c ≠ L → i ∈ M → (P.blocks H).dfsLastNum < i →
        i < (P.blocks L).dfsLastNum → P.dfsLastAt i = some c →
        (P.blocks c).loopHead = K.NO_NODE →
        (P'.blocks c).loopHead = (P.blocks H).dfsLastNum ∨
        (P.WalkCase H L ∧ P'.dfsLastAt (P'.blocks H).loopFollow = some c ∧
          (P'.blocks c).loopHead = K.NO_NODE)) := by
  obtain ⟨P1, M, P', hN, hP', hmem, hfr, hset⟩ := findNodesInLoop_frame K fuel L H P intNodes hwf
  obtain ⟨P1a, Ma, hNa, _, _, hseed, hlatch, _⟩ :=
    findNodesInLoopNodes_ok K L H P intNodes hwf.1 hwf.2.1
  obtain ⟨P1b, Mb, hNb, hbound⟩ := findNodesInLoopNodes_bounds K L H P intNodes hwf.1 hwf.2.1
  rw [hN] at hNa hNb
  cases hNa
  cases hNb
  exact ⟨P1, M, P', hN, (findNodesInLoop_eq K fuel L H P P1 intNodes M hN).symm.trans hP', hP',
    hseed, hlatch, hbound, hmem, hfr, hset⟩

/-- A witness for C11: the call of `findNodesInLoop` for the header `H` (DFS-last number
1) and the latching node `L` (4) of the loop with an exit from its body; the blocks `X`
and `Y` at the indices 2 and 3 are put on the list and get `loopHead = 1`. -/
theorem findNodesInLoop_members_and_loopHead_witness :
    (∃ P1 M P', findNodesInLoopNodes K0 14 11 (exitLoopProc K0) [11, 12, 13, 14, 15, 16] =
        some (P1, M) ∧
      findNodesInLoopType K0 10 14 11 P1 M = some P' ∧
      findNodesInLoop K0 10 14 11 (exitLoopProc K0) [11, 12, 13, 14, 15, 16] = some P' ∧
      ((exitLoopProc K0).blocks 11).dfsLastNum ∈ M ∧
      (14 ≠ 11 → ((exitLoopProc K0).blocks 14).dfsLastNum ∈ M) ∧
      (∀ x ∈ M, x = ((exitLoopProc K0).blocks 11).dfsLastNum ∨
        (((exitLoopProc K0).blocks 11).dfsLastNum < x ∧
          x < ((exitLoopProc K0).blocks 14).dfsLastNum) ∨
        x = ((exitLoopProc K0).blocks 14).dfsLastNum) ∧
      (∀ i, ((exitLoopProc K0).blocks 11).dfsLastNum < i →
        i < ((exitLoopProc K0).blocks 14).dfsLastNum →
        (i ∈ M ↔ (exitLoopProc K0).LoopMember [11, 12, 13, 14, 15, 16] M i)) ∧
      (∀ c, c ≠ 11 → c ≠ 14 →
        (P'.blocks c).loopHead = ((exitLoopProc K0).blocks c).loopHead ∨
        (((exitLoopProc K0).blocks c).loopHead = K0.NO_NODE ∧
          (P'.blocks c).loopHead = ((exitLoopProc K0).blocks 11).dfsLastNum ∧
          ∃ i ∈ M, ((exitLoopProc K0).blocks 11).dfsLastNum < i ∧
            i < ((exitLoopProc K0).blocks 14).dfsLastNum ∧
            (exitLoopProc K0).dfsLastAt i = some c) ∨
        ((exitLoopProc K0).WalkCase 11 14 ∧ P'.dfsLastAt (P'.blocks 11).loopFollow = some c ∧
          (P'.blocks c).loopHead = K0.NO_NODE)) ∧
      (∀ c i, c ≠ 11 → c ≠ 14 → i ∈ M → ((exitLoopProc K0).blocks 11).dfsLastNum < i →
        i < ((exitLoopProc K0).blocks 14).dfsLastNum →
        (exitLoopProc K0).dfsLastAt i = some c →
        ((exitLoopProc K0).blocks c).loopHead = K0.NO_NODE →
        (P'.blocks c).loopHead = ((exitLoopProc K0).blocks 11).dfsLastNum ∨
        ((exitLoopProc K0).WalkCase 11 14 ∧ P'.dfsLastAt (P'.blocks 11).loopFollow = some c ∧
          (P'.blocks c).loopHead = K0.NO_NODE))) ∧
    (findNodesInLoopNodes K0 14 11 (exitLoopProc K0) [11, 12, 13, 14, 15, 16]).map
        (fun r => r.2) = some [1, 2, 3, 4] ∧
    (findNodesInLoop K0 10 14 11 (exitLoopProc K0) [11, 12, 13, 14, 15, 16]).map
        (fun Q => ((Q.blocks 12).loopHead, (Q.blocks 13).loopHead, (Q.blocks 15).loopHead)) =
      some (1, 1, K0.NO_NODE) :=
  ⟨findNodesInLoop_members_and_loopHead K0 10 14 11 (exitLoopProc K0)
      [11, 12, 13, 14, 15, 16] exitLoopProc_loopWF, by decide, by decide⟩

/-- C11 fails for the block at the index `head.loopFollow`: in the CFG `A -> H`,
`H -> X`, `H -> D`, `X -> Y`, `Y -> X`, `Y -> L`, `L -> H`, `D -> D`, `D -> E`, the loop
structurer first makes `D` (DFS-last number 5) the header of its own loop, with
`D.loopHead = 5`; the later call of `findNodesInLoop` for the header `H` and the latching
node `L`, the call that the second level of the derived sequence makes, resets
`D.loopHead` to `NO_NODE`, although `D` is neither `H` nor `L`. -/
theorem follow_loopHead_is_reset :
    ((structLoops K0 10 (exitLoopProc K0)
        [[⟨[10]⟩, ⟨[11]⟩, ⟨[12, 13, 14]⟩, ⟨[15, 16]⟩]]).bind
      (fun P1 => (findNodesInLoop K0 10 14 11 (P1.setLatchNode 11 4)
          [11, 12, 13, 14, 15, 16]).map
        (fun P2 => (((P1.setLatchNode 11 4).blocks 15).loopHead, (P2.blocks 15).loopHead)))) =
      some (5, K0.NO_NODE) ∧
    loopOf (structLoops K0 10 (exitLoopProc K0) exitLoopSeq) 15 =
      some (eNodeHeaderType.REPEAT_TYPE, 5, 6) ∧
    (structLoops K0 10 (exitLoopProc K0) exitLoopSeq).map
      (fun P => (P.blocks 15).loopHead) = some K0.NO_NODE := by
  decide

/-! ## The exit node of a case -/

theorem indicesFrom_pairwise (lo hi : Int) :
    (indicesFrom lo hi).Pairwise (fun a b => a < b) :=
  indices_pairwise lo _

theorem mem_indicesFrom (lo hi i : Int) : i ∈ indicesFrom lo hi ↔ lo ≤ i ∧ i < hi := by
  unfold indicesFrom
  rw [mem_indices]
  constructor
  · rintro ⟨h1, h2⟩; omega
  · rintro ⟨h1, h2⟩; omega

/-- One step of the search for the exit node, in closed form. -/
theorem structCasesExit_eq (K : Sentinels) (P : Function) (i e j : Int) (s : Bool) (bj : Nat)
    (hs : successor P j i = some s) (hj : P.dfsLastAt j = some bj)
    (he : e = K.NO_NODE ∨ P.InTable e) :
    structCasesExit K P i e j = some (
      if s = false ∧ (P.blocks bj).immedDom = i then
        (if e = K.NO_NODE then j else if P.numInAt e < P.numInAt j then j else e)
      else e) := by
  unfold structCasesExit
  rw [hs]
  cases s with
  | true => simp
  | false =>
    simp only [hj, true_and]
    by_cases h1 : (P.blocks bj).immedDom = i
    · rw [if_pos h1, if_pos h1]
      by_cases h2 : e = K.NO_NODE
      · rw [if_pos h2, if_pos h2]
      · rw [if_neg h2, if_neg h2]
        rcases he with he | ⟨be, hbe⟩
        · exact absurd he h2
        · unfold Function.numInAt
          rw [hbe, hj]
          simp only
          split <;> rfl
    · rw [if_neg h1, if_neg h1]

theorem caseExit_iff (P : Function) (i j : Int) (s : Bool) (bj : Nat)
    (hs : successor P j i = some s) (hj : P.dfsLastAt j = some bj) :
    P.CaseExit i j ↔ (s = false ∧ (P.blocks bj).immedDom = i) := by
  unfold Function.CaseExit
  rw [hs, hj]
  constructor
  · rintro ⟨h1, b, h2, h3⟩
    cases h1
    cases h2
    exact ⟨rfl, h3⟩
  · rintro ⟨rfl, h⟩
    exact ⟨rfl, bj, rfl, h⟩

/-- The search for the exit node from an exit node already found: the result is the
first index of greatest in-degree among the old exit node and the qualifying indices with
more in-edges. -/
theorem structCasesExit_from (K : Sentinels) (P : Function) (i : Int)
    (hsucc : ∀ j, P.InTable j → ∃ s, successor P j i = some s) (hK : ¬ P.InTable K.NO_NODE) :
    ∀ (js : List Int) (e : Int), js.Pairwise (fun a b => a < b) → (∀ j ∈ js, P.InTable j) →
      P.InTable e →
      ∃ r, js.foldlM (structCasesExit K P i) e = some r ∧ P.InTable r ∧
        ((r = e ∧ ∀ j ∈ js, P.CaseExit i j → P.numInAt j ≤ P.numInAt e) ∨
          (r ∈ js ∧ P.CaseExit i r ∧ P.numInAt e < P.numInAt r ∧
            ∀ j ∈ js, P.CaseExit i j →
              P.numInAt j ≤ P.numInAt r ∧ (P.numInAt j = P.numInAt r → r ≤ j))) := by
  intro js
  induction js with
  | nil =>
    intro e _ _ he
    exact ⟨e, rfl, he, Or.inl ⟨rfl, fun j hj => absurd hj (List.not_mem_nil j)⟩⟩
  | cons a js ih =>
    intro e hpw htab he
    have hpw' := List.pairwise_cons.mp hpw
    have ha := htab a (List.mem_cons_self _ _)
    obtain ⟨s, hs⟩ := hsucc a ha
    obtain ⟨ba, hba⟩ := ha
    have heN : e ≠ K.NO_NODE := fun h => hK (h ▸ he)
    have hstep := structCasesExit_eq K P i e a s ba hs hba (Or.inr he)
    have hq := caseExit_iff P i a s ba hs hba
    rw [List.foldlM_cons, hstep]
    by_cases hqa : s = false ∧ (P.blocks ba).immedDom = i
    · rw [if_pos hqa, if_neg heN]
      by_cases hlt : P.numInAt e < P.numInAt a
      · rw [if_pos hlt]
        obtain ⟨r, hr, hrt, hcase⟩ := ih a hpw'.2 (fun j hj => htab j (List.mem_cons_of_mem _ hj))
          ⟨ba, hba⟩
        refine ⟨r, hr, hrt, Or.inr ?_⟩
        rcases hcase with ⟨rfl, hall⟩ | ⟨hmem, hqr, hlt2, hall⟩
        · refine ⟨List.mem_cons_self _ _, hq.mpr hqa, hlt, fun j hj hqj => ?_⟩
          rcases List.mem_cons.mp hj with rfl | hj
          · exact ⟨le_refl _, fun _ => le_refl _⟩
          · exact ⟨hall j hj hqj, fun _ => le_of_lt (hpw'.1 j hj)⟩
        · refine ⟨List.mem_cons_of_mem _ hmem, hqr, lt_trans hlt hlt2, fun j hj hqj => ?_⟩
          rcases List.mem_cons.mp hj with rfl | hj
          · exact ⟨le_of_lt hlt2, fun h => absurd hlt2 (by rw [h]; exact lt_irrefl _)⟩
          · exact hall j hj hqj
      · rw [if_neg hlt]
        obtain ⟨r, hr, hrt, hcase⟩ := ih e hpw'.2 (fun j hj => htab j (List.mem_cons_of_mem _ hj))
          he
        refine ⟨r, hr, hrt, ?_⟩
        rcases hcase with ⟨rfl, hall⟩ | ⟨hmem, hqr, hlt2, hall⟩
        · left
          refine ⟨rfl, fun j hj hqj => ?_⟩
          rcases List.mem_cons.mp hj with rfl | hj
          · exact not_lt.mp hlt
          · exact hall j hj hqj
        · right
          refine ⟨List.mem_cons_of_mem _ hmem, hqr, hlt2, fun j hj hqj => ?_⟩
          rcases List.mem_cons.mp hj with rfl | hj
          · have h1 : P.numInAt j ≤ P.numInAt e := not_lt.mp hlt
            exact ⟨by omega, fun h => by omega⟩
          · exact hall j hj hqj
    · rw [if_neg hqa]
      obtain ⟨r, hr, hrt, hcase⟩ := ih e hpw'.2 (fun j hj => htab j (List.mem_cons_of_mem _ hj))
        he
      refine ⟨r, hr, hrt, ?_⟩
      rcases hcase with ⟨rfl, hall⟩ | ⟨hmem, hqr, hlt2, hall⟩
      · left
        refine ⟨rfl, fun j hj hqj => ?_⟩
        rcases List.mem_cons.mp hj with rfl | hj
        · exact absurd (hq.mp hqj) hqa
        · exact hall j hj hqj
      · right
        refine ⟨List.mem_cons_of_mem _ hmem, hqr, hlt2, fun j hj hqj => ?_⟩
        rcases List.mem_cons.mp hj with rfl | hj
        · exact absurd (hq.mp hqj) hqa
        · exact hall j hj hqj

/-- The search for the exit node from `NO_NODE`: the result is `NO_NODE` when no index
qualifies, and otherwise the first qualifying index of greatest in-degree. -/
theorem structCasesExit_first (K : Sentinels) (P : Function) (i : Int)
    (hsucc : ∀ j, P.InTable j → ∃ s, successor P j i = some s) (hK : ¬ P.InTable K.NO_NODE) :
    ∀ (js : List Int), js.Pairwise (fun a b => a < b) → (∀ j ∈ js, P.InTable j) →
      ∃ r, js.foldlM (structCasesExit K P i) K.NO_NODE = some r ∧
        ((r = K.NO_NODE ∧ ∀ j ∈ js, ¬ P.CaseExit i j) ∨
          (r ∈ js ∧ P.CaseExit i r ∧
            ∀ j ∈ js, P.CaseExit i j →
              P.numInAt j ≤ P.numInAt r ∧ (P.numInAt j = P.numInAt r → r ≤ j))) := by
  intro js
  induction js with
  | nil =>
    intro _ _
    exact ⟨K.NO_NODE, rfl, Or.inl ⟨rfl, fun j hj => absurd hj (List.not_mem_nil j)⟩⟩
  | cons a js ih =>
    intro hpw htab
    have hpw' := List.pairwise_cons.mp hpw
    have ha := htab a (List.mem_cons_self _ _)
    obtain ⟨s, hs⟩ := hsucc a ha
    obtain ⟨ba, hba⟩ := ha
    have hstep := structCasesExit_eq K P i K.NO_NODE a s ba hs hba (Or.inl rfl)
    have hq := caseExit_iff P i a s ba hs hba
    rw [List.foldlM_cons, hstep]
    by_cases hqa : s = false ∧ (P.blocks ba).immedDom = i
    · rw [if_pos hqa, if_pos rfl]
      obtain ⟨r, hr, _, hcase⟩ := structCasesExit_from K P i hsucc hK js a hpw'.2
        (fun j hj => htab j (List.mem_cons_of_mem _ hj)) ⟨ba, hba⟩
      refine ⟨r, hr, Or.inr ?_⟩
      rcases hcase with ⟨rfl, hall⟩ | ⟨hmem, hqr, hlt2, hall⟩
      · refine ⟨List.mem_cons_self _ _, hq.mpr hqa, fun j hj hqj => ?_⟩
        rcases List.mem_cons.mp hj with rfl | hj
        · exact ⟨le_refl _, fun _ => le_refl _⟩
        · exact ⟨hall j hj hqj, fun _ => le_of_lt (hpw'.1 j hj)⟩
      · refine ⟨List.mem_cons_of_mem _ hmem, hqr, fun j hj hqj => ?_⟩
        rcases List.mem_cons.mp hj with rfl | hj
        · exact ⟨le_of_lt hlt2, fun h => absurd hlt2 (by rw [h]; exact lt_irrefl _)⟩
        · exact hall j hj hqj
    · rw [if_neg hqa]
      obtain ⟨r, hr, hcase⟩ := ih hpw'.2 (fun j hj => htab j (List.mem_cons_of_mem _ hj))
      refine ⟨r, hr, ?_⟩
      rcases hcase with ⟨rfl, hall⟩ | ⟨hmem, hqr, hall⟩
      · left
        refine ⟨rfl, fun j hj hqj => ?_⟩
        rcases List.mem_cons.mp hj with rfl | hj
        · exact hqa (hq.mp hqj)
        · exact hall j hj hqj
      · right
        refine ⟨List.mem_cons_of_mem _ hmem, hqr, fun j hj hqj => ?_⟩
        rcases List.mem_cons.mp hj with rfl | hj
        · exact absurd (hq.mp hqj) hqa
        · exact hall j hj hqj

/-! ## The case traversal returns -/

theorem eraseCases_fields {P Q : Function} (h : P.SameUpTo BB.eraseCases Q) (b : Nat) :
    (Q.blocks b).dfsLastNum = (P.blocks b).dfsLastNum ∧
    (Q.blocks b).nodeType = (P.blocks b).nodeType ∧
    (Q.blocks b).edges = (P.blocks b).edges ∧
    (Q.blocks b).numOutEdges = (P.blocks b).numOutEdges ∧
    (Q.blocks b).immedDom = (P.blocks b).immedDom ∧
    (Q.blocks b).inEdges = (P.blocks b).inEdges ∧
    (Q.blocks b).numInEdges = (P.blocks b).numInEdges ∧
    (Q.blocks b).flg = (P.blocks b).flg := by
  have h0 := h.2.2.2 b
  refine ⟨?_, ?_, ?_, ?_, ?_, ?_, ?_, ?_⟩
  · have h1 := congrArg BB.dfsLastNum h0; exact h1
  · have h1 := congrArg BB.nodeType h0; exact h1
  · have h1 := congrArg BB.edges h0; exact h1
  · have h1 := congrArg BB.numOutEdges h0; exact h1
  · have h1 := congrArg BB.immedDom h0; exact h1
  · have h1 := congrArg BB.inEdges h0; exact h1
  · have h1 := congrArg BB.numInEdges h0; exact h1
  · have h1 := congrArg BB.flg h0; exact h1

theorem caseStep_refl (P : Function) : P.CaseStep P :=
  ⟨Function.SameUpTo.refl _ P, rfl, fun _ h => h⟩

theorem caseStep_trans {P Q R : Function} (h1 : P.CaseStep Q) (h2 : Q.CaseStep R) :
    P.CaseStep R :=
  ⟨h1.1.trans h2.1, h2.2.1.trans h1.2.1, fun b hb => h2.2.2 b (h1.2.2 b hb)⟩

theorem caseStep_setTraversed (P : Function) (b : Nat) :
    P.CaseStep (P.setTraversed b eDFS.DFS_CASE) := by
  refine ⟨Function.SameUpTo.setBB _ _ _ _ rfl, rfl, fun c hc => ?_⟩
  by_cases h : c = b
  · subst h; simp [Function.setTraversed, Function.setBB]
  · simpa [Function.setTraversed, Function.setBB, h] using hc

theorem caseStep_setCaseHead (P : Function) (b : Nat) (h : Int) :
    P.CaseStep (P.setCaseHead b h) := by
  refine ⟨Function.SameUpTo.setBB _ _ _ _ rfl, rfl, fun c hc => ?_⟩
  by_cases hcb : c = b
  · subst hcb; simpa [Function.setCaseHead, Function.setBB] using hc
  · simpa [Function.setCaseHead, Function.setBB, hcb] using hc

theorem caseStep_setCaseTail (P : Function) (b : Nat) (t : Int) :
    P.CaseStep (P.setCaseTail b t) := by
  refine ⟨Function.SameUpTo.setBB _ _ _ _ rfl, rfl, fun c hc => ?_⟩
  by_cases hcb : c = b
  · subst hcb; simpa [Function.setCaseTail, Function.setBB] using hc
  · simpa [Function.setCaseTail, Function.setBB, hcb] using hc

theorem caseStep_edgesClosed {P Q : Function} (h : P.CaseStep Q) (hc : P.EdgesClosed) :
    Q.EdgesClosed := by
  intro b hb
  rw [h.1.1] at hb
  have hf := eraseCases_fields h.1 b
  rw [hf.2.2.1, hf.2.2.2.1, h.1.1]
  exact hc b hb

theorem countP_lt_of_mem {α : Type} (p q : α → Bool) :
    ∀ (l : List α), (∀ x ∈ l, p x = true → q x = true) →
      ∀ c ∈ l, q c = true → p c = false → l.countP p < l.countP q := by
  intro l
  induction l with
  | nil => intro _ c hc; exact absurd hc (List.not_mem_nil c)
  | cons a l ih =>
    intro hpq c hc hqc hpc
    have hle : l.countP p ≤ l.countP q :=
      List.countP_mono_left (fun x hx => hpq x (List.mem_cons_of_mem _ hx))
    rcases List.mem_cons.mp hc with rfl | hc
    · rw [List.countP_cons_of_neg p l (by simp [hpc]), List.countP_cons_of_pos q l hqc]
      omega
    · have := ih (fun x hx => hpq x (List.mem_cons_of_mem _ hx)) c hc hqc hpc
      by_cases hpa : p a = true
      · rw [List.countP_cons_of_pos p l hpa,
          List.countP_cons_of_pos q l (hpq a (List.mem_cons_self _ _) hpa)]
        omega
      · rw [List.countP_cons_of_neg p l hpa]
        by_cases hqa : q a = true
        · rw [List.countP_cons_of_pos q l hqa]; omega
        · rw [List.countP_cons_of_neg q l hqa]; exact this

theorem untraversed_le {P Q : Function} (h : P.CaseStep Q) : Q.untraversed ≤ P.untraversed := by
  unfold Function.untraversed
  rw [h.1.1]
  apply List.countP_mono_left
  intro b _ hb
  simp only [ne_eq, decide_not, Bool.not_eq_true', decide_eq_false_iff_not] at hb ⊢
  exact fun hP => hb (h.2.2 b hP)

theorem untraversed_lt (P : Function) (c : Nat) (hc : c ∈ P.dfsLast)
    (ht : (P.blocks c).traversed ≠ eDFS.DFS_CASE) :
    (P.setTraversed c eDFS.DFS_CASE).untraversed < P.untraversed := by
  unfold Function.untraversed
  have hdl : (P.setTraversed c eDFS.DFS_CASE).dfsLast = P.dfsLast := rfl
  rw [hdl]
  apply countP_lt_of_mem _ _ P.dfsLast _ c hc
  · simpa using ht
  · simp [Function.setTraversed, Function.setBB]
  · intro b _ hb
    simp only [ne_eq, decide_not, Bool.not_eq_true', decide_eq_false_iff_not] at hb ⊢
    exact fun hP => hb ((caseStep_setTraversed P c).2.2 b hP)

/-- The function `tagNodesInCase` returns when the fuel exceeds the number of blocks not
yet traversed; it writes `caseHead` and `traversed` only. -/
theorem tagNodesInCase_ok (head tail : Int) :
    ∀ (fuel : Nat) (pBB : Nat) (st : Function × List Int), st.1.EdgesClosed →
      pBB ∈ st.1.dfsLast → (st.1.setTraversed pBB eDFS.DFS_CASE).untraversed < fuel →
      ∃ st', tagNodesInCase head tail fuel pBB st = some st' ∧ st.1.CaseStep st'.1 ∧
        ∀ b, (st'.1.blocks b).caseTail = (st.1.blocks b).caseTail := by
  intro fuel
  induction fuel with
  | zero => intro _ _ _ _ h; exact absurd h (Nat.not_lt_zero _)
  | succ n ih =>
    intro pBB st hcl hmem hfuel
    unfold tagNodesInCase
    simp only
    have hs1 := caseStep_setTraversed st.1 pBB
    have hct1 : ∀ b, ((st.1.setTraversed pBB eDFS.DFS_CASE).blocks b).caseTail =
        (st.1.blocks b).caseTail := by
      intro b
      by_cases hb : b = pBB <;> simp [Function.setTraversed, Function.setBB, hb]
    split
    · -- the loop over the out-edges
      have hs2 := caseStep_setCaseHead (st.1.setTraversed pBB eDFS.DFS_CASE) pBB head
      have hct2 : ∀ b, (((st.1.setTraversed pBB eDFS.DFS_CASE).setCaseHead pBB head).blocks
          b).caseTail = (st.1.blocks b).caseTail := by
        intro b
        rw [← hct1 b]
        by_cases hb : b = pBB <;> simp [Function.setCaseHead, Function.setBB, hb]
      have hs12 := caseStep_trans hs1 hs2
      have hloop : ∀ (is : List Nat) (s : Function × List Int),
          (∀ i ∈ is, i < (st.1.blocks pBB).edges.length) → st.1.CaseStep s.1 →
          (∀ b, (s.1.blocks b).caseTail = (st.1.blocks b).caseTail) →
          s.1.untraversed ≤ n →
          ∃ s', is.foldlM (fun (s : Function × List Int) (i : Nat) =>
              match s.1.edge pBB i with
              | none => none
              | some c =>
                if (s.1.blocks c).traversed ≠ eDFS.DFS_CASE then
                  tagNodesInCase head tail n c s
                else some s) s = some s' ∧ st.1.CaseStep s'.1 ∧
            ∀ b, (s'.1.blocks b).caseTail = (st.1.blocks b).caseTail := by
        intro is
        induction is with
        | nil => intro s _ hs hct _; exact ⟨s, rfl, hs, hct⟩
        | cons i is ihl =>
          intro s his hs hct hm
          have hi := his i (List.mem_cons_self _ _)
          have hedge : s.1.edge pBB i = some ((st.1.blocks pBB).edges.get ⟨i, hi⟩) := by
            unfold Function.edge
            rw [(eraseCases_fields hs.1 pBB).2.2.1]
            exact List.get?_eq_get hi
          have hcmem : (st.1.blocks pBB).edges.get ⟨i, hi⟩ ∈ s.1.dfsLast := by
            rw [hs.1.1]
            exact (hcl pBB hmem).2 _ (List.get_mem _ _ _)
          rw [List.foldlM_cons, hedge]
          simp only
          by_cases htr : (s.1.blocks ((st.1.blocks pBB).edges.get ⟨i, hi⟩)).traversed ≠
              eDFS.DFS_CASE
          · rw [if_pos htr]
            obtain ⟨s1, hs1', hstep, hct'⟩ := ih _ s (caseStep_edgesClosed hs hcl) hcmem
              (lt_of_lt_of_le (untraversed_lt s.1 _ hcmem htr) hm)
            rw [hs1']
            exact ihl s1 (fun j hj => his j (List.mem_cons_of_mem _ hj))
              (caseStep_trans hs hstep) (fun b => (hct' b).trans (hct b))
              (le_trans (untraversed_le hstep) hm)
          · rw [if_neg htr]
            exact ihl s (fun j hj => his j (List.mem_cons_of_mem _ hj)) hs hct hm
      have hnum : ((st.1.setTraversed pBB eDFS.DFS_CASE).blocks pBB).numOutEdges.toNat =
          (st.1.blocks pBB).edges.length := by
        rw [(eraseCases_fields hs1.1 pBB).2.2.2.1, (hcl pBB hmem).1]
        exact Int.toNat_ofNat _
      rw [hnum]
      exact hloop _ _ (fun i hi => List.mem_range.mp hi) hs12 hct2
        (by
          show ((st.1.setTraversed pBB eDFS.DFS_CASE).setCaseHead pBB head).untraversed ≤ n
          have := untraversed_le hs2
          omega)
    · exact ⟨_, rfl, hs1, hct1⟩

/-! ## The case structurer returns -/

theorem successorLoop_spec (P : Function) (header : Nat) (s : Int) :
    ∀ (is : List Nat), (∀ i ∈ is, i < (P.blocks header).edges.length) →
      ∃ r, successorLoop P header s is = some r ∧
        (r = true ↔ ∃ i ∈ is, ∃ c, (P.blocks header).edges.get? i = some c ∧
          (P.blocks c).dfsLastNum = s) := by
  intro is
  induction is with
  | nil =>
    intro _
    exact ⟨false, rfl, by simp⟩
  | cons i is ih =>
    intro his
    have hi := his i (List.mem_cons_self _ _)
    have hget : (P.blocks header).edges.get? i = some ((P.blocks header).edges.get ⟨i, hi⟩) :=
      List.get?_eq_get hi
    have hedge : P.edgeDfs header i =
        some (P.blocks ((P.blocks header).edges.get ⟨i, hi⟩)).dfsLastNum :=
      edgeDfs_of_edge P header i _ hget
    unfold successorLoop
    rw [hedge]
    simp only
    by_cases hd : (P.blocks ((P.blocks header).edges.get ⟨i, hi⟩)).dfsLastNum = s
    · rw [if_pos hd]
      exact ⟨true, rfl, fun _ => ⟨i, List.mem_cons_self _ _, _, hget, hd⟩, fun _ => rfl⟩
    · rw [if_neg hd]
      obtain ⟨r, hr, hiff⟩ := ih (fun j hj => his j (List.mem_cons_of_mem _ hj))
      refine ⟨r, hr, ?_⟩
      rw [hiff]
      constructor
      · rintro ⟨j, hj, c, h1, h2⟩
        exact ⟨j, List.mem_cons_of_mem _ hj, c, h1, h2⟩
      · rintro ⟨j, hj, c, h1, h2⟩
        rcases List.mem_cons.mp hj with rfl | hj
        · rw [hget] at h1
          cases h1
          exact absurd h2 hd
        · exact ⟨j, hj, c, h1, h2⟩

/-- The function `successor` returns whether some out-edge of the header leads to a block
with the number `s`. -/
theorem successor_spec (P : Function) (s h : Int) (header : Nat)
    (hh : P.dfsLastAt h = some header)
    (hout : (P.blocks header).numOutEdges = (P.blocks header).edges.length) :
    ∃ r, successor P s h = some r ∧
      (r = true ↔ ∃ c ∈ (P.blocks header).edges, (P.blocks c).dfsLastNum = s) := by
  unfold successor
  rw [hh]
  simp only
  rw [hout, Int.toNat_ofNat]
  obtain ⟨r, hr, hiff⟩ := successorLoop_spec P header s
    (List.range (P.blocks header).edges.length) (fun i hi => List.mem_range.mp hi)
  refine ⟨r, hr, ?_⟩
  rw [hiff]
  constructor
  · rintro ⟨i, _, c, h1, h2⟩
    exact ⟨c, List.get?_mem h1, h2⟩
  · rintro ⟨c, hc, h2⟩
    obtain ⟨n, hn⟩ := List.mem_iff_get.mp hc
    exact ⟨n.1, List.mem_range.mpr n.2, c, by rw [List.get?_eq_get n.2, hn], h2⟩

theorem untraversed_le_length (P : Function) : P.untraversed ≤ P.dfsLast.length :=
  List.countP_le_length _

/-- The body of the loop of `structCases` returns; for a header that is not multi-way it
does nothing, and for a multi-way header it records the exit node found in `caseTail` of
the header and writes no other `caseTail`. -/
theorem structCasesNode_ok (K : Sentinels) (fuel : Nat) (st : Function × Int × List Int)
    (i : Int) (hcl : st.1.EdgesClosed) (hK : ¬ st.1.InTable K.NO_NODE)
    (hfuel : st.1.dfsLast.length < fuel)
    (he : st.2.1 = K.NO_NODE ∨ st.1.InTable st.2.1)
    (hi0 : 0 ≤ i) (hi : i < st.1.numBBs) (hn : st.1.numBBs ≤ st.1.dfsLast.length) :
    ∃ header st', st.1.dfsLastAt i = some header ∧ structCasesNode K fuel st i = some st' ∧
      st.1.CaseStep st'.1 ∧ (st'.2.1 = K.NO_NODE ∨ st.1.InTable st'.2.1) ∧
      ((st.1.blocks header).nodeType ≠ eBBKind.MULTI_BRANCH → st' = st) ∧
      ((st.1.blocks header).nodeType = eBBKind.MULTI_BRANCH →
        (indicesFrom (i + 2) st.1.numBBs).foldlM (structCasesExit K st.1 i) st.2.1 =
          some st'.2.1 ∧
        (st'.1.blocks header).caseTail = st'.2.1 ∧
        ∀ b, b ≠ header → (st'.1.blocks b).caseTail = (st.1.blocks b).caseTail) := by
  obtain ⟨P, e, l⟩ := st
  simp only at hcl hK hfuel he hi hn ⊢
  have hiT : P.InTable i := by rw [inTable_iff]; omega
  obtain ⟨header, hh⟩ := hiT
  have hhm : header ∈ P.dfsLast := dfsLastAt_mem P i header hh
  suffices key : ∃ st', structCasesNode K fuel (P, e, l) i = some st' ∧
      P.CaseStep st'.1 ∧ (st'.2.1 = K.NO_NODE ∨ P.InTable st'.2.1) ∧
      ((P.blocks header).nodeType ≠ eBBKind.MULTI_BRANCH → st' = (P, e, l)) ∧
      ((P.blocks header).nodeType = eBBKind.MULTI_BRANCH →
        (indicesFrom (i + 2) P.numBBs).foldlM (structCasesExit K P i) e = some st'.2.1 ∧
        (st'.1.blocks header).caseTail = st'.2.1 ∧
        ∀ b, b ≠ header → (st'.1.blocks b).caseTail = (P.blocks b).caseTail) by
    obtain ⟨st', h1, h2⟩ := key
    exact ⟨header, st', hh, h1, h2⟩
  unfold structCasesNode
  simp only [hh]
  by_cases hm : (P.blocks header).nodeType = eBBKind.MULTI_BRANCH
  · rw [if_pos hm]
    have hsucc : ∀ j, P.InTable j → ∃ s, successor P j i = some s := by
      intro j _
      obtain ⟨r, hr, _⟩ := successor_spec P j i header hh (hcl header hhm).1
      exact ⟨r, hr⟩
    have hjs : ∀ j ∈ indicesFrom (i + 2) P.numBBs, P.InTable j := by
      intro j hj
      rw [mem_indicesFrom] at hj
      rw [inTable_iff]
      omega
    -- the exit node
    obtain ⟨r, hr, hrT⟩ : ∃ r, (indicesFrom (i + 2) P.numBBs).foldlM (structCasesExit K P i) e =
        some r ∧ (r = K.NO_NODE ∨ P.InTable r) := by
      rcases he with rfl | he
      · obtain ⟨r, hr, hcase⟩ := structCasesExit_first K P i hsucc hK _
          (indicesFrom_pairwise _ _) hjs
        refine ⟨r, hr, ?_⟩
        rcases hcase with ⟨h, _⟩ | ⟨h, _⟩
        · exact Or.inl h
        · exact Or.inr (hjs r h)
      · obtain ⟨r, hr, hrT, _⟩ := structCasesExit_from K P i hsucc hK _ e
          (indicesFrom_pairwise _ _) hjs he
        exact ⟨r, hr, Or.inr hrT⟩
    rw [hr]
    simp only
    have hs1 := caseStep_setCaseTail P header r
    have hs2 := caseStep_setCaseHead (P.setCaseTail header r) header i
    have hs12 := caseStep_trans hs1 hs2
    have hct2 : (((P.setCaseTail header r).setCaseHead header i).blocks header).caseTail = r ∧
        ∀ b, b ≠ header → (((P.setCaseTail header r).setCaseHead header i).blocks b).caseTail =
          (P.blocks b).caseTail := by
      constructor
      · simp [Function.setCaseHead, Function.setCaseTail, Function.setBB]
      · intro b hb
        simp [Function.setCaseHead, Function.setCaseTail, Function.setBB, hb]
    -- the tagging loop
    have hloop : ∀ (js : List Nat) (s : Function × List Int),
        (∀ j ∈ js, j < (P.blocks header).edges.length) → P.CaseStep s.1 →
        ((s.1.blocks header).caseTail = r ∧
          ∀ b, b ≠ header → (s.1.blocks b).caseTail = (P.blocks b).caseTail) →
        ∃ s', js.foldlM (structCasesTag fuel header i r) s = some s' ∧ P.CaseStep s'.1 ∧
          ((s'.1.blocks header).caseTail = r ∧
            ∀ b, b ≠ header → (s'.1.blocks b).caseTail = (P.blocks b).caseTail) := by
      intro js
      induction js with
      | nil => intro s _ hs hct; exact ⟨s, rfl, hs, hct⟩
      | cons j js ihl =>
        intro s hjs' hs hct
        have hj := hjs' j (List.mem_cons_self _ _)
        have hedge : s.1.edge header j = some ((P.blocks header).edges.get ⟨j, hj⟩) := by
          unfold Function.edge
          rw [(eraseCases_fields hs.1 header).2.2.1]
          exact List.get?_eq_get hj
        have hcmem : (P.blocks header).edges.get ⟨j, hj⟩ ∈ s.1.dfsLast := by
          rw [hs.1.1]
          exact (hcl header hhm).2 _ (List.get_mem _ _ _)
        obtain ⟨s1, hs1', hstep, hct'⟩ := tagNodesInCase_ok i r fuel _ s
          (caseStep_edgesClosed hs hcl) hcmem
          (lt_of_le_of_lt (untraversed_le_length _) (by
            show s.1.dfsLast.length < fuel
            rw [hs.1.1]; exact hfuel))
        rw [List.foldlM_cons]
        unfold structCasesTag
        rw [hedge]
        simp only
        rw [hs1']
        exact ihl s1 (fun k hk => hjs' k (List.mem_cons_of_mem _ hk)) (caseStep_trans hs hstep)
          ⟨(hct' header).trans hct.1, fun b hb => (hct' b).trans (hct.2 b hb)⟩
    have hnum : (((P.setCaseTail header r).setCaseHead header i).blocks header).numOutEdges.toNat =
        (P.blocks header).edges.length := by
      rw [(eraseCases_fields hs12.1 header).2.2.2.1, (hcl header hhm).1]
      exact Int.toNat_ofNat _
    rw [hnum]
    obtain ⟨s', hs', hstep, hct⟩ := hloop (List.range (P.blocks header).edges.length)
      ((P.setCaseTail header r).setCaseHead header i, insertList l i)
      (fun j hj => List.mem_range.mp hj) hs12 hct2
    rw [hs']
    obtain ⟨P3, l3⟩ := s'
    simp only at hstep hct ⊢
    by_cases hrN : r = K.NO_NODE
    · rw [if_neg (by simpa using hrN)]
      exact ⟨_, rfl, hstep, Or.inl hrN, fun h => absurd hm h, fun _ => ⟨rfl, hct.1, hct.2⟩⟩
    · rw [if_pos hrN]
      have hrT' : P.InTable r := hrT.resolve_left hrN
      obtain ⟨be, hbe⟩ := hrT'
      have hbe3 : P3.dfsLastAt r = some be := by rw [hstep.1.dfsLastAt]; exact hbe
      rw [hbe3]
      simp only
      have hs4 := caseStep_setCaseHead P3 be i
      refine ⟨_, rfl, caseStep_trans hstep hs4, Or.inr ⟨be, hbe⟩, fun h => absurd hm h,
        fun _ => ⟨rfl, ?_, ?_⟩⟩
      · rw [← hct.1]
        by_cases hb : header = be <;> simp [Function.setCaseHead, Function.setBB, hb]
      · intro b hb
        rw [← hct.2 b hb]
        by_cases hb' : b = be <;> simp [Function.setCaseHead, Function.setBB, hb']
  · rw [if_neg hm]
    exact ⟨_, rfl, caseStep_refl P, he, fun _ => rfl, fun h => absurd h hm⟩

/-! ## The case structurer on the first header -/

theorem indicesDown_zero : indicesDown 0 = [] := rfl

theorem indicesDown_succ (m : Nat) : indicesDown ((m : Int) + 1) = (m : Int) :: indicesDown m := by
  unfold indicesDown
  have h1 : ((m : Int) + 1).toNat = m + 1 := by omega
  rw [h1, Int.toNat_ofNat, List.range_succ, List.map_append, List.reverse_append]
  rfl

theorem caseStep_inTable {P Q : Function} (h : P.CaseStep Q) (i : Int) :
    Q.InTable i ↔ P.InTable i := by
  unfold Function.InTable
  rw [h.1.dfsLastAt]

/-- The case structurer returns, and the multi-way header with the greatest index gets as
`caseTail` the exit node that the search from `NO_NODE` finds. -/
theorem structCases_first (K : Sentinels) (fuel : Nat) (P : Function) (i : Nat) (h : Nat)
    (hcl : P.EdgesClosed) (hK : ¬ P.InTable K.NO_NODE) (hfuel : P.dfsLast.length < fuel)
    (hn : P.numBBs ≤ P.dfsLast.length) (htab : P.DfsLastOK) (hh : P.BlockAt i h)
    (hm : (P.blocks h).nodeType = eBBKind.MULTI_BRANCH)
    (hfirst : ∀ (j : Nat) (b : Nat), i < j → P.BlockAt j b →
      (P.blocks b).nodeType ≠ eBBKind.MULTI_BRANCH) :
    ∃ P' r, structCases K fuel P = some P' ∧ P.CaseStep P' ∧ (P'.blocks h).caseTail = r ∧
      (indicesFrom ((i : Int) + 2) P.numBBs).foldlM (structCasesExit K P i) K.NO_NODE =
        some r := by
  have hdl : ∀ (k : Nat) (b : Nat), P.dfsLast.get? k = some b → P.dfsLastAt k = some b := by
    intro k b hb
    rw [dfsLastAt_natCast]; exact hb
  -- the exit node of the header
  have hsucc : ∀ j, P.InTable j → ∃ s, successor P j i = some s := by
    intro j _
    obtain ⟨r, hr, _⟩ := successor_spec P j i h (hdl i h hh.2)
      (hcl h (List.get?_mem hh.2)).1
    exact ⟨r, hr⟩
  have hjs : ∀ j ∈ indicesFrom ((i : Int) + 2) P.numBBs, P.InTable j := by
    intro j hj
    rw [mem_indicesFrom] at hj
    rw [inTable_iff]
    omega
  obtain ⟨r, hr, hcase⟩ := structCasesExit_first K P i hsucc hK _ (indicesFrom_pairwise _ _) hjs
  have hrT : r = K.NO_NODE ∨ P.InTable r := by
    rcases hcase with ⟨h1, _⟩ | ⟨h1, _⟩
    · exact Or.inl h1
    · exact Or.inr (hjs r h1)
  -- the loop
  have hloop : ∀ (m : Nat), (m : Int) ≤ P.numBBs → ∀ st : Function × Int × List Int,
      (i < m → st = (P, K.NO_NODE, [])) →
      (m ≤ i → P.CaseStep st.1 ∧ (st.2.1 = K.NO_NODE ∨ P.InTable st.2.1) ∧
        (st.1.blocks h).caseTail = r) →
      ∃ st', (indicesDown m).foldlM (structCasesNode K fuel) st = some st' ∧
        P.CaseStep st'.1 ∧ (st'.1.blocks h).caseTail = r := by
    intro m
    induction m with
    | zero =>
      intro _ st _ hgood
      obtain ⟨g1, _, g3⟩ := hgood (Nat.zero_le _)
      exact ⟨st, rfl, g1, g3⟩
    | succ m ih =>
      intro hmn st hinit hgood
      have hcast : ((m + 1 : Nat) : Int) = (m : Int) + 1 := by push_cast; rfl
      rw [hcast, indicesDown_succ, List.foldlM_cons]
      have hmn' : (m : Int) < P.numBBs := by omega
      by_cases hlt : i < m + 1
      · -- nothing has happened so far
        have hst := hinit hlt
        subst hst
        obtain ⟨header, st', hhd, hst', hstep, hex, hnm, hmu⟩ := structCasesNode_ok K fuel
          (P, K.NO_NODE, []) m hcl hK hfuel (Or.inl rfl) (by omega) hmn' hn
        rw [hst']
        simp only at hhd hstep hex hnm hmu
        rw [dfsLastAt_natCast] at hhd
        by_cases him : i = m
        · subst him
          rw [hh.2] at hhd
          cases hhd
          obtain ⟨g1, g2, _⟩ := hmu hm
          rw [hr] at g1
          cases g1
          exact ih (by omega) st' (fun h' => absurd h' (lt_irrefl _))
            (fun _ => ⟨hstep, hex, g2⟩)
        · have hnot := hfirst m header (by omega) ⟨hmn', hhd⟩
          rw [hnm hnot]
          exact ih (by omega) _ (fun _ => rfl) (fun h' => absurd h' (by omega))
      · -- the header has been handled
        obtain ⟨g1, g2, g3⟩ := hgood (by omega)
        obtain ⟨header, st', hhd, hst', hstep, hex, hnm, hmu⟩ := structCasesNode_ok K fuel
          st m (caseStep_edgesClosed g1 hcl) (by rw [caseStep_inTable g1]; exact hK)
          (by rw [g1.1.1]; exact hfuel)
          (by rw [caseStep_inTable g1]; exact g2) (by omega)
          (by rw [g1.1.2.1]; exact hmn') (by rw [g1.1.2.1, g1.1.1]; exact hn)
        rw [hst']
        rw [g1.1.dfsLastAt, dfsLastAt_natCast] at hhd
        have hne : h ≠ header := by
          intro heq
          subst heq
          obtain ⟨b1, hb1, hd1⟩ := htab m hmn'
          obtain ⟨b2, hb2, hd2⟩ := htab i hh.1
          rw [hhd] at hb1
          rw [hh.2] at hb2
          cases hb1
          cases hb2
          rw [hd1] at hd2
          have : m = i := by exact_mod_cast hd2
          omega
        have g3' : (st'.1.blocks h).caseTail = r := by
          by_cases hmul : (st.1.blocks header).nodeType = eBBKind.MULTI_BRANCH
          · rw [(hmu hmul).2.2 h hne]; exact g3
          · rw [hnm hmul]; exact g3
        exact ih (by omega) st' (fun h' => absurd h' (by omega))
          (fun _ => ⟨caseStep_trans g1 hstep, by
            rw [caseStep_inTable g1] at hex; exact hex, g3'⟩)
  have hN : P.numBBs = ((P.numBBs.toNat : Nat) : Int) := by
    have := hh.1
    omega
  obtain ⟨st', hst', hstep, hct⟩ := hloop P.numBBs.toNat (by omega) (P, K.NO_NODE, [])
    (fun _ => rfl) (fun h' => absurd hh.1 (by omega))
  refine ⟨st'.1, r, ?_, hstep, hct, hr⟩
  unfold structCases
  rw [hN, hst']
  rfl

/-! ## The exit node of a case and the dominator tree -/

/-- The dominator stage returns a state that differs from its input in `immedDom` only
and in which the table is solved. -/
theorem findImmedDom_solved_frame (K : Sentinels) (fuel : Nat)
    (P : Function) (e : Nat)
    (htab : P.DfsLastOK) (hK : K.NO_DOM < 0 ∨ P.numBBs ≤ K.NO_DOM) (he : P.BlockAt 0 e)
    (hvalid : ∀ b, P.IsBlock b → (P.blocks b).flg.INVALID_BB = false)
    (hin : ∀ v, P.IsBlock v → ∀ p, p ∈ (P.blocks v).inEdges ↔ P.CfgEdge p v)
    (hred : P.Reducible e) (hreach : ∀ b, P.IsBlock b → ∃ π, P.CfgPath e π b)
    (hinit : ∀ b, (P.blocks b).immedDom = K.NO_DOM)
    (hfuel : 2 * P.numBBs < fuel) :
    ∃ P', findImmedDom K fuel P = some P' ∧ P.SolvedBelow K e P.numBBs.toNat P' := by
  have hn : 0 ≤ P.numBBs := by have := he.1; omega
  obtain ⟨P', hP', hs⟩ := findImmedDomNodes_solved K fuel P e htab hK he hvalid hin hred hreach
    hfuel P.numBBs.toNat 0 P (by rw [Nat.zero_add, Int.toNat_of_nonneg hn])
    ⟨Function.SameButImmedDom.reflexive P, fun j b hj _ => absurd hj (Nat.not_lt_zero j)⟩
    (fun j b _ _ => hinit b)
  rw [Nat.zero_add] at hs
  refine ⟨P', ?_, hs⟩
  unfold findImmedDom
  rw [List.range_eq_range']
  exact hP'

theorem sameButImmedDom_fields {P Q : Function} (h : P.SameButImmedDom Q) (b : Nat) :
    (Q.blocks b).nodeType = (P.blocks b).nodeType ∧
    (Q.blocks b).numOutEdges = (P.blocks b).numOutEdges ∧
    (Q.blocks b).numInEdges = (P.blocks b).numInEdges ∧
    (Q.blocks b).numBackEdges = (P.blocks b).numBackEdges ∧
    (Q.blocks b).start = (P.blocks b).start ∧
    (Q.blocks b).length = (P.blocks b).length ∧
    (Q.blocks b).ifFollow = (P.blocks b).ifFollow ∧
    (Q.blocks b).caseHead = (P.blocks b).caseHead ∧
    (Q.blocks b).caseTail = (P.blocks b).caseTail ∧
    (Q.blocks b).traversed = (P.blocks b).traversed := by
  have h0 := h.2.2.2.2 b
  refine ⟨?_, ?_, ?_, ?_, ?_, ?_, ?_, ?_, ?_, ?_⟩
  · have h1 := congrArg BB.nodeType h0; exact h1
  · have h1 := congrArg BB.numOutEdges h0; exact h1
  · have h1 := congrArg BB.numInEdges h0; exact h1
  · have h1 := congrArg BB.numBackEdges h0; exact h1
  · have h1 := congrArg BB.start h0; exact h1
  · have h1 := congrArg BB.length h0; exact h1
  · have h1 := congrArg BB.ifFollow h0; exact h1
  · have h1 := congrArg BB.caseHead h0; exact h1
  · have h1 := congrArg BB.caseTail h0; exact h1
  · have h1 := congrArg BB.traversed h0; exact h1

/-- A path through `x` ends with a path from `x`. -/
theorem cfgPath_from_mem (P : Function) (e : Nat) (π : List Nat) (v : Nat)
    (h : P.CfgPath e π v) : ∀ x ∈ π, ∃ π', P.CfgPath x π' v := by
  induction h with
  | entry =>
    intro x hx
    rw [List.mem_singleton] at hx
    subst hx
    exact ⟨[x], Function.CfgPath.entry⟩
  | @step π u v _ hedge ih =>
    intro x hx
    rcases List.mem_cons.mp hx with h | h
    · subst h
      exact ⟨[x], Function.CfgPath.entry⟩
    · obtain ⟨π', h1⟩ := ih x h
      exact ⟨v :: π', Function.CfgPath.step h1 hedge⟩

theorem isBlock_of_mem (P : Function) (hlen : P.numBBs = P.dfsLast.length) (c : Nat)
    (hc : c ∈ P.dfsLast) : P.IsBlock c := by
  obtain ⟨n, hn⟩ := List.mem_iff_get.mp hc
  exact ⟨n.1, by rw [hlen]; exact_mod_cast n.2, by rw [List.get?_eq_get n.2, hn]⟩

theorem isImmedDom_ne_entry (P : Function) (e h b : Nat) (hd : P.IsImmedDom e h b) : b ≠ e := by
  rintro rfl
  exact hd.1 ((dominates_entry P b h).mp hd.2.1)

/-- After the dominator stage, the index `j` of the block `b` qualifies as exit of the
case headed by `h` iff `b` is not a successor of `h` and `h` is its immediate
dominator. -/
theorem caseExit_iff_graph (K : Sentinels) (P P1 : Function) (e i h j b : Nat)
    (htab : P.DfsLastOK) (hK : K.NO_DOM < 0 ∨ P.numBBs ≤ K.NO_DOM)
    (hlen : P.numBBs = P.dfsLast.length) (hcl : P.EdgesClosed)
    (hs : P.SameButImmedDom P1) (he1 : (P1.blocks e).immedDom = K.NO_DOM)
    (hsol : ∀ b, P.IsBlock b → b ≠ e →
      ∃ d, P.IsBlock d ∧ (P1.blocks b).immedDom = (P.blocks d).dfsLastNum ∧
        P.IsImmedDom e d b ∧ ∀ d', P.IsImmedDom e d' b → d' = d)
    (hh : P.BlockAt i h) (hb : P.BlockAt j b) :
    P1.CaseExit i j ↔ (¬ P.CfgEdge h b ∧ P.IsImmedDom e h b) := by
  have hhB : P.IsBlock h := ⟨i, hh⟩
  have hbB : P.IsBlock b := ⟨j, hb⟩
  have hdh : (P.blocks h).dfsLastNum = i := blockAt_num P htab hh
  have hdb : (P.blocks b).dfsLastNum = j := blockAt_num P htab hb
  have hh1 : P1.dfsLastAt i = some h := by
    rw [dfsLastAt_natCast, hs.1]; exact hh.2
  have hb1 : P1.dfsLastAt j = some b := by
    rw [dfsLastAt_natCast, hs.1]; exact hb.2
  have hhm : h ∈ P.dfsLast := List.get?_mem hh.2
  obtain ⟨r, hr, hiff⟩ := successor_spec P1 j i h hh1 (by
    rw [(sameButImmedDom_fields hs h).2.1, hs.edges]; exact (hcl h hhm).1)
  have hsuccE : (∃ c ∈ (P1.blocks h).edges, (P1.blocks c).dfsLastNum = (j : Int)) ↔
      P.CfgEdge h b := by
    rw [hs.edges]
    constructor
    · rintro ⟨c, hc, hd⟩
      rw [hs.dfsLastNum] at hd
      have hcB : P.IsBlock c := isBlock_of_mem P hlen c ((hcl h hhm).2 c hc)
      have : c = b := isBlock_num_inj P htab c b hcB hbB (by rw [hd, hdb])
      subst this
      exact ⟨hhB, hbB, hc⟩
    · rintro ⟨_, _, hc⟩
      exact ⟨b, hc, by rw [hs.dfsLastNum]; exact hdb⟩
  have himm : (P1.blocks b).immedDom = (i : Int) ↔ P.IsImmedDom e h b := by
    by_cases hbe : b = e
    · subst hbe
      constructor
      · intro h1
        rw [he1] at h1
        have hi0 : (0 : Int) ≤ (i : Int) := Int.ofNat_nonneg i
        have hi1 := hh.1
        rw [← h1] at hi0 hi1
        rcases hK with hK | hK
        · exact absurd hK (not_lt.mpr hi0)
        · exact absurd hK (not_le.mpr hi1)
      · intro h1
        exact absurd rfl (isImmedDom_ne_entry P b h b h1)
    · obtain ⟨d, hdB, hd1, hd2, hd3⟩ := hsol b hbB hbe
      constructor
      · intro h1
        rw [hd1] at h1
        have : d = h := isBlock_num_inj P htab d h hdB hhB (by rw [h1, hdh])
        subst this
        exact hd2
      · intro h1
        have := hd3 h h1
        subst this
        rw [hd1, hdh]
  unfold Function.CaseExit
  rw [hr, hb1]
  constructor
  · rintro ⟨h1, b', h2, h3⟩
    cases h2
    cases h1
    refine ⟨fun hedge => ?_, himm.mp h3⟩
    have := hiff.mpr (hsuccE.mpr hedge)
    cases this
  · rintro ⟨h1, h2⟩
    refine ⟨?_, b, rfl, himm.mpr h2⟩
    cases r with
    | false => rfl
    | true => exact absurd (hsuccE.mp (hiff.mp rfl)) h1

/-- A block whose immediate dominator is `h` and that is not a successor of `h` lies at
least two places after `h` in the DFS-last table. -/
theorem caseExit_index (K : Sentinels) (P P1 : Function) (e i h b : Nat)
    (htab : P.DfsLastOK) (he : P.BlockAt 0 e) (hred : P.Reducible e)
    (hreach : ∀ b, P.IsBlock b → ∃ π, P.CfgPath e π b)
    (hs : P.SolvedBelow K e P.numBBs.toNat P1)
    (hh : P.BlockAt i h) (hb : P.IsBlock b) (hid : P.IsImmedDom e h b)
    (hne : ¬ P.CfgEdge h b) : ∃ j, P.BlockAt j b ∧ i + 2 ≤ j := by
  obtain ⟨j, hj⟩ := hb
  have hjb : P.BlockAt j b := hj
  have hbe := isImmedDom_ne_entry P e h b hid
  have hlt : ∀ k : Nat, (k : Int) < P.numBBs → k < P.numBBs.toNat := by intro k hk; omega
  have hdb : (P.blocks b).dfsLastNum = j := blockAt_num P htab hjb
  -- the header comes before the block
  have hij : i ≤ j := by
    obtain ⟨i', hi', hle⟩ := dominates_le K P e P1 P.numBBs.toNat htab he hs j b (hlt j hj.1) hjb
      h hid.2.1
    have := blockAt_idx_inj P htab hi' hh
    omega
  have hij' : i ≠ j := by
    intro heq
    subst heq
    exact hid.1 (blockAt_inj P hh hjb)
  refine ⟨j, hjb, ?_⟩
  by_contra hcon
  have hj1 : j = i + 1 := by omega
  obtain ⟨π, hπ⟩ := hreach b ⟨j, hj⟩
  obtain ⟨u, π', hedge, hult, hπ', _⟩ := forward_pred_of_path P e b hred hbe π.length π
    (le_refl _) hπ
  have hdom : P.Dominates e h u :=
    (dominates_iff_forward_preds P e b h hred hbe hid.1).mp hid.2.1 u hedge hult
  obtain ⟨ju, hju⟩ := hedge.1
  have hjub : P.BlockAt ju u := hju
  have hdu : (P.blocks u).dfsLastNum = ju := blockAt_num P htab hjub
  obtain ⟨i', hi', hle⟩ := dominates_le K P e P1 P.numBBs.toNat htab he hs ju u (hlt ju hju.1)
    hjub h hdom
  have hii := blockAt_idx_inj P htab hi' hh
  rw [hdu, hdb] at hult
  have hju' : ju = i := by
    have : (ju : Int) < (j : Int) := hult
    omega
  subst hju'
  have : u = h := blockAt_inj P hjub hh
  subst this
  exact hne hedge

/-! ## The case structurer after the dominator stage -/

/-- On a reducible procedure, the dominator stage and the case structurer return, and the
multi-way header `h` with the greatest index gets as `caseTail` either `NO_NODE`, when
every block that `h` immediately dominates is a successor of `h`, or the number of the
block of greatest in-degree, first in the table, among the blocks that `h` immediately
dominates and that are not successors of `h`. -/
theorem structCases_caseTail_spec (K : Sentinels) (fuel fuel2 : Nat) (P : Function)
    (e i h : Nat)
    (htab : P.DfsLastOK) (hK : K.NO_DOM < 0 ∨ P.numBBs ≤ K.NO_DOM)
    (hKN : K.NO_NODE < 0 ∨ P.numBBs ≤ K.NO_NODE) (he : P.BlockAt 0 e)
    (hvalid : ∀ b, P.IsBlock b → (P.blocks b).flg.INVALID_BB = false)
    (hin : ∀ v, P.IsBlock v → ∀ p, p ∈ (P.blocks v).inEdges ↔ P.CfgEdge p v)
    (hred : P.Reducible e) (hreach : ∀ b, P.IsBlock b → ∃ π, P.CfgPath e π b)
    (hinit : ∀ b, (P.blocks b).immedDom = K.NO_DOM)
    (hfuel : 2 * P.numBBs < fuel)
    (hlen : P.numBBs = P.dfsLast.length) (hcl : P.EdgesClosed)
    (hfuel2 : P.dfsLast.length < fuel2)
    (hh : P.BlockAt i h) (hm : (P.blocks h).nodeType = eBBKind.MULTI_BRANCH)
    (hfirst : ∀ (j : Nat) (b : Nat), i < j → P.BlockAt j b →
      (P.blocks b).nodeType ≠ eBBKind.MULTI_BRANCH) :
    ∃ P1 P2, findImmedDom K fuel P = some P1 ∧ structCases K fuel2 P1 = some P2 ∧
      (((P2.blocks h).caseTail = K.NO_NODE ∧
          ∀ b, P.IsBlock b → P.IsImmedDom e h b → P.CfgEdge h b) ∨
        (∃ x, P.IsBlock x ∧ (P2.blocks h).caseTail = (P.blocks x).dfsLastNum ∧
          P.IsImmedDom e h x ∧ ¬ P.CfgEdge h x ∧ (∃ π, P.CfgPath h π x) ∧
          ∀ b, P.IsBlock b → P.IsImmedDom e h b → ¬ P.CfgEdge h b →
            (P.blocks b).numInEdges ≤ (P.blocks x).numInEdges ∧
            ((P.blocks b).numInEdges = (P.blocks x).numInEdges →
              (P.blocks x).dfsLastNum ≤ (P.blocks b).dfsLastNum))) := by
  obtain ⟨P1, hP1, hsolved⟩ := findImmedDom_solved_frame K fuel P e htab hK he hvalid hin hred
    hreach hinit hfuel
  obtain ⟨P1', hP1', he1, hsol⟩ := findImmedDom_solves K fuel P e htab hK he hvalid hin hred
    hreach hinit hfuel
  rw [hP1] at hP1'
  cases hP1'
  have hs := hsolved.1
  have hcl1 : P1.EdgesClosed := by
    intro b hb
    rw [hs.1] at hb
    rw [(sameButImmedDom_fields hs b).2.1, hs.edges, hs.1]
    exact hcl b hb
  have hinT : ∀ x, P1.InTable x ↔ (0 ≤ x ∧ x < P.numBBs) := by
    intro x
    rw [inTable_iff, hs.1, hlen]
  have hK1 : ¬ P1.InTable K.NO_NODE := by
    rw [hinT]
    intro hx
    rcases hKN with h1 | h1 <;> omega
  have hh1 : P1.BlockAt i h := ⟨by rw [hs.2.1]; exact hh.1, by rw [hs.1]; exact hh.2⟩
  obtain ⟨P2, r, hP2, hstep, hct, hr⟩ := structCases_first K fuel2 P1 i h hcl1 hK1
    (by rw [hs.1]; exact hfuel2) (by rw [hs.2.1, hs.1, hlen]) (hs.dfsLastOK htab) hh1
    (by rw [(sameButImmedDom_fields hs h).1]; exact hm)
    (by
      intro j b hj hb
      rw [(sameButImmedDom_fields hs b).1]
      exact hfirst j b hj ⟨by rw [← hs.2.1]; exact hb.1, by rw [← hs.1]; exact hb.2⟩)
  have hsucc : ∀ j, P1.InTable j → ∃ s, successor P1 j i = some s := by
    intro j _
    obtain ⟨r, hr, _⟩ := successor_spec P1 j i h (by rw [dfsLastAt_natCast]; exact hh1.2)
      (hcl1 h (List.get?_mem hh1.2)).1
    exact ⟨r, hr⟩
  have hjs : ∀ j ∈ indicesFrom ((i : Int) + 2) P1.numBBs, P1.InTable j := by
    intro j hj
    rw [mem_indicesFrom, hs.2.1] at hj
    rw [hinT]
    omega
  obtain ⟨r', hr', hcase⟩ := structCasesExit_first K P1 i hsucc hK1 _
    (indicesFrom_pairwise _ _) hjs
  rw [hr] at hr'
  cases hr'
  -- the blocks behind the indices
  have hblock : ∀ j : Int, j ∈ indicesFrom ((i : Int) + 2) P1.numBBs →
      ∃ (n : Nat) (b : Nat), j = n ∧ P.BlockAt n b := by
    intro j hj
    rw [mem_indicesFrom, hs.2.1] at hj
    obtain ⟨b, hb, _⟩ := htab j.toNat (by omega)
    exact ⟨j.toNat, b, by omega, ⟨by omega, hb⟩⟩
  have hqual : ∀ (n b : Nat), P.BlockAt n b →
      (P1.CaseExit i n ↔ (¬ P.CfgEdge h b ∧ P.IsImmedDom e h b)) :=
    fun n b hb => caseExit_iff_graph K P P1 e i h n b htab hK hlen hcl hs he1 hsol hh hb
  have hnum : ∀ (n b : Nat), P.BlockAt n b → P1.numInAt n = (P.blocks b).numInEdges := by
    intro n b hb
    unfold Function.numInAt
    rw [dfsLastAt_natCast, hs.1, hb.2]
    exact (sameButImmedDom_fields hs b).2.2.1
  have hidx : ∀ b, P.IsBlock b → P.IsImmedDom e h b → ¬ P.CfgEdge h b →
      ∃ n : Nat, P.BlockAt n b ∧ (n : Int) ∈ indicesFrom ((i : Int) + 2) P1.numBBs := by
    intro b hb hid hne
    obtain ⟨n, hn, hle⟩ := caseExit_index K P P1 e i h b htab he hred hreach hsolved hh hb hid hne
    refine ⟨n, hn, ?_⟩
    rw [mem_indicesFrom, hs.2.1]
    have := hn.1
    omega
  refine ⟨P1, P2, hP1, hP2, ?_⟩
  rcases hcase with ⟨hrN, hnone⟩ | ⟨hmem, hq, hmax⟩
  · left
    refine ⟨by rw [hct, hrN], fun b hb hid => ?_⟩
    by_contra hne
    obtain ⟨n, hn, hnm⟩ := hidx b hb hid hne
    exact hnone n hnm ((hqual n b hn).mpr ⟨hne, hid⟩)
  · right
    obtain ⟨n, x, hrn, hx⟩ := hblock r hmem
    subst hrn
    obtain ⟨hxe, hxid⟩ := (hqual n x hx).mp hq
    have hxB : P.IsBlock x := ⟨n, hx⟩
    refine ⟨x, hxB, by rw [hct, blockAt_num P htab hx], hxid, hxe, ?_, ?_⟩
    · obtain ⟨π, hπ⟩ := hreach x hxB
      exact cfgPath_from_mem P e π x hπ h (hxid.2.1 π hπ)
    · intro b hb hid hne
      obtain ⟨m, hmb, hmm⟩ := hidx b hb hid hne
      have := hmax m hmm ((hqual m b hmb).mpr ⟨hne, hid⟩)
      rw [hnum m b hmb, hnum n x hx] at this
      rw [blockAt_num P htab hx, blockAt_num P htab hmb]
      exact this

/-! ## The multi-way scenario -/

theorem caseProc_head (K : Sentinels) (n : Nat) :
    (caseProc K n).blocks 0 = mkBB K 0 eBBKind.MULTI_BRANCH [] (List.range' 1 n) K.NO_DOM := by
  simp [caseProc]

theorem caseProc_target (K : Sentinels) (n p : Nat) (h1 : 1 ≤ p) (h2 : p ≤ n) :
    (caseProc K n).blocks p = mkBB K p eBBKind.ONE_BRANCH [0] [n + 1] K.NO_DOM := by
  have : p ≠ 0 := by omega
  simp [caseProc, this, h2]

theorem caseProc_exit (K : Sentinels) (n : Nat) :
    (caseProc K n).blocks (n + 1) =
      mkBB K (n + 1 : Nat) eBBKind.RETURN_NODE (List.range' 1 n) [] K.NO_DOM := by
  simp [caseProc]

theorem caseProc_cases (n p : Nat) (hp : p < n + 2) :
    p = 0 ∨ (1 ≤ p ∧ p ≤ n) ∨ p = n + 1 := by omega

theorem caseProc_get (K : Sentinels) (n k : Nat) (hk : k < n + 2) :
    (caseProc K n).dfsLast.get? k = some k := by
  show (List.range (n + 2)).get? k = some k
  rw [List.get?_eq_getElem?, List.getElem?_range hk]

theorem caseProc_numBBs (K : Sentinels) (n : Nat) : (caseProc K n).numBBs = (n : Int) + 2 := rfl

theorem caseProc_dfsLastNum (K : Sentinels) (n p : Nat) (hp : p < n + 2) :
    ((caseProc K n).blocks p).dfsLastNum = p := by
  rcases caseProc_cases n p hp with rfl | ⟨h1, h2⟩ | rfl
  · rw [caseProc_head]; rfl
  · rw [caseProc_target K n p h1 h2]; rfl
  · rw [caseProc_exit]; rfl

theorem caseProc_blockAt (K : Sentinels) (n j b : Nat) :
    (caseProc K n).BlockAt j b ↔ j < n + 2 ∧ b = j := by
  unfold Function.BlockAt
  rw [caseProc_numBBs]
  constructor
  · rintro ⟨h1, h2⟩
    have hj : j < n + 2 := by omega
    rw [caseProc_get K n j hj] at h2
    exact ⟨hj, (Option.some.inj h2).symm⟩
  · rintro ⟨h1, rfl⟩
    exact ⟨by omega, caseProc_get K n b h1⟩

theorem caseProc_isBlock (K : Sentinels) (n b : Nat) : (caseProc K n).IsBlock b ↔ b < n + 2 := by
  constructor
  · rintro ⟨k, hk⟩
    have := (caseProc_blockAt K n k b).mp hk
    omega
  · intro hb
    exact ⟨b, (caseProc_blockAt K n b b).mpr ⟨hb, rfl⟩⟩

theorem caseProc_dfsLastOK (K : Sentinels) (n : Nat) : (caseProc K n).DfsLastOK := by
  intro k hk
  rw [caseProc_numBBs] at hk
  have hk' : k < n + 2 := by omega
  exact ⟨k, caseProc_get K n k hk', caseProc_dfsLastNum K n k hk'⟩

theorem caseProc_edges (K : Sentinels) (n p : Nat) (hp : p < n + 2) :
    ((caseProc K n).blocks p).edges =
      if p = 0 then List.range' 1 n else if p ≤ n then [n + 1] else [] := by
  rcases caseProc_cases n p hp with rfl | ⟨h1, h2⟩ | rfl
  · rw [caseProc_head]; rfl
  · rw [caseProc_target K n p h1 h2, if_neg (by omega), if_pos h2]; rfl
  · rw [caseProc_exit, if_neg (by omega), if_neg (by omega)]; rfl

theorem caseProc_inEdges (K : Sentinels) (n p : Nat) (hp : p < n + 2) :
    ((caseProc K n).blocks p).inEdges =
      if p = 0 then [] else if p ≤ n then [0] else List.range' 1 n := by
  rcases caseProc_cases n p hp with rfl | ⟨h1, h2⟩ | rfl
  · rw [caseProc_head]; rfl
  · rw [caseProc_target K n p h1 h2, if_neg (by omega), if_pos h2]; rfl
  · rw [caseProc_exit, if_neg (by omega), if_neg (by omega)]; rfl

theorem caseProc_cfgEdge (K : Sentinels) (n u v : Nat) :
    (caseProc K n).CfgEdge u v ↔
      (u = 0 ∧ 1 ≤ v ∧ v ≤ n) ∨ (1 ≤ u ∧ u ≤ n ∧ v = n + 1) := by
  unfold Function.CfgEdge
  rw [caseProc_isBlock, caseProc_isBlock]
  constructor
  · rintro ⟨hu, hv, hmem⟩
    rw [caseProc_edges K n u hu] at hmem
    split at hmem
    · rw [List.mem_range'_1] at hmem
      left; omega
    · split at hmem
      · rw [List.mem_singleton] at hmem
        right; omega
      · exact absurd hmem (List.not_mem_nil v)
  · rintro (⟨rfl, h1, h2⟩ | ⟨h1, h2, rfl⟩)
    · refine ⟨by omega, by omega, ?_⟩
      rw [caseProc_edges K n 0 (by omega), if_pos rfl, List.mem_range'_1]
      omega
    · refine ⟨by omega, by omega, ?_⟩
      rw [caseProc_edges K n u (by omega), if_neg (by omega), if_pos h2]
      exact List.mem_singleton_self _

theorem caseProc_hin (K : Sentinels) (n v : Nat) (hv : (caseProc K n).IsBlock v) (p : Nat) :
    p ∈ ((caseProc K n).blocks v).inEdges ↔ (caseProc K n).CfgEdge p v := by
  rw [caseProc_isBlock] at hv
  rw [caseProc_cfgEdge, caseProc_inEdges K n v hv]
  split
  · constructor
    · intro h; exact absurd h (List.not_mem_nil p)
    · rintro (⟨_, h1, _⟩ | ⟨h1, h2, h3⟩) <;> omega
  · split
    · rw [List.mem_singleton]
      constructor
      · intro h; left; omega
      · rintro (⟨h, _, _⟩ | ⟨_, _, h3⟩)
        · exact h
        · omega
    · rw [List.mem_range'_1]
      constructor
      · intro h; right; omega
      · rintro (⟨_, _, h2⟩ | ⟨h1, h2, _⟩) <;> omega

theorem caseProc_reducible (K : Sentinels) (n : Nat) : (caseProc K n).Reducible 0 := by
  intro u v hedge
  left
  have hu := (caseProc_isBlock K n u).mp hedge.1
  have hv := (caseProc_isBlock K n v).mp hedge.2.1
  rw [caseProc_dfsLastNum K n u hu, caseProc_dfsLastNum K n v hv]
  rcases (caseProc_cfgEdge K n u v).mp hedge with ⟨rfl, h1, h2⟩ | ⟨h1, h2, rfl⟩
  · exact_mod_cast h1
  · exact_mod_cast (by omega : u < n + 1)

theorem caseProc_reach (K : Sentinels) (n : Nat) (hn : 1 ≤ n) (b : Nat)
    (hb : (caseProc K n).IsBlock b) : ∃ π, (caseProc K n).CfgPath 0 π b := by
  rw [caseProc_isBlock] at hb
  have htarget : ∀ p, 1 ≤ p → p ≤ n → (caseProc K n).CfgPath 0 [p, 0] p := fun p h1 h2 =>
    Function.CfgPath.step Function.CfgPath.entry
      ((caseProc_cfgEdge K n 0 p).mpr (Or.inl ⟨rfl, h1, h2⟩))
  rcases caseProc_cases n b hb with rfl | ⟨h1, h2⟩ | rfl
  · exact ⟨[0], Function.CfgPath.entry⟩
  · exact ⟨_, htarget b h1 h2⟩
  · exact ⟨_, Function.CfgPath.step (htarget 1 (le_refl _) hn)
      ((caseProc_cfgEdge K n 1 (n + 1)).mpr (Or.inr ⟨le_refl _, hn, rfl⟩))⟩

theorem caseProc_valid (K : Sentinels) (n b : Nat) :
    ((caseProc K n).blocks b).flg.INVALID_BB = false := by
  unfold caseProc
  simp only
  split
  · rfl
  · split
    · rfl
    · split <;> rfl

theorem caseProc_init (K : Sentinels) (n b : Nat) :
    ((caseProc K n).blocks b).immedDom = K.NO_DOM := by
  unfold caseProc
  simp only
  split
  · rfl
  · split
    · rfl
    · split <;> rfl

theorem caseProc_length (K : Sentinels) (n : Nat) :
    (caseProc K n).numBBs = (caseProc K n).dfsLast.length := by
  show ((n : Int) + 2) = ((List.range (n + 2)).length : Int)
  rw [List.length_range]
  push_cast
  rfl

theorem caseProc_mem (K : Sentinels) (n b : Nat) : b ∈ (caseProc K n).dfsLast ↔ b < n + 2 := by
  show b ∈ List.range (n + 2) ↔ _
  exact List.mem_range

theorem caseProc_edgesClosed (K : Sentinels) (n : Nat) : (caseProc K n).EdgesClosed := by
  intro b hb
  rw [caseProc_mem] at hb
  constructor
  · rcases caseProc_cases n b hb with rfl | ⟨h1, h2⟩ | rfl
    · rw [caseProc_head]; rfl
    · rw [caseProc_target K n b h1 h2]; rfl
    · rw [caseProc_exit]; rfl
  · intro c hc
    rw [caseProc_mem]
    rw [caseProc_edges K n b hb] at hc
    split at hc
    · rw [List.mem_range'_1] at hc; omega
    · split at hc
      · rw [List.mem_singleton] at hc; omega
      · exact absurd hc (List.not_mem_nil c)

theorem caseProc_nodeType (K : Sentinels) (n b : Nat) (hb : b < n + 2) :
    ((caseProc K n).blocks b).nodeType = eBBKind.MULTI_BRANCH ↔ b = 0 := by
  rcases caseProc_cases n b hb with rfl | ⟨h1, h2⟩ | rfl
  · rw [caseProc_head]; exact ⟨fun _ => rfl, fun _ => rfl⟩
  · rw [caseProc_target K n b h1 h2]
    exact ⟨fun h => (by cases h), fun h => (by omega)⟩
  · rw [caseProc_exit]
    exact ⟨fun h => (by cases h), fun h => (by omega)⟩

/-- C12 (evaluation at the failing input): in the procedure of two case statements, no
index qualifies as the exit of the outer header `H1` (index 0), since the blocks it
immediately dominates are its successors, yet the case structurer leaves
`H1.caseTail = 7`, the exit `X2` found before for the inner header `H2` (index 3). -/
theorem structCases_keeps_exit_of_earlier_header :
    ((findImmedDom K0 30 (rawOf K0 (twoCaseProc K0))).bind (structCases K0 20)).map
        (fun P => ((P.blocks 3).caseTail, (P.blocks 0).caseTail)) = some (7, 7) ∧
      (findImmedDom K0 30 (rawOf K0 (twoCaseProc K0))).map
        (fun P => (List.range 8).filter (fun j => 2 ≤ j ∧ successor P j 0 = some false ∧
          (P.dfsLastAt j).map (fun b => (P.blocks b).immedDom) = some 0)) = some [] := by
  decide

/-- The entry is on every path. -/
theorem cfgPath_entry_mem (P : Function) (e : Nat) (π : List Nat) (v : Nat)
    (h : P.CfgPath e π v) : e ∈ π := by
  induction h with
  | entry => exact List.mem_singleton_self _
  | step _ _ ih => exact List.mem_cons_of_mem _ ih

/-- A numbering that every out-edge of the table blocks increases is reducible. -/
theorem reducible_of_forward (P : Function) (e : Nat)
    (h : ∀ u ∈ P.dfsLast, ∀ v ∈ (P.blocks u).edges,
      (P.blocks u).dfsLastNum < (P.blocks v).dfsLastNum) : P.Reducible e := by
  intro u v hedge
  obtain ⟨k, _, hk⟩ := hedge.1
  exact Or.inl (h u (List.get?_mem hk) v hedge.2.2)

/-- C13 (amended): on a reducible procedure, the dominator stage and the case structurer
return, and for the multi-way header `h` with the greatest DFS-last index: `h.caseTail`
is `NO_NODE` when every block that `h` immediately dominates is a direct successor of
`h`; otherwise it is the number of a block `x` that is reachable from `h`, immediately
dominated (hence dominated) by `h`, not a direct successor of `h`, and of the largest
in-degree, first in DFS-last order, among the blocks immediately dominated by `h` that
are not direct successors of `h`. -/
theorem structCases_caseTail_immediately_dominated (K : Sentinels) (fuel fuel2 : Nat)
    (P : Function) (e i h : Nat)
    (htab : P.DfsLastOK) (hK : K.NO_DOM < 0 ∨ P.numBBs ≤ K.NO_DOM)
    (hKN : K.NO_NODE < 0 ∨ P.numBBs ≤ K.NO_NODE) (he : P.BlockAt 0 e)
    (hvalid : ∀ b, P.IsBlock b → (P.blocks b).flg.INVALID_BB = false)
    (hin : ∀ v, P.IsBlock v → ∀ p, p ∈ (P.blocks v).inEdges ↔ P.CfgEdge p v)
    (hred : P.Reducible e) (hreach : ∀ b, P.IsBlock b → ∃ π, P.CfgPath e π b)
    (hinit : ∀ b, (P.blocks b).immedDom = K.NO_DOM)
    (hfuel : 2 * P.numBBs < fuel)
    (hlen : P.numBBs = P.dfsLast.length) (hcl : P.EdgesClosed)
    (hfuel2 : P.dfsLast.length < fuel2)
    (hh : P.BlockAt i h) (hm : (P.blocks h).nodeType = eBBKind.MULTI_BRANCH)
    (hfirst : ∀ (j : Nat) (b : Nat), i < j → P.BlockAt j b →
      (P.blocks b).nodeType ≠ eBBKind.MULTI_BRANCH) :
    ∃ P1 P2, findImmedDom K fuel P = some P1 ∧ structCases K fuel2 P1 = some P2 ∧
      (((P2.blocks h).caseTail = K.NO_NODE ∧
          ∀ b, P.IsBlock b → P.IsImmedDom e h b → P.CfgEdge h b) ∨
        (∃ x, P.IsBlock x ∧ (P2.blocks h).caseTail = (P.blocks x).dfsLastNum ∧
          P.IsImmedDom e h x ∧ P.Dominates e h x ∧ ¬ P.CfgEdge h x ∧
          (∃ π, P.CfgPath h π x) ∧
          ∀ b, P.IsBlock b → P.IsImmedDom e h b → ¬ P.CfgEdge h b →
            (P.blocks b).numInEdges ≤ (P.blocks x).numInEdges ∧
            ((P.blocks b).numInEdges = (P.blocks x).numInEdges →
              (P.blocks x).dfsLastNum ≤ (P.blocks b).dfsLastNum))) := by
  obtain ⟨P1, P2, h1, h2, h3⟩ := structCases_caseTail_spec K fuel fuel2 P e i h htab hK hKN he
    hvalid hin hred hreach hinit hfuel hlen hcl hfuel2 hh hm hfirst
  refine ⟨P1, P2, h1, h2, ?_⟩
  rcases h3 with h3 | ⟨x, hx, hct, hid, hne, hp, hmax⟩
  · exact Or.inl h3
  · exact Or.inr ⟨x, hx, hct, hid, hid.2.1, hne, hp, hmax⟩

/-- A witness for C13: the multi-way scenario with two case targets. -/
theorem structCases_caseTail_immediately_dominated_witness :
    ∃ P1 P2, findImmedDom K0 9 (caseProc K0 2) = some P1 ∧ structCases K0 5 P1 = some P2 ∧
      (((P2.blocks 0).caseTail = K0.NO_NODE ∧
          ∀ b, (caseProc K0 2).IsBlock b → (caseProc K0 2).IsImmedDom 0 0 b →
            (caseProc K0 2).CfgEdge 0 b) ∨
        (∃ x, (caseProc K0 2).IsBlock x ∧
          (P2.blocks 0).caseTail = ((caseProc K0 2).blocks x).dfsLastNum ∧
          (caseProc K0 2).IsImmedDom 0 0 x ∧ (caseProc K0 2).Dominates 0 0 x ∧
          ¬ (caseProc K0 2).CfgEdge 0 x ∧ (∃ π, (caseProc K0 2).CfgPath 0 π x) ∧
          ∀ b, (caseProc K0 2).IsBlock b → (caseProc K0 2).IsImmedDom 0 0 b →
            ¬ (caseProc K0 2).CfgEdge 0 b →
            ((caseProc K0 2).blocks b).numInEdges ≤ ((caseProc K0 2).blocks x).numInEdges ∧
            (((caseProc K0 2).blocks b).numInEdges = ((caseProc K0 2).blocks x).numInEdges →
              ((caseProc K0 2).blocks x).dfsLastNum ≤
                ((caseProc K0 2).blocks b).dfsLastNum))) :=
  structCases_caseTail_immediately_dominated K0 9 5 (caseProc K0 2) 0 0 0
    (caseProc_dfsLastOK K0 2) (Or.inr (by decide)) (Or.inr (by decide))
    ((caseProc_blockAt K0 2 0 0).mpr ⟨by decide, rfl⟩)
    (fun b _ => caseProc_valid K0 2 b) (caseProc_hin K0 2) (caseProc_reducible K0 2)
    (caseProc_reach K0 2 (by decide)) (caseProc_init K0 2) (by decide)
    (caseProc_length K0 2) (caseProc_edgesClosed K0 2) (by decide)
    ((caseProc_blockAt K0 2 0 0).mpr ⟨by decide, rfl⟩) rfl
    (fun j b hj hb hm => by
      have h1 := (caseProc_blockAt K0 2 j b).mp hb
      have h2 := (caseProc_nodeType K0 2 b (by omega)).mp hm
      omega)

/-- C13 (counterexample): in the procedure of a case statement followed by nested
conditionals, which is reducible, the multi-way header `H` (block 0, the entry) gets
`caseTail = 4`, the block `c` with 3 in-edges; yet the block `f` (9) is dominated by `H`,
is not a direct successor of `H`, and has 4 in-edges. -/
theorem join_below_case_exit_has_more_inEdges :
    (rawOf K0 (deepJoinProc K0)).Reducible 0 ∧
      ((rawOf K0 (deepJoinProc K0)).blocks 0).nodeType = eBBKind.MULTI_BRANCH ∧
      ((findImmedDom K0 30 (rawOf K0 (deepJoinProc K0))).bind (structCases K0 20)).map
        (fun P => ((P.blocks 0).caseTail, (P.blocks 4).numInEdges,
          (P.blocks 9).numInEdges)) = some (4, 3, 4) ∧
      (rawOf K0 (deepJoinProc K0)).IsBlock 9 ∧
      (rawOf K0 (deepJoinProc K0)).Dominates 0 0 9 ∧
      ¬ (rawOf K0 (deepJoinProc K0)).CfgEdge 0 9 :=
  ⟨reducible_of_forward _ 0 (by decide), rfl, by decide, ⟨9, by decide, rfl⟩,
    fun π hπ => cfgPath_entry_mem _ 0 π 9 hπ, fun h => absurd h.2.2 (by decide)⟩

/-! ## The nodes of a case -/

theorem tagStep_refl (head : Int) (s : Function × List Int) : TagStep head s s :=
  ⟨caseStep_refl s.1, fun _ => Or.inl rfl, fun _ h => h⟩

theorem tagStep_trans (head : Int) (s1 s2 s3 : Function × List Int)
    (h1 : TagStep head s1 s2) (h2 : TagStep head s2 s3) : TagStep head s1 s3 := by
  refine ⟨caseStep_trans h1.1 h2.1, fun b => ?_, fun x hx => h2.2.2 x (h1.2.2 x hx)⟩
  rcases h2.2.1 b with h | h
  · rcases h1.2.1 b with h' | h'
    · exact Or.inl (h.trans h')
    · exact Or.inr (h.trans h')
  · exact Or.inr h

/-- When `tagNodesInCase` returns, it has made a tagging step, and the block it was called
on carries the header in `caseHead` if it passed the test of line 368. -/
theorem tagNodesInCase_caseHead (head tail : Int) :
    ∀ (fuel : Nat) (pBB : Nat) (st st' : Function × List Int),
      tagNodesInCase head tail fuel pBB st = some st' →
      TagStep head st st' ∧
      ((st.1.blocks pBB).dfsLastNum ≠ tail →
        (st.1.blocks pBB).nodeType ≠ eBBKind.MULTI_BRANCH →
        (st.1.blocks pBB).immedDom ∈ st.2 → (st'.1.blocks pBB).caseHead = head) := by
  intro fuel
  induction fuel with
  | zero =>
    intro pBB st st' h
    simp [tagNodesInCase] at h
  | succ n ih =>
    intro pBB st st' h
    unfold tagNodesInCase at h
    simp only at h
    have hs1 := caseStep_setTraversed st.1 pBB
    have hf := eraseCases_fields hs1.1 pBB
    have hch1 : ∀ b, ((st.1.setTraversed pBB eDFS.DFS_CASE).blocks b).caseHead =
        (st.1.blocks b).caseHead := by
      intro b
      by_cases hb : b = pBB <;> simp [Function.setTraversed, Function.setBB, hb]
    split at h
    · have hs2 := caseStep_setCaseHead (st.1.setTraversed pBB eDFS.DFS_CASE) pBB head
      have h0 : TagStep head st
          ((st.1.setTraversed pBB eDFS.DFS_CASE).setCaseHead pBB head,
            insertList st.2 (((st.1.setTraversed pBB eDFS.DFS_CASE).blocks pBB).dfsLastNum)) := by
        refine ⟨caseStep_trans hs1 hs2, fun b => ?_, fun x hx => ?_⟩
        · by_cases hb : b = pBB
          · right; simp [Function.setCaseHead, Function.setBB, hb]
          · left
            rw [← hch1 b]
            simp [Function.setCaseHead, Function.setBB, hb]
        · unfold insertList
          exact List.mem_append_left _ hx
      have hR := foldlM_rel _ (TagStep head) (tagStep_refl head) (tagStep_trans head) _
        (by
          intro a _ s s' hf
          cases hedge : s.1.edge pBB a with
          | none => rw [hedge] at hf; cases hf
          | some c =>
            rw [hedge] at hf
            simp only at hf
            split at hf
            · exact (ih c s s' hf).1
            · cases hf
              exact tagStep_refl head s) _ _ h
      refine ⟨tagStep_trans head _ _ _ h0 hR, fun _ _ _ => ?_⟩
      rcases hR.2.1 pBB with h' | h'
      · rw [h']
        simp [Function.setCaseHead, Function.setBB]
      · exact h'
    · rename_i hcond
      cases h
      refine ⟨⟨hs1, fun b => Or.inl (hch1 b), fun _ hx => hx⟩, fun h1 h2 h3 => ?_⟩
      exfalso
      apply hcond
      rw [hf.1, hf.2.1, hf.2.2.2.2.1]
      exact ⟨h1, h2, by simpa [inList] using h3⟩

/-- The loop of `structCases` that tags the nodes of a case makes a tagging step, and
leaves the header in `caseHead` of every successor of the header it was called on that
passed the test of line 368. -/
theorem structCasesTag_caseHead (fuel : Nat) (header : Nat) (i exitNode : Int) :
    ∀ (js : List Nat) (s s' : Function × List Int),
      js.foldlM (structCasesTag fuel header i exitNode) s = some s' →
      TagStep i s s' ∧
      (i ∈ s.2 → ∀ j ∈ js, ∀ c, (s.1.blocks header).edges.get? j = some c →
        (s.1.blocks c).dfsLastNum ≠ exitNode →
        (s.1.blocks c).nodeType ≠ eBBKind.MULTI_BRANCH →
        (s.1.blocks c).immedDom = i → (s'.1.blocks c).caseHead = i) := by
  intro js
  induction js with
  | nil =>
    intro s s' h
    rw [List.foldlM_nil] at h
    cases h
    exact ⟨tagStep_refl i s, fun _ j hj => absurd hj (List.not_mem_nil j)⟩
  | cons a js ih =>
    intro s s' h
    rw [List.foldlM_cons] at h
    cases h1 : structCasesTag fuel header i exitNode s a with
    | none => rw [h1] at h; cases h
    | some s1 =>
      rw [h1] at h
      obtain ⟨hR, hrest⟩ := ih s1 s' h
      unfold structCasesTag at h1
      cases hedge : s.1.edge header a with
      | none => rw [hedge] at h1; cases h1
      | some c0 =>
        rw [hedge] at h1
        simp only at h1
        obtain ⟨hT, hc0⟩ := tagNodesInCase_caseHead i exitNode fuel c0 s s1 h1
        refine ⟨tagStep_trans i _ _ _ hT hR, fun hi j hj c hc hd hn him => ?_⟩
        rcases List.mem_cons.mp hj with rfl | hj'
        · unfold Function.edge at hedge
          rw [hedge] at hc
          cases hc
          have := hc0 hd hn (by rw [him]; exact hi)
          rcases hR.2.1 c0 with h' | h'
          · rw [h', this]
          · exact h'
        · have hf := eraseCases_fields hT.1.1 c
          have hfh := eraseCases_fields hT.1.1 header
          exact hrest (hT.2.2 i hi) j hj' c (by rw [hfh.2.2.1]; exact hc)
            (by rw [hf.1]; exact hd) (by rw [hf.2.1]; exact hn)
            (by rw [hf.2.2.2.2.1]; exact him)

/-- When the body of the loop of `structCases` returns at a multi-way header, every
successor of the header that is not the exit node, is not multi-way and has the header as
immediate dominator carries the header in `caseHead`, and so does the exit node. -/
theorem structCasesNode_caseHead (K : Sentinels) (fuel : Nat)
    (st st' : Function × Int × List Int) (i : Int) (header : Nat)
    (hh : st.1.dfsLastAt i = some header)
    (hm : (st.1.blocks header).nodeType = eBBKind.MULTI_BRANCH)
    (hnum : (st.1.blocks header).numOutEdges = (st.1.blocks header).edges.length)
    (h : structCasesNode K fuel st i = some st') :
    (∀ c ∈ (st.1.blocks header).edges, (st.1.blocks c).dfsLastNum ≠ st'.2.1 →
      (st.1.blocks c).nodeType ≠ eBBKind.MULTI_BRANCH → (st.1.blocks c).immedDom = i →
      (st'.1.blocks c).caseHead = i) ∧
    (st'.2.1 ≠ K.NO_NODE → ∀ be, st.1.dfsLastAt st'.2.1 = some be →
      (st'.1.blocks be).caseHead = i) := by
  unfold structCasesNode at h
  rw [hh] at h
  simp only at h
  rw [if_pos hm] at h
  cases hex : (indicesFrom (i + 2) st.1.numBBs).foldlM (structCasesExit K st.1 i) st.2.1 with
  | none => rw [hex] at h; cases h
  | some exitNode =>
    rw [hex] at h
    simp only at h
    have hsA := caseStep_setCaseTail st.1 header exitNode
    have hsB := caseStep_setCaseHead (st.1.setCaseTail header exitNode) header i
    have hs2 := caseStep_trans hsA hsB
    cases htag : (List.range (((st.1.setCaseTail header exitNode).setCaseHead header
        i).blocks header).numOutEdges.toNat).foldlM
        (structCasesTag fuel header i exitNode)
        ((st.1.setCaseTail header exitNode).setCaseHead header i, insertList st.2.2 i) with
    | none => rw [htag] at h; cases h
    | some s3 =>
      rw [htag] at h
      obtain ⟨P3, caseNodes⟩ := s3
      simp only at h
      obtain ⟨hT, hc⟩ := structCasesTag_caseHead fuel header i exitNode _ _ _ htag
      simp only at hT hc
      have hs3 : st.1.CaseStep P3 := caseStep_trans hs2 hT.1
      have hnum2 : (((st.1.setCaseTail header exitNode).setCaseHead header i).blocks
          header).numOutEdges.toNat = (st.1.blocks header).edges.length := by
        rw [(eraseCases_fields hs2.1 header).2.2.2.1, hnum]
        exact Int.toNat_ofNat _
      have hP3 : ∀ c ∈ (st.1.blocks header).edges, (st.1.blocks c).dfsLastNum ≠ exitNode →
          (st.1.blocks c).nodeType ≠ eBBKind.MULTI_BRANCH → (st.1.blocks c).immedDom = i →
          (P3.blocks c).caseHead = i := by
        intro c hcm hd hn him
        obtain ⟨j, hj⟩ := List.mem_iff_get.mp hcm
        have hf := eraseCases_fields hs2.1 c
        exact hc (by unfold insertList; simp) j.1
          (by rw [hnum2]; exact List.mem_range.mpr j.2) c
          (by rw [(eraseCases_fields hs2.1 header).2.2.1, List.get?_eq_get j.2, hj])
          (by rw [hf.1]; exact hd) (by rw [hf.2.1]; exact hn)
          (by rw [hf.2.2.2.2.1]; exact him)
      split at h
      · rename_i hne
        cases hbe : P3.dfsLastAt exitNode with
        | none => rw [hbe] at h; cases h
        | some be =>
          rw [hbe] at h
          cases h
          simp only
          constructor
          · intro c hcm hd hn him
            by_cases hcb : c = be
            · simp [Function.setCaseHead, Function.setBB, hcb]
            · have := hP3 c hcm hd hn him
              simpa [Function.setCaseHead, Function.setBB, hcb] using this
          · intro _ be' hbe'
            rw [hs3.1.dfsLastAt, hbe'] at hbe
            cases hbe
            simp [Function.setCaseHead, Function.setBB]
      · rename_i hne
        cases h
        simp only
        exact ⟨hP3, fun h' => absurd h' hne⟩

/-- With a single multi-way header in the table, `structCases` does what the body of its
loop does at the header. -/
theorem structCases_single (K : Sentinels) (fuel : Nat) (P : Function) (i : Nat)
    (st' : Function × Int × List Int)
    (hn : P.numBBs ≤ P.dfsLast.length) (hi : (i : Int) < P.numBBs)
    (honly : ∀ (j : Nat) (b : Nat), j ≠ i → P.BlockAt j b →
      (P.blocks b).nodeType ≠ eBBKind.MULTI_BRANCH)
    (hnode : structCasesNode K fuel (P, K.NO_NODE, []) i = some st')
    (hstep : P.CaseStep st'.1) :
    structCases K fuel P = some st'.1 := by
  have hid : ∀ (m : Nat) (st : Function × Int × List Int), m ≠ i → (m : Int) < P.numBBs →
      P.CaseStep st.1 → structCasesNode K fuel st m = some st := by
    intro m st hmi hm hs
    have hlt : m < P.dfsLast.length := by omega
    unfold structCasesNode
    rw [hs.1.dfsLastAt, dfsLastAt_natCast, List.get?_eq_get hlt]
    simp only
    rw [if_neg]
    rw [(eraseCases_fields hs.1 _).2.1]
    exact honly m _ hmi ⟨hm, List.get?_eq_get hlt⟩
  have hloop : ∀ (m : Nat), (m : Int) ≤ P.numBBs → ∀ st : Function × Int × List Int,
      (i < m → st = (P, K.NO_NODE, [])) → (m ≤ i → st = st') →
      (indicesDown m).foldlM (structCasesNode K fuel) st = some st' := by
    intro m
    induction m with
    | zero =>
      intro _ st _ hgood
      rw [hgood (Nat.zero_le _)]
      rfl
    | succ m ih =>
      intro hmn st hinit hgood
      have hcast : ((m + 1 : Nat) : Int) = (m : Int) + 1 := by push_cast; rfl
      rw [hcast, indicesDown_succ, List.foldlM_cons]
      by_cases hlt : i < m + 1
      · rw [hinit hlt]
        by_cases him : i = m
        · subst him
          rw [hnode]
          exact ih (by omega) st' (fun h' => absurd h' (lt_irrefl _)) (fun _ => rfl)
        · rw [hid m _ (Ne.symm him) (by omega) (caseStep_refl P)]
          exact ih (by omega) _ (fun _ => rfl) (fun h' => absurd h' (by omega))
      · rw [hgood (by omega), hid m st' (by omega) (by omega) hstep]
        exact ih (by omega) st' (fun h' => absurd h' (by omega)) (fun _ => rfl)
  have hN : P.numBBs = ((P.numBBs.toNat : Nat) : Int) := by omega
  unfold structCases
  rw [hN, hloop P.numBBs.toNat (by omega) (P, K.NO_NODE, []) (fun _ => rfl)
    (fun h' => absurd hi (by omega))]
  rfl

/-! ## The multi-way scenario after the case structurer -/

theorem caseProc_path_target (K : Sentinels) (n p : Nat) (h1 : 1 ≤ p) (h2 : p ≤ n) :
    (caseProc K n).CfgPath 0 [p, 0] p :=
  Function.CfgPath.step Function.CfgPath.entry
    ((caseProc_cfgEdge K n 0 p).mpr (Or.inl ⟨rfl, h1, h2⟩))

theorem caseProc_path_exit (K : Sentinels) (n p : Nat) (h1 : 1 ≤ p) (h2 : p ≤ n) :
    (caseProc K n).CfgPath 0 [n + 1, p, 0] (n + 1) :=
  Function.CfgPath.step (caseProc_path_target K n p h1 h2)
    ((caseProc_cfgEdge K n p (n + 1)).mpr (Or.inr ⟨h1, h2, rfl⟩))

/-- A strict dominator of a block other than the header is the header, when there are at
least two case targets. -/
theorem caseProc_strict_dom (K : Sentinels) (n b d : Nat) (hn : 2 ≤ n) (hb1 : 1 ≤ b)
    (hb2 : b ≤ n + 1) (hne : d ≠ b) (hd : (caseProc K n).Dominates 0 d b) : d = 0 := by
  by_cases hbn : b ≤ n
  · have := hd _ (caseProc_path_target K n b hb1 hbn)
    simp only [List.mem_cons, List.mem_singleton, List.not_mem_nil, or_false] at this
    rcases this with h | h
    · exact absurd h hne
    · exact h
  · have hb : b = n + 1 := by omega
    subst hb
    have h1 := hd _ (caseProc_path_exit K n 1 (le_refl _) (by omega))
    have h2 := hd _ (caseProc_path_exit K n 2 (by omega) hn)
    simp only [List.mem_cons, List.mem_singleton, List.not_mem_nil, or_false] at h1 h2
    omega

theorem caseProc_immedDom (K : Sentinels) (n b : Nat) (hn : 2 ≤ n) (hb1 : 1 ≤ b)
    (hb2 : b ≤ n + 1) : (caseProc K n).IsImmedDom 0 0 b := by
  refine ⟨by omega, fun π hπ => cfgPath_entry_mem _ 0 π b hπ, fun d hne hd => ?_⟩
  rw [caseProc_strict_dom K n b d hn hb1 hb2 hne hd]
  exact dominates_refl _ _ _

/-- C14 (amended): for every `n ≥ 2`, in the procedure of a multi-way header `H` (index
0) with out-edges to `C1`, ..., `Cn` (indices 1 to `n`), each with the single out-edge
to `X` (index `n + 1`), the dominator stage and the case structurer return, and
afterwards `H.caseTail = X.dfsLastNum` and `caseHead = H.dfsLastNum` on each of `C1`,
..., `Cn` and on `X`. -/
theorem structCases_multiway_scenario (K : Sentinels) (n fuel fuel2 : Nat) (hn : 2 ≤ n)
    (hK : K.NO_DOM < 0 ∨ (n : Int) + 2 ≤ K.NO_DOM)
    (hKN : K.NO_NODE < 0 ∨ (n : Int) + 2 ≤ K.NO_NODE)
    (hfuel : 2 * ((n : Int) + 2) < fuel) (hfuel2 : n + 2 < fuel2) :
    ∃ P1 P2, findImmedDom K fuel (caseProc K n) = some P1 ∧
      structCases K fuel2 P1 = some P2 ∧
      (P2.blocks 0).caseTail = ((caseProc K n).blocks (n + 1)).dfsLastNum ∧
      ∀ b, 1 ≤ b → b ≤ n + 1 →
        (P2.blocks b).caseHead = ((caseProc K n).blocks 0).dfsLastNum := by
  have hlenN : (caseProc K n).dfsLast.length = n + 2 := List.length_range _
  have hb0 : (caseProc K n).BlockAt 0 0 := (caseProc_blockAt K n 0 0).mpr ⟨by omega, rfl⟩
  have hfirst : ∀ (j : Nat) (b : Nat), j ≠ 0 → (caseProc K n).BlockAt j b →
      ((caseProc K n).blocks b).nodeType ≠ eBBKind.MULTI_BRANCH := by
    intro j b hj hb hm
    have h1 := (caseProc_blockAt K n j b).mp hb
    have h2 := (caseProc_nodeType K n b (by omega)).mp hm
    omega
  -- the dominator stage
  obtain ⟨P1, hP1, hsolved⟩ := findImmedDom_solved_frame K fuel (caseProc K n) 0
    (caseProc_dfsLastOK K n) hK hb0 (fun b _ => caseProc_valid K n b) (caseProc_hin K n)
    (caseProc_reducible K n) (caseProc_reach K n (by omega)) (caseProc_init K n) hfuel
  have hs := hsolved.1
  have hidom : ∀ b, 1 ≤ b → b ≤ n + 1 → (P1.blocks b).immedDom = 0 := by
    intro b hb1 hb2
    have hbb : (caseProc K n).BlockAt b b := (caseProc_blockAt K n b b).mpr ⟨by omega, rfl⟩
    rcases hsolved.2 b b (by rw [caseProc_numBBs]; omega) hbb with ⟨h0, _⟩ |
      ⟨_, d, l, hdl, him, _, hd⟩
    · omega
    · have hd0 := caseProc_strict_dom K n b d hn hb1 hb2 hd.1 hd.2.1
      have := ((caseProc_blockAt K n l d).mp hdl).2
      rw [him]
      omega
  -- the case structurer
  obtain ⟨Q1, Q2, hQ1, hQ2, hcase⟩ := structCases_caseTail_spec K fuel fuel2 (caseProc K n) 0 0 0
    (caseProc_dfsLastOK K n) hK hKN hb0 (fun b _ => caseProc_valid K n b) (caseProc_hin K n)
    (caseProc_reducible K n) (caseProc_reach K n (by omega)) (caseProc_init K n) hfuel
    (caseProc_length K n) (caseProc_edgesClosed K n) (by rw [hlenN]; exact hfuel2) hb0
    (by rw [caseProc_head]; rfl) (fun j b hj hb => hfirst j b (by omega) hb)
  rw [hP1] at hQ1
  cases hQ1
  have hX : (caseProc K n).IsImmedDom 0 0 (n + 1) :=
    caseProc_immedDom K n (n + 1) hn (by omega) (le_refl _)
  have hXe : ¬ (caseProc K n).CfgEdge 0 (n + 1) := by
    rw [caseProc_cfgEdge]
    omega
  have htail : (Q2.blocks 0).caseTail = ((caseProc K n).blocks (n + 1)).dfsLastNum := by
    rcases hcase with ⟨_, hall⟩ | ⟨x, hx, hct, hid, hne, _, _⟩
    · exact absurd (hall (n + 1) ((caseProc_isBlock K n _).mpr (by omega)) hX) hXe
    · have hx1 := (caseProc_isBlock K n x).mp hx
      have hx2 := hid.1
      rw [caseProc_cfgEdge] at hne
      have : x = n + 1 := by omega
      rw [hct, this]
  refine ⟨P1, Q2, hP1, hQ2, htail, ?_⟩
  -- the step at the header
  have hcl1 : P1.EdgesClosed := by
    intro b hb
    rw [hs.1] at hb
    rw [(sameButImmedDom_fields hs b).2.1, hs.edges, hs.1]
    exact caseProc_edgesClosed K n b hb
  have hK1 : ¬ P1.InTable K.NO_NODE := by
    rw [inTable_iff, hs.1, hlenN]
    intro hx
    rcases hKN with h1 | h1 <;> omega
  obtain ⟨header, st', hhd, hst', hstep, _, _, hmu⟩ := structCasesNode_ok K fuel2
    (P1, K.NO_NODE, []) 0 hcl1 hK1 (by rw [hs.1, hlenN]; exact hfuel2) (Or.inl rfl)
    (le_refl _) (by rw [hs.2.1, caseProc_numBBs]; omega)
    (by rw [hs.2.1, hs.1, caseProc_length])
  simp only at hhd hstep hmu
  have hhd0 : P1.dfsLastAt ((0 : Nat) : Int) = some 0 := by
    rw [dfsLastAt_natCast, hs.1]
    exact hb0.2
  have hheader : header = 0 := by
    have : P1.dfsLastAt 0 = some 0 := hhd0
    rw [this] at hhd
    exact (Option.some.inj hhd).symm
  subst hheader
  have hm1 : (P1.blocks 0).nodeType = eBBKind.MULTI_BRANCH := by
    rw [(sameButImmedDom_fields hs 0).1, caseProc_head]
    rfl
  have hsingle := structCases_single K fuel2 P1 0 st'
    (by rw [hs.2.1, hs.1, caseProc_length]) (by rw [hs.2.1, caseProc_numBBs]; omega)
    (by
      intro j b hj hb
      rw [(sameButImmedDom_fields hs b).1]
      exact hfirst j b hj ⟨by rw [← hs.2.1]; exact hb.1, by rw [← hs.1]; exact hb.2⟩)
    hst' hstep
  rw [hQ2] at hsingle
  have hQ : Q2 = st'.1 := Option.some.inj hsingle
  have hexit : st'.2.1 = ((n + 1 : Nat) : Int) := by
    rw [← (hmu hm1).2.1, ← hQ, htail]
    exact caseProc_dfsLastNum K n (n + 1) (by omega)
  obtain ⟨hsucc, hex⟩ := structCasesNode_caseHead K fuel2 (P1, K.NO_NODE, []) st' 0 0 hhd hm1
    (hcl1 0 (by rw [hs.1, caseProc_mem]; omega)).1 hst'
  simp only at hsucc hex
  intro b hb1 hb2
  rw [hQ, caseProc_dfsLastNum K n 0 (by omega)]
  by_cases hbn : b ≤ n
  · refine hsucc b ?_ ?_ ?_ (hidom b hb1 hb2)
    · rw [hs.edges, caseProc_edges K n 0 (by omega), if_pos rfl, List.mem_range'_1]
      omega
    · rw [hs.dfsLastNum, caseProc_dfsLastNum K n b (by omega), hexit]
      intro h
      have : b = n + 1 := by exact_mod_cast h
      omega
    · rw [(sameButImmedDom_fields hs b).1]
      intro h
      have := (caseProc_nodeType K n b (by omega)).mp h
      omega
  · have hb : b = n + 1 := by omega
    subst hb
    refine hex ?_ (n + 1) ?_
    · rw [hexit]
      intro h
      rcases hKN with h1 | h1 <;> omega
    · rw [hexit, dfsLastAt_natCast, hs.1]
      exact caseProc_get K n (n + 1) (by omega)

/-- A witness for C14: three case targets. -/
theorem structCases_multiway_scenario_witness :
    ∃ P1 P2, findImmedDom K0 11 (caseProc K0 3) = some P1 ∧
      structCases K0 6 P1 = some P2 ∧
      (P2.blocks 0).caseTail = ((caseProc K0 3).blocks (3 + 1)).dfsLastNum ∧
      ∀ b, 1 ≤ b → b ≤ 3 + 1 →
        (P2.blocks b).caseHead = ((caseProc K0 3).blocks 0).dfsLastNum :=
  structCases_multiway_scenario K0 3 11 6 (by decide) (Or.inr (by decide))
    (Or.inr (by decide)) (by decide) (by decide)

/-- C14 (counterexample): with a single case target `C1`, the block `X` has `C1` and not
the header as immediate dominator, and the case structurer leaves
`H.caseTail = NO_NODE`, not `X.dfsLastNum = 2`. -/
theorem single_case_target_has_no_exit :
    ((findImmedDom K0 9 (caseProc K0 1)).bind (structCases K0 5)).map
        (fun P => ((P.blocks 2).immedDom, (P.blocks 0).caseTail)) =
      some (1, K0.NO_NODE) ∧
    ((caseProc K0 1).blocks 2).dfsLastNum = 2 ∧ K0.NO_NODE ≠ 2 := by
  decide

/-! ## The if structurer -/

theorem ifStep_refl (P : Function) : P.IfStep P :=
  ⟨Function.SameUpTo.refl _ P, rfl⟩

theorem ifStep_trans {P Q R : Function} (h1 : P.IfStep Q) (h2 : Q.IfStep R) : P.IfStep R :=
  ⟨h1.1.trans h2.1, h2.2.trans h1.2⟩

theorem ifStep_setIfFollow (P : Function) (b : Nat) (f : Int) :
    P.IfStep (P.setIfFollow b f) :=
  ⟨Function.SameUpTo.setBB _ P b _ rfl, rfl⟩

theorem eraseIfFollow_fields {P Q : Function} (h : P.SameUpTo BB.eraseIfFollow Q) (b : Nat) :
    (Q.blocks b).nodeType = (P.blocks b).nodeType ∧
    (Q.blocks b).immedDom = (P.blocks b).immedDom ∧
    (Q.blocks b).numInEdges = (P.blocks b).numInEdges ∧
    (Q.blocks b).numBackEdges = (P.blocks b).numBackEdges ∧
    (Q.blocks b).flg = (P.blocks b).flg ∧
    (Q.blocks b).start = (P.blocks b).start ∧
    (Q.blocks b).length = (P.blocks b).length ∧
    (Q.blocks b).dfsLastNum = (P.blocks b).dfsLastNum := by
  have h0 := h.2.2.2 b
  refine ⟨?_, ?_, ?_, ?_, ?_, ?_, ?_, ?_⟩
  · have h1 := congrArg BB.nodeType h0; exact h1
  · have h1 := congrArg BB.immedDom h0; exact h1
  · have h1 := congrArg BB.numInEdges h0; exact h1
  · have h1 := congrArg BB.numBackEdges h0; exact h1
  · have h1 := congrArg BB.flg h0; exact h1
  · have h1 := congrArg BB.start h0; exact h1
  · have h1 := congrArg BB.length h0; exact h1
  · have h1 := congrArg BB.dfsLastNum h0; exact h1

theorem ifStep_ifHeader {P Q : Function} (h : P.IfStep Q) (k : Int) :
    Q.IfHeader k ↔ P.IfHeader k := by
  unfold Function.IfHeader Function.GetLlFlagJX_LOOP Function.lastInstr
  simp only [h.1.dfsLastAt, h.2]
  constructor
  · rintro ⟨b, h1, h2, h3, h4⟩
    have hf := eraseIfFollow_fields h.1 b
    rw [hf.2.2.2.2.1] at h2
    rw [hf.1] at h3
    rw [hf.2.2.2.2.2.1, hf.2.2.2.2.2.2.1] at h4
    exact ⟨b, h1, h2, h3, h4⟩
  · rintro ⟨b, h1, h2, h3, h4⟩
    have hf := eraseIfFollow_fields h.1 b
    refine ⟨b, h1, ?_, ?_, ?_⟩
    · rw [hf.2.2.2.2.1]; exact h2
    · rw [hf.1]; exact h3
    · rw [hf.2.2.2.2.2.1, hf.2.2.2.2.2.2.1]; exact h4

theorem ifStep_effInAt {P Q : Function} (h : P.IfStep Q) (d : Int) :
    Q.effInAt d = P.effInAt d := by
  unfold Function.effInAt
  rw [h.1.dfsLastAt]
  cases P.dfsLastAt d with
  | none => rfl
  | some b =>
    simp only
    rw [(eraseIfFollow_fields h.1 b).2.2.1, (eraseIfFollow_fields h.1 b).2.2.2.1]

theorem ifStep_ifDominee {P Q : Function} (h : P.IfStep Q) (c d : Int) :
    Q.IfDominee c d ↔ P.IfDominee c d := by
  unfold Function.IfDominee
  rw [h.1.2.1]
  simp only [h.1.dfsLastAt]
  constructor
  · rintro ⟨h1, h2, b, h3, h4⟩
    exact ⟨h1, h2, b, h3, by rw [← (eraseIfFollow_fields h.1 b).2.1]; exact h4⟩
  · rintro ⟨h1, h2, b, h3, h4⟩
    exact ⟨h1, h2, b, h3, by rw [(eraseIfFollow_fields h.1 b).2.1]; exact h4⟩

theorem ifStep_ifCandidate {P Q : Function} (h : P.IfStep Q) (c f : Int) :
    Q.IfCandidate c f ↔ P.IfCandidate c f := by
  unfold Function.IfCandidate
  simp only [ifStep_ifDominee h, ifStep_effInAt h]

theorem ifStep_acquires {P Q : Function} (h : P.IfStep Q) (c f : Int) :
    Q.Acquires c f ↔ P.Acquires c f := by
  unfold Function.Acquires
  rw [ifStep_ifHeader h, ifStep_ifCandidate h, ifStep_effInAt h]

theorem ifStep_unresolved {P Q : Function} (h : P.IfStep Q) (c : Int) :
    Q.Unresolved c ↔ P.Unresolved c := by
  unfold Function.Unresolved
  simp only [ifStep_ifHeader h, ifStep_ifDominee h, ifStep_effInAt h]

/-- The candidate follow is unique. -/
theorem ifCandidate_unique (P : Function) (c f g : Int) (hf : P.IfCandidate c f)
    (hg : P.IfCandidate c g) : f = g := by
  have h1 := hf.2 g hg.1
  have h2 := hg.2 f hf.1
  have h3 := h1.2 (le_antisymm h1.1 h2.1)
  have h4 := h2.2 (le_antisymm h2.1 h1.1)
  omega

/-- A block does not both acquire a follow of its own and remain unresolved. -/
theorem acquires_not_unresolved (P : Function) (c f : Int) (h : P.Acquires c f) :
    ¬ P.Unresolved c := by
  intro hu
  have := hu.2 f h.2.1.1
  have := h.2.2
  omega

/-- One step of the search for the candidate follow, in closed form. -/
theorem structIfsDesc_eq (P : Function) (curr : Int) (st : Int × Int) (desc : Int)
    (hd : P.InTable desc) :
    structIfsDesc P curr st desc =
      some (if (∃ b, P.dfsLastAt desc = some b ∧ (P.blocks b).immedDom = curr) ∧
          st.2 ≤ P.effInAt desc then (desc, P.effInAt desc) else st) := by
  obtain ⟨b, hb⟩ := hd
  unfold structIfsDesc Function.effInAt
  rw [hb]
  simp only
  by_cases h1 : (P.blocks b).immedDom = curr
  · rw [if_pos h1]
    by_cases h2 : (P.blocks b).numInEdges - (P.blocks b).numBackEdges ≥ st.2
    · rw [if_pos h2, if_pos]
      exact ⟨⟨b, rfl, h1⟩, h2⟩
    · rw [if_neg h2, if_neg]
      rintro ⟨_, h3⟩
      exact h2 h3
  · rw [if_neg h1, if_neg]
    rintro ⟨⟨b', hb', h3⟩, _⟩
    cases hb'
    exact h1 h3

/-- The search for the candidate follow over the ascending indices `js`, from the
variables `st`: either nothing was taken, and every block considered has an effective
in-degree below the initial `followInEdges`; or the result is the block considered of
the maximum effective in-degree, the last of those that have it. -/
theorem structIfsDesc_fold (P : Function) (curr : Int) :
    ∀ (js : List Int) (st : Int × Int), js.Pairwise (fun a b => a < b) →
      (∀ j ∈ js, P.InTable j) →
      ∃ r, js.foldlM (structIfsDesc P curr) st = some r ∧ st.2 ≤ r.2 ∧
        (∀ d ∈ js, (∃ b, P.dfsLastAt d = some b ∧ (P.blocks b).immedDom = curr) →
          P.effInAt d ≤ r.2) ∧
        ((r = st ∧ ∀ d ∈ js, (∃ b, P.dfsLastAt d = some b ∧ (P.blocks b).immedDom = curr) →
            P.effInAt d < st.2) ∨
          (r.1 ∈ js ∧ (∃ b, P.dfsLastAt r.1 = some b ∧ (P.blocks b).immedDom = curr) ∧
            P.effInAt r.1 = r.2 ∧
            ∀ d ∈ js, (∃ b, P.dfsLastAt d = some b ∧ (P.blocks b).immedDom = curr) →
              P.effInAt d = r.2 → d ≤ r.1)) := by
  intro js
  induction js with
  | nil =>
    intro st _ _
    exact ⟨st, rfl, le_refl _, fun d hd => absurd hd (List.not_mem_nil d),
      Or.inl ⟨rfl, fun d hd => absurd hd (List.not_mem_nil d)⟩⟩
  | cons j js ih =>
    intro st hpw htab
    rw [List.foldlM_cons, structIfsDesc_eq P curr st j (htab j (List.mem_cons_self _ _))]
    have hpw' := (List.pairwise_cons.mp hpw).2
    have hlt := (List.pairwise_cons.mp hpw).1
    have htab' : ∀ x ∈ js, P.InTable x := fun x hx => htab x (List.mem_cons_of_mem _ hx)
    by_cases hc : (∃ b, P.dfsLastAt j = some b ∧ (P.blocks b).immedDom = curr) ∧
        st.2 ≤ P.effInAt j
    · rw [if_pos hc]
      obtain ⟨r, hr, hle, hall, hcase⟩ := ih (j, P.effInAt j) hpw' htab'
      refine ⟨r, hr, le_trans hc.2 hle, ?_, Or.inr ?_⟩
      · intro d hd hdom
        rcases List.mem_cons.mp hd with rfl | hd'
        · exact hle
        · exact hall d hd' hdom
      · rcases hcase with ⟨hrst, hlow⟩ | ⟨hmem, hdom, heff, htie⟩
        · subst hrst
          refine ⟨List.mem_cons_self _ _, hc.1, rfl, ?_⟩
          intro d hd hdom hde
          rcases List.mem_cons.mp hd with rfl | hd'
          · exact le_refl _
          · have := hlow d hd' hdom
            simp only at this hde
            omega
        · refine ⟨List.mem_cons_of_mem _ hmem, hdom, heff, ?_⟩
          intro d hd hdom' hde
          rcases List.mem_cons.mp hd with rfl | hd'
          · exact le_of_lt (hlt _ hmem)
          · exact htie d hd' hdom' hde
    · rw [if_neg hc]
      obtain ⟨r, hr, hle, hall, hcase⟩ := ih st hpw' htab'
      have hj : (∃ b, P.dfsLastAt j = some b ∧ (P.blocks b).immedDom = curr) →
          P.effInAt j < st.2 := by
        intro hdom
        by_contra hcon
        exact hc ⟨hdom, by omega⟩
      refine ⟨r, hr, hle, ?_, ?_⟩
      · intro d hd hdom
        rcases List.mem_cons.mp hd with rfl | hd'
        · have := hj hdom
          omega
        · exact hall d hd' hdom
      · rcases hcase with ⟨hrst, hlow⟩ | ⟨hmem, hdom, heff, htie⟩
        · left
          refine ⟨hrst, ?_⟩
          intro d hd hdom
          rcases List.mem_cons.mp hd with rfl | hd'
          · exact hj hdom
          · exact hlow d hd' hdom
        · right
          refine ⟨List.mem_cons_of_mem _ hmem, hdom, heff, ?_⟩
          intro d hd hdom' hde
          rcases List.mem_cons.mp hd with rfl | hd'
          · have := hj hdom'
            omega
          · exact htie d hd' hdom' hde

/-- The search for the candidate follow of the index `curr` returns variables
`(follow, followInEdges)` that pass the test of line 479 when they are the candidate
follow with an effective in-degree above 1, and otherwise no block considered has an
effective in-degree above 1. -/
theorem structIfsDesc_candidate (P : Function) (curr : Int) (h0 : 0 ≤ curr)
    (hn : P.numBBs ≤ P.dfsLast.length) :
    ∃ r, (indicesFrom (curr + 1) P.numBBs).foldlM (structIfsDesc P curr) (0, 0) = some r ∧
      ((r.1 ≠ 0 ∧ r.2 > 1 ∧ P.IfCandidate curr r.1 ∧ 1 < P.effInAt r.1) ∨
        (¬ (r.1 ≠ 0 ∧ r.2 > 1) ∧ ∀ d, P.IfDominee curr d → P.effInAt d ≤ 1)) := by
  have hjs : ∀ j ∈ indicesFrom (curr + 1) P.numBBs, P.InTable j := by
    intro j hj
    rw [mem_indicesFrom] at hj
    rw [inTable_iff]
    omega
  obtain ⟨r, hr, hle, hall, hcase⟩ := structIfsDesc_fold P curr _ (0, 0)
    (indicesFrom_pairwise _ _) hjs
  have hdom : ∀ d, P.IfDominee curr d → d ∈ indicesFrom (curr + 1) P.numBBs ∧
      ∃ b, P.dfsLastAt d = some b ∧ (P.blocks b).immedDom = curr := by
    rintro d ⟨h1, h2, h3⟩
    rw [mem_indicesFrom]
    exact ⟨⟨by omega, h2⟩, h3⟩
  refine ⟨r, hr, ?_⟩
  simp only at hle
  rcases hcase with ⟨hrst, hlow⟩ | ⟨hmem, hd, heff, htie⟩
  · right
    subst hrst
    refine ⟨fun h => h.1 rfl, fun d hdd => ?_⟩
    have := hlow d (hdom d hdd).1 (hdom d hdd).2
    simp only at this
    omega
  · by_cases hv : r.2 > 1
    · left
      have hm := (mem_indicesFrom _ _ _).mp hmem
      refine ⟨by omega, hv, ⟨⟨by omega, hm.2, hd⟩, fun d hdd => ?_⟩, by omega⟩
      have h1 := hall d (hdom d hdd).1 (hdom d hdd).2
      refine ⟨by omega, fun he => htie d (hdom d hdd).1 (hdom d hdd).2 (by omega)⟩
    · right
      refine ⟨fun h => hv h.2, fun d hdd => ?_⟩
      have h1 := hall d (hdom d hdd).1 (hdom d hdd).2
      omega

/-- The function `flagNodes` returns when the entries of the list are indices of the
table; the blocks at these indices get the follow `f`, and nothing else changes. -/
theorem flagNodes_spec (f : Int) :
    ∀ (l : List Int) (P : Function), (∀ p ∈ l, P.InTable p) →
      ∃ P', flagNodes P l f = some P' ∧ P.IfStep P' ∧
        (∀ p ∈ l, ∀ b, P.dfsLastAt p = some b → (P'.blocks b).ifFollow = f) ∧
        (∀ b, (∀ p ∈ l, P.dfsLastAt p ≠ some b) →
          (P'.blocks b).ifFollow = (P.blocks b).ifFollow) := by
  intro l
  induction l with
  | nil =>
    intro P _
    exact ⟨P, rfl, ifStep_refl P, fun p hp => absurd hp (List.not_mem_nil p), fun _ _ => rfl⟩
  | cons p l ih =>
    intro P hl
    obtain ⟨b0, hb0⟩ := hl p (List.mem_cons_self _ _)
    have hs := ifStep_setIfFollow P b0 f
    obtain ⟨P', hP', hstep, hin, hout⟩ := ih (P.setIfFollow b0 f) (fun q hq => by
      obtain ⟨b, hb⟩ := hl q (List.mem_cons_of_mem _ hq)
      exact ⟨b, by rw [hs.1.dfsLastAt]; exact hb⟩)
    refine ⟨P', ?_, ifStep_trans hs hstep, ?_, ?_⟩
    · unfold flagNodes
      rw [List.foldlM_cons, hb0]
      exact hP'
    · intro q hq b hb
      by_cases hql : ∃ q' ∈ l, P.dfsLastAt q' = some b
      · obtain ⟨q', hq', hb'⟩ := hql
        exact hin q' hq' b (by rw [hs.1.dfsLastAt]; exact hb')
      · rw [hout b (fun q' hq' hb' => hql ⟨q', hq', by rw [← hs.1.dfsLastAt]; exact hb'⟩)]
        rcases List.mem_cons.mp hq with rfl | hq'
        · rw [hb0] at hb
          cases hb
          simp [Function.setIfFollow, Function.setBB]
        · exact absurd ⟨q, hq', hb⟩ hql
    · intro b hb
      rw [hout b (fun q hq hb' => hb q (List.mem_cons_of_mem _ hq)
        (by rw [← hs.1.dfsLastAt]; exact hb'))]
      have hne : b ≠ b0 := by
        rintro rfl
        exact hb p (List.mem_cons_self _ _) hb0
      simp [Function.setIfFollow, Function.setBB, hne]

/-- The body of the loop of `structIfs` returns. It does nothing at a block that the if
structurer does not handle; a block that acquires a follow of its own gets it, and so do
the blocks of the list `unresolved`, which is emptied; a block with no follow of its own
is put on the list. -/
theorem structIfsNode_spec (st : Function × List Int) (curr : Int) (h0 : 0 ≤ curr)
    (h1 : curr < st.1.numBBs) (hn : st.1.numBBs ≤ st.1.dfsLast.length)
    (hl : ∀ p ∈ st.2, st.1.InTable p) :
    ∃ c st', st.1.dfsLastAt curr = some c ∧ structIfsNode st curr = some st' ∧
      st.1.IfStep st'.1 ∧
      ((¬ st.1.IfHeader curr ∧ st' = st) ∨
        (∃ f, st.1.Acquires curr f ∧
          flagNodes (st.1.setIfFollow c f) st.2 f = some st'.1 ∧ st'.2 = []) ∨
        (st.1.Unresolved curr ∧ st' = (st.1, insertList st.2 curr))) := by
  obtain ⟨P, l⟩ := st
  simp only at h1 hn hl ⊢
  have hT : P.InTable curr := by rw [inTable_iff]; omega
  obtain ⟨c, hc⟩ := hT
  suffices key : ∃ st', structIfsNode (P, l) curr = some st' ∧ P.IfStep st'.1 ∧
      ((¬ P.IfHeader curr ∧ st' = (P, l)) ∨
        (∃ f, P.Acquires curr f ∧
          flagNodes (P.setIfFollow c f) l f = some st'.1 ∧ st'.2 = []) ∨
        (P.Unresolved curr ∧ st' = (P, insertList l curr))) by
    obtain ⟨st', h⟩ := key
    exact ⟨c, st', hc, h⟩
  unfold structIfsNode
  simp only [hc]
  have hhdr : P.IfHeader curr ↔ ((P.blocks c).flg.INVALID_BB = false ∧
      (P.blocks c).nodeType = eBBKind.TWO_BRANCH ∧
      P.GetLlFlagJX_LOOP (P.lastInstr c) = false) := by
    unfold Function.IfHeader
    rw [hc]
    constructor
    · rintro ⟨b, hb, h⟩
      cases hb
      exact h
    · intro h
      exact ⟨c, rfl, h⟩
  by_cases hinv : (P.blocks c).flg.INVALID_BB = true
  · rw [if_pos hinv]
    refine ⟨_, rfl, ifStep_refl P, Or.inl ⟨?_, rfl⟩⟩
    rw [hhdr]
    intro h
    rw [h.1] at hinv
    cases hinv
  · rw [if_neg hinv]
    by_cases htwo : (P.blocks c).nodeType = eBBKind.TWO_BRANCH ∧
        P.GetLlFlagJX_LOOP (P.lastInstr c) = false
    · rw [if_pos htwo]
      have hH : P.IfHeader curr := by
        rw [hhdr]
        exact ⟨by simpa using hinv, htwo⟩
      obtain ⟨r, hr, hcase⟩ := structIfsDesc_candidate P curr h0 hn
      rw [hr]
      obtain ⟨follow, v⟩ := r
      simp only at hcase ⊢
      rcases hcase with ⟨hf, hv, hcand, heff⟩ | ⟨hno, hall⟩
      · rw [if_pos ⟨hf, hv⟩]
        have hs := ifStep_setIfFollow P c follow
        obtain ⟨P', hP', hstep, _, _⟩ := flagNodes_spec follow l (P.setIfFollow c follow)
          (fun q hq => by
            obtain ⟨b, hb⟩ := hl q hq
            exact ⟨b, by rw [hs.1.dfsLastAt]; exact hb⟩)
        by_cases hemp : l = []
        · subst hemp
          rw [if_neg (fun h => h rfl)]
          refine ⟨_, rfl, hs, Or.inr (Or.inl ⟨follow, ⟨hH, hcand, heff⟩, rfl, rfl⟩)⟩
        · rw [if_pos hemp, hP']
          exact ⟨_, rfl, ifStep_trans hs hstep,
            Or.inr (Or.inl ⟨follow, ⟨hH, hcand, heff⟩, hP', rfl⟩)⟩
      · rw [if_neg hno]
        exact ⟨_, rfl, ifStep_refl P, Or.inr (Or.inr ⟨⟨hH, hall⟩, rfl⟩)⟩
    · rw [if_neg htwo]
      refine ⟨_, rfl, ifStep_refl P, Or.inl ⟨?_, rfl⟩⟩
      rw [hhdr]
      intro h
      exact htwo h.2

/-! ## The whole run of the if structurer -/

theorem dfsLastAt_inj (P : Function) (htab : P.DfsLastOK) (k k' : Int) (b : Nat)
    (h0 : 0 ≤ k) (h1 : k < P.numBBs) (h0' : 0 ≤ k') (h1' : k' < P.numBBs)
    (hk : P.dfsLastAt k = some b) (hk' : P.dfsLastAt k' = some b) : k = k' := by
  obtain ⟨b1, hb1, hn1⟩ := dfsLastAt_of_range P htab k h0 h1
  obtain ⟨b2, hb2, hn2⟩ := dfsLastAt_of_range P htab k' h0' h1'
  rw [hk] at hb1
  rw [hk'] at hb2
  cases hb1
  cases hb2
  rw [← hn1, ← hn2]

/-- The body of the loop of `structIfs` returns and keeps the invariant of the loop. -/
theorem structIfsNode_inv (P : Function) (htab : P.DfsLastOK)
    (hn : P.numBBs ≤ P.dfsLast.length) (m : Int) (h0 : 0 ≤ m) (h1 : m < P.numBBs)
    (st : Function × List Int) (hinv : P.IfsInv (m + 1) st) :
    ∃ st', structIfsNode st m = some st' ∧ P.IfsInv m st' := by
  obtain ⟨hstep, hlist, hblk, hout⟩ := hinv
  have hl : ∀ p ∈ st.2, st.1.InTable p := by
    intro p hp
    have := (hlist p).mp hp
    rw [inTable_iff, hstep.1.1]
    omega
  obtain ⟨c, st', hc, hst', hstep', hcase⟩ := structIfsNode_spec st m h0
    (by rw [hstep.1.2.1]; exact h1) (by rw [hstep.1.2.1, hstep.1.1]; exact hn) hl
  rw [hstep.1.dfsLastAt] at hc
  refine ⟨st', hst', ?_⟩
  have hcnot : ∀ k, m + 1 ≤ k → k < P.numBBs → P.dfsLastAt k ≠ some c := by
    intro k hk1 hk2 hk
    have := dfsLastAt_inj P htab k m c (by omega) hk2 h0 h1 hk hc
    omega
  have hcold : (st.1.blocks c).ifFollow = (P.blocks c).ifFollow := hout c hcnot
  have hbc : ∀ k b, P.dfsLastAt k = some b → m + 1 ≤ k → k < P.numBBs → b ≠ c := by
    intro k b hk hk1 hk2 hbc
    subst hbc
    exact hcnot k hk1 hk2 hk
  rw [ifStep_ifHeader hstep, ifStep_unresolved hstep] at hcase
  simp only [ifStep_acquires hstep] at hcase
  rcases hcase with ⟨hnh, rfl⟩ | ⟨f, hacq, hflag, hnil⟩ | ⟨hun, rfl⟩
  · -- a block that the structurer does not handle
    have hnacq : ∀ f, ¬ P.Acquires m f := fun f h => hnh h.1
    have hnun : ¬ P.Unresolved m := fun h => hnh h.1
    refine ⟨hstep, fun k => ?_, fun k b hk1 hk2 hk => ?_, fun b hb => ?_⟩
    · rw [hlist k]
      constructor
      · rintro ⟨g1, g2, g3, g4⟩
        refine ⟨by omega, g2, g3, fun q f hq1 hq2 => ?_⟩
        by_cases hqm : q = m
        · subst hqm; exact hnacq f
        · exact g4 q f (by omega) hq2
      · rintro ⟨g1, g2, g3, g4⟩
        have : k ≠ m := by rintro rfl; exact hnun g3
        exact ⟨by omega, g2, g3, fun q f hq1 hq2 => g4 q f (by omega) hq2⟩
    · by_cases hkm : k = m
      · subst hkm
        rw [hc] at hk
        cases hk
        exact ⟨fun f h => absurd h (hnacq f), fun h => absurd h hnun,
          fun h => absurd hcold h⟩
      · obtain ⟨g1, g2, g3⟩ := hblk k b (by omega) hk2 hk
        refine ⟨g1, fun hu q f hq1 hq2 hq hno => ?_, fun hch => ?_⟩
        · by_cases hqm : q = m
          · subst hqm; exact absurd hq (hnacq f)
          · exact g2 hu q f (by omega) hq2 hq hno
        · obtain ⟨q, f, hq1, hq2, hq, hf, hor⟩ := g3 hch
          exact ⟨q, f, by omega, hq2, hq, hf, hor⟩
    · exact hout b (fun k hk1 hk2 => hb k (by omega) hk2)
  · -- a block that acquires a follow of its own
    have hs1 := ifStep_setIfFollow st.1 c f
    obtain ⟨P', hP', _, hin, hother⟩ := flagNodes_spec f st.2 (st.1.setIfFollow c f)
      (fun q hq => by
        obtain ⟨b, hb⟩ := hl q hq
        exact ⟨b, by rw [hs1.1.dfsLastAt]; exact hb⟩)
    rw [hflag] at hP'
    cases hP'
    have hdl : ∀ k, (st.1.setIfFollow c f).dfsLastAt k = P.dfsLastAt k := by
      intro k
      rw [hs1.1.dfsLastAt, hstep.1.dfsLastAt]
    simp only [hdl] at hin hother
    have hnun : ¬ P.Unresolved m := acquires_not_unresolved P m f hacq
    have hcfin : (st'.1.blocks c).ifFollow = f := by
      rw [hother c (fun p hp hpc => by
        have := (hlist p).mp hp
        exact hcnot p this.1 this.2.1 hpc)]
      simp [Function.setIfFollow, Function.setBB]
    have hkeep : ∀ k b, m + 1 ≤ k → k < P.numBBs → P.dfsLastAt k = some b → k ∉ st.2 →
        (st'.1.blocks b).ifFollow = (st.1.blocks b).ifFollow := by
      intro k b hk1 hk2 hk hnot
      rw [hother b (fun p hp hpb => by
        have hp' := (hlist p).mp hp
        have := dfsLastAt_inj P htab p k b (by omega) hp'.2.1 (by omega) hk2 hpb hk
        subst this
        exact hnot hp)]
      have hne := hbc k b hk hk1 hk2
      simp [Function.setIfFollow, Function.setBB, hne]
    refine ⟨ifStep_trans hstep hstep', fun k => ?_, fun k b hk1 hk2 hk => ?_, fun b hb => ?_⟩
    · rw [hnil]
      constructor
      · intro h
        exact absurd h (List.not_mem_nil k)
      · rintro ⟨g1, g2, g3, g4⟩
        exfalso
        by_cases hkm : k = m
        · subst hkm; exact hnun g3
        · exact g4 m f (le_refl _) (by omega) hacq
    · by_cases hkm : k = m
      · subst hkm
        rw [hc] at hk
        cases hk
        refine ⟨fun f' h => ?_, fun h => absurd h hnun, fun _ => ?_⟩
        · rw [hcfin]
          exact ifCandidate_unique P k f f' hacq.2.1 h.2.1
        · exact ⟨k, f, le_refl _, le_refl _, hacq, hcfin, Or.inl rfl⟩
      · by_cases hmem : k ∈ st.2
        · have hk' := (hlist k).mp hmem
          have hfin : (st'.1.blocks b).ifFollow = f := hin k hmem b hk
          refine ⟨fun f' h => absurd hk'.2.2.1 (acquires_not_unresolved P k f' h),
            fun _ q f' hq1 hq2 hq _ => ?_,
            fun _ => ⟨m, f, le_refl _, by omega, hacq, hfin, Or.inr hk'.2.2.1⟩⟩
          by_cases hqm : q = m
          · subst hqm
            rw [hfin]
            exact ifCandidate_unique P q f f' hacq.2.1 hq.2.1
          · exact absurd hq (hk'.2.2.2 q f' (by omega) hq2)
        · have hfin := hkeep k b (by omega) hk2 hk hmem
          obtain ⟨g1, g2, g3⟩ := hblk k b (by omega) hk2 hk
          rw [hfin]
          refine ⟨g1, fun hu q f' hq1 hq2 hq hno => ?_, fun hch => ?_⟩
          · by_cases hqm : q = m
            · subst hqm
              exfalso
              apply hmem
              rw [hlist k]
              exact ⟨by omega, hk2, hu, fun q' f'' h1' h2' => hno q' f'' (by omega) h2'⟩
            · exact g2 hu q f' (by omega) hq2 hq hno
          · obtain ⟨q, f', hq1, hq2, hq, hf, hor⟩ := g3 hch
            exact ⟨q, f', by omega, hq2, hq, hf, hor⟩
    · have hne : b ≠ c := by
        rintro rfl
        exact hb m (le_refl _) h1 hc
      rw [hother b (fun p hp hpb => by
        have hp' := (hlist p).mp hp
        exact hb p (by omega) hp'.2.1 hpb)]
      rw [← hout b (fun k hk1 hk2 => hb k (by omega) hk2)]
      simp [Function.setIfFollow, Function.setBB, hne]
  · -- a block with no follow of its own
    have hnacq : ∀ f, ¬ P.Acquires m f := fun f h => acquires_not_unresolved P m f h hun
    refine ⟨hstep, fun k => ?_, fun k b hk1 hk2 hk => ?_, fun b hb => ?_⟩
    · simp only [insertList, List.mem_append, List.mem_singleton]
      rw [hlist k]
      constructor
      · rintro (⟨g1, g2, g3, g4⟩ | rfl)
        · refine ⟨by omega, g2, g3, fun q f hq1 hq2 => ?_⟩
          by_cases hqm : q = m
          · subst hqm; exact hnacq f
          · exact g4 q f (by omega) hq2
        · exact ⟨le_refl _, h1, hun, fun q f hq1 hq2 => absurd hq2 (by omega)⟩
      · rintro ⟨g1, g2, g3, g4⟩
        by_cases hkm : k = m
        · exact Or.inr hkm
        · exact Or.inl ⟨by omega, g2, g3, fun q f hq1 hq2 => g4 q f (by omega) hq2⟩
    · by_cases hkm : k = m
      · subst hkm
        rw [hc] at hk
        cases hk
        exact ⟨fun f h => absurd h (hnacq f),
          fun _ q f hq1 hq2 => absurd hq2 (by omega), fun h => absurd hcold h⟩
      · obtain ⟨g1, g2, g3⟩ := hblk k b (by omega) hk2 hk
        refine ⟨g1, fun hu q f hq1 hq2 hq hno => ?_, fun hch => ?_⟩
        · by_cases hqm : q = m
          · subst hqm; exact absurd hq (hnacq f)
          · exact g2 hu q f (by omega) hq2 hq hno
        · obtain ⟨q, f, hq1, hq2, hq, hf, hor⟩ := g3 hch
          exact ⟨q, f, by omega, hq2, hq, hf, hor⟩
    · exact hout b (fun k hk1 hk2 => hb k (by omega) hk2)

/-- The function `structIfs` returns a state that meets the invariant of its loop for all
the indices of the table. -/
theorem structIfs_inv (P : Function) (htab : P.DfsLastOK)
    (hn : P.numBBs ≤ P.dfsLast.length) (hpos : 0 ≤ P.numBBs) :
    ∃ st', structIfs P = some st'.1 ∧ P.IfsInv 0 st' := by
  have hloop : ∀ (m : Nat), (m : Int) ≤ P.numBBs → ∀ st : Function × List Int,
      P.IfsInv m st →
      ∃ st', (indicesDown m).foldlM structIfsNode st = some st' ∧ P.IfsInv 0 st' := by
    intro m
    induction m with
    | zero =>
      intro _ st hinv
      exact ⟨st, rfl, hinv⟩
    | succ m ih =>
      intro hmn st hinv
      have hcast : ((m + 1 : Nat) : Int) = (m : Int) + 1 := by push_cast; rfl
      rw [hcast] at hinv
      rw [hcast, indicesDown_succ, List.foldlM_cons]
      obtain ⟨st1, hst1, hinv1⟩ := structIfsNode_inv P htab hn m (by omega) (by omega) st hinv
      rw [hst1]
      exact ih (by omega) st1 hinv1
  have hN : P.numBBs = ((P.numBBs.toNat : Nat) : Int) := by omega
  obtain ⟨st', hst', hinv⟩ := hloop P.numBBs.toNat (by omega) (P, [])
    ⟨ifStep_refl P, fun k => ⟨fun h => absurd h (List.not_mem_nil k), fun h => by omega⟩,
      fun k b hk1 hk2 _ => by omega, fun _ _ => rfl⟩
  refine ⟨st', ?_, hinv⟩
  unfold structIfs
  rw [hN, hst']
  rfl

/-! ## The follow of a conditional -/

/-- What the variables `(follow, followInEdges)` that the search for the candidate
follow returns say about the index `curr` of a block that the if structurer handles. -/
theorem acquires_of_fold (P : Function) (curr : Int) (h0 : 0 ≤ curr)
    (hn : P.numBBs ≤ P.dfsLast.length) (hH : P.IfHeader curr) (r : Int × Int)
    (hr : (indicesFrom (curr + 1) P.numBBs).foldlM (structIfsDesc P curr) (0, 0) = some r) :
    ((r.1 ≠ 0 ∧ r.2 > 1) → P.Acquires curr r.1) ∧
      (¬ (r.1 ≠ 0 ∧ r.2 > 1) → P.Unresolved curr) := by
  obtain ⟨r', hr', hcase⟩ := structIfsDesc_candidate P curr h0 hn
  rw [hr] at hr'
  cases hr'
  rcases hcase with ⟨h1, h2, h3, h4⟩ | ⟨h1, h2⟩
  · exact ⟨fun _ => ⟨hH, h3, h4⟩, fun h => absurd ⟨h1, h2⟩ h⟩
  · exact ⟨fun h => absurd h h1, fun _ => ⟨hH, h2⟩⟩

/-- The follow `f` that the body of the loop of `structIfs` gives to a block that
acquires one is also the follow of the blocks of the list `unresolved`, which is
emptied. -/
theorem structIfsNode_acquires (P : Function) (l : List Int) (curr f : Int) (c : Nat)
    (hn : P.numBBs ≤ P.dfsLast.length) (h0 : 0 ≤ curr) (h1 : curr < P.numBBs)
    (hl : ∀ x ∈ l, 0 ≤ x ∧ x < P.numBBs) (hc : P.dfsLastAt curr = some c)
    (hacq : P.Acquires curr f) :
    ∃ st', structIfsNode (P, l) curr = some st' ∧ (st'.1.blocks c).ifFollow = f ∧
      (∀ x ∈ l, ∀ bx, P.dfsLastAt x = some bx → (st'.1.blocks bx).ifFollow = f) ∧
      st'.2 = [] := by
  have hl' : ∀ x ∈ l, P.InTable x := by
    intro x hx
    have := hl x hx
    rw [inTable_iff]
    omega
  obtain ⟨c', st', hc', hst', _, hcase⟩ := structIfsNode_spec (P, l) curr h0 h1 hn hl'
  simp only at hc' hcase
  rw [hc] at hc'
  cases hc'
  refine ⟨st', hst', ?_⟩
  rcases hcase with ⟨hnh, _⟩ | ⟨f', hacq', hflag, hnil⟩ | ⟨hun, _⟩
  · exact absurd hacq.1 hnh
  · have hff : f' = f := ifCandidate_unique P curr f' f hacq'.2.1 hacq.2.1
    subst hff
    have hs1 := ifStep_setIfFollow P c f'
    obtain ⟨P', hP', _, hin, hother⟩ := flagNodes_spec f' l (P.setIfFollow c f')
      (fun q hq => by
        obtain ⟨b, hb⟩ := hl' q hq
        exact ⟨b, by rw [hs1.1.dfsLastAt]; exact hb⟩)
    rw [hflag] at hP'
    cases hP'
    simp only [hs1.1.dfsLastAt] at hin hother
    refine ⟨?_, hin, hnil⟩
    by_cases hmem : ∃ x ∈ l, P.dfsLastAt x = some c
    · obtain ⟨x, hx, hxc⟩ := hmem
      exact hin x hx c hxc
    · rw [hother c (fun x hx hxc => hmem ⟨x, hx, hxc⟩)]
      simp [Function.setIfFollow, Function.setBB]
  · exact absurd hun (acquires_not_unresolved P curr f hacq)

theorem nestedIfProc_dfsLastOK : (nestedIfProc K0).DfsLastOK := by
  intro k hk
  have hk' : k < 6 := by
    have : (nestedIfProc K0).numBBs = 6 := rfl
    rw [this] at hk
    omega
  interval_cases k <;> exact ⟨_, rfl, rfl⟩

theorem ifThenReturnProc_dfsLastOK : (ifThenReturnProc K0).DfsLastOK := by
  intro k hk
  have hk' : k < 7 := by
    have : (ifThenReturnProc K0).numBBs = 7 := rfl
    rw [this] at hk
    omega
  interval_cases k <;> exact ⟨_, rfl, rfl⟩

/-- In the scenario of the nested conditionals, `H` (index 0) acquires the follow `F`
(index 5). -/
theorem nestedIfProc_acquires : (nestedIfProc K0).Acquires 0 5 :=
  (acquires_of_fold (nestedIfProc K0) 0 (le_refl _) (by decide)
    ⟨0, rfl, rfl, rfl, rfl⟩ (5, 3) (by decide)).1 (by decide)

/-- In the scenario of the nested conditionals, `I1` (index 1) has no follow of its
own. -/
theorem nestedIfProc_unresolved : (nestedIfProc K0).Unresolved 1 :=
  (acquires_of_fold (nestedIfProc K0) 1 (by decide) (by decide)
    ⟨1, rfl, rfl, rfl, rfl⟩ (3, 1) (by decide)).2 (by decide)

/-- C15: at a valid two-way block `c` (index `curr`) whose last instruction does not
carry `JX_LOOP`, the body of the loop of `structIfs` returns; the blocks it considers
are those at an index above `curr = c.dfsLastNum` whose `immedDom` is `curr`; either the
candidate `f`, the block considered of the maximum `numInEdges - numBackEdges` and of the
highest index among those that have it, has a value above 1 and `c.ifFollow = f`
afterwards, or no block considered has a value above 1, the procedure is unchanged and
`curr` is appended to the list `unresolved`. -/
theorem structIfsNode_follow_candidate (st : Function × List Int) (curr : Int) (c : Nat)
    (htab : st.1.DfsLastOK) (hn : st.1.numBBs ≤ st.1.dfsLast.length)
    (h0 : 0 ≤ curr) (h1 : curr < st.1.numBBs)
    (hl : ∀ x ∈ st.2, 0 ≤ x ∧ x < st.1.numBBs)
    (hc : st.1.dfsLastAt curr = some c)
    (hvalid : (st.1.blocks c).flg.INVALID_BB = false)
    (htwo : (st.1.blocks c).nodeType = eBBKind.TWO_BRANCH)
    (hjx : st.1.GetLlFlagJX_LOOP (st.1.lastInstr c) = false) :
    (st.1.blocks c).dfsLastNum = curr ∧
    ∃ st', structIfsNode st curr = some st' ∧
      ((∃ f, st.1.IfCandidate curr f ∧ 1 < st.1.effInAt f ∧
          (st'.1.blocks c).ifFollow = f) ∨
        ((∀ d, st.1.IfDominee curr d → st.1.effInAt d ≤ 1) ∧ st'.1 = st.1 ∧
          st'.2 = insertList st.2 curr)) := by
  have hnum : (st.1.blocks c).dfsLastNum = curr := by
    obtain ⟨b, hb, hnb⟩ := dfsLastAt_of_range st.1 htab curr h0 h1
    rw [hc] at hb
    cases hb
    exact hnb
  refine ⟨hnum, ?_⟩
  have hH : st.1.IfHeader curr := ⟨c, hc, hvalid, htwo, hjx⟩
  have hl' : ∀ x ∈ st.2, st.1.InTable x := by
    intro x hx
    have := hl x hx
    rw [inTable_iff]
    omega
  obtain ⟨c', st', hc', hst', _, hcase⟩ := structIfsNode_spec st curr h0 h1 hn hl'
  rcases hcase with ⟨hnh, _⟩ | ⟨f, hacq, _, _⟩ | ⟨hun, hst⟩
  · exact absurd hH hnh
  · obtain ⟨st2, hst2, hf, _, _⟩ := structIfsNode_acquires st.1 st.2 curr f c hn h0 h1 hl hc
      hacq
    exact ⟨st2, hst2, Or.inl ⟨f, hacq.2.1, hacq.2.2, hf⟩⟩
  · refine ⟨st', hst', Or.inr ⟨hun.2, ?_, ?_⟩⟩
    · rw [hst]
    · rw [hst]

/-- A witness for C15: the header `H` of the nested conditionals, with `I1` on the list
`unresolved`. -/
theorem structIfsNode_follow_candidate_witness :
    ((nestedIfProc K0).blocks 0).dfsLastNum = 0 ∧
    ∃ st', structIfsNode (nestedIfProc K0, [1]) 0 = some st' ∧
      ((∃ f, (nestedIfProc K0).IfCandidate 0 f ∧ 1 < (nestedIfProc K0).effInAt f ∧
          (st'.1.blocks 0).ifFollow = f) ∨
        ((∀ d, (nestedIfProc K0).IfDominee 0 d → (nestedIfProc K0).effInAt d ≤ 1) ∧
          st'.1 = nestedIfProc K0 ∧ st'.2 = insertList [1] 0)) :=
  structIfsNode_follow_candidate (nestedIfProc K0, [1]) 0 0 nestedIfProc_dfsLastOK
    (by decide) (by decide) (by decide) (by decide) rfl rfl rfl rfl

/-- C16: when the body of the loop of `structIfs` assigns the follow `fc` to the two-way
block `c`, every block on the list `unresolved` gets `ifFollow = fc` and the list becomes
empty; and after `structIfs`, which returns, a block `b` (index `p`) with no qualifying
follow of its own carries the follow `f` of the next block in reverse DFS-last order
(index `q < p`, none in between) that acquires one. -/
theorem structIfs_unresolved_get_follow (P : Function) (l : List Int) (curr fc : Int)
    (c : Nat) (p q f : Int) (b : Nat)
    (htab : P.DfsLastOK) (hn : P.numBBs ≤ P.dfsLast.length)
    (h0 : 0 ≤ curr) (h1 : curr < P.numBBs) (hl : ∀ x ∈ l, 0 ≤ x ∧ x < P.numBBs)
    (hc : P.dfsLastAt curr = some c) (hacq : P.Acquires curr fc)
    (hb : P.dfsLastAt p = some b) (hp : p < P.numBBs) (hun : P.Unresolved p)
    (hq0 : 0 ≤ q) (hqp : q < p) (hq : P.Acquires q f)
    (hnext : ∀ q' f', q < q' → q' < p → ¬ P.Acquires q' f') :
    (∃ st', structIfsNode (P, l) curr = some st' ∧ (st'.1.blocks c).ifFollow = fc ∧
        (∀ x ∈ l, ∀ bx, P.dfsLastAt x = some bx → (st'.1.blocks bx).ifFollow = fc) ∧
        st'.2 = []) ∧
      ∃ P', structIfs P = some P' ∧ (P'.blocks b).ifFollow = f := by
  refine ⟨structIfsNode_acquires P l curr fc c hn h0 h1 hl hc hacq, ?_⟩
  obtain ⟨st', hst', _, _, hblk, _⟩ := structIfs_inv P htab hn (by omega)
  exact ⟨st'.1, hst', (hblk p b (by omega) hp hb).2.1 hun q f hq0 hqp hq hnext⟩

/-- A witness for C16: in the nested conditionals, `I1` ends with the follow `F` of
`H`. -/
theorem structIfs_unresolved_get_follow_witness :
    (∃ st', structIfsNode (nestedIfProc K0, [1]) 0 = some st' ∧
        (st'.1.blocks 0).ifFollow = 5 ∧
        (∀ x ∈ [(1 : Int)], ∀ bx, (nestedIfProc K0).dfsLastAt x = some bx →
          (st'.1.blocks bx).ifFollow = 5) ∧
        st'.2 = []) ∧
      ∃ P', structIfs (nestedIfProc K0) = some P' ∧ (P'.blocks 1).ifFollow = 5 :=
  structIfs_unresolved_get_follow (nestedIfProc K0) [1] 0 5 0 1 0 5 1
    nestedIfProc_dfsLastOK (by decide) (by decide) (by decide) (by decide) rfl
    nestedIfProc_acquires rfl (by decide) nestedIfProc_unresolved (by decide) (by decide)
    nestedIfProc_acquires (fun q' f' h1 h2 => absurd h2 (by omega))

/-- C17 (amended): after `structIfs`, which returns, on a procedure in which every
`ifFollow` was unset (`U`) beforehand, a block `b` whose `ifFollow` is set is a two-way
block whose last instruction does not carry `JX_LOOP`, and its `ifFollow` is greater than
the DFS-last number of the block `a` that acquired that follow as its own: `a` is `b`
itself, or a block before `b` in DFS-last order whose follow `b`, having none of its own,
received; a block that acquires a follow of its own has `ifFollow > dfsLastNum`. -/
theorem structIfs_follow_after_acquirer (P : Function) (U : Int) (k : Int) (b : Nat)
    (htab : P.DfsLastOK) (hn : P.numBBs ≤ P.dfsLast.length)
    (hunset : ∀ x ∈ P.dfsLast, (P.blocks x).ifFollow = U)
    (hk0 : 0 ≤ k) (hk : k < P.numBBs) (hb : P.dfsLastAt k = some b) :
    ∃ P', structIfs P = some P' ∧
      ((P'.blocks b).ifFollow ≠ U →
        P.IfHeader k ∧
        ∃ q a, 0 ≤ q ∧ q ≤ k ∧ P.dfsLastAt q = some a ∧
          P.Acquires q (P'.blocks b).ifFollow ∧
          (P.blocks a).dfsLastNum < (P'.blocks b).ifFollow ∧ (q = k ∨ P.Unresolved k)) ∧
      (∀ f, P.Acquires k f →
        (P'.blocks b).ifFollow = f ∧ (P.blocks b).dfsLastNum < (P'.blocks b).ifFollow) := by
  obtain ⟨st', hst', _, _, hblk, _⟩ := structIfs_inv P htab hn (by omega)
  obtain ⟨g1, _, g3⟩ := hblk k b hk0 hk hb
  have hnum : ∀ (q : Int) (a : Nat), 0 ≤ q → q < P.numBBs → P.dfsLastAt q = some a →
      (P.blocks a).dfsLastNum = q := by
    intro q a hq0 hq1 hqa
    obtain ⟨a', ha', hna⟩ := dfsLastAt_of_range P htab q hq0 hq1
    rw [hqa] at ha'
    cases ha'
    exact hna
  refine ⟨st'.1, hst', fun hset => ?_, fun f hf => ?_⟩
  · rw [← hunset b (dfsLastAt_mem P k b hb)] at hset
    obtain ⟨q, f, hq0, hqk, hq, hf, hor⟩ := g3 hset
    obtain ⟨a, ha, _⟩ := hq.1
    refine ⟨?_, q, a, hq0, hqk, ha, by rw [hf]; exact hq, ?_, hor⟩
    · rcases hor with rfl | hu
      · exact hq.1
      · exact hu.1
    · rw [hnum q a hq0 (by omega) ha, hf]
      exact hq.2.1.1.1
  · have := g1 f hf
    refine ⟨this, ?_⟩
    rw [hnum k b hk0 hk hb, this]
    exact hf.2.1.1.1

/-- A witness for C17: the block `u` of the conditional followed by a conditional whose
arms return. -/
theorem structIfs_follow_after_acquirer_witness :
    ∃ P', structIfs (ifThenReturnProc K0) = some P' ∧
      ((P'.blocks 4).ifFollow ≠ K0.MAX →
        (ifThenReturnProc K0).IfHeader 4 ∧
        ∃ q a, 0 ≤ q ∧ q ≤ 4 ∧ (ifThenReturnProc K0).dfsLastAt q = some a ∧
          (ifThenReturnProc K0).Acquires q (P'.blocks 4).ifFollow ∧
          ((ifThenReturnProc K0).blocks a).dfsLastNum < (P'.blocks 4).ifFollow ∧
          (q = 4 ∨ (ifThenReturnProc K0).Unresolved 4)) ∧
      (∀ f, (ifThenReturnProc K0).Acquires 4 f →
        (P'.blocks 4).ifFollow = f ∧
          ((ifThenReturnProc K0).blocks 4).dfsLastNum < (P'.blocks 4).ifFollow) :=
  structIfs_follow_after_acquirer (ifThenReturnProc K0) K0.MAX 4 4
    ifThenReturnProc_dfsLastOK (by decide) (by decide) (by decide) (by decide) rfl

/-- C17 (counterexample): in the conditional followed by a conditional whose arms
return, every `ifFollow` is unset beforehand; the two-way block `u` (DFS-last number 4),
whose last instruction does not carry `JX_LOOP`, has no follow of its own and receives
the follow 3 of the first conditional, which is set and not greater than 4. -/
theorem unresolved_block_gets_earlier_follow :
    (∀ x ∈ (ifThenReturnProc K0).dfsLast, ((ifThenReturnProc K0).blocks x).ifFollow = K0.MAX) ∧
      ((ifThenReturnProc K0).blocks 4).nodeType = eBBKind.TWO_BRANCH ∧
      (ifThenReturnProc K0).GetLlFlagJX_LOOP ((ifThenReturnProc K0).lastInstr 4) = false ∧
      ((ifThenReturnProc K0).blocks 4).dfsLastNum = 4 ∧
      (structIfs (ifThenReturnProc K0)).map (fun P => (P.blocks 4).ifFollow) = some 3 ∧
      (3 : Int) ≠ K0.MAX := by
  decide

/-! ## Compound conditions -/

theorem replaceFirst_length (t pbb : Nat) :
    ∀ l : List Nat, (replaceFirst t pbb l).length = l.length := by
  intro l
  induction l with
  | nil => rfl
  | cons x xs ih =>
    unfold replaceFirst
    split
    · rfl
    · simp [ih]

/-- The loop of lines 537-542 over a vector of `numInEdges` entries replaces the first
entry that is `t`. -/
theorem replaceInEdge_length (t pbb : Nat) :
    ∀ l : List Nat, replaceInEdge t pbb l l.length = some (replaceFirst t pbb l) := by
  intro l
  induction l with
  | nil => rfl
  | cons x xs ih =>
    simp only [List.length_cons]
    unfold replaceInEdge replaceFirst
    split
    · rfl
    · rw [ih]

theorem mem_replaceFirst_of_count (t pbb : Nat) :
    ∀ l : List Nat, 2 ≤ l.count t → t ∈ replaceFirst t pbb l := by
  intro l
  induction l with
  | nil => intro h; simp at h
  | cons x xs ih =>
    intro h
    unfold replaceFirst
    by_cases hx : x = t
    · subst hx
      rw [if_pos rfl]
      rw [List.count_cons_self] at h
      exact List.mem_cons_of_mem _ (List.count_pos_iff.mp (by omega))
    · rw [if_neg hx]
      rw [List.count_cons_of_ne (fun h' => hx h'.symm)] at h
      exact List.mem_cons_of_mem _ (ih h)

theorem edge_lt (P : Function) (b i x : Nat) (h : P.edge b i = some x) :
    i < (P.blocks b).edges.length := by
  unfold Function.edge at h
  exact (List.get?_eq_some.mp h).1

/-- The fields of the blocks after `setInEdges`. -/
theorem setInEdges_view (P : Function) (b : Nat) (l : List Nat) (c : Nat) :
    ((P.setInEdges b l).blocks c).edges = (P.blocks c).edges ∧
    ((P.setInEdges b l).blocks c).inEdges = (if c = b then l else (P.blocks c).inEdges) ∧
    ((P.setInEdges b l).blocks c).numInEdges = (P.blocks c).numInEdges ∧
    ((P.setInEdges b l).blocks c).flg = (P.blocks c).flg ∧
    ((P.setInEdges b l).blocks c).dfsLastNum = (P.blocks c).dfsLastNum := by
  unfold Function.setInEdges Function.setBB
  by_cases h : c = b
  · subst h; simp
  · simp [h]

/-- The fields of the blocks after `setNumInEdges`. -/
theorem setNumInEdges_view (P : Function) (b : Nat) (n : Int) (c : Nat) :
    ((P.setNumInEdges b n).blocks c).edges = (P.blocks c).edges ∧
    ((P.setNumInEdges b n).blocks c).inEdges = (P.blocks c).inEdges ∧
    ((P.setNumInEdges b n).blocks c).numInEdges =
      (if c = b then n else (P.blocks c).numInEdges) ∧
    ((P.setNumInEdges b n).blocks c).flg = (P.blocks c).flg ∧
    ((P.setNumInEdges b n).blocks c).dfsLastNum = (P.blocks c).dfsLastNum := by
  unfold Function.setNumInEdges Function.setBB
  by_cases h : c = b
  · subst h; simp
  · simp [h]

/-- The fields of the blocks after `setInvalid`. -/
theorem setInvalid_view (P : Function) (b : Nat) (c : Nat) :
    ((P.setInvalid b).blocks c).edges = (P.blocks c).edges ∧
    ((P.setInvalid b).blocks c).inEdges = (P.blocks c).inEdges ∧
    ((P.setInvalid b).blocks c).numInEdges = (P.blocks c).numInEdges ∧
    ((P.setInvalid b).blocks c).flg.IS_LATCH_NODE = (P.blocks c).flg.IS_LATCH_NODE ∧
    ((P.setInvalid b).blocks c).dfsLastNum = (P.blocks c).dfsLastNum ∧
    ((P.setInvalid b).blocks c).flg.INVALID_BB =
      (if c = b then true else (P.blocks c).flg.INVALID_BB) := by
  unfold Function.setInvalid Function.setBB
  by_cases h : c = b
  · subst h; simp
  · simp [h]

/-- Writing an edge inside the edge vector returns; the fields of the blocks
afterwards. -/
theorem setEdge_view (P : Function) (b i x : Nat) (h : i < (P.blocks b).edges.length) :
    ∃ Q, P.setEdge b i x = some Q ∧ Q.Icode = P.Icode ∧ Q.dfsLast = P.dfsLast ∧
      ∀ c, (Q.blocks c).edges =
          (if c = b then (P.blocks b).edges.set i x else (P.blocks c).edges) ∧
        (Q.blocks c).inEdges = (P.blocks c).inEdges ∧
        (Q.blocks c).numInEdges = (P.blocks c).numInEdges ∧
        (Q.blocks c).flg = (P.blocks c).flg ∧
        (Q.blocks c).dfsLastNum = (P.blocks c).dfsLastNum := by
  refine ⟨P.setBB b { P.blocks b with edges := (P.blocks b).edges.set i x },
    by unfold Function.setEdge; rw [if_pos h], rfl, rfl, fun c => ?_⟩
  unfold Function.setBB
  by_cases hc : c = b
  · subst hc; simp
  · simp [hc]

/-- Erasing a recorded in-edge returns; the fields of the blocks afterwards. -/
theorem eraseFound_view (P : Function) (e t : Nat) (h : t ∈ (P.blocks e).inEdges) :
    ∃ Q, P.eraseFound e t = some Q ∧ Q.Icode = P.Icode ∧ Q.dfsLast = P.dfsLast ∧
      ∀ c, (Q.blocks c).edges = (P.blocks c).edges ∧
        (Q.blocks c).inEdges =
          (if c = e then (P.blocks e).inEdges.erase t else (P.blocks c).inEdges) ∧
        (Q.blocks c).numInEdges =
          (if c = e then (P.blocks e).numInEdges - 1 else (P.blocks c).numInEdges) ∧
        (Q.blocks c).flg = (P.blocks c).flg ∧
        (Q.blocks c).dfsLastNum = (P.blocks c).dfsLastNum := by
  refine ⟨(P.setInEdges e ((P.blocks e).inEdges.erase t)).setNumInEdges e
      (((P.setInEdges e ((P.blocks e).inEdges.erase t)).blocks e).numInEdges - 1),
    by unfold Function.eraseFound; rw [if_pos h], rfl, rfl, fun c => ?_⟩
  have v1 := setInEdges_view P e ((P.blocks e).inEdges.erase t)
  have v2 := setNumInEdges_view (P.setInEdges e ((P.blocks e).inEdges.erase t)) e
    (((P.setInEdges e ((P.blocks e).inEdges.erase t)).blocks e).numInEdges - 1) c
  refine ⟨v2.1.trans (v1 c).1, v2.2.1.trans (v1 c).2.1, ?_, v2.2.2.2.1.trans (v1 c).2.2.2.1,
    v2.2.2.2.2.trans (v1 c).2.2.2.2⟩
  rw [v2.2.2.1, (v1 e).2.2.1, (v1 c).2.2.1]

/-- Replacing a recorded in-edge returns; the fields of the blocks afterwards. -/
theorem replaceFound_view (P : Function) (obb t pbb : Nat)
    (h : t ∈ (P.blocks obb).inEdges) :
    ∃ Q, P.replaceFound obb t pbb = some Q ∧ Q.Icode = P.Icode ∧ Q.dfsLast = P.dfsLast ∧
      ∀ c, (Q.blocks c).edges = (P.blocks c).edges ∧
        (Q.blocks c).inEdges =
          (if c = obb then replaceFirst t pbb (P.blocks obb).inEdges
            else (P.blocks c).inEdges) ∧
        (Q.blocks c).numInEdges = (P.blocks c).numInEdges ∧
        (Q.blocks c).flg = (P.blocks c).flg ∧
        (Q.blocks c).dfsLastNum = (P.blocks c).dfsLastNum :=
  ⟨P.setInEdges obb (replaceFirst t pbb (P.blocks obb).inEdges),
    by unfold Function.replaceFound; rw [if_pos h], rfl, rfl,
    fun c => setInEdges_view P obb _ c⟩

/-- The end of a merge returns when the slot of the absorbed block exists; it marks the
absorbed block invalid and writes nothing else in the blocks or the instructions. -/
theorem compoundCondEnd_view (P : Function) (pbb t : Nat) (i : Int)
    (hl : (P.blocks pbb).flg.IS_LATCH_NODE = true → P.InTable (P.blocks t).dfsLastNum) :
    ∃ P' i', compoundCondEnd P pbb t i = some (P', i') ∧ P'.Icode = P.Icode ∧
      P'.blocks = (P.setInvalid t).blocks := by
  unfold compoundCondEnd
  simp only
  by_cases hlatch : ((P.setInvalid t).blocks pbb).flg.IS_LATCH_NODE = true
  · rw [if_pos hlatch]
    rw [(setInvalid_view P t pbb).2.2.2.1] at hlatch
    have := (inTable_iff P _).mp (hl hlatch)
    obtain ⟨Q, hQ, hQI, hQB⟩ : ∃ Q, (P.setInvalid t).setDfsLast
        ((P.setInvalid t).blocks t).dfsLastNum pbb = some Q ∧ Q.Icode = P.Icode ∧
        Q.blocks = (P.setInvalid t).blocks := by
      unfold Function.setDfsLast
      rw [if_pos]
      · exact ⟨_, rfl, rfl, rfl⟩
      · rw [(setInvalid_view P t t).2.2.2.2.1]
        show 0 ≤ (P.blocks t).dfsLastNum ∧ (P.blocks t).dfsLastNum.toNat < P.dfsLast.length
        omega
    rw [hQ]
    exact ⟨Q, i, rfl, hQI, hQB⟩
  · rw [if_neg hlatch]
    exact ⟨_, _, rfl, rfl, rfl⟩

theorem compoundCondTest_true (P : Function) (n k x : Nat)
    (h2 : (P.blocks n).nodeType = eBBKind.TWO_BRANCH) (h1 : (P.blocks n).numHlIcodes = 1)
    (hin : (P.blocks n).numInEdges = 1) (he : P.edge n k = some x) :
    compoundCondTest P n k x = some true := by
  unfold compoundCondTest
  rw [if_pos ⟨h2, h1, hin⟩, he]
  simp

theorem compoundCondTest_false (P : Function) (n k x y : Nat) (he : P.edge n k = some y)
    (hne : y ≠ x) : compoundCondTest P n k x = some false := by
  unfold compoundCondTest
  split
  · rw [he]
    simp [hne]
  · rfl

/-- The merge of the pattern `X || Y` up to its end: the state before the absorbed block
is marked invalid. -/
theorem compoundCondOr_run (P : Function) (i : Int) (pbb t e obb : Nat)
    (hT : P.edge pbb THEN = some t) (hobb : P.edge t THEN = some obb)
    (hobbin : (P.blocks obb).numInEdges = (P.blocks obb).inEdges.length)
    (hein : (P.blocks e).numInEdges = (P.blocks e).inEdges.length)
    (hcount : (if obb = e then 2 else 1) ≤ (P.blocks e).inEdges.count t) :
    ∃ Q, compoundCondOr P pbb t e i = compoundCondEnd Q pbb t i ∧
      Q.Icode = (P.setExp (P.lastInstr pbb) (COND_EXPR.boolOp (P.condOf (P.lastInstr pbb))
        (P.condOf (P.lastInstr t)) condOp.DBL_OR)).Icode ∧
      Q.dfsLast = P.dfsLast ∧
      ∀ c, (Q.blocks c).edges =
          (if c = pbb then (P.blocks pbb).edges.set THEN obb else (P.blocks c).edges) ∧
        (Q.blocks c).inEdges =
          (if c = e then
            (if e = obb then replaceFirst t pbb (P.blocks obb).inEdges
              else (P.blocks e).inEdges).erase t
          else if c = obb then replaceFirst t pbb (P.blocks obb).inEdges
          else (P.blocks c).inEdges) ∧
        (Q.blocks c).numInEdges =
          (if c = e then (P.blocks e).numInEdges - 1 else (P.blocks c).numInEdges) ∧
        (Q.blocks c).flg = (P.blocks c).flg ∧
        (Q.blocks c).dfsLastNum = (P.blocks c).dfsLastNum := by
  unfold compoundCondOr
  rw [hobb]
  simp only
  generalize hP1 : P.setExp (P.lastInstr pbb) (COND_EXPR.boolOp (P.condOf (P.lastInstr pbb))
    (P.condOf (P.lastInstr t)) condOp.DBL_OR) = P1
  have hb1 : P1.blocks = P.blocks := by rw [← hP1]; rfl
  have hd1 : P1.dfsLast = P.dfsLast := by rw [← hP1]; rfl
  have hrep : replaceInEdge t pbb (P1.blocks obb).inEdges (P1.blocks obb).numInEdges.toNat =
      some (replaceFirst t pbb (P.blocks obb).inEdges) := by
    rw [hb1, hobbin, Int.toNat_ofNat]
    exact replaceInEdge_length t pbb _
  rw [hrep]
  simp only
  have v2 := setInEdges_view P1 obb (replaceFirst t pbb (P.blocks obb).inEdges)
  obtain ⟨P3, hP3, hI3, hD3, v3⟩ := setEdge_view
    (P1.setInEdges obb (replaceFirst t pbb (P.blocks obb).inEdges)) pbb THEN obb
    (by rw [(v2 pbb).1, hb1]; exact edge_lt P pbb THEN t hT)
  rw [hP3]
  simp only
  have hin3 : (P3.blocks e).inEdges =
      (if e = obb then replaceFirst t pbb (P.blocks obb).inEdges
        else (P.blocks e).inEdges) := by
    rw [(v3 e).2.1, (v2 e).2.1, hb1]
  have hmem : t ∈ (P3.blocks e).inEdges := by
    rw [hin3]
    by_cases heo : e = obb
    · rw [if_pos heo]
      rw [if_pos heo.symm] at hcount
      rw [← heo]
      exact mem_replaceFirst_of_count t pbb _ hcount
    · rw [if_neg heo]
      rw [if_neg (fun h => heo h.symm)] at hcount
      exact List.count_pos_iff.mp (by omega)
  obtain ⟨P4, hP4, hI4, hD4, v4⟩ := eraseFound_view P3 e t hmem
  rw [hP4]
  simp only
  have hlen3 : ((P3.blocks e).inEdges.length : Int) = (P.blocks e).numInEdges := by
    rw [hin3, hein]
    by_cases heo : e = obb
    · rw [if_pos heo, replaceFirst_length, ← heo]
    · rw [if_neg heo]
  have hassert : P4.assertInEdges e = some P4 := by
    unfold Function.assertInEdges
    rw [if_pos]
    rw [(v4 e).2.1, (v4 e).2.2.1, if_pos rfl, if_pos rfl, (v3 e).2.2.1, (v2 e).2.2.1, hb1,
      List.length_erase_of_mem hmem, ← hlen3]
    have : 0 < (P3.blocks e).inEdges.length := List.length_pos_of_mem hmem
    omega
  rw [hassert]
  simp only
  refine ⟨P4, rfl, ?_, ?_, fun c => ?_⟩
  · rw [hI4, hI3]
    rfl
  · rw [hD4, hD3]
    exact hd1
  · refine ⟨?_, ?_, ?_, ?_, ?_⟩
    · rw [(v4 c).1, (v3 c).1, (v2 c).1, (v2 pbb).1, hb1]
    · rw [(v4 c).2.1, hin3, (v3 c).2.1, (v2 c).2.1, hb1]
    · rw [(v4 c).2.2.1, (v3 e).2.2.1, (v2 e).2.2.1, (v3 c).2.2.1, (v2 c).2.2.1, hb1]
    · rw [(v4 c).2.2.2.1, (v3 c).2.2.2.1, (v2 c).2.2.2.1, hb1]
    · rw [(v4 c).2.2.2.2, (v3 c).2.2.2.2, (v2 c).2.2.2.2, hb1]

/-! ## The merges of `compoundCond` -/

theorem get?_set_then_then (l : List Nat) (x : Nat) (h : THEN < l.length) :
    (l.set THEN x).get? THEN = some x := by
  unfold THEN at h ⊢
  cases l with
  | nil => simp at h
  | cons a as => rfl

theorem get?_set_then_else (l : List Nat) (x : Nat) :
    (l.set THEN x).get? ELSE = l.get? ELSE := by
  unfold THEN ELSE
  cases l with
  | nil => rfl
  | cons a as => rfl

theorem get?_set_else_then (l : List Nat) (x : Nat) :
    (l.set ELSE x).get? THEN = l.get? THEN := by
  unfold THEN ELSE
  cases l with
  | nil => rfl
  | cons a as =>
    cases as with
    | nil => rfl
    | cons b bs => rfl

theorem get?_set_else_else (l : List Nat) (x : Nat) (h : ELSE < l.length) :
    (l.set ELSE x).get? ELSE = some x := by
  unfold ELSE at h ⊢
  cases l with
  | nil => simp at h
  | cons a as =>
    cases as with
    | nil => simp at h
    | cons b bs => rfl

theorem inTable_of_dfsLast {P Q : Function} (h : Q.dfsLast = P.dfsLast) (x : Int) :
    Q.InTable x ↔ P.InTable x := by
  rw [inTable_iff, inTable_iff, h]

/-- At a valid two-way block whose THEN successor meets the test of the first pattern,
the body of the loop of `compoundCond` is the merge `X || Y`. -/
theorem compoundCondNode_or_eq (P : Function) (i : Int) (pbb t e : Nat)
    (hpbb : P.dfsLastAt i = some pbb) (hvalid : (P.blocks pbb).flg.INVALID_BB = false)
    (htwo : (P.blocks pbb).nodeType = eBBKind.TWO_BRANCH)
    (hT : P.edge pbb THEN = some t) (hE : P.edge pbb ELSE = some e)
    (ht2 : (P.blocks t).nodeType = eBBKind.TWO_BRANCH) (ht1 : (P.blocks t).numHlIcodes = 1)
    (htin : (P.blocks t).numInEdges = 1) (htE : P.edge t ELSE = some e) :
    compoundCondNode P i = (compoundCondOr P pbb t e i).map (fun r => (r.1, r.2, true)) := by
  unfold compoundCondNode
  rw [hpbb]
  simp only [hvalid, htwo, hT, hE, compoundCondTest_true P t ELSE e ht2 ht1 htin htE,
    Bool.false_eq_true, if_false, if_true]

/-- At a valid two-way block whose THEN successor meets the test of the second pattern
and not that of the first, the body of the loop of `compoundCond` is the merge
`!X && Y`. -/
theorem compoundCondNode_notAnd_eq (P : Function) (i : Int) (pbb t e obb : Nat)
    (hpbb : P.dfsLastAt i = some pbb) (hvalid : (P.blocks pbb).flg.INVALID_BB = false)
    (htwo : (P.blocks pbb).nodeType = eBBKind.TWO_BRANCH)
    (hT : P.edge pbb THEN = some t) (hE : P.edge pbb ELSE = some e)
    (ht2 : (P.blocks t).nodeType = eBBKind.TWO_BRANCH) (ht1 : (P.blocks t).numHlIcodes = 1)
    (htin : (P.blocks t).numInEdges = 1) (hobb : P.edge t ELSE = some obb) (hne : obb ≠ e)
    (htT : P.edge t THEN = some e) :
    compoundCondNode P i =
      (compoundCondNotAnd P pbb t e i).map (fun r => (r.1, r.2, true)) := by
  unfold compoundCondNode
  rw [hpbb]
  simp only [hvalid, htwo, hT, hE, compoundCondTest_false P t ELSE e obb hobb hne,
    compoundCondTest_true P t THEN e ht2 ht1 htin htT, Bool.false_eq_true, if_false, if_true]

/-- C18: at a valid two-way block `P` (`pbb`) with THEN successor `T` (`t`) and ELSE
successor `E` (`e`), where `T` is two-way with one high-level instruction, one in-edge
and ELSE successor `E`, and the in-edge vectors of `E` and of the THEN target `obb` of
`T` record their edges, the body of the loop of `compoundCond` merges: the condition of
`P` becomes `OR(old condition of P, condition of T)`, `P.edges[THEN]` becomes `obb`, the
first `T` among the in-edges of `obb` becomes `P`, a `T` is removed from the in-edges of
`E`, `E.numInEdges` decreases by exactly 1, `T` is marked `INVALID_BB`, and
`P.edges[ELSE]` remains `E`. -/
theorem compoundCondNode_merges_or (P : Function) (i : Int) (pbb t e obb : Nat)
    (hpbb : P.dfsLastAt i = some pbb) (hvalid : (P.blocks pbb).flg.INVALID_BB = false)
    (htwo : (P.blocks pbb).nodeType = eBBKind.TWO_BRANCH)
    (hT : P.edge pbb THEN = some t) (hE : P.edge pbb ELSE = some e)
    (ht2 : (P.blocks t).nodeType = eBBKind.TWO_BRANCH) (ht1 : (P.blocks t).numHlIcodes = 1)
    (htin : (P.blocks t).numInEdges = 1) (htE : P.edge t ELSE = some e)
    (hobb : P.edge t THEN = some obb)
    (hobbin : (P.blocks obb).numInEdges = (P.blocks obb).inEdges.length)
    (hein : (P.blocks e).numInEdges = (P.blocks e).inEdges.length)
    (hcount : (if obb = e then 2 else 1) ≤ (P.blocks e).inEdges.count t)
    (hlatch : (P.blocks pbb).flg.IS_LATCH_NODE = true → P.InTable (P.blocks t).dfsLastNum) :
    ∃ P' i', compoundCondNode P i = some (P', i', true) ∧
      P'.condOf (P.lastInstr pbb) = COND_EXPR.boolOp (P.condOf (P.lastInstr pbb))
        (P.condOf (P.lastInstr t)) condOp.DBL_OR ∧
      P'.edge pbb THEN = some obb ∧ P'.edge pbb ELSE = some e ∧
      (obb ≠ e → (P'.blocks obb).inEdges = replaceFirst t pbb (P.blocks obb).inEdges ∧
        (P'.blocks e).inEdges = (P.blocks e).inEdges.erase t) ∧
      (obb = e → (P'.blocks e).inEdges = (replaceFirst t pbb (P.blocks e).inEdges).erase t) ∧
      (P'.blocks e).numInEdges = (P.blocks e).numInEdges - 1 ∧
      (P'.blocks t).flg.INVALID_BB = true := by
  obtain ⟨Q, hrun, hQI, hQD, vQ⟩ := compoundCondOr_run P i pbb t e obb hT hobb hobbin hein
    hcount
  obtain ⟨P', i', hend, hI', hB'⟩ := compoundCondEnd_view Q pbb t i (by
    intro hl
    rw [(vQ pbb).2.2.2.1] at hl
    rw [inTable_of_dfsLast hQD, (vQ t).2.2.2.2]
    exact hlatch hl)
  refine ⟨P', i', ?_, ?_, ?_, ?_, ?_, ?_, ?_, ?_⟩
  · rw [compoundCondNode_or_eq P i pbb t e hpbb hvalid htwo hT hE ht2 ht1 htin htE, hrun, hend]
    rfl
  · unfold Function.condOf
    rw [hI', hQI]
    simp [Function.setExp, Function.condOf]
  · unfold Function.edge
    rw [hB', (setInvalid_view Q t pbb).1, (vQ pbb).1, if_pos rfl]
    exact get?_set_then_then _ _ (edge_lt P pbb THEN t hT)
  · unfold Function.edge
    rw [hB', (setInvalid_view Q t pbb).1, (vQ pbb).1, if_pos rfl, get?_set_then_else]
    exact hE
  · intro hne
    constructor
    · rw [hB', (setInvalid_view Q t obb).2.1, (vQ obb).2.1, if_neg hne, if_pos rfl]
    · rw [hB', (setInvalid_view Q t e).2.1, (vQ e).2.1, if_pos rfl,
        if_neg (fun h => hne h.symm)]
  · intro heq
    rw [hB', (setInvalid_view Q t e).2.1, (vQ e).2.1, if_pos rfl, if_pos heq.symm, heq]
  · rw [hB', (setInvalid_view Q t e).2.2.1, (vQ e).2.2.1, if_pos rfl]
  · rw [hB', (setInvalid_view Q t t).2.2.2.2.2, if_pos rfl]

/-- A witness for C18: the scenario of the pattern `X || Y`. -/
theorem compoundCondNode_merges_or_witness :
    ∃ P' i', compoundCondNode (orProc K0) 0 = some (P', i', true) ∧
      P'.condOf ((orProc K0).lastInstr 0) =
        COND_EXPR.boolOp ((orProc K0).condOf ((orProc K0).lastInstr 0))
          ((orProc K0).condOf ((orProc K0).lastInstr 1)) condOp.DBL_OR ∧
      P'.edge 0 THEN = some 2 ∧ P'.edge 0 ELSE = some 3 ∧
      (2 ≠ 3 → (P'.blocks 2).inEdges = replaceFirst 1 0 ((orProc K0).blocks 2).inEdges ∧
        (P'.blocks 3).inEdges = ((orProc K0).blocks 3).inEdges.erase 1) ∧
      (2 = 3 → (P'.blocks 3).inEdges =
        (replaceFirst 1 0 ((orProc K0).blocks 3).inEdges).erase 1) ∧
      (P'.blocks 3).numInEdges = ((orProc K0).blocks 3).numInEdges - 1 ∧
      (P'.blocks 1).flg.INVALID_BB = true :=
  compoundCondNode_merges_or (orProc K0) 0 0 1 3 2 rfl rfl rfl rfl rfl rfl rfl rfl rfl rfl
    rfl rfl (by decide) (fun h => absurd h (by decide))

/-- The merge of the pattern `!X && Y` up to its end: the state before the absorbed
block is marked invalid. -/
theorem compoundCondNotAnd_run (P : Function) (i : Int) (pbb t e obb : Nat)
    (hT : P.edge pbb THEN = some t) (hE : P.edge pbb ELSE = some e)
    (hobb : P.edge t ELSE = some obb) (hne : obb ≠ e)
    (hobbin : t ∈ (P.blocks obb).inEdges) (hein : t ∈ (P.blocks e).inEdges)
    (htlen : (P.blocks t).numInEdges = (P.blocks t).inEdges.length) :
    ∃ Q, compoundCondNotAnd P pbb t e i = compoundCondEnd Q pbb t i ∧
      Q.Icode = ((P.setExp (P.lastInstr pbb) (inverseCondOp (P.condOf (P.lastInstr pbb)))).setExp
        (P.lastInstr pbb)
        (COND_EXPR.boolOp
          ((P.setExp (P.lastInstr pbb) (inverseCondOp (P.condOf (P.lastInstr pbb)))).condOf
            (P.lastInstr pbb))
          ((P.setExp (P.lastInstr pbb) (inverseCondOp (P.condOf (P.lastInstr pbb)))).condOf
            (P.lastInstr t)) condOp.DBL_AND)).Icode ∧
      Q.dfsLast = P.dfsLast ∧
      ∀ c, (Q.blocks c).edges =
          (if c = pbb then ((P.blocks pbb).edges.set THEN e).set ELSE obb
            else (P.blocks c).edges) ∧
        (Q.blocks c).inEdges =
          (if c = e then (P.blocks e).inEdges.erase t
          else if c = obb then replaceFirst t pbb (P.blocks obb).inEdges
          else (P.blocks c).inEdges) ∧
        (Q.blocks c).numInEdges =
          (if c = e then (P.blocks e).numInEdges - 1 else (P.blocks c).numInEdges) ∧
        (Q.blocks c).flg = (P.blocks c).flg ∧
        (Q.blocks c).dfsLastNum = (P.blocks c).dfsLastNum := by
  unfold compoundCondNotAnd
  rw [hobb]
  simp only
  generalize hP0 : P.setExp (P.lastInstr pbb) (inverseCondOp (P.condOf (P.lastInstr pbb))) = P0
  have hl0 : ∀ b, P0.lastInstr b = P.lastInstr b := by
    intro b
    rw [← hP0]
    rfl
  rw [hl0 pbb, hl0 t]
  generalize hP1 : P0.setExp (P.lastInstr pbb) (COND_EXPR.boolOp (P0.condOf (P.lastInstr pbb))
    (P0.condOf (P.lastInstr t)) condOp.DBL_AND) = P1
  have hb1 : P1.blocks = P.blocks := by rw [← hP1, ← hP0]; rfl
  have hd1 : P1.dfsLast = P.dfsLast := by rw [← hP1, ← hP0]; rfl
  obtain ⟨P2, hP2, hI2, hD2, v2⟩ := replaceFound_view P1 obb t pbb (by rw [hb1]; exact hobbin)
  rw [hP2]
  simp only
  have hlenp : ELSE < (P.blocks pbb).edges.length := edge_lt P pbb ELSE e hE
  obtain ⟨P3, hP3, hI3, hD3, v3⟩ := setEdge_view P2 pbb THEN e
    (by rw [(v2 pbb).1, hb1]; exact edge_lt P pbb THEN t hT)
  rw [hP3]
  simp only
  obtain ⟨P4, hP4, hI4, hD4, v4⟩ := setEdge_view P3 pbb ELSE obb
    (by rw [(v3 pbb).1, if_pos rfl, List.length_set, (v2 pbb).1, hb1]; exact hlenp)
  rw [hP4]
  simp only
  have hin4 : ∀ c, (P4.blocks c).inEdges =
      (if c = obb then replaceFirst t pbb (P.blocks obb).inEdges else (P.blocks c).inEdges) := by
    intro c
    rw [(v4 c).2.1, (v3 c).2.1, (v2 c).2.1, hb1]
  have hnum4 : ∀ c, (P4.blocks c).numInEdges = (P.blocks c).numInEdges := by
    intro c
    rw [(v4 c).2.2.1, (v3 c).2.2.1, (v2 c).2.2.1, hb1]
  have hmem : t ∈ (P4.blocks e).inEdges := by
    rw [hin4 e, if_neg (fun h => hne h.symm)]
    exact hein
  obtain ⟨P5, hP5, hI5, hD5, v5⟩ := eraseFound_view P4 e t hmem
  rw [hP5]
  simp only
  have hassert : P5.assertInEdges t = some P5 := by
    unfold Function.assertInEdges
    rw [if_pos]
    rw [(v5 t).2.1, (v5 t).2.2.1]
    by_cases hte : t = e
    · rw [if_pos hte, if_pos hte, List.length_erase_of_mem hmem, hnum4 e, hin4 e,
        if_neg (fun h => hne h.symm), ← hte, htlen]
      have : 0 < (P.blocks t).inEdges.length := List.length_pos_of_mem (by rw [hte]; exact hein)
      omega
    · rw [if_neg hte, if_neg hte, hnum4 t, hin4 t, htlen]
      by_cases hto : t = obb
      · rw [if_pos hto, replaceFirst_length, ← hto]
      · rw [if_neg hto]
  rw [hassert]
  simp only
  refine ⟨P5, rfl, ?_, ?_, fun c => ?_⟩
  · rw [hI5, hI4, hI3, hI2]
  · rw [hD5, hD4, hD3, hD2]
    exact hd1
  · refine ⟨?_, ?_, ?_, ?_, ?_⟩
    · rw [(v5 c).1, (v4 c).1, (v3 pbb).1, if_pos rfl, (v3 c).1, (v2 c).1, (v2 pbb).1, hb1]
      by_cases hc : c = pbb
      · rw [if_pos hc, if_pos hc]
      · rw [if_neg hc, if_neg hc, if_neg hc]
    · by_cases hce : c = e
      · rw [(v5 c).2.1, if_pos hce, if_pos hce, hin4 e, if_neg (fun h => hne h.symm)]
      · rw [(v5 c).2.1, if_neg hce, if_neg hce, hin4 c]
    · rw [(v5 c).2.2.1, hnum4 e, hnum4 c]
    · rw [(v5 c).2.2.2.1, (v4 c).2.2.2.1, (v3 c).2.2.2.1, (v2 c).2.2.2.1, hb1]
    · rw [(v5 c).2.2.2.2, (v4 c).2.2.2.2, (v3 c).2.2.2.2, (v2 c).2.2.2.2, hb1]

/-- C20: at a valid two-way block `P` (`pbb`) with THEN successor `T` (`t`) and ELSE
successor `e`, where `T` is two-way with one high-level instruction and one in-edge, its
ELSE target `obb` is not `e` and its THEN target is `e`, the two blocks end at different
instructions and the in-edge vectors record the edges of `T`, the body of the loop of
`compoundCond` merges: the condition of `P` is inverted and then becomes
`AND(inverted condition of P, condition of T)`, `P.edges[THEN]` becomes `e` and
`P.edges[ELSE]` becomes `obb`, the first `T` among the in-edges of `obb` becomes `P`, `T`
is removed from the in-edges of `e`, `e.numInEdges` is decremented, and `T` is marked
`INVALID_BB`. -/
theorem compoundCondNode_merges_not_and (P : Function) (i : Int) (pbb t e obb : Nat)
    (hpbb : P.dfsLastAt i = some pbb) (hvalid : (P.blocks pbb).flg.INVALID_BB = false)
    (htwo : (P.blocks pbb).nodeType = eBBKind.TWO_BRANCH)
    (hT : P.edge pbb THEN = some t) (hE : P.edge pbb ELSE = some e)
    (ht2 : (P.blocks t).nodeType = eBBKind.TWO_BRANCH) (ht1 : (P.blocks t).numHlIcodes = 1)
    (htin : (P.blocks t).numInEdges = 1) (hobb : P.edge t ELSE = some obb) (hne : obb ≠ e)
    (htT : P.edge t THEN = some e)
    (hinstr : P.lastInstr pbb ≠ P.lastInstr t)
    (hobbin : t ∈ (P.blocks obb).inEdges) (hein : t ∈ (P.blocks e).inEdges)
    (htlen : (P.blocks t).numInEdges = (P.blocks t).inEdges.length)
    (hlatch : (P.blocks pbb).flg.IS_LATCH_NODE = true → P.InTable (P.blocks t).dfsLastNum) :
    ∃ P' i', compoundCondNode P i = some (P', i', true) ∧
      P'.condOf (P.lastInstr pbb) =
        COND_EXPR.boolOp (inverseCondOp (P.condOf (P.lastInstr pbb)))
          (P.condOf (P.lastInstr t)) condOp.DBL_AND ∧
      P'.edge pbb THEN = some e ∧ P'.edge pbb ELSE = some obb ∧
      (P'.blocks obb).inEdges = replaceFirst t pbb (P.blocks obb).inEdges ∧
      (P'.blocks e).inEdges = (P.blocks e).inEdges.erase t ∧
      (P'.blocks e).numInEdges = (P.blocks e).numInEdges - 1 ∧
      (P'.blocks t).flg.INVALID_BB = true := by
  obtain ⟨Q, hrun, hQI, hQD, vQ⟩ := compoundCondNotAnd_run P i pbb t e obb hT hE hobb hne
    hobbin hein htlen
  obtain ⟨P', i', hend, hI', hB'⟩ := compoundCondEnd_view Q pbb t i (by
    intro hl
    rw [(vQ pbb).2.2.2.1] at hl
    rw [inTable_of_dfsLast hQD, (vQ t).2.2.2.2]
    exact hlatch hl)
  have hlenT : THEN < (P.blocks pbb).edges.length := edge_lt P pbb THEN t hT
  have hlenE : ELSE < (P.blocks pbb).edges.length := edge_lt P pbb ELSE e hE
  refine ⟨P', i', ?_, ?_, ?_, ?_, ?_, ?_, ?_, ?_⟩
  · rw [compoundCondNode_notAnd_eq P i pbb t e obb hpbb hvalid htwo hT hE ht2 ht1 htin hobb
      hne htT, hrun, hend]
    rfl
  · unfold Function.condOf
    rw [hI', hQI]
    simp [Function.setExp, Function.condOf, Ne.symm hinstr]
  · unfold Function.edge
    rw [hB', (setInvalid_view Q t pbb).1, (vQ pbb).1, if_pos rfl, get?_set_else_then]
    exact get?_set_then_then _ _ hlenT
  · unfold Function.edge
    rw [hB', (setInvalid_view Q t pbb).1, (vQ pbb).1, if_pos rfl]
    exact get?_set_else_else _ _ (by rw [List.length_set]; exact hlenE)
  · rw [hB', (setInvalid_view Q t obb).2.1, (vQ obb).2.1, if_neg hne, if_pos rfl]
  · rw [hB', (setInvalid_view Q t e).2.1, (vQ e).2.1, if_pos rfl]
  · rw [hB', (setInvalid_view Q t e).2.2.1, (vQ e).2.2.1, if_pos rfl]
  · rw [hB', (setInvalid_view Q t t).2.2.2.2.2, if_pos rfl]

/-- A witness for C20: the scenario of the pattern `!X && Y`. -/
theorem compoundCondNode_merges_not_and_witness :
    ∃ P' i', compoundCondNode (notAndProc K0) 0 = some (P', i', true) ∧
      P'.condOf ((notAndProc K0).lastInstr 0) =
        COND_EXPR.boolOp (inverseCondOp ((notAndProc K0).condOf ((notAndProc K0).lastInstr 0)))
          ((notAndProc K0).condOf ((notAndProc K0).lastInstr 1)) condOp.DBL_AND ∧
      P'.edge 0 THEN = some 3 ∧ P'.edge 0 ELSE = some 2 ∧
      (P'.blocks 2).inEdges = replaceFirst 1 0 ((notAndProc K0).blocks 2).inEdges ∧
      (P'.blocks 3).inEdges = ((notAndProc K0).blocks 3).inEdges.erase 1 ∧
      (P'.blocks 3).numInEdges = ((notAndProc K0).blocks 3).numInEdges - 1 ∧
      (P'.blocks 1).flg.INVALID_BB = true :=
  compoundCondNode_merges_not_and (notAndProc K0) 0 0 1 3 2 rfl rfl rfl rfl rfl rfl rfl rfl
    rfl (by decide) rfl (by decide) (by decide) (by decide) rfl
    (fun h => absurd h (by decide))

/-- C19 (evaluation at the failing input): in the scenario of the pattern `X && Y`, the
block `P` (0) absorbs its ELSE successor `T` (1), whose condition is `leaf 1`; the merge
redirects the edges as claimed, but the second operand of the new condition of `P` is
`leaf 2`, the condition at the last instruction of the THEN successor `t` (2) of `P`. -/
theorem compoundCondAnd_reads_then_successor :
    (compoundCondNode (andProc K0) 0).map (fun r =>
        (r.1.condOf ((andProc K0).lastInstr 0), r.1.edge 0 ELSE, (r.1.blocks 3).inEdges,
          (r.1.blocks 2).inEdges, (r.1.blocks 2).numInEdges, (r.1.blocks 1).flg.INVALID_BB,
          r.2.2)) =
      some (COND_EXPR.boolOp (COND_EXPR.leaf 0) (COND_EXPR.leaf 2) condOp.DBL_AND, some 3,
        [0], [0], 1, true, true) ∧
    (andProc K0).edge 0 THEN = some 2 ∧ (andProc K0).edge 0 ELSE = some 1 ∧
    (andProc K0).condOf ((andProc K0).lastInstr 0) = COND_EXPR.leaf 0 ∧
    (andProc K0).condOf ((andProc K0).lastInstr 1) = COND_EXPR.leaf 1 ∧
    (andProc K0).condOf ((andProc K0).lastInstr 2) = COND_EXPR.leaf 2 :=
  ⟨rfl, rfl, rfl, rfl, rfl, rfl⟩

/-! ## The stages of the structuring pass -/

/-- C24 (amended): `Function::structure` runs four stages in order, the
immediate-dominator solver, the case structurer (only when the flag `hasCase` of the
procedure is set), the loop structurer and the two-way (if) structurer, so that its
resulting state equals the composition of `findImmedDom`, `structCases` if `hasCase`,
`structLoops` and `structIfs` applied to the input state; it does not run the
compound-condition collapser. -/
theorem structurePass_eq_fourStages (K : Sentinels) (fuel : Nat) (P : Function)
    (derivedG : derSeq) :
    structurePass K fuel P derivedG = fourStages K fuel P derivedG := by
  unfold structurePass fourStages caseStage
  cases findImmedDom K fuel P with
  | none => rfl
  | some P1 =>
    simp only [Option.bind]
    cases (if P1.hasCase = true then structCases K fuel P1 else some P1) with
    | none => rfl
    | some P2 =>
      simp only
      cases structLoops K fuel P2 derivedG with
      | none => rfl
      | some P3 => rfl

/-- C24 (counterexample): on the scenario of the pattern `X || Y`, `Function::structure`
leaves the block `T` (1) valid and the condition and the edges of `P` (0) as they were,
while the composition of the five stages collapses the compound condition. -/
theorem structure_does_not_collapse_conditions :
    (structurePass K0 20 (rawOf K0 (orProc K0)) orSeq).map
        (fun P => ((P.blocks 1).flg.INVALID_BB, P.condOf 0, (P.blocks 0).edges)) =
      some (false, COND_EXPR.leaf 0, [1, 3]) ∧
    (fiveStages K0 20 (rawOf K0 (orProc K0)) orSeq).map
        (fun P => ((P.blocks 1).flg.INVALID_BB, P.condOf 0, (P.blocks 0).edges)) =
      some (true, COND_EXPR.boolOp (COND_EXPR.leaf 0) (COND_EXPR.leaf 1) condOp.DBL_OR,
        [2, 3]) :=
  ⟨rfl, rfl⟩

/-- C26 (evaluation at the failing input): in the procedure of two loops with one
header, every `numBackEdges` is 0 beforehand and the header `h` (pointer 11) has two
in-edges that are back edges, from `L1` and from `z`; after `structLoops` its
`numBackEdges` is 3, because `h` heads an interval at the first and at the second level
of the derived sequence and `isBackEdge` counts the edge from `L1` at both. -/
theorem isBackEdge_counts_at_every_level :
    (∀ b ∈ (twoLatchProc K0).dfsLast, ((twoLatchProc K0).blocks b).numBackEdges = 0) ∧
    (structLoops K0 20 (twoLatchProc K0) twoLatchSeq).map
        (fun P => ((P.blocks 11).numBackEdges, P.backInEdges 11, (P.blocks 11).numInEdges)) =
      some (3, [12, 15], 3) := by
  decide

/-! ## The common dominator -/

/-- A property of the entries of the DFS-last table can be checked slot by slot. -/
theorem table_forall (P : Function) (Q : Int → Nat → Prop)
    (h : ∀ k : Fin P.dfsLast.length, Q ((k : Nat) : Int) (P.dfsLast.get k)) :
    ∀ i b, P.dfsLastAt i = some b → Q i b := by
  intro i b hb
  unfold Function.dfsLastAt at hb
  by_cases h0 : 0 ≤ i
  · rw [if_pos h0] at hb
    obtain ⟨hlt, hget⟩ := List.get?_eq_some.mp hb
    have := h ⟨i.toNat, hlt⟩
    simp only at this
    rw [Int.toNat_of_nonneg h0] at this
    rw [← hget]
    exact this
  · rw [if_neg h0] at hb; cases hb

theorem domChain_le (K : Sentinels) (P : Function)
    (hlinks : ∀ i c, P.dfsLastAt i = some c →
      (P.blocks c).immedDom = K.NO_DOM ∨ (P.blocks c).immedDom < i)
    (a z : Int) (h : P.DomChain K a z) : z ≤ a := by
  induction h with
  | self a => exact le_refl _
  | link hb hne _ ih =>
    rcases hlinks _ _ hb with h1 | h1
    · exact absurd h1 hne
    · omega

theorem domChain_step (K : Sentinels) (P : Function) (a z : Int) (c : Nat)
    (h : P.DomChain K a z) (hne : z ≠ a) (hc : P.dfsLastAt a = some c) :
    (P.blocks c).immedDom ≠ K.NO_DOM ∧ P.DomChain K (P.blocks c).immedDom z := by
  cases h with
  | self => exact absurd rfl hne
  | link hb hno hch =>
    rw [hc] at hb
    cases hb
    exact ⟨hno, hch⟩

theorem domChain_has_link (K : Sentinels) (P : Function) (a z : Int)
    (h : P.DomChain K a z) (hne : z ≠ a) : ∃ c, P.dfsLastAt a = some c := by
  cases h with
  | self => exact absurd rfl hne
  | link hb hno hch => exact ⟨_, hb⟩

theorem dfsLastAt_nonneg (P : Function) (i : Int) (c : Nat) (h : P.dfsLastAt i = some c) :
    0 ≤ i := by
  unfold Function.dfsLastAt at h
  by_contra h0
  rw [if_neg h0] at h; cases h

/-- The loop of `commonDom` on two indices with a common ancestor: it ends at the greatest
common ancestor. -/
theorem commonDomLoop_greatest (K : Sentinels) (P : Function)
    (hlinks : ∀ i c, P.dfsLastAt i = some c →
      (P.blocks c).immedDom = K.NO_DOM ∨ (P.blocks c).immedDom < i) :
    ∀ (fuel : Nat) (a b : Int), a ≠ K.NO_DOM → b ≠ K.NO_DOM →
      (∃ z, P.DomChain K a z ∧ P.DomChain K b z) →
      (a + 1).toNat + (b + 1).toNat < fuel →
      ∃ g, commonDomLoop K P fuel a b = some g ∧ P.DomChain K a g ∧ P.DomChain K b g ∧
        ∀ z, P.DomChain K a z → P.DomChain K b z → z ≤ g := by
  intro fuel
  induction fuel with
  | zero => intro a b _ _ _ hf; omega
  | succ fuel ih =>
    intro a b ha hb hz hf
    unfold commonDomLoop
    by_cases hab : a = b
    · subst hab
      rw [if_neg (by simp)]
      exact ⟨a, rfl, Function.DomChain.self a, Function.DomChain.self a,
        fun z hz1 _ => domChain_le K P hlinks a z hz1⟩
    · rw [if_pos ⟨ha, hb, hab⟩]
      obtain ⟨z, hza, hzb⟩ := hz
      have hza' := domChain_le K P hlinks a z hza
      have hzb' := domChain_le K P hlinks b z hzb
      by_cases hlt : a < b
      · rw [if_pos hlt]
        have hne : z ≠ b := by omega
        obtain ⟨c, hc⟩ := domChain_has_link K P b z hzb hne
        rw [hc]
        simp only
        obtain ⟨hno, hch⟩ := domChain_step K P b z c hzb hne hc
        have h0 := dfsLastAt_nonneg P b c hc
        have hlow : (P.blocks c).immedDom < b := by
          rcases hlinks _ _ hc with h1 | h1
          · exact absurd h1 hno
          · exact h1
        obtain ⟨g, hg, hga, hgb, hmax⟩ := ih a (P.blocks c).immedDom ha hno ⟨z, hza, hch⟩
          (by omega)
        refine ⟨g, hg, hga, Function.DomChain.link hc hno hgb, ?_⟩
        intro y hya hyb
        have hya' := domChain_le K P hlinks a y hya
        have hyne : y ≠ b := by omega
        exact hmax y hya (domChain_step K P b y c hyb hyne hc).2
      · rw [if_neg hlt]
        have hne : z ≠ a := by omega
        obtain ⟨c, hc⟩ := domChain_has_link K P a z hza hne
        rw [hc]
        simp only
        obtain ⟨hno, hch⟩ := domChain_step K P a z c hza hne hc
        have h0 := dfsLastAt_nonneg P a c hc
        have hlow : (P.blocks c).immedDom < a := by
          rcases hlinks _ _ hc with h1 | h1
          · exact absurd h1 hno
          · exact h1
        obtain ⟨g, hg, hga, hgb, hmax⟩ := ih (P.blocks c).immedDom b hno hb ⟨z, hch, hzb⟩
          (by omega)
        refine ⟨g, hg, Function.DomChain.link hc hno hga, hgb, ?_⟩
        intro y hya hyb
        have hyb' := domChain_le K P hlinks b y hyb
        have hyne : y ≠ a := by omega
        exact hmax y (domChain_step K P a y c hya hyne hc).2 hyb

/-- C25: on a dominator table in which the `immedDom` of the block at every index is
`NO_DOM` or strictly smaller than the index, and for two defined indices `a` and `b` with
a common ancestor along `immedDom` links, `commonDom(a, b)` returns (with fuel above the
two indices) the greatest index `g` that is an ancestor-or-self of both, `commonDom(b, a)`
returns the same index and `commonDom(a, a)` returns `a`; and for every `x`,
`commonDom(NO_DOM, x)` and `commonDom(x, NO_DOM)` return `x`. -/
theorem commonDom_greatest_common_ancestor (K : Sentinels) (P : Function) (fuel : Nat)
    (a b : Int)
    (hlinks : ∀ i c, P.dfsLastAt i = some c →
      (P.blocks c).immedDom = K.NO_DOM ∨ (P.blocks c).immedDom < i)
    (ha : a ≠ K.NO_DOM) (hb : b ≠ K.NO_DOM)
    (hz : ∃ z, P.DomChain K a z ∧ P.DomChain K b z)
    (hf : (a + 1).toNat + (b + 1).toNat < fuel) :
    (∃ g, commonDom K P fuel a b = some g ∧ P.DomChain K a g ∧ P.DomChain K b g ∧
      (∀ z, P.DomChain K a z → P.DomChain K b z → z ≤ g) ∧
      commonDom K P fuel b a = some g) ∧
    commonDom K P fuel a a = some a ∧
    ∀ x, commonDom K P fuel K.NO_DOM x = some x ∧ commonDom K P fuel x K.NO_DOM = some x := by
  refine ⟨?_, ?_, ?_⟩
  · obtain ⟨g, hg, hga, hgb, hmax⟩ := commonDomLoop_greatest K P hlinks fuel a b ha hb hz hf
    obtain ⟨z, hza, hzb⟩ := hz
    obtain ⟨g', hg', hgb', hga', hmax'⟩ :=
      commonDomLoop_greatest K P hlinks fuel b a hb ha ⟨z, hzb, hza⟩ (by omega)
    have h1 : g' ≤ g := hmax g' hga' hgb'
    have h2 : g ≤ g' := hmax' g hgb hga
    have : g' = g := le_antisymm h1 h2
    subst this
    refine ⟨g', ?_, hga, hgb, hmax, ?_⟩
    · unfold commonDom
      rw [if_neg ha, if_neg hb]; exact hg
    · unfold commonDom
      rw [if_neg hb, if_neg ha]; exact hg'
  · unfold commonDom
    rw [if_neg ha, if_neg ha]
    obtain ⟨n, rfl⟩ : ∃ n, fuel = n + 1 := ⟨fuel - 1, by omega⟩
    unfold commonDomLoop
    rw [if_neg (by simp)]
  · intro x
    unfold commonDom
    refine ⟨by rw [if_pos rfl], ?_⟩
    by_cases hx : x = K.NO_DOM
    · rw [if_pos hx, hx]
    · rw [if_neg hx, if_pos rfl]

theorem commonDom_greatest_common_ancestor_witness :
    (∃ g, commonDom K0 (nestedIfProc K0) 10 2 4 = some g ∧
      (nestedIfProc K0).DomChain K0 2 g ∧ (nestedIfProc K0).DomChain K0 4 g ∧
      (∀ z, (nestedIfProc K0).DomChain K0 2 z → (nestedIfProc K0).DomChain K0 4 z → z ≤ g) ∧
      commonDom K0 (nestedIfProc K0) 10 4 2 = some g) ∧
    commonDom K0 (nestedIfProc K0) 10 2 2 = some 2 ∧
    ∀ x, commonDom K0 (nestedIfProc K0) 10 K0.NO_DOM x = some x ∧
      commonDom K0 (nestedIfProc K0) 10 x K0.NO_DOM = some x :=
  commonDom_greatest_common_ancestor K0 (nestedIfProc K0) 10 2 4
    (table_forall (nestedIfProc K0)
      (fun i c => ((nestedIfProc K0).blocks c).immedDom = K0.NO_DOM ∨
        ((nestedIfProc K0).blocks c).immedDom < i) (by decide))
    (by decide) (by decide)
    ⟨0, Function.DomChain.link (b := 2) rfl (by decide)
          (Function.DomChain.link (b := 1) rfl (by decide) (Function.DomChain.self 0)),
        Function.DomChain.link (b := 4) rfl (by decide) (Function.DomChain.self 0)⟩
    (by decide)

/-! ## Termination of the dominator walk -/

theorem walkSafe_walkStops (K : Sentinels) (P : Function) (hd tD eD : Int) (n b w : Nat)
    (h : P.WalkSafe K hd tD eD n b w) : P.WalkStops hd tD eD n b w := by
  induction h with
  | stop hs => exact Function.WalkStops.stop hs
  | next hno _ _ _ hc _ ih => exact Function.WalkStops.next hno hc ih

theorem walkSafe_exists (K : Sentinels) (P : Function) (hd tD eD : Int)
    (htab : P.DfsLastOK)
    (hbelow : ∀ i b, P.dfsLastAt i = some b → (P.blocks b).immedDom = K.NO_DOM ∨
      (0 ≤ (P.blocks b).immedDom ∧ (P.blocks b).immedDom < (P.blocks b).dfsLastNum))
    (hdef : ∀ i b, P.dfsLastAt i = some b → hd < (P.blocks b).dfsLastNum →
      (P.blocks b).immedDom ≠ K.NO_DOM) :
    ∀ (m : Nat) (b : Nat), P.dfsLastAt (P.blocks b).dfsLastNum = some b →
      (P.blocks b).dfsLastNum < P.numBBs → ((P.blocks b).dfsLastNum - hd).toNat ≤ m →
      ∃ n w, n ≤ ((P.blocks b).dfsLastNum - hd).toNat ∧ P.WalkSafe K hd tD eD n b w := by
  intro m
  induction m with
  | zero =>
    intro b _ _ hm
    exact ⟨0, b, Nat.zero_le _, Function.WalkSafe.stop (Or.inr (Or.inr (by omega)))⟩
  | succ m ih =>
    intro b hb hlt hm
    by_cases hs : (P.blocks b).dfsLastNum = tD ∨ (P.blocks b).dfsLastNum = eD ∨
        (P.blocks b).dfsLastNum ≤ hd
    · exact ⟨0, b, Nat.zero_le _, Function.WalkSafe.stop hs⟩
    · have hgt : hd < (P.blocks b).dfsLastNum := by
        by_contra hc
        exact hs (Or.inr (Or.inr (by omega)))
      have hno := hdef _ _ hb hgt
      have hlow : 0 ≤ (P.blocks b).immedDom ∧
          (P.blocks b).immedDom < (P.blocks b).dfsLastNum := by
        rcases hbelow _ _ hb with h1 | h1
        · exact absurd h1 hno
        · exact h1
      obtain ⟨c, hc, hcn⟩ := dfsLastAt_of_range P htab (P.blocks b).immedDom hlow.1
        (by omega)
      obtain ⟨n, w, hn, hw⟩ := ih c (by rw [hcn]; exact hc) (by omega) (by omega)
      exact ⟨n + 1, w, by omega,
        Function.WalkSafe.next hs hno hlow.1 (by omega) hc hw⟩

/-- C27: if the `immedDom` of every block of the table is `NO_DOM` or an index strictly
smaller than its `dfsLastNum`, `dfsLast[k].dfsLastNum = k` for every `k`, and every block
with a `dfsLastNum` greater than that of the header `H` has a defined `immedDom`, then the
dominator walk of `findNodesInLoop` (the one run for a two-way header and a one-way
latch) from a latch `L` of the table with `L.dfsLastNum >= H.dfsLastNum` stops after
`n <= L.dfsLastNum - H.dfsLastNum` steps, each of which reads the table at an index that
is not `NO_DOM` and is in range, and with more than `n` units of fuel the loop of the
model takes the exit reached at the last block `w`. -/
theorem findNodesInLoopWalk_terminates (K : Sentinels) (M : List Int) (P : Function)
    (H L : Nat) (tD eD : Int)
    (htab : P.DfsLastOK)
    (hbelow : ∀ i b, P.dfsLastAt i = some b → (P.blocks b).immedDom = K.NO_DOM ∨
      (0 ≤ (P.blocks b).immedDom ∧ (P.blocks b).immedDom < (P.blocks b).dfsLastNum))
    (hdef : ∀ i b, P.dfsLastAt i = some b → (P.blocks H).dfsLastNum < (P.blocks b).dfsLastNum →
      (P.blocks b).immedDom ≠ K.NO_DOM)
    (hL : P.dfsLastAt (P.blocks L).dfsLastNum = some L)
    (hLn : (P.blocks L).dfsLastNum < P.numBBs)
    (hge : (P.blocks H).dfsLastNum ≤ (P.blocks L).dfsLastNum) :
    ∃ (n w : Nat), (n : Int) ≤ (P.blocks L).dfsLastNum - (P.blocks H).dfsLastNum ∧
      P.WalkSafe K (P.blocks H).dfsLastNum tD eD n L w ∧
      ∀ fuel, n < fuel →
        findNodesInLoopWalk K M H tD eD fuel P L =
          if (P.blocks w).dfsLastNum = tD then
            some (P.setLoopFollow H eD, w)
          else if (P.blocks w).dfsLastNum = eD then
            some (P.setLoopFollow H tD, w)
          else
            match findEndlessFollow K (P.setLoopType H eNodeHeaderType.ENDLESS_TYPE) M H with
            | none => none
            | some P' => some (P', w) := by
  obtain ⟨n, w, hn, hw⟩ := walkSafe_exists K P (P.blocks H).dfsLastNum tD eD htab hbelow hdef
    _ L hL hLn (le_refl _)
  refine ⟨n, w, by omega, hw, ?_⟩
  exact findNodesInLoopWalk_eq K M H tD eD P n L w (walkSafe_walkStops K P _ _ _ _ _ _ hw)

theorem exitLoopProc_dfsLastOK : (exitLoopProc K0).DfsLastOK := by
  intro k hk
  have hk' : k < 7 := by
    have : ((exitLoopProc K0).numBBs : Int) = 7 := rfl
    omega
  interval_cases k <;> exact ⟨_, rfl, rfl⟩

theorem findNodesInLoopWalk_terminates_witness :
    ∃ (n w : Nat), (n : Int) ≤ ((exitLoopProc K0).blocks 14).dfsLastNum -
        ((exitLoopProc K0).blocks 11).dfsLastNum ∧
      (exitLoopProc K0).WalkSafe K0 ((exitLoopProc K0).blocks 11).dfsLastNum 2 5 n 14 w ∧
      ∀ fuel, n < fuel →
        findNodesInLoopWalk K0 [1, 2, 3, 4] 11 2 5 fuel (exitLoopProc K0) 14 =
          if ((exitLoopProc K0).blocks w).dfsLastNum = 2 then
            some ((exitLoopProc K0).setLoopFollow 11 5, w)
          else if ((exitLoopProc K0).blocks w).dfsLastNum = 5 then
            some ((exitLoopProc K0).setLoopFollow 11 2, w)
          else
            match findEndlessFollow K0
              ((exitLoopProc K0).setLoopType 11 eNodeHeaderType.ENDLESS_TYPE) [1, 2, 3, 4] 11 with
            | none => none
            | some P' => some (P', w) :=
  findNodesInLoopWalk_terminates K0 [1, 2, 3, 4] (exitLoopProc K0) 11 14 2 5
    exitLoopProc_dfsLastOK
    (table_forall (exitLoopProc K0)
      (fun _ b => ((exitLoopProc K0).blocks b).immedDom = K0.NO_DOM ∨
        (0 ≤ ((exitLoopProc K0).blocks b).immedDom ∧
          ((exitLoopProc K0).blocks b).immedDom < ((exitLoopProc K0).blocks b).dfsLastNum))
      (by decide))
    (table_forall (exitLoopProc K0)
      (fun _ b => ((exitLoopProc K0).blocks 11).dfsLastNum <
          ((exitLoopProc K0).blocks b).dfsLastNum →
        ((exitLoopProc K0).blocks b).immedDom ≠ K0.NO_DOM)
      (by decide))
    rfl (by decide) (by decide)

/-! ## The fixed point of the compound conditions -/

/-- A node at which no merge happens leaves the procedure and the index as they are. -/
theorem compoundCondNode_false (P P1 : Function) (i i1 : Int)
    (h : compoundCondNode P i = some (P1, i1, false)) : P1 = P ∧ i1 = i := by
  unfold compoundCondNode at h
  have hmap : ∀ (o : Option (Function × Int)),
      o.map (fun r => (r.1, r.2, true)) = some (P1, i1, false) → False := by
    intro o ho
    cases o with
    | none => cases ho
    | some r =>
      simp only [Option.map_some', Option.some.injEq, Prod.mk.injEq] at ho
      exact Bool.noConfusion ho.2.2
  have hret : some (P, i, false) = some (P1, i1, false) → P1 = P ∧ i1 = i := by
    intro hh
    simp only [Option.some.injEq, Prod.mk.injEq] at hh
    exact ⟨hh.1.symm, hh.2.1.symm⟩
  split at h
  · cases h
  · split at h
    · exact hret h
    · split at h
      · split at h
        · split at h
          · cases h
          · exact (hmap _ h).elim
          · split at h
            · cases h
            · exact (hmap _ h).elim
            · split at h
              · cases h
              · exact (hmap _ h).elim
              · split at h
                · cases h
                · exact (hmap _ h).elim
                · exact hret h
        · cases h
      · exact hret h

/-- A node at which no merge happens: a valid two-way block at the index matches none of
the four patterns. -/
theorem compoundCondNode_no_match (P : Function) (i : Int) (pbb : Nat)
    (h : compoundCondNode P i = some (P, i, false))
    (hp : P.dfsLastAt i = some pbb) (hv : (P.blocks pbb).flg.INVALID_BB = false)
    (hty : (P.blocks pbb).nodeType = eBBKind.TWO_BRANCH) :
    ∃ t e, P.edge pbb THEN = some t ∧ P.edge pbb ELSE = some e ∧
      compoundCondTest P t ELSE e = some false ∧ compoundCondTest P t THEN e = some false ∧
      compoundCondTest P e THEN t = some false ∧ compoundCondTest P e ELSE t = some false := by
  unfold compoundCondNode at h
  rw [hp] at h
  simp only [hv, hty, if_true, Bool.false_eq_true, if_false] at h
  have hmap : ∀ (o : Option (Function × Int)),
      o.map (fun r => (r.1, r.2, true)) = some (P, i, false) → False := by
    intro o ho
    cases o with
    | none => cases ho
    | some r =>
      simp only [Option.map_some', Option.some.injEq, Prod.mk.injEq] at ho
      exact Bool.noConfusion ho.2.2
  cases ht : P.edge pbb THEN with
  | none => rw [ht] at h; cases h
  | some t =>
    cases he : P.edge pbb ELSE with
    | none => rw [ht, he] at h; cases h
    | some e =>
      rw [ht, he] at h
      simp only at h
      refine ⟨t, e, rfl, rfl, ?_⟩
      cases h1 : compoundCondTest P t ELSE e with
      | none => rw [h1] at h; cases h
      | some b1 =>
        rw [h1] at h
        cases b1 with
        | true => exact (hmap _ h).elim
        | false =>
          simp only at h
          cases h2 : compoundCondTest P t THEN e with
          | none => rw [h2] at h; cases h
          | some b2 =>
            rw [h2] at h
            cases b2 with
            | true => exact (hmap _ h).elim
            | false =>
              simp only at h
              cases h3 : compoundCondTest P e THEN t with
              | none => rw [h3] at h; cases h
              | some b3 =>
                rw [h3] at h
                cases b3 with
                | true => exact (hmap _ h).elim
                | false =>
                  simp only at h
                  cases h4 : compoundCondTest P e ELSE t with
                  | none => rw [h4] at h; cases h
                  | some b4 =>
                    rw [h4] at h
                    cases b4 with
                    | true => exact (hmap _ h).elim
                    | false => exact ⟨rfl, rfl, rfl, rfl⟩

/-- A scan that starts with the flag `change` set ends with the flag set. -/
theorem compoundCondScan_true :
    ∀ (fuel : Nat) (P : Function) (i : Int) (P' : Function) (c : Bool),
      compoundCondScan fuel P i true = some (P', c) → c = true := by
  intro fuel
  induction fuel with
  | zero => intro P i P' c h; unfold compoundCondScan at h; cases h
  | succ fuel ih =>
    intro P i P' c h
    unfold compoundCondScan at h
    by_cases hi : i < P.numBBs
    · rw [if_pos hi] at h
      cases hn : compoundCondNode P i with
      | none => rw [hn] at h; cases h
      | some r =>
        obtain ⟨P1, i1, c1⟩ := r
        rw [hn] at h
        simp only [Bool.true_or] at h
        exact ih _ _ _ _ h
    · rw [if_neg hi] at h
      simp only [Option.some.injEq, Prod.mk.injEq] at h
      exact h.2.symm

/-- A scan that ends with the flag `change` clear has merged nothing: the procedure is the
one it started on and no node from the index `i` on matches a pattern. -/
theorem compoundCondScan_false :
    ∀ (fuel : Nat) (P : Function) (i : Int) (P' : Function),
      compoundCondScan fuel P i false = some (P', false) →
      P' = P ∧ ∀ j, i ≤ j → j < P.numBBs → compoundCondNode P j = some (P, j, false) := by
  intro fuel
  induction fuel with
  | zero => intro P i P' h; unfold compoundCondScan at h; cases h
  | succ fuel ih =>
    intro P i P' h
    unfold compoundCondScan at h
    by_cases hi : i < P.numBBs
    · rw [if_pos hi] at h
      cases hn : compoundCondNode P i with
      | none => rw [hn] at h; cases h
      | some r =>
        obtain ⟨P1, i1, c1⟩ := r
        rw [hn] at h
        simp only [Bool.false_or] at h
        cases c1 with
        | true => exact absurd (compoundCondScan_true _ _ _ _ _ h) (by decide)
        | false =>
          obtain ⟨hP1, hi1⟩ := compoundCondNode_false P P1 i i1 hn
          subst hP1; subst hi1
          obtain ⟨hP', hall⟩ := ih _ _ _ h
          refine ⟨hP', ?_⟩
          intro j hj hjn
          by_cases hji : j = i1
          · rw [hji]; exact hn
          · exact hall j (by omega) hjn
    · rw [if_neg hi] at h
      simp only [Option.some.injEq, Prod.mk.injEq] at h
      exact ⟨h.1.symm, fun j hj hjn => absurd (lt_of_le_of_lt hj hjn) hi⟩

/-- The procedure that the loop of `compoundCond` returns is one on which a scan merges
nothing. -/
theorem compoundCondLoop_fixed (fuel : Nat) :
    ∀ (n : Nat) (P P' : Function), compoundCondLoop fuel n P = some P' →
      compoundCondScan fuel P' 0 false = some (P', false) := by
  intro n
  induction n with
  | zero => intro P P' h; unfold compoundCondLoop at h; cases h
  | succ n ih =>
    intro P P' h
    unfold compoundCondLoop at h
    cases hs : compoundCondScan fuel P 0 false with
    | none => rw [hs] at h; cases h
    | some r =>
      obtain ⟨P1, c⟩ := r
      rw [hs] at h
      cases c with
      | true =>
        simp only [if_true] at h
        exact ih _ _ h
      | false =>
        simp only [Bool.false_eq_true, if_false, Option.some.injEq] at h
        subst h
        obtain ⟨hP, _⟩ := compoundCondScan_false _ _ _ _ hs
        rw [hP]
        rw [hP] at hs
        exact hs

/-- C22: when `compoundCond` returns the procedure `P'`, no valid two-way block held in
the DFS-last table of `P'` (at an index below `numBBs`) matches any of the four patterns
of a compound condition, and a second run of `compoundCond` on `P'` performs no merge
(its scan ends with the flag `change` clear) and returns `P'` itself, so the whole state
is unchanged. -/
theorem compoundCond_fixed_point (fuel : Nat) (P P' : Function)
    (h : compoundCond fuel P = some P') :
    (∀ i pbb, i < P'.numBBs → P'.dfsLastAt i = some pbb →
      (P'.blocks pbb).flg.INVALID_BB = false →
      (P'.blocks pbb).nodeType = eBBKind.TWO_BRANCH →
      ∃ t e, P'.edge pbb THEN = some t ∧ P'.edge pbb ELSE = some e ∧
        compoundCondTest P' t ELSE e = some false ∧
        compoundCondTest P' t THEN e = some false ∧
        compoundCondTest P' e THEN t = some false ∧
        compoundCondTest P' e ELSE t = some false) ∧
    compoundCondScan fuel P' 0 false = some (P', false) ∧
    compoundCond fuel P' = some P' := by
  unfold compoundCond at h
  have hs := compoundCondLoop_fixed fuel fuel P P' h
  obtain ⟨_, hall⟩ := compoundCondScan_false _ _ _ _ hs
  refine ⟨?_, hs, ?_⟩
  · intro i pbb hi hp hv hty
    exact compoundCondNode_no_match P' i pbb (hall i (dfsLastAt_nonneg P' i pbb hp) hi)
      hp hv hty
  · unfold compoundCond
    obtain ⟨n, rfl⟩ : ∃ n, fuel = n + 1 := by
      cases fuel with
      | zero => unfold compoundCondLoop at h; cases h
      | succ n => exact ⟨n, rfl⟩
    unfold compoundCondLoop
    rw [hs]
    rfl

theorem compoundCond_fixed_point_witness :
    (∀ i pbb, i < ((compoundCond 10 (orProc K0)).getD (orProc K0)).numBBs →
      ((compoundCond 10 (orProc K0)).getD (orProc K0)).dfsLastAt i = some pbb →
      (((compoundCond 10 (orProc K0)).getD (orProc K0)).blocks pbb).flg.INVALID_BB = false →
      (((compoundCond 10 (orProc K0)).getD (orProc K0)).blocks pbb).nodeType =
        eBBKind.TWO_BRANCH →
      ∃ t e, ((compoundCond 10 (orProc K0)).getD (orProc K0)).edge pbb THEN = some t ∧
        ((compoundCond 10 (orProc K0)).getD (orProc K0)).edge pbb ELSE = some e ∧
        compoundCondTest ((compoundCond 10 (orProc K0)).getD (orProc K0)) t ELSE e =
          some false ∧
        compoundCondTest ((compoundCond 10 (orProc K0)).getD (orProc K0)) t THEN e =
          some false ∧
        compoundCondTest ((compoundCond 10 (orProc K0)).getD (orProc K0)) e THEN t =
          some false ∧
        compoundCondTest ((compoundCond 10 (orProc K0)).getD (orProc K0)) e ELSE t =
          some false) ∧
    compoundCondScan 10 ((compoundCond 10 (orProc K0)).getD (orProc K0)) 0 false =
      some ((compoundCond 10 (orProc K0)).getD (orProc K0), false) ∧
    compoundCond 10 ((compoundCond 10 (orProc K0)).getD (orProc K0)) =
      some ((compoundCond 10 (orProc K0)).getD (orProc K0)) :=
  compoundCond_fixed_point 10 (orProc K0) ((compoundCond 10 (orProc K0)).getD (orProc K0))
    rfl

/-! ## The view of one merge of the compound conditions -/

theorem condView_refl (P : Function) :
    P.CondView P (fun c => (P.blocks c).edges) (fun c => (P.blocks c).inEdges)
      (fun c => (P.blocks c).numInEdges) :=
  ⟨rfl, rfl, fun _ => ⟨rfl, rfl, rfl, rfl, rfl⟩⟩

theorem condView_setExp {P Q : Function} {E I : Nat → List Nat} {N : Nat → Int}
    (v : P.CondView Q E I N) (j : Int) (e : COND_EXPR) : P.CondView (Q.setExp j e) E I N :=
  ⟨v.1, v.2.1, v.2.2⟩

theorem condView_setInEdges {P Q : Function} {E I : Nat → List Nat} {N : Nat → Int}
    (v : P.CondView Q E I N) (b : Nat) (l : List Nat) :
    P.CondView (Q.setInEdges b l) E (fun c => if c = b then l else I c) N := by
  refine ⟨v.1, v.2.1, fun c => ?_⟩
  obtain ⟨h1, h2, h3, h4, h5⟩ := v.2.2 c
  unfold Function.setInEdges Function.setBB
  by_cases hc : c = b
  · subst hc
    simp only [if_true]
    exact ⟨h1, trivial, h3, h4, h5⟩
  · simp only [hc, if_false]
    exact ⟨h1, h2, h3, h4, h5⟩

theorem condView_setNumInEdges {P Q : Function} {E I : Nat → List Nat} {N : Nat → Int}
    (v : P.CondView Q E I N) (b : Nat) (n : Int) :
    P.CondView (Q.setNumInEdges b n) E I (fun c => if c = b then n else N c) := by
  refine ⟨v.1, v.2.1, fun c => ?_⟩
  obtain ⟨h1, h2, h3, h4, h5⟩ := v.2.2 c
  unfold Function.setNumInEdges Function.setBB
  by_cases hc : c = b
  · subst hc
    simp only [if_true]
    exact ⟨h1, h2, trivial, h4, h5⟩
  · simp only [hc, if_false]
    exact ⟨h1, h2, h3, h4, h5⟩

theorem setEdge_cond {P Q Q1 : Function} {E I : Nat → List Nat} {N : Nat → Int}
    {b k x : Nat} (h : Q.setEdge b k x = some Q1) (v : P.CondView Q E I N) :
    k < (E b).length ∧
      P.CondView Q1 (fun c => if c = b then (E b).set k x else E c) I N := by
  unfold Function.setEdge at h
  by_cases hk : k < (Q.blocks b).edges.length
  · rw [if_pos hk] at h
    simp only [Option.some.injEq] at h
    subst h
    refine ⟨by rw [← (v.2.2 b).1]; exact hk, v.1, v.2.1, fun c => ?_⟩
    obtain ⟨h1, h2, h3, h4, h5⟩ := v.2.2 c
    unfold Function.setBB
    by_cases hc : c = b
    · subst hc
      simp only [if_true]
      exact ⟨by rw [h1], h2, h3, h4, h5⟩
    · simp only [hc, if_false]
      exact ⟨h1, h2, h3, h4, h5⟩
  · rw [if_neg hk] at h; cases h

theorem replaceFound_cond {P Q Q1 : Function} {E I : Nat → List Nat} {N : Nat → Int}
    {obb t pbb : Nat} (h : Q.replaceFound obb t pbb = some Q1) (v : P.CondView Q E I N) :
    t ∈ I obb ∧
      P.CondView Q1 E (fun c => if c = obb then replaceFirst t pbb (I obb) else I c) N := by
  unfold Function.replaceFound at h
  by_cases hk : t ∈ (Q.blocks obb).inEdges
  · rw [if_pos hk] at h
    simp only [Option.some.injEq] at h
    subst h
    rw [(v.2.2 obb).2.1] at hk ⊢
    exact ⟨hk, condView_setInEdges v _ _⟩
  · rw [if_neg hk] at h; cases h

theorem eraseFound_cond {P Q Q1 : Function} {E I : Nat → List Nat} {N : Nat → Int}
    {e t : Nat} (h : Q.eraseFound e t = some Q1) (v : P.CondView Q E I N) :
    t ∈ I e ∧
      P.CondView Q1 E (fun c => if c = e then (I e).erase t else I c)
        (fun c => if c = e then N e - 1 else N c) := by
  unfold Function.eraseFound at h
  by_cases hk : t ∈ (Q.blocks e).inEdges
  · rw [if_pos hk] at h
    simp only [Option.some.injEq] at h
    subst h
    have hI := (v.2.2 e).2.1
    have v1 := condView_setInEdges v e ((Q.blocks e).inEdges.erase t)
    have hN := (v1.2.2 e).2.2.1
    have v2 := condView_setNumInEdges v1 e
      (((Q.setInEdges e ((Q.blocks e).inEdges.erase t)).blocks e).numInEdges - 1)
    refine ⟨hI ▸ hk, v2.1, v2.2.1, fun c => ?_⟩
    obtain ⟨h1, h2, h3, h4, h5⟩ := v2.2.2 c
    exact ⟨h1, h2.trans (by simp only [hI]), h3.trans (by simp only [hN]), h4, h5⟩
  · rw [if_neg hk] at h; cases h

theorem assertInEdges_cond {P Q Q1 : Function} {E I : Nat → List Nat} {N : Nat → Int}
    {b : Nat} (h : Q.assertInEdges b = some Q1) (v : P.CondView Q E I N) :
    N b = (I b).length ∧ Q1 = Q := by
  unfold Function.assertInEdges at h
  by_cases hk : (Q.blocks b).numInEdges = (Q.blocks b).inEdges.length
  · rw [if_pos hk] at h
    simp only [Option.some.injEq] at h
    rw [(v.2.2 b).2.1, (v.2.2 b).2.2.1] at hk
    exact ⟨hk, h.symm⟩
  · rw [if_neg hk] at h; cases h

theorem compoundCondEnd_of_some (Q P1 : Function) (pbb t : Nat) (i i1 : Int)
    (h : compoundCondEnd Q pbb t i = some (P1, i1)) :
    P1.blocks = (Q.setInvalid t).blocks ∧ P1.numBBs = Q.numBBs ∧
    (((Q.blocks pbb).flg.IS_LATCH_NODE = false ∧ P1.dfsLast = Q.dfsLast ∧ i1 = i - 1) ∨
      ((Q.blocks pbb).flg.IS_LATCH_NODE = true ∧ i1 = i ∧ 0 ≤ (Q.blocks t).dfsLastNum ∧
        (Q.blocks t).dfsLastNum.toNat < Q.dfsLast.length ∧
        P1.dfsLast = Q.dfsLast.set (Q.blocks t).dfsLastNum.toNat pbb)) := by
  unfold compoundCondEnd at h
  simp only at h
  rw [(setInvalid_view Q t pbb).2.2.2.1, (setInvalid_view Q t t).2.2.2.2.1] at h
  by_cases hl : (Q.blocks pbb).flg.IS_LATCH_NODE = true
  · rw [if_pos hl] at h
    unfold Function.setDfsLast at h
    by_cases hr : 0 ≤ (Q.blocks t).dfsLastNum ∧
        (Q.blocks t).dfsLastNum.toNat < (Q.setInvalid t).dfsLast.length
    · rw [if_pos hr] at h
      simp only [Option.some.injEq, Prod.mk.injEq] at h
      obtain ⟨h1, h2⟩ := h
      subst h1
      exact ⟨rfl, rfl, Or.inr ⟨hl, h2.symm, hr.1, hr.2, rfl⟩⟩
    · rw [if_neg hr] at h; cases h
  · rw [if_neg hl] at h
    simp only [Option.some.injEq, Prod.mk.injEq] at h
    obtain ⟨h1, h2⟩ := h
    subst h1
    exact ⟨rfl, rfl, Or.inl ⟨by simpa using hl, rfl, h2.symm⟩⟩

theorem compoundCondTest_true_inv (P : Function) (n k x : Nat)
    (h : compoundCondTest P n k x = some true) :
    ((P.blocks n).nodeType = eBBKind.TWO_BRANCH ∧ (P.blocks n).numHlIcodes = 1 ∧
      (P.blocks n).numInEdges = 1) ∧ P.edge n k = some x := by
  unfold compoundCondTest at h
  split at h
  · rename_i hc
    refine ⟨hc, ?_⟩
    cases he : P.edge n k with
    | none => rw [he] at h; cases h
    | some y =>
      rw [he] at h
      simp only [Option.some.injEq, decide_eq_true_eq] at h
      rw [h]
  · cases h

theorem replaceInEdge_some_length (t pbb : Nat) :
    ∀ (l : List Nat) (n : Nat) (r : List Nat), replaceInEdge t pbb l n = some r →
      r.length = l.length := by
  intro l
  induction l with
  | nil =>
    intro n r h
    cases n with
    | zero => unfold replaceInEdge at h; cases h; rfl
    | succ n => unfold replaceInEdge at h; cases h
  | cons x xs ih =>
    intro n r h
    cases n with
    | zero => unfold replaceInEdge at h; cases h; rfl
    | succ n =>
      unfold replaceInEdge at h
      by_cases hx : x = t
      · rw [if_pos hx] at h
        cases h; rfl
      · rw [if_neg hx] at h
        cases hr : replaceInEdge t pbb xs n with
        | none => rw [hr] at h; cases h
        | some r1 =>
          rw [hr] at h
          cases h
          simp [ih n r1 hr]

theorem set_then_view (l : List Nat) (o x : Nat) (hx : l.get? ELSE = some x)
    (h : THEN < l.length) :
    ((l.set THEN o).get? THEN = some o ∧ (l.set THEN o).get? ELSE = some x) ∧
    (l.set THEN o).length = l.length ∧
    ∀ k, 2 ≤ k → (l.set THEN o).get? k = l.get? k := by
  refine ⟨⟨get?_set_then_then l o h, by rw [get?_set_then_else]; exact hx⟩, by simp, ?_⟩
  intro k hk
  unfold THEN
  cases l with
  | nil => rfl
  | cons a as =>
    cases k with
    | zero => omega
    | succ k => rfl

theorem set_else_view (l : List Nat) (o x : Nat) (hx : l.get? THEN = some x)
    (h : ELSE < l.length) :
    ((l.set ELSE o).get? THEN = some x ∧ (l.set ELSE o).get? ELSE = some o) ∧
    (l.set ELSE o).length = l.length ∧
    ∀ k, 2 ≤ k → (l.set ELSE o).get? k = l.get? k := by
  refine ⟨⟨by rw [get?_set_else_then]; exact hx, get?_set_else_else l o h⟩, by simp, ?_⟩
  intro k hk
  unfold ELSE
  cases l with
  | nil => rfl
  | cons a as =>
    cases as with
    | nil => rfl
    | cons b bs =>
      cases k with
      | zero => omega
      | succ k =>
        cases k with
        | zero => omega
        | succ k => rfl

theorem set_then_else_view (l : List Nat) (u v : Nat) (h : ELSE < l.length) :
    (((l.set THEN u).set ELSE v).get? THEN = some u ∧
      ((l.set THEN u).set ELSE v).get? ELSE = some v) ∧
    ((l.set THEN u).set ELSE v).length = l.length ∧
    ∀ k, 2 ≤ k → ((l.set THEN u).set ELSE v).get? k = l.get? k := by
  unfold THEN ELSE at *
  cases l with
  | nil => simp at h
  | cons a as =>
    cases as with
    | nil => simp at h
    | cons b bs =>
      refine ⟨⟨rfl, rfl⟩, rfl, ?_⟩
      intro k hk
      cases k with
      | zero => omega
      | succ k =>
        cases k with
        | zero => omega
        | succ k => rfl

/-- The view of a merge from the state before its end. -/
theorem mergeView_of_end (P Q P1 : Function) (i i1 : Int) (pbb a x obb : Nat)
    (E I : Nat → List Nat) (N : Nat → Int) (R : List Nat)
    (hpbb : P.dfsLastAt i = some pbb) (hvalid : (P.blocks pbb).flg.INVALID_BB = false)
    (htwo : (P.blocks pbb).nodeType = eBBKind.TWO_BRANCH)
    (ha : (P.blocks a).nodeType = eBBKind.TWO_BRANCH ∧ (P.blocks a).numHlIcodes = 1 ∧
      (P.blocks a).numInEdges = 1)
    (hedges : (P.edge pbb THEN = some a ∧ P.edge pbb ELSE = some x) ∨
      (P.edge pbb THEN = some x ∧ P.edge pbb ELSE = some a))
    (haedges : (P.edge a THEN = some obb ∧ P.edge a ELSE = some x) ∨
      (P.edge a THEN = some x ∧ P.edge a ELSE = some obb))
    (v : P.CondView Q E I N)
    (hE1 : (((E pbb).get? THEN = some obb ∧ (E pbb).get? ELSE = some x) ∨
        ((E pbb).get? THEN = some x ∧ (E pbb).get? ELSE = some obb)) ∧
      (E pbb).length = (P.blocks pbb).edges.length ∧
      ∀ k, 2 ≤ k → (E pbb).get? k = (P.blocks pbb).edges.get? k)
    (hE4 : ∀ c, c ≠ pbb → E c = (P.blocks c).edges)
    (hR1 : R.length = (P.blocks obb).inEdges.length)
    (hR2 : (P.blocks obb).numInEdges = (P.blocks obb).inEdges.length →
      R = replaceFirst a pbb (P.blocks obb).inEdges)
    (hR3 : a ∈ (if x = obb then R else (P.blocks x).inEdges))
    (hI : ∀ c, I c = if c = x then (if x = obb then R else (P.blocks x).inEdges).erase a
      else if c = obb then R else (P.blocks c).inEdges)
    (hN1 : ∀ c, c ≠ x → N c = (P.blocks c).numInEdges)
    (hN2 : N x = (P.blocks x).numInEdges - 1 ∨ N x = (I x).length)
    (hend : compoundCondEnd Q pbb a i = some (P1, i1)) :
    P.MergeView P1 i i1 pbb a x obb := by
  obtain ⟨hb, hn, ht⟩ := compoundCondEnd_of_some Q P1 pbb a i i1 hend
  have hblk : ∀ c, P1.blocks c = (Q.setInvalid a).blocks c := fun c => by rw [hb]
  have hflgQ : ∀ c, (Q.blocks c).flg = (P.blocks c).flg := fun c => (v.2.2 c).2.2.2.1
  have hdn : (Q.blocks a).dfsLastNum = (P.blocks a).dfsLastNum :=
    show (Q.blocks a).eraseCond.dfsLastNum = (P.blocks a).eraseCond.dfsLastNum from
      congrArg BB.dfsLastNum (v.2.2 a).2.2.2.2
  refine
    { hpbb := hpbb, hvalid := hvalid, htwo := htwo, ha := ha, hedges := hedges,
      haedges := haedges, hedges1 := ?_, hlen := ?_, hrest := ?_, hother := ?_, hin := ?_,
      hnum := ?_, hnumx := ?_, hflg := ?_, hframe := ?_, hnumBBs := hn.trans v.1,
      htable := ?_ }
  · unfold Function.edge
    rw [hblk, (setInvalid_view Q a pbb).1, (v.2.2 pbb).1]
    exact hE1.1
  · rw [hblk, (setInvalid_view Q a pbb).1, (v.2.2 pbb).1]
    exact hE1.2.1
  · intro k hk
    rw [hblk, (setInvalid_view Q a pbb).1, (v.2.2 pbb).1]
    exact hE1.2.2 k hk
  · intro c hc
    rw [hblk, (setInvalid_view Q a c).1, (v.2.2 c).1]
    exact hE4 c hc
  · refine ⟨R, hR1, hR2, hR3, fun c => ?_⟩
    rw [hblk, (setInvalid_view Q a c).2.1, (v.2.2 c).2.1]
    exact hI c
  · intro c hc
    rw [hblk, (setInvalid_view Q a c).2.2.1, (v.2.2 c).2.2.1]
    exact hN1 c hc
  · rw [hblk, (setInvalid_view Q a x).2.2.1, (setInvalid_view Q a x).2.1, (v.2.2 x).2.2.1,
      (v.2.2 x).2.1]
    exact hN2
  · intro c
    rw [hblk]
    unfold Function.setInvalid Function.setBB
    by_cases hc : c = a
    · subst hc
      simp only [if_true]
      rw [hflgQ]
    · simp only [hc, if_false]
      exact hflgQ c
  · intro c
    rw [hblk]
    have : ((Q.setInvalid a).blocks c).eraseCond = (Q.blocks c).eraseCond := by
      unfold Function.setInvalid Function.setBB
      by_cases hc : c = a
      · subst hc
        simp only [if_true]
        rfl
      · simp only [hc, if_false]
    rw [this]
    exact (v.2.2 c).2.2.2.2
  · rw [hflgQ, hdn, v.2.1] at ht
    exact ht

/-- The view of the merge of the pattern `X || Y`. -/
theorem compoundCondOr_view (P P1 : Function) (i i1 : Int) (pbb t e : Nat)
    (hpbb : P.dfsLastAt i = some pbb) (hvalid : (P.blocks pbb).flg.INVALID_BB = false)
    (htwo : (P.blocks pbb).nodeType = eBBKind.TWO_BRANCH)
    (ht : P.edge pbb THEN = some t) (he : P.edge pbb ELSE = some e)
    (htest : compoundCondTest P t ELSE e = some true)
    (h : compoundCondOr P pbb t e i = some (P1, i1)) :
    ∃ obb, P.MergeView P1 i i1 pbb t e obb := by
  obtain ⟨ha, hte⟩ := compoundCondTest_true_inv P t ELSE e htest
  unfold compoundCondOr at h
  cases hobb : P.edge t THEN with
  | none => rw [hobb] at h; cases h
  | some obb =>
    rw [hobb] at h
    simp only at h
    split at h
    · cases h
    · rename_i l hl
      split at h
      · cases h
      · rename_i P3 h3
        split at h
        · cases h
        · rename_i P4 h4
          split at h
          · cases h
          · rename_i P5 h5
            have v2 := condView_setInEdges (condView_setExp (condView_refl P)
              (P.lastInstr pbb) (COND_EXPR.boolOp (P.condOf (P.lastInstr pbb))
                (P.condOf (P.lastInstr t)) condOp.DBL_OR)) obb l
            obtain ⟨hk3, v3⟩ := setEdge_cond h3 v2
            obtain ⟨hm4, v4⟩ := eraseFound_cond h4 v3
            obtain ⟨hn5, h55⟩ := assertInEdges_cond h5 v4
            subst h55
            have hlen := replaceInEdge_some_length t pbb _ _ l hl
            have hpe : (P.blocks pbb).edges.get? ELSE = some e := he
            refine ⟨obb, mergeView_of_end P P5 P1 i i1 pbb t e obb _ _ _ l hpbb hvalid htwo ha
              (Or.inl ⟨ht, he⟩) (Or.inl ⟨hobb, hte⟩) v4 ?_ ?_ hlen ?_ ?_ ?_ ?_ ?_ h⟩
            · simp only [if_true]
              have := set_then_view (P.blocks pbb).edges obb e hpe (by simpa using hk3)
              exact ⟨Or.inl this.1, this.2⟩
            · intro c hc
              simp only [hc, if_false]
            · intro hnum
              have h1 : (P.blocks obb).numInEdges.toNat = (P.blocks obb).inEdges.length := by
                omega
              have hl1 : replaceInEdge t pbb (P.blocks obb).inEdges
                  (P.blocks obb).numInEdges.toNat = some l := hl
              rw [h1, replaceInEdge_length] at hl1
              simp only [Option.some.injEq] at hl1
              exact hl1.symm
            · by_cases hx : e = obb
              · simp only [hx, if_true] at hm4 ⊢
                exact hm4
              · simp only [hx, if_false] at hm4 ⊢
                exact hm4
            · intro c
              by_cases hx : e = obb
              · subst hx
                by_cases hc : c = e
                · simp only [hc, if_true]
                · simp only [hc, if_false]
              · by_cases hc : c = e
                · subst hc
                  simp only [hx, if_true, if_false]
                · simp only [hc, if_false]
            · intro c hc
              simp only [hc, if_false]
            · right
              simp only [if_true] at hn5 ⊢
              exact hn5

/-- The view of the merge of the pattern `!X && Y`. -/
theorem compoundCondNotAnd_view (P P1 : Function) (i i1 : Int) (pbb t e : Nat)
    (hpbb : P.dfsLastAt i = some pbb) (hvalid : (P.blocks pbb).flg.INVALID_BB = false)
    (htwo : (P.blocks pbb).nodeType = eBBKind.TWO_BRANCH)
    (ht : P.edge pbb THEN = some t) (he : P.edge pbb ELSE = some e)
    (htest : compoundCondTest P t THEN e = some true)
    (h : compoundCondNotAnd P pbb t e i = some (P1, i1)) :
    ∃ obb, P.MergeView P1 i i1 pbb t e obb := by
  obtain ⟨ha, hte⟩ := compoundCondTest_true_inv P t THEN e htest
  unfold compoundCondNotAnd at h
  cases hobb : P.edge t ELSE with
  | none => rw [hobb] at h; cases h
  | some obb =>
    rw [hobb] at h
    simp only at h
    split at h
    · cases h
    · rename_i P2 h2
      split at h
      · cases h
      · rename_i P3 h3
        split at h
        · cases h
        · rename_i P4 h4
          split at h
          · cases h
          · rename_i P5 h5
            split at h
            · cases h
            · rename_i P6 h6
              obtain ⟨hm2, v2⟩ := replaceFound_cond h2
                (condView_setExp (condView_setExp (condView_refl P) _ _) _ _)
              obtain ⟨hk3, v3⟩ := setEdge_cond h3 v2
              obtain ⟨hk4, v4⟩ := setEdge_cond h4 v3
              obtain ⟨hm5, v5⟩ := eraseFound_cond h5 v4
              obtain ⟨hn6, h66⟩ := assertInEdges_cond h6 v5
              subst h66
              refine ⟨obb, mergeView_of_end P P6 P1 i i1 pbb t e obb _ _ _
                (replaceFirst t pbb (P.blocks obb).inEdges) hpbb hvalid htwo ha
                (Or.inl ⟨ht, he⟩) (Or.inr ⟨hte, hobb⟩) v5 ?_ ?_ (replaceFirst_length _ _ _)
                (fun _ => rfl) ?_ ?_ ?_ ?_ h⟩
              · simp only [if_true]
                have := set_then_else_view (P.blocks pbb).edges e obb (by simpa using hk4)
                exact ⟨Or.inr this.1, this.2⟩
              · intro c hc
                simp only [hc, if_false]
              · by_cases hx : e = obb
                · simp only [hx, if_true] at hm5 ⊢
                  exact hm5
                · simp only [hx, if_false] at hm5 ⊢
                  exact hm5
              · intro c
                by_cases hx : e = obb
                · subst hx
                  by_cases hc : c = e
                  · simp only [hc, if_true]
                  · simp only [hc, if_false]
                · by_cases hc : c = e
                  · subst hc
                    simp only [hx, if_true, if_false]
                  · simp only [hc, if_false]
              · intro c hc
                simp only [hc, if_false]
              · left
                simp only [if_true]

/-- The view of the merge of the pattern `X && Y`. -/
theorem compoundCondAnd_view (P P1 : Function) (i i1 : Int) (pbb t e : Nat)
    (hpbb : P.dfsLastAt i = some pbb) (hvalid : (P.blocks pbb).flg.INVALID_BB = false)
    (htwo : (P.blocks pbb).nodeType = eBBKind.TWO_BRANCH)
    (ht : P.edge pbb THEN = some t) (he : P.edge pbb ELSE = some e)
    (htest : compoundCondTest P e THEN t = some true)
    (h : compoundCondAnd P pbb t e i = some (P1, i1)) :
    ∃ obb, P.MergeView P1 i i1 pbb e t obb := by
  obtain ⟨ha, hte⟩ := compoundCondTest_true_inv P e THEN t htest
  unfold compoundCondAnd at h
  cases hobb : P.edge e ELSE with
  | none => rw [hobb] at h; cases h
  | some obb =>
    rw [hobb] at h
    simp only at h
    split at h
    · cases h
    · rename_i P2 h2
      split at h
      · cases h
      · rename_i P3 h3
        split at h
        · cases h
        · rename_i P4 h4
          split at h
          · cases h
          · rename_i P5 h5
            obtain ⟨hm2, v2⟩ := replaceFound_cond h2
              (condView_setExp (condView_refl P) _ _)
            obtain ⟨hk3, v3⟩ := setEdge_cond h3 v2
            obtain ⟨hm4, v4⟩ := eraseFound_cond h4 v3
            obtain ⟨hn5, h55⟩ := assertInEdges_cond h5 v4
            subst h55
            have hpt : (P.blocks pbb).edges.get? THEN = some t := ht
            refine ⟨obb, mergeView_of_end P P5 P1 i i1 pbb e t obb _ _ _
              (replaceFirst e pbb (P.blocks obb).inEdges) hpbb hvalid htwo ha
              (Or.inr ⟨ht, he⟩) (Or.inr ⟨hte, hobb⟩) v4 ?_ ?_ (replaceFirst_length _ _ _)
              (fun _ => rfl) ?_ ?_ ?_ ?_ h⟩
            · simp only [if_true]
              have := set_else_view (P.blocks pbb).edges obb t hpt (by simpa using hk3)
              exact ⟨Or.inr this.1, this.2⟩
            · intro c hc
              simp only [hc, if_false]
            · by_cases hx : t = obb
              · simp only [hx, if_true] at hm4 ⊢
                exact hm4
              · simp only [hx, if_false] at hm4 ⊢
                exact hm4
            · intro c
              by_cases hx : t = obb
              · subst hx
                by_cases hc : c = t
                · simp only [hc, if_true]
                · simp only [hc, if_false]
              · by_cases hc : c = t
                · subst hc
                  simp only [hx, if_true, if_false]
                · simp only [hc, if_false]
            · intro c hc
              simp only [hc, if_false]
            · right
              simp only [if_true] at hn5 ⊢
              exact hn5

/-- The view of the merge of the pattern `!X || Y`. -/
theorem compoundCondNotOr_view (P P1 : Function) (i i1 : Int) (pbb t e : Nat)
    (hpbb : P.dfsLastAt i = some pbb) (hvalid : (P.blocks pbb).flg.INVALID_BB = false)
    (htwo : (P.blocks pbb).nodeType = eBBKind.TWO_BRANCH)
    (ht : P.edge pbb THEN = some t) (he : P.edge pbb ELSE = some e)
    (htest : compoundCondTest P e ELSE t = some true)
    (h : compoundCondNotOr P pbb t e i = some (P1, i1)) :
    ∃ obb, P.MergeView P1 i i1 pbb e t obb := by
  obtain ⟨ha, hte⟩ := compoundCondTest_true_inv P e ELSE t htest
  unfold compoundCondNotOr at h
  cases hobb : P.edge e THEN with
  | none => rw [hobb] at h; cases h
  | some obb =>
    rw [hobb] at h
    simp only at h
    split at h
    · cases h
    · rename_i P2 h2
      split at h
      · cases h
      · rename_i P3 h3
        split at h
        · cases h
        · rename_i P4 h4
          split at h
          · cases h
          · rename_i P5 h5
            split at h
            · cases h
            · rename_i P6 h6
              split at h
              · cases h
              · obtain ⟨_, h22⟩ := assertInEdges_cond h2
                  (condView_setExp (condView_setExp (condView_refl P) _ _) _ _)
                subst h22
                obtain ⟨hm3, v3⟩ := replaceFound_cond h3
                  (condView_setExp (condView_setExp (condView_refl P) _ _) _ _)
                obtain ⟨hk4, v4⟩ := setEdge_cond h4 v3
                obtain ⟨hk5, v5⟩ := setEdge_cond h5 v4
                obtain ⟨hm6, v6⟩ := eraseFound_cond h6 v5
                have v7 := condView_setNumInEdges v6 t ((P6.blocks t).inEdges.length : Int)
                refine ⟨obb, mergeView_of_end P _ P1 i i1 pbb e t obb _ _ _
                  (replaceFirst e pbb (P.blocks obb).inEdges) hpbb hvalid htwo ha
                  (Or.inr ⟨ht, he⟩) (Or.inl ⟨hobb, hte⟩) v7 ?_ ?_ (replaceFirst_length _ _ _)
                  (fun _ => rfl) ?_ ?_ ?_ ?_ h⟩
                · simp only [if_true]
                  have := set_then_else_view (P.blocks pbb).edges obb t (by simpa using hk5)
                  exact ⟨Or.inl this.1, this.2⟩
                · intro c hc
                  simp only [hc, if_false]
                · by_cases hx : t = obb
                  · simp only [hx, if_true] at hm6 ⊢
                    exact hm6
                  · simp only [hx, if_false] at hm6 ⊢
                    exact hm6
                · intro c
                  by_cases hx : t = obb
                  · subst hx
                    by_cases hc : c = t
                    · simp only [hc, if_true]
                    · simp only [hc, if_false]
                  · by_cases hc : c = t
                    · subst hc
                      simp only [hx, if_true, if_false]
                    · simp only [hc, if_false]
                · intro c hc
                  simp only [hc, if_false]
                · right
                  have := (v6.2.2 t).2.1
                  simp only [if_true] at this ⊢
                  rw [this]

/-- Every merge of `compoundCond` has the view of a merge. -/
theorem compoundCondNode_view (P P1 : Function) (i i1 : Int)
    (h : compoundCondNode P i = some (P1, i1, true)) :
    ∃ pbb a x obb, P.MergeView P1 i i1 pbb a x obb := by
  unfold compoundCondNode at h
  have hmap : ∀ (o : Option (Function × Int)),
      o.map (fun r => (r.1, r.2, true)) = some (P1, i1, true) → o = some (P1, i1) := by
    intro o ho
    cases o with
    | none => cases ho
    | some r =>
      simp only [Option.map_some', Option.some.injEq, Prod.mk.injEq] at ho
      obtain ⟨r1, r2⟩ := r
      simp only at ho
      rw [ho.1, ho.2.1]
  have hret : some (P, i, false) = some (P1, i1, true) → False := by
    intro hh
    simp only [Option.some.injEq, Prod.mk.injEq] at hh
    exact Bool.noConfusion hh.2.2
  cases hp : P.dfsLastAt i with
  | none => rw [hp] at h; cases h
  | some pbb =>
    rw [hp] at h
    simp only at h
    by_cases hv : (P.blocks pbb).flg.INVALID_BB = true
    · rw [if_pos hv] at h
      exact (hret h).elim
    · rw [if_neg hv] at h
      have hv' : (P.blocks pbb).flg.INVALID_BB = false := by simpa using hv
      by_cases hty : (P.blocks pbb).nodeType = eBBKind.TWO_BRANCH
      · rw [if_pos hty] at h
        cases ht : P.edge pbb THEN with
        | none => rw [ht] at h; cases h
        | some t =>
          cases he : P.edge pbb ELSE with
          | none => rw [ht, he] at h; cases h
          | some e =>
            rw [ht, he] at h
            simp only at h
            cases h1 : compoundCondTest P t ELSE e with
            | none => rw [h1] at h; cases h
            | some b1 =>
              rw [h1] at h
              cases b1 with
              | true =>
                obtain ⟨obb, hm⟩ := compoundCondOr_view P P1 i i1 pbb t e hp hv' hty ht he h1
                  (hmap _ h)
                exact ⟨pbb, t, e, obb, hm⟩
              | false =>
                simp only at h
                cases h2 : compoundCondTest P t THEN e with
                | none => rw [h2] at h; cases h
                | some b2 =>
                  rw [h2] at h
                  cases b2 with
                  | true =>
                    obtain ⟨obb, hm⟩ := compoundCondNotAnd_view P P1 i i1 pbb t e hp hv' hty
                      ht he h2 (hmap _ h)
                    exact ⟨pbb, t, e, obb, hm⟩
                  | false =>
                    simp only at h
                    cases h3 : compoundCondTest P e THEN t with
                    | none => rw [h3] at h; cases h
                    | some b3 =>
                      rw [h3] at h
                      cases b3 with
                      | true =>
                        obtain ⟨obb, hm⟩ := compoundCondAnd_view P P1 i i1 pbb t e hp hv' hty
                          ht he h3 (hmap _ h)
                        exact ⟨pbb, e, t, obb, hm⟩
                      | false =>
                        simp only at h
                        cases h4 : compoundCondTest P e ELSE t with
                        | none => rw [h4] at h; cases h
                        | some b4 =>
                          rw [h4] at h
                          cases b4 with
                          | true =>
                            obtain ⟨obb, hm⟩ := compoundCondNotOr_view P P1 i i1 pbb t e hp hv'
                              hty ht he h4 (hmap _ h)
                            exact ⟨pbb, e, t, obb, hm⟩
                          | false => exact (hret h).elim
      · rw [if_neg hty] at h
        exact (hret h).elim

/-! ## Invariants of the run of the compound conditions -/

/-- A property of the procedure that every merge keeps holds at every state of a run. -/
theorem condRun_inv (Inv : Function → Prop)
    (hstep : ∀ (P P1 : Function) (i i1 : Int) (pbb a x obb : Nat), Inv P →
      P.MergeView P1 i i1 pbb a x obb → Inv P1)
    (P0 : Function) (h0 : Inv P0) (P : Function) (i : Int) (c : Bool) (m : Nat)
    (h : CondRun P0 P i c m) : Inv P := by
  induction h with
  | start => exact h0
  | @node Q Q1 j j1 c0 c1 m0 _ _ hn ih =>
    cases c1 with
    | true =>
      obtain ⟨pbb, a, x, obb, hv⟩ := compoundCondNode_view Q Q1 j j1 hn
      exact hstep _ _ _ _ _ _ _ _ ih hv
    | false =>
      rw [(compoundCondNode_false Q Q1 j j1 hn).1]
      exact ih
  | again _ _ ih => exact ih

/-- The state at which a scan returns is a state of the run. -/
theorem compoundCondScan_run (P0 : Function) :
    ∀ (fuel : Nat) (P : Function) (i : Int) (c : Bool) (m : Nat) (P1 : Function) (c1 : Bool),
      CondRun P0 P i c m → compoundCondScan fuel P i c = some (P1, c1) →
      ∃ i1 m1, CondRun P0 P1 i1 c1 m1 ∧ ¬ i1 < P1.numBBs := by
  intro fuel
  induction fuel with
  | zero => intro P i c m P1 c1 _ h; unfold compoundCondScan at h; cases h
  | succ fuel ih =>
    intro P i c m P1 c1 hr h
    unfold compoundCondScan at h
    by_cases hi : i < P.numBBs
    · rw [if_pos hi] at h
      cases hn : compoundCondNode P i with
      | none => rw [hn] at h; cases h
      | some r =>
        obtain ⟨Q, j, d⟩ := r
        rw [hn] at h
        exact ih _ _ _ _ _ _ (CondRun.node hr hi hn) h
    · rw [if_neg hi] at h
      simp only [Option.some.injEq, Prod.mk.injEq] at h
      obtain ⟨h1, h2⟩ := h
      subst h1; subst h2
      exact ⟨i, m, hr, hi⟩

/-- The procedure that the loop of `compoundCond` returns is a state of the run. -/
theorem compoundCondLoop_run (P0 : Function) (fuel : Nat) :
    ∀ (n : Nat) (P : Function) (m : Nat) (P1 : Function),
      CondRun P0 P 0 false m → compoundCondLoop fuel n P = some P1 →
      ∃ i1 c1 m1, CondRun P0 P1 i1 c1 m1 := by
  intro n
  induction n with
  | zero => intro P m P1 _ h; unfold compoundCondLoop at h; cases h
  | succ n ih =>
    intro P m P1 hr h
    unfold compoundCondLoop at h
    cases hs : compoundCondScan fuel P 0 false with
    | none => rw [hs] at h; cases h
    | some r =>
      obtain ⟨Q, c⟩ := r
      rw [hs] at h
      obtain ⟨i1, m1, hr1, hi1⟩ := compoundCondScan_run P0 fuel P 0 false m Q c hr hs
      cases c with
      | true =>
        simp only [if_true] at h
        exact ih _ _ _ (CondRun.again hr1 hi1) h
      | false =>
        simp only [Bool.false_eq_true, if_false, Option.some.injEq] at h
        subst h
        exact ⟨i1, false, m1, hr1⟩

theorem compoundCond_run (P0 : Function) (fuel : Nat) (P1 : Function)
    (h : compoundCond fuel P0 = some P1) : ∃ i1 c1 m1, CondRun P0 P1 i1 c1 m1 :=
  compoundCondLoop_run P0 fuel fuel P0 0 P1 CondRun.start h

/-- A merge keeps the in-edge counters equal to the sizes of the in-edge vectors. -/
theorem mergeView_numInOK (P P1 : Function) (i i1 : Int) (pbb a x obb : Nat)
    (hP : P.NumInOK) (hv : P.MergeView P1 i i1 pbb a x obb) : P1.NumInOK := by
  obtain ⟨R, hR1, _, hR3, hI⟩ := hv.hin
  have hL : (if x = obb then R else (P.blocks x).inEdges).length =
      (P.blocks x).inEdges.length := by
    by_cases hx : x = obb
    · rw [if_pos hx, hR1, hx]
    · rw [if_neg hx]
  intro c
  by_cases hc : c = x
  · subst hc
    rcases hv.hnumx with h1 | h1
    · rw [h1, hI, if_pos rfl, List.length_erase_of_mem hR3, hL, hP c]
      have : 0 < (if c = obb then R else (P.blocks c).inEdges).length :=
        List.length_pos_of_mem hR3
      rw [hL] at this
      omega
    · exact h1
  · rw [hv.hnum c hc, hI, if_neg hc, hP c]
    by_cases hco : c = obb
    · rw [if_pos hco, hR1, hco]
    · rw [if_neg hco]

/-- C21: if every block satisfies `inEdges.size() = numInEdges` before `compoundCond`,
then every block satisfies it at every state that the run passes through, so after every
merge step of each of the four patterns, and in the procedure that `compoundCond`
returns. -/
theorem compoundCond_keeps_numInEdges (P : Function) (h : P.NumInOK) :
    (∀ (Q : Function) (i : Int) (c : Bool) (m : Nat), CondRun P Q i c m → Q.NumInOK) ∧
    ∀ (fuel : Nat) (P1 : Function), compoundCond fuel P = some P1 → P1.NumInOK := by
  have key := condRun_inv Function.NumInOK mergeView_numInOK P h
  refine ⟨key, ?_⟩
  intro fuel P1 hP1
  obtain ⟨i1, c1, m1, hr⟩ := compoundCond_run P fuel P1 hP1
  exact key _ _ _ _ hr

theorem orProc_numInOK : (orProc K0).NumInOK := by
  intro b
  unfold orProc
  simp only
  split <;> rfl

theorem compoundCond_keeps_numInEdges_witness :
    (∀ (Q : Function) (i : Int) (c : Bool) (m : Nat),
      CondRun (orProc K0) Q i c m → Q.NumInOK) ∧
    ∀ (fuel : Nat) (P1 : Function), compoundCond fuel (orProc K0) = some P1 → P1.NumInOK :=
  compoundCond_keeps_numInEdges (orProc K0) orProc_numInOK

/-! ## The DFS-last table under the merges -/

theorem dfsLastAt_set (P Q : Function) (j : Nat) (p : Nat)
    (hQ : Q.dfsLast = P.dfsLast.set j p) (k : Int) (b : Nat)
    (h : Q.dfsLastAt k = some b) : (k = j ∧ b = p) ∨ (k ≠ j ∧ P.dfsLastAt k = some b) := by
  unfold Function.dfsLastAt at h ⊢
  by_cases h0 : 0 ≤ k
  · rw [if_pos h0] at h ⊢
    rw [hQ] at h
    by_cases hk : k.toNat = j
    · left
      rw [hk] at h
      have hlt : j < (P.dfsLast.set j p).length := (List.get?_eq_some.mp h).1
      rw [List.get?_eq_getElem?, List.getElem?_eq_getElem hlt, List.getElem_set_self] at h
      simp only [Option.some.injEq] at h
      exact ⟨by omega, h.symm⟩
    · right
      rw [List.get?_eq_getElem?, List.getElem?_set_ne (Ne.symm hk), ← List.get?_eq_getElem?]
        at h
      exact ⟨by omega, h⟩
  · rw [if_neg h0] at h; cases h

/-- A merge re-points a slot of the DFS-last table only to a latching node. -/
theorem mergeView_slots (P P1 : Function) (i i1 : Int) (pbb a x obb : Nat)
    (hP : ∀ k b, P.dfsLastAt k = some b →
      (P.blocks b).flg.IS_LATCH_NODE = true ∨ (P.blocks b).dfsLastNum = k)
    (hv : P.MergeView P1 i i1 pbb a x obb) :
    ∀ k b, P1.dfsLastAt k = some b →
      (P1.blocks b).flg.IS_LATCH_NODE = true ∨ (P1.blocks b).dfsLastNum = k := by
  have hlatch : ∀ c, (P1.blocks c).flg.IS_LATCH_NODE = (P.blocks c).flg.IS_LATCH_NODE := by
    intro c
    rw [hv.hflg c]
    by_cases hc : c = a
    · rw [if_pos hc]
    · rw [if_neg hc]
  have hnum : ∀ c, (P1.blocks c).dfsLastNum = (P.blocks c).dfsLastNum := fun c =>
    show (P1.blocks c).eraseCond.dfsLastNum = (P.blocks c).eraseCond.dfsLastNum from
      congrArg BB.dfsLastNum (hv.hframe c)
  intro k b hb
  rw [hlatch, hnum]
  rcases hv.htable with ⟨_, ht, _⟩ | ⟨hl, _, _, _, ht⟩
  · have : P.dfsLastAt k = some b := by
      unfold Function.dfsLastAt at hb ⊢
      rw [ht] at hb
      exact hb
    exact hP k b this
  · rcases dfsLastAt_set P P1 _ pbb ht k b hb with ⟨_, hbp⟩ | ⟨_, hb'⟩
    · left
      rw [hbp]; exact hl
    · exact hP k b hb'

/-- C30 (amended): if before the call `dfsLast[k].dfsLastNum = k` for every slot `k`, then
at every state of the run of `compoundCond` and in the procedure that it returns every
slot `k` whose block does not carry `IS_LATCH_NODE` still satisfies
`dfsLast[k].dfsLastNum = k`, whether the block is `INVALID_BB` or not: a slot is only ever
re-pointed to an absorbing block that carries `IS_LATCH_NODE`. -/
theorem compoundCond_keeps_slots_of_non_latch (P : Function) (h : P.SlotsOK) :
    (∀ (Q : Function) (i : Int) (c : Bool) (m : Nat), CondRun P Q i c m →
      ∀ k b, Q.dfsLastAt k = some b → (Q.blocks b).flg.IS_LATCH_NODE = false →
        (Q.blocks b).dfsLastNum = k) ∧
    ∀ (fuel : Nat) (P1 : Function), compoundCond fuel P = some P1 →
      ∀ k b, P1.dfsLastAt k = some b → (P1.blocks b).flg.IS_LATCH_NODE = false →
        (P1.blocks b).dfsLastNum = k := by
  have key := condRun_inv
    (fun Q => ∀ k b, Q.dfsLastAt k = some b →
      (Q.blocks b).flg.IS_LATCH_NODE = true ∨ (Q.blocks b).dfsLastNum = k)
    mergeView_slots P (fun k b hb => Or.inr (h k b hb))
  have key' : ∀ (Q : Function) (i : Int) (c : Bool) (m : Nat), CondRun P Q i c m →
      ∀ k b, Q.dfsLastAt k = some b → (Q.blocks b).flg.IS_LATCH_NODE = false →
        (Q.blocks b).dfsLastNum = k := by
    intro Q i c m hr k b hb hl
    rcases key Q i c m hr k b hb with h1 | h1
    · rw [hl] at h1; cases h1
    · exact h1
  refine ⟨key', ?_⟩
  intro fuel P1 hP1
  obtain ⟨i1, c1, m1, hr⟩ := compoundCond_run P fuel P1 hP1
  exact key' _ _ _ _ hr

theorem orProc_slotsOK : (orProc K0).SlotsOK :=
  table_forall (orProc K0) (fun k b => ((orProc K0).blocks b).dfsLastNum = k) (by decide)

theorem compoundCond_keeps_slots_of_non_latch_witness :
    (∀ (Q : Function) (i : Int) (c : Bool) (m : Nat), CondRun (orProc K0) Q i c m →
      ∀ k b, Q.dfsLastAt k = some b → (Q.blocks b).flg.IS_LATCH_NODE = false →
        (Q.blocks b).dfsLastNum = k) ∧
    ∀ (fuel : Nat) (P1 : Function), compoundCond fuel (orProc K0) = some P1 →
      ∀ k b, P1.dfsLastAt k = some b → (P1.blocks b).flg.IS_LATCH_NODE = false →
        (P1.blocks b).dfsLastNum = k :=
  compoundCond_keeps_slots_of_non_latch (orProc K0) orProc_slotsOK

/-- C30 (counterexample): in the loop whose latching node `P` (pointer 1) absorbs the
header `H` (pointer 0), every slot holds a block with its own index before the call;
`compoundCond` returns with the slot 0 holding `P`, which is not `INVALID_BB` and whose
`dfsLastNum` is 1. -/
theorem latch_slot_holds_absorbing_block :
    (latchCondProc K0).dfsLast.map (fun b => ((latchCondProc K0).blocks b).dfsLastNum) =
      [0, 1, 2] ∧
    (compoundCond 10 (latchCondProc K0)).map
        (fun Q => (Q.dfsLastAt 0, (Q.blocks 1).flg.INVALID_BB, (Q.blocks 1).dfsLastNum)) =
      some (some 1, false, 1) := by
  decide

/-! ## Edge consistency under the merges -/

theorem count_pair (l : List Nat) (u v : Nat) (hl : l.length = 2)
    (h : (l.get? THEN = some u ∧ l.get? ELSE = some v) ∨
      (l.get? THEN = some v ∧ l.get? ELSE = some u)) (s : Nat) :
    l.count s = (if s = u then 1 else 0) + (if s = v then 1 else 0) := by
  unfold THEN ELSE at h
  match l, hl with
  | [p, q], _ =>
    simp only [List.get?_cons_zero, List.get?_cons_succ, Option.some.injEq] at h
    simp only [List.count_cons, List.count_nil, beq_iff_eq]
    rcases h with ⟨h1, h2⟩ | ⟨h1, h2⟩ <;> split_ifs <;> omega

theorem mem_of_get_some (l : List Nat) (k u : Nat) (h : l.get? k = some u) : u ∈ l := by
  obtain ⟨hlt, hget⟩ := List.get?_eq_some.mp h
  rw [← hget]
  exact List.get_mem l k hlt

theorem count_replaceFirst (a b : Nat) :
    ∀ l : List Nat, a ∈ l → ∀ p,
      (replaceFirst a b l).count p + (if p = a then 1 else 0) =
        l.count p + (if p = b then 1 else 0) := by
  intro l
  induction l with
  | nil => intro h; cases h
  | cons y ys ih =>
    intro h p
    unfold replaceFirst
    by_cases hy : y = a
    · rw [if_pos hy]
      simp only [List.count_cons, beq_iff_eq]
      split_ifs <;> omega
    · rw [if_neg hy]
      have hmem : a ∈ ys := by
        rcases List.mem_cons.mp h with h1 | h1
        · exact absurd h1.symm hy
        · exact h1
      have := ih hmem p
      simp only [List.count_cons, beq_iff_eq]
      split_ifs at this ⊢ <;> omega

theorem count_erase_mem (a : Nat) (l : List Nat) (h : a ∈ l) (p : Nat) :
    (l.erase a).count p + (if p = a then 1 else 0) = l.count p := by
  by_cases hp : p = a
  · subst hp
    rw [List.count_erase_self, if_pos rfl]
    have := List.count_pos_iff.mpr h
    omega
  · rw [List.count_erase_of_ne hp, if_neg hp]
    rfl

theorem eq_singleton_of_count (l : List Nat) (p : Nat) (hl : l.length = 1)
    (h : 0 < l.count p) : l = [p] := by
  match l, hl with
  | [q], _ =>
    have := List.count_pos_iff.mp h
    simp only [List.mem_singleton] at this
    rw [this]

/-- A merge keeps the edges of the valid blocks consistent, when the out-edges of the
valid blocks lead to valid blocks, the in-edge counters are the sizes of the in-edge
vectors and the valid two-way blocks have two out-edges. -/
theorem mergeView_edgeOK (P P1 : Function) (i i1 : Int) (pbb a x obb : Nat)
    (hP : P.EdgesAgree ∧ P.ValidSuccs ∧ P.NumInOK ∧ P.TwoWayOK)
    (hv : P.MergeView P1 i i1 pbb a x obb) :
    P1.EdgesAgree ∧ P1.ValidSuccs ∧ P1.NumInOK ∧ P1.TwoWayOK := by
  obtain ⟨hag, hval, hnum, htw⟩ := hP
  have hVp := hv.hvalid
  -- the out-edges of `pbb`, of `a` and the new out-edges of `pbb`
  have hEp : ∀ s, (P.blocks pbb).edges.count s =
      (if s = a then 1 else 0) + (if s = x then 1 else 0) := by
    intro s
    refine count_pair _ a x (htw pbb hVp hv.htwo) ?_ s
    have := hv.hedges
    unfold Function.edge at this
    rcases this with h | h
    · exact Or.inl h
    · exact Or.inr h
  have hmemA : a ∈ (P.blocks pbb).edges := by
    have := hv.hedges
    unfold Function.edge at this
    rcases this with h | h
    · exact mem_of_get_some _ _ _ h.1
    · exact mem_of_get_some _ _ _ h.2
  have hVa : (P.blocks a).flg.INVALID_BB = false := hval pbb hVp a hmemA
  have hEa : ∀ s, (P.blocks a).edges.count s =
      (if s = obb then 1 else 0) + (if s = x then 1 else 0) := by
    intro s
    refine count_pair _ obb x (htw a hVa hv.ha.1) ?_ s
    have := hv.haedges
    unfold Function.edge at this
    rcases this with h | h
    · exact Or.inl h
    · exact Or.inr h
  have hEp1 : ∀ s, (P1.blocks pbb).edges.count s =
      (if s = obb then 1 else 0) + (if s = x then 1 else 0) := by
    intro s
    refine count_pair _ obb x (by rw [hv.hlen]; exact htw pbb hVp hv.htwo) ?_ s
    have := hv.hedges1
    unfold Function.edge at this
    rcases this with h | h
    · exact Or.inl h
    · exact Or.inr h
  have hmemO : obb ∈ (P.blocks a).edges := by
    have := hv.haedges
    unfold Function.edge at this
    rcases this with h | h
    · exact mem_of_get_some _ _ _ h.1
    · exact mem_of_get_some _ _ _ h.2
  have hmemX : x ∈ (P.blocks a).edges := by
    have := hv.haedges
    unfold Function.edge at this
    rcases this with h | h
    · exact mem_of_get_some _ _ _ h.2
    · exact mem_of_get_some _ _ _ h.1
  have hVo : (P.blocks obb).flg.INVALID_BB = false := hval a hVa obb hmemO
  have hVx : (P.blocks x).flg.INVALID_BB = false := hval a hVa x hmemX
  -- the in-edges of `a`
  have hInA : (P.blocks a).inEdges = [pbb] := by
    refine eq_singleton_of_count _ _ ?_ ?_
    · have := hnum a
      rw [hv.ha.2.2] at this
      omega
    · rw [hag a hVa pbb, if_pos hVp]
      exact List.count_pos_iff.mpr hmemA
  have hcntA : ∀ u, (P.blocks u).flg.INVALID_BB = false →
      (P.blocks u).edges.count a = if u = pbb then 1 else 0 := by
    intro u hu
    have := hag a hVa u
    rw [if_pos hu, hInA] at this
    rw [← this]
    simp only [List.count_cons, List.count_nil, beq_iff_eq, zero_add]
    split_ifs <;> omega
  -- the flags
  have hflag : ∀ c, (P1.blocks c).flg.INVALID_BB = false ↔
      (c ≠ a ∧ (P.blocks c).flg.INVALID_BB = false) := by
    intro c
    rw [hv.hflg c]
    by_cases hc : c = a
    · rw [if_pos hc]
      simp [hc]
    · rw [if_neg hc]
      simp [hc]
  have htype : ∀ c, (P1.blocks c).nodeType = (P.blocks c).nodeType := fun c =>
    show (P1.blocks c).eraseCond.nodeType = (P.blocks c).eraseCond.nodeType from
      congrArg BB.nodeType (hv.hframe c)
  -- when `pbb` absorbs itself the other successor of `a` is `a`
  have hself : a = pbb → obb = a := by
    intro h
    have h1 := hEp obb
    have h2 := hEa obb
    rw [← h] at h1
    rw [h1] at h2
    split_ifs at h2 <;> omega
  -- the in-edges
  obtain ⟨R, hR1, hR2, hR3, hI⟩ := hv.hin
  have hR : R = replaceFirst a pbb (P.blocks obb).inEdges := hR2 (hnum obb)
  have hmemAO : a ∈ (P.blocks obb).inEdges := by
    apply List.count_pos_iff.mp
    rw [hag obb hVo a, if_pos hVa]
    exact List.count_pos_iff.mpr hmemO
  have hcntR : ∀ p, R.count p + (if p = a then 1 else 0) =
      (P.blocks obb).inEdges.count p + (if p = pbb then 1 else 0) := by
    intro p
    rw [hR]
    exact count_replaceFirst a pbb _ hmemAO p
  have hG : ∀ c p, (P1.blocks c).inEdges.count p +
        (if c = x then (if p = a then 1 else 0) else 0) +
        (if c = obb then (if p = a then 1 else 0) else 0) =
      (P.blocks c).inEdges.count p + (if c = obb then (if p = pbb then 1 else 0) else 0) := by
    intro c p
    rw [hI c]
    have hcR := hcntR p
    by_cases hcx : c = x
    · rw [if_pos hcx, if_pos hcx]
      have he := count_erase_mem a _ hR3 p
      by_cases hxo : x = obb
      · rw [if_pos hxo] at he ⊢
        have hco : c = obb := hcx.trans hxo
        rw [if_pos hco, if_pos hco, hco]
        omega
      · rw [if_neg hxo] at he ⊢
        have hco : ¬ c = obb := fun h => hxo (hcx.symm.trans h)
        rw [if_neg hco, if_neg hco, hcx]
        omega
    · rw [if_neg hcx, if_neg hcx]
      by_cases hco : c = obb
      · rw [if_pos hco, if_pos hco, if_pos hco, hco]
        omega
      · rw [if_neg hco, if_neg hco, if_neg hco]
  refine ⟨?_, ?_, mergeView_numInOK P P1 i i1 pbb a x obb hnum hv, ?_⟩
  · -- the in-edges agree with the out-edges
    intro s hs p
    obtain ⟨hsa, hVs⟩ := (hflag s).mp hs
    have hA1 := hag s hVs p
    have hGsp := hG s p
    have hEps := hEp s
    have hEas := hEa s
    have hEp1s := hEp1 s
    by_cases hpa : p = a
    · have hnv : ¬ (P1.blocks p).flg.INVALID_BB = false := by
        rw [hflag]
        intro h
        exact h.1 hpa
      rw [if_neg hnv]
      have hVp' : (P.blocks p).flg.INVALID_BB = false := by rw [hpa]; exact hVa
      rw [if_pos hVp'] at hA1
      have hEas' : (P.blocks p).edges.count s =
          (if s = obb then 1 else 0) + (if s = x then 1 else 0) := by
        rw [hpa]; exact hEas
      have hso : s = obb → p ≠ pbb := by
        intro h1 h2
        exact hsa (h1.trans (hself (hpa.symm.trans h2)))
      split_ifs at hGsp hEas' <;> omega
    · have hvp : (P1.blocks p).flg.INVALID_BB = false ↔ (P.blocks p).flg.INVALID_BB = false := by
        rw [hflag]
        exact ⟨fun h => h.2, fun h => ⟨hpa, h⟩⟩
      by_cases hpp : p = pbb
      · have hVp' : (P.blocks p).flg.INVALID_BB = false := by rw [hpp]; exact hVp
        rw [if_pos (hvp.mpr hVp')]
        rw [if_pos hVp'] at hA1
        have hEps' : (P.blocks p).edges.count s =
            (if s = a then 1 else 0) + (if s = x then 1 else 0) := by
          rw [hpp]; exact hEps
        have hEp1s' : (P1.blocks p).edges.count s =
            (if s = obb then 1 else 0) + (if s = x then 1 else 0) := by
          rw [hpp]; exact hEp1s
        rw [hEp1s']
        split_ifs at hGsp hEps' ⊢ <;> omega
      · rw [hv.hother p hpp]
        have hgoal : (if (P1.blocks p).flg.INVALID_BB = false then
              (P.blocks p).edges.count s else 0) =
            (if (P.blocks p).flg.INVALID_BB = false then
              (P.blocks p).edges.count s else 0) := by
          by_cases h : (P.blocks p).flg.INVALID_BB = false
          · rw [if_pos h, if_pos (hvp.mpr h)]
          · rw [if_neg h, if_neg (fun h' => h (hvp.mp h'))]
        rw [hgoal, ← hA1]
        split_ifs at hGsp <;> omega
  · -- the successors of the valid blocks are valid
    intro u hu w hw
    obtain ⟨hua, hVu⟩ := (hflag u).mp hu
    rw [hflag]
    by_cases hup : u = pbb
    · subst hup
      have hc := hEp1 w
      have hpos := List.count_pos_iff.mpr hw
      have hEaa := hEa a
      have hcAA := hcntA a hVa
      rw [if_neg (Ne.symm hua)] at hcAA
      rw [hcAA] at hEaa
      by_cases hwo : w = obb
      · subst hwo
        refine ⟨?_, hVo⟩
        intro h
        rw [if_pos h.symm] at hEaa
        omega
      · rw [if_neg hwo] at hc
        by_cases hwx : w = x
        · subst hwx
          refine ⟨?_, hVx⟩
          intro h
          rw [if_pos h.symm] at hEaa
          omega
        · rw [if_neg hwx] at hc
          omega
    · rw [hv.hother u hup] at hw
      refine ⟨?_, hval u hVu w hw⟩
      intro h
      subst h
      have := hcntA u hVu
      rw [if_neg hup] at this
      have hpos := List.count_pos_iff.mpr hw
      omega
  · -- the valid two-way blocks have two out-edges
    intro b hb hty
    obtain ⟨_, hVb⟩ := (hflag b).mp hb
    rw [htype] at hty
    by_cases hbp : b = pbb
    · subst hbp
      rw [hv.hlen]
      exact htw b hVb hty
    · rw [hv.hother b hbp]
      exact htw b hVb hty

/-- C29 (amended): `compoundCond` preserves edge consistency among valid blocks when,
before the call, in addition to the consistency itself (for every block `s` that is not
`INVALID_BB`, the multiset `s.inEdges` equals the multiset of out-edges into `s` from
blocks that are not `INVALID_BB`), every out-edge of a valid block leads to a valid block,
every block satisfies `inEdges.size() = numInEdges` and every valid two-way block has
exactly two out-edges: then the consistency holds, and the out-edges of valid blocks lead
to valid blocks, at every state of the run, so after every merge step of each of the four
patterns, and when `compoundCond` returns. -/
theorem compoundCond_keeps_edges_consistent (P : Function) (h1 : P.EdgesAgree)
    (h2 : P.ValidSuccs) (h3 : P.NumInOK) (h4 : P.TwoWayOK) :
    (∀ (Q : Function) (i : Int) (c : Bool) (m : Nat), CondRun P Q i c m →
      Q.EdgesAgree ∧ Q.ValidSuccs) ∧
    ∀ (fuel : Nat) (P1 : Function), compoundCond fuel P = some P1 →
      P1.EdgesAgree ∧ P1.ValidSuccs := by
  have key := condRun_inv
    (fun Q => Q.EdgesAgree ∧ Q.ValidSuccs ∧ Q.NumInOK ∧ Q.TwoWayOK)
    mergeView_edgeOK P ⟨h1, h2, h3, h4⟩
  refine ⟨fun Q i c m hr => ⟨(key Q i c m hr).1, (key Q i c m hr).2.1⟩, ?_⟩
  intro fuel P1 hP1
  obtain ⟨i1, c1, m1, hr⟩ := compoundCond_run P fuel P1 hP1
  exact ⟨(key _ _ _ _ hr).1, (key _ _ _ _ hr).2.1⟩

theorem orProc_blocks_ge (b : Nat) (h : 4 ≤ b) : (orProc K0).blocks b = {} := by
  obtain ⟨q, rfl⟩ : ∃ q, b = q + 4 := ⟨b - 4, by omega⟩
  rfl

theorem cases_below_four (b : Nat) : b = 0 ∨ b = 1 ∨ b = 2 ∨ b = 3 ∨ 4 ≤ b := by omega

theorem orProc_edgesAgree : (orProc K0).EdgesAgree := by
  intro s hs p
  rcases cases_below_four s with rfl | rfl | rfl | rfl | hs4 <;>
    rcases cases_below_four p with rfl | rfl | rfl | rfl | hp4 <;>
    first
    | decide
    | (rw [orProc_blocks_ge s hs4, orProc_blocks_ge p hp4]; rfl)
    | (rw [orProc_blocks_ge p hp4]
       simp [orProc, mkBB, List.count_cons] <;> omega)
    | (rw [orProc_blocks_ge s hs4]
       simp [orProc, mkBB, List.count_cons] <;> split_ifs <;> omega)

theorem orProc_validSuccs : (orProc K0).ValidSuccs := by
  intro u _ v _
  rcases cases_below_four v with rfl | rfl | rfl | rfl | hv4
  · rfl
  · rfl
  · rfl
  · rfl
  · rw [orProc_blocks_ge v hv4]

theorem orProc_twoWayOK : (orProc K0).TwoWayOK := by
  intro b _ hty
  rcases cases_below_four b with rfl | rfl | rfl | rfl | hb4
  · rfl
  · rfl
  · exact absurd hty (by decide)
  · exact absurd hty (by decide)
  · rw [orProc_blocks_ge b hb4] at hty
    exact absurd hty (by decide)

theorem compoundCond_keeps_edges_consistent_witness :
    (∀ (Q : Function) (i : Int) (c : Bool) (m : Nat), CondRun (orProc K0) Q i c m →
      Q.EdgesAgree ∧ Q.ValidSuccs) ∧
    ∀ (fuel : Nat) (P1 : Function), compoundCond fuel (orProc K0) = some P1 →
      P1.EdgesAgree ∧ P1.ValidSuccs :=
  compoundCond_keeps_edges_consistent (orProc K0) orProc_edgesAgree orProc_validSuccs
    orProc_numInOK orProc_twoWayOK

theorem staleCondProc_blocks_ge (b : Nat) (h : 4 ≤ b) : (staleCondProc K0).blocks b = {} := by
  obtain ⟨q, rfl⟩ : ∃ q, b = q + 4 := ⟨b - 4, by omega⟩
  rfl

theorem staleCondProc_edgesAgree : (staleCondProc K0).EdgesAgree := by
  intro s hs p
  rcases cases_below_four s with rfl | rfl | rfl | rfl | hs4 <;>
    rcases cases_below_four p with rfl | rfl | rfl | rfl | hp4 <;>
    first
    | decide
    | exact absurd hs (by decide)
    | (rw [staleCondProc_blocks_ge s hs4, staleCondProc_blocks_ge p hp4]; rfl)
    | (rw [staleCondProc_blocks_ge p hp4]
       simp [staleCondProc, mkBB, List.count_cons])
    | (rw [staleCondProc_blocks_ge s hs4]
       simp [staleCondProc, mkBB, List.count_cons] <;> split_ifs <;> omega)

/-- C29 (counterexample): the valid two-way block `P` (pointer 0) has the successors `T`
and `E`, which are `INVALID_BB`, and the edges of the valid blocks are consistent. The
first pattern merges `T` into `P`, so that `P` leads to the valid block 3; in the
procedure that `compoundCond` returns the in-edges of the block 3 do not hold `P`, and
the consistency among the valid blocks fails. -/
theorem stale_successors_break_consistency :
    (staleCondProc K0).EdgesAgree ∧
    ∃ Q, compoundCond 10 (staleCondProc K0) = some Q ∧
      (Q.blocks 3).flg.INVALID_BB = false ∧ (Q.blocks 0).flg.INVALID_BB = false ∧
      (Q.blocks 0).edges = [3, 2] ∧ (Q.blocks 3).inEdges = [] ∧ ¬ Q.EdgesAgree := by
  refine ⟨staleCondProc_edgesAgree, _, rfl, rfl, rfl, rfl, rfl, ?_⟩
  intro h
  exact absurd (h 3 rfl 0) (by decide)

/-! ## Termination of the compound conditions -/

theorem sum_map_decrease (f g : Nat → Nat) (x : Nat) (h1 : g x + 1 = f x)
    (h2 : ∀ c, c ≠ x → g c = f c) :
    ∀ S : List Nat, S.Nodup → x ∈ S → (S.map g).sum + 1 = (S.map f).sum := by
  have hsame : ∀ S : List Nat, x ∉ S → (S.map g).sum = (S.map f).sum := by
    intro S
    induction S with
    | nil => intro _; rfl
    | cons y ys ih =>
      intro hx
      simp only [List.mem_cons, not_or] at hx
      simp only [List.map_cons, List.sum_cons]
      rw [ih hx.2, h2 y (Ne.symm hx.1)]
  intro S
  induction S with
  | nil => intro _ hx; cases hx
  | cons y ys ih =>
    intro hnd hx
    simp only [List.map_cons, List.sum_cons]
    have hnd' := List.nodup_cons.mp hnd
    by_cases hy : y = x
    · subst hy
      rw [hsame ys hnd'.1]
      omega
    · have hx' : x ∈ ys := by
        rcases List.mem_cons.mp hx with h | h
        · exact absurd h.symm hy
        · exact h
      have := ih hnd'.2 hx'
      rw [h2 y hy]
      omega

/-- A merge removes exactly one entry from the in-edge vectors, and the blocks outside
the finite set `S` still have no in-edges. -/
theorem mergeView_inTotal (S : List Nat) (hS : S.Nodup) (P P1 : Function) (i i1 : Int)
    (pbb a x obb : Nat) (hfin : ∀ b, b ∉ S → (P.blocks b).inEdges = [])
    (hv : P.MergeView P1 i i1 pbb a x obb) :
    P1.inTotal S + 1 = P.inTotal S ∧ ∀ b, b ∉ S → (P1.blocks b).inEdges = [] := by
  obtain ⟨R, hR1, _, hR3, hI⟩ := hv.hin
  have hL : (if x = obb then R else (P.blocks x).inEdges).length =
      (P.blocks x).inEdges.length := by
    by_cases hx : x = obb
    · rw [if_pos hx, hR1, hx]
    · rw [if_neg hx]
  have hpos : 0 < (P.blocks x).inEdges.length := by
    rw [← hL]
    exact List.length_pos_of_mem hR3
  have hxS : x ∈ S := by
    by_contra h
    rw [hfin x h] at hpos
    simp at hpos
  have hlen : ∀ c, c ≠ x → (P1.blocks c).inEdges.length = (P.blocks c).inEdges.length := by
    intro c hc
    rw [hI, if_neg hc]
    by_cases hco : c = obb
    · rw [if_pos hco, hR1, hco]
    · rw [if_neg hco]
  constructor
  · unfold Function.inTotal
    refine sum_map_decrease _ _ x ?_ hlen S hS hxS
    rw [hI, if_pos rfl, List.length_erase_of_mem hR3, hL]
    omega
  · intro b hb
    have hbx : b ≠ x := fun h => hb (h ▸ hxS)
    have := hlen b hbx
    rw [hfin b hb] at this
    exact List.length_eq_zero.mp this

/-- Along a run, the merges so far and the in-edges left add up to the in-edges of the
input; `numBBs` does not change. -/
theorem condRun_inTotal (S : List Nat) (hS : S.Nodup) (P : Function)
    (hfin : ∀ b, b ∉ S → (P.blocks b).inEdges = []) (Q : Function) (i : Int) (c : Bool)
    (m : Nat) (h : CondRun P Q i c m) :
    m + Q.inTotal S = P.inTotal S ∧ (∀ b, b ∉ S → (Q.blocks b).inEdges = []) ∧
      Q.numBBs = P.numBBs ∧ 0 ≤ i := by
  induction h with
  | start => exact ⟨by omega, hfin, rfl, le_refl _⟩
  | @node Q Q1 j j1 c0 c1 m0 _ hj hn ih =>
    obtain ⟨ih1, ih2, ih3, ih4⟩ := ih
    cases c1 with
    | true =>
      obtain ⟨pbb, a, x, obb, hv⟩ := compoundCondNode_view Q Q1 j j1 hn
      obtain ⟨h1, h2⟩ := mergeView_inTotal S hS Q Q1 j j1 pbb a x obb ih2 hv
      refine ⟨?_, h2, hv.hnumBBs.trans ih3, ?_⟩
      · simp only [if_true]
        omega
      · rcases hv.htable with ⟨_, _, h⟩ | ⟨_, h, _⟩ <;> omega
    | false =>
      obtain ⟨h1, h2⟩ := compoundCondNode_false Q Q1 j j1 hn
      subst h1; subst h2
      refine ⟨?_, ih2, ih3, by omega⟩
      simp only [Bool.false_eq_true, if_false]
      omega
  | again _ _ ih => exact ⟨ih.1, ih.2.1, ih.2.2.1, le_refl _⟩

/-- With enough fuel a scan returns, and a scan that sets the flag `change` has removed
an in-edge. -/
theorem compoundCondScan_terminates (S : List Nat) (hS : S.Nodup) (P : Function)
    (hfin : ∀ b, b ∉ S → (P.blocks b).inEdges = [])
    (hok : ∀ (Q : Function) (i : Int) (c : Bool) (m : Nat), CondRun P Q i c m →
      i < Q.numBBs → compoundCondNode Q i ≠ none) :
    ∀ (fuel : Nat) (Q : Function) (i : Int) (c : Bool) (m : Nat), CondRun P Q i c m →
      (Q.numBBs - i).toNat + Q.inTotal S < fuel →
      ∃ Q1 c1, compoundCondScan fuel Q i c = some (Q1, c1) ∧
        Q1.inTotal S ≤ Q.inTotal S ∧ (c = false → c1 = true → Q1.inTotal S < Q.inTotal S) := by
  intro fuel
  induction fuel with
  | zero => intro Q i c m _ hf; omega
  | succ fuel ih =>
    intro Q i c m hr hf
    have hinv := condRun_inTotal S hS P hfin Q i c m hr
    unfold compoundCondScan
    by_cases hi : i < Q.numBBs
    · rw [if_pos hi]
      cases hn : compoundCondNode Q i with
      | none => exact absurd hn (hok Q i c m hr hi)
      | some r =>
        obtain ⟨Q1, i1, c1⟩ := r
        simp only
        have hr1 := CondRun.node hr hi hn
        cases c1 with
        | true =>
          obtain ⟨pbb, a, x, obb, hv⟩ := compoundCondNode_view Q Q1 i i1 hn
          obtain ⟨h1, _⟩ := mergeView_inTotal S hS Q Q1 i i1 pbb a x obb hinv.2.1 hv
          have hnb := hv.hnumBBs
          have hi1 : i - 1 ≤ i1 := by
            rcases hv.htable with ⟨_, _, h⟩ | ⟨_, h, _⟩ <;> omega
          obtain ⟨Q2, c2, h2, h3, _⟩ := ih Q1 (i1 + 1) (c || true) _ hr1 (by omega)
          exact ⟨Q2, c2, h2, by omega, fun _ _ => by omega⟩
        | false =>
          obtain ⟨e1, e2⟩ := compoundCondNode_false Q Q1 i i1 hn
          subst e1; subst e2
          obtain ⟨Q2, c2, h2, h3, h4⟩ := ih Q1 (i1 + 1) (c || false) _ hr1 (by omega)
          refine ⟨Q2, c2, h2, h3, ?_⟩
          intro hc hc2
          exact h4 (by rw [hc]; rfl) hc2
    · rw [if_neg hi]
      exact ⟨Q, c, rfl, le_refl _, fun h1 h2 => by rw [h1] at h2; cases h2⟩

/-- With enough fuel the `while (change)` loop returns. -/
theorem compoundCondLoop_terminates (S : List Nat) (hS : S.Nodup) (P : Function)
    (hfin : ∀ b, b ∉ S → (P.blocks b).inEdges = [])
    (hok : ∀ (Q : Function) (i : Int) (c : Bool) (m : Nat), CondRun P Q i c m →
      i < Q.numBBs → compoundCondNode Q i ≠ none) (fuel : Nat) :
    ∀ (n : Nat) (Q : Function) (m : Nat), CondRun P Q 0 false m →
      Q.numBBs.toNat + Q.inTotal S < fuel → Q.inTotal S < n →
      ∃ P1, compoundCondLoop fuel n Q = some P1 := by
  intro n
  induction n with
  | zero => intro Q m _ _ hn; omega
  | succ n ih =>
    intro Q m hr hf hn
    have hinv := condRun_inTotal S hS P hfin Q 0 false m hr
    obtain ⟨Q1, c1, h1, h2, h3⟩ := compoundCondScan_terminates S hS P hfin hok fuel Q 0 false m
      hr (by simpa using hf)
    obtain ⟨i1, m1, hr1, hi1⟩ := compoundCondScan_run P fuel Q 0 false m Q1 c1 hr h1
    have hinv1 := condRun_inTotal S hS P hfin Q1 i1 c1 m1 hr1
    unfold compoundCondLoop
    rw [h1]
    cases c1 with
    | true =>
      simp only [if_true]
      have := h3 rfl rfl
      exact ih Q1 m1 (CondRun.again hr1 hi1) (by rw [hinv1.2.2.1, ← hinv.2.2.1]; omega)
        (by omega)
    | false => exact ⟨Q1, rfl⟩

/-- C28: for a procedure whose blocks with in-edges are among the finitely many blocks `S`
and on which no step of the run fails (no assertion fails and nothing is read out of
range), every merge step removes exactly one entry from the in-edge vectors overall and
marks one block `INVALID_BB`, so that after `m` merges the in-edges left and `m` add up
to the in-edges of the input and `m` is at most their number; and `compoundCond`
terminates: with more fuel than `numBBs` plus the number of in-edges of the input it
returns, despite the re-analysis of an index and the re-pointing of slots of the DFS-last
table. -/
theorem compoundCond_terminates (P : Function) (S : List Nat) (hS : S.Nodup)
    (hfin : ∀ b, b ∉ S → (P.blocks b).inEdges = [])
    (hok : ∀ (Q : Function) (i : Int) (c : Bool) (m : Nat), CondRun P Q i c m →
      i < Q.numBBs → compoundCondNode Q i ≠ none) :
    (∀ (Q : Function) (i : Int) (c : Bool) (m : Nat) (Q1 : Function) (i1 : Int),
      CondRun P Q i c m → compoundCondNode Q i = some (Q1, i1, true) →
      Q1.inTotal S + 1 = Q.inTotal S ∧
      ∃ a, (Q1.blocks a).flg.INVALID_BB = true ∧
        ∀ b, b ≠ a → (Q1.blocks b).flg = (Q.blocks b).flg) ∧
    (∀ (Q : Function) (i : Int) (c : Bool) (m : Nat), CondRun P Q i c m →
      m + Q.inTotal S = P.inTotal S ∧ m ≤ P.inTotal S) ∧
    ∀ fuel : Nat, P.numBBs.toNat + P.inTotal S < fuel →
      ∃ P1, compoundCond fuel P = some P1 := by
  refine ⟨?_, ?_, ?_⟩
  · intro Q i c m Q1 i1 hr hn
    have hinv := condRun_inTotal S hS P hfin Q i c m hr
    obtain ⟨pbb, a, x, obb, hv⟩ := compoundCondNode_view Q Q1 i i1 hn
    refine ⟨(mergeView_inTotal S hS Q Q1 i i1 pbb a x obb hinv.2.1 hv).1, a, ?_, ?_⟩
    · rw [hv.hflg a, if_pos rfl]
    · intro b hb
      rw [hv.hflg b, if_neg hb]
  · intro Q i c m hr
    have hinv := condRun_inTotal S hS P hfin Q i c m hr
    exact ⟨hinv.1, by omega⟩
  · intro fuel hf
    exact compoundCondLoop_terminates S hS P hfin hok fuel fuel P 0 CondRun.start hf (by omega)

/-- The states of the run on the scenario of the pattern `X || Y`: the input at the index
0, and the merged procedure. -/
theorem orProc_run_states (Q : Function) (i : Int) (c : Bool) (m : Nat)
    (h : CondRun (orProc K0) Q i c m) :
    (Q = orProc K0 ∧ i = 0) ∨ (Q = orProcMerged ∧ 0 ≤ i ∧ i ≤ 4) := by
  induction h with
  | start => exact Or.inl ⟨rfl, rfl⟩
  | @node Q Q1 j j1 c0 c1 m0 _ hj hn ih =>
    right
    rcases ih with ⟨h1, h2⟩ | ⟨h1, h2, h3⟩
    · subst h1; subst h2
      have : compoundCondNode (orProc K0) 0 = some (orProcMerged, -1, true) := rfl
      rw [this] at hn
      simp only [Option.some.injEq, Prod.mk.injEq] at hn
      rw [← hn.1, ← hn.2.1]
      exact ⟨rfl, by decide, by decide⟩
    · subst h1
      have hj' : j < 4 := hj
      have hall : compoundCondNode orProcMerged j = some (orProcMerged, j, false) := by
        interval_cases j <;> rfl
      rw [hall] at hn
      simp only [Option.some.injEq, Prod.mk.injEq] at hn
      rw [← hn.1, ← hn.2.1]
      exact ⟨rfl, by omega, by omega⟩
  | again _ hi ih =>
    rcases ih with ⟨h1, h2⟩ | ⟨h1, _, _⟩
    · subst h1; subst h2
      exact absurd (show (0 : Int) < (orProc K0).numBBs by decide) hi
    · exact Or.inr ⟨h1, le_refl _, by decide⟩

theorem orProc_run_ok (Q : Function) (i : Int) (c : Bool) (m : Nat)
    (h : CondRun (orProc K0) Q i c m) (hi : i < Q.numBBs) : compoundCondNode Q i ≠ none := by
  rcases orProc_run_states Q i c m h with ⟨h1, h2⟩ | ⟨h1, h2, h3⟩
  · subst h1; subst h2
    have : compoundCondNode (orProc K0) 0 = some (orProcMerged, -1, true) := rfl
    rw [this]
    exact Option.some_ne_none _
  · subst h1
    have hi' : i < 4 := hi
    have hall : compoundCondNode orProcMerged i = some (orProcMerged, i, false) := by
      interval_cases i <;> rfl
    rw [hall]
    exact Option.some_ne_none _

theorem orProc_support (b : Nat) (h : b ∉ [0, 1, 2, 3]) : ((orProc K0).blocks b).inEdges = [] := by
  rcases cases_below_four b with rfl | rfl | rfl | rfl | hb4
  · simp at h
  · simp at h
  · simp at h
  · simp at h
  · rw [orProc_blocks_ge b hb4]

theorem compoundCond_terminates_witness :
    (∀ (Q : Function) (i : Int) (c : Bool) (m : Nat) (Q1 : Function) (i1 : Int),
      CondRun (orProc K0) Q i c m → compoundCondNode Q i = some (Q1, i1, true) →
      Q1.inTotal [0, 1, 2, 3] + 1 = Q.inTotal [0, 1, 2, 3] ∧
      ∃ a, (Q1.blocks a).flg.INVALID_BB = true ∧
        ∀ b, b ≠ a → (Q1.blocks b).flg = (Q.blocks b).flg) ∧
    (∀ (Q : Function) (i : Int) (c : Bool) (m : Nat), CondRun (orProc K0) Q i c m →
      m + Q.inTotal [0, 1, 2, 3] = (orProc K0).inTotal [0, 1, 2, 3] ∧
      m ≤ (orProc K0).inTotal [0, 1, 2, 3]) ∧
    ∀ fuel : Nat, (orProc K0).numBBs.toNat + (orProc K0).inTotal [0, 1, 2, 3] < fuel →
      ∃ P1, compoundCond fuel (orProc K0) = some P1 :=
  compoundCond_terminates (orProc K0) [0, 1, 2, 3] (by decide) orProc_support orProc_run_ok

/-! ## The structuring stages write annotations only -/

theorem annot_setBB (P : Function) (c : Nat) (x : BB)
    (h : x.eraseAnnot = (P.blocks c).eraseAnnot) : P.SameUpTo BB.eraseAnnot (P.setBB c x) :=
  Function.SameUpTo.setBB _ _ _ _ h

theorem annot_setLoopFollow (P : Function) (b : Nat) (f : Int) :
    P.SameUpTo BB.eraseAnnot (P.setLoopFollow b f) := annot_setBB _ _ _ rfl

theorem annot_setLoopType (P : Function) (b : Nat) (t : eNodeHeaderType) :
    P.SameUpTo BB.eraseAnnot (P.setLoopType b t) := annot_setBB _ _ _ rfl

theorem annot_setLoopHead (P : Function) (b : Nat) (h : Int) :
    P.SameUpTo BB.eraseAnnot (P.setLoopHead b h) := annot_setBB _ _ _ rfl

theorem annot_setLatchNode (P : Function) (b : Nat) (l : Int) :
    P.SameUpTo BB.eraseAnnot (P.setLatchNode b l) := annot_setBB _ _ _ rfl

theorem annot_setIsLatchNode (P : Function) (b : Nat) :
    P.SameUpTo BB.eraseAnnot (P.setIsLatchNode b) := annot_setBB _ _ _ rfl

theorem annot_incNumBackEdges (P : Function) (b : Nat) :
    P.SameUpTo BB.eraseAnnot (P.incNumBackEdges b) := annot_setBB _ _ _ rfl

theorem annot_setCaseTail (P : Function) (b : Nat) (t : Int) :
    P.SameUpTo BB.eraseAnnot (P.setCaseTail b t) := annot_setBB _ _ _ rfl

theorem annot_setCaseHead (P : Function) (b : Nat) (h : Int) :
    P.SameUpTo BB.eraseAnnot (P.setCaseHead b h) := annot_setBB _ _ _ rfl

theorem annot_setTraversed (P : Function) (b : Nat) (t : eDFS) :
    P.SameUpTo BB.eraseAnnot (P.setTraversed b t) := annot_setBB _ _ _ rfl

theorem annot_setIfFollow (P : Function) (b : Nat) (f : Int) :
    P.SameUpTo BB.eraseAnnot (P.setIfFollow b f) := annot_setBB _ _ _ rfl

theorem annot_setLoop (P : Function) (b : Nat) (t : eNodeHeaderType) (f : Int) :
    P.SameUpTo BB.eraseAnnot (P.setLoop b t f) :=
  (annot_setLoopType P b t).trans (annot_setLoopFollow _ b f)

theorem annot_setLlFlag (P : Function) (j : Int) :
    P.SameUpTo BB.eraseAnnot (P.SetLlFlagJX_LOOP j) := Function.SameUpTo.setLlFlag _ _ _

/-- A fold whose steps write annotations only writes annotations only. -/
theorem annot_foldlM {α : Type} (f : Function → α → Option Function)
    (hstep : ∀ a s s', f s a = some s' → s.SameUpTo BB.eraseAnnot s') (l : List α)
    (s s' : Function) (h : l.foldlM f s = some s') : s.SameUpTo BB.eraseAnnot s' :=
  foldlM_rel f (fun P Q => P.SameUpTo BB.eraseAnnot Q) (Function.SameUpTo.refl _)
    (fun _ _ _ h1 h2 => h1.trans h2) l (fun a _ s s' hs => hstep a s s' hs) s s' h

/-- The same for a fold that carries a second component. -/
theorem annot_foldlM_pair {α β : Type} (f : Function × β → α → Option (Function × β))
    (hstep : ∀ a s s', f s a = some s' → s.1.SameUpTo BB.eraseAnnot s'.1) (l : List α)
    (s s' : Function × β) (h : l.foldlM f s = some s') : s.1.SameUpTo BB.eraseAnnot s'.1 :=
  foldlM_rel f (fun P Q => P.1.SameUpTo BB.eraseAnnot Q.1) (fun _ => Function.SameUpTo.refl _ _)
    (fun _ _ _ h1 h2 => h1.trans h2) l (fun a _ s s' hs => hstep a s s' hs) s s' h

/-! ### The case structurer -/

theorem tagNodesInCase_annot (head tail : Int) :
    ∀ (fuel : Nat) (pBB : Nat) (st st' : Function × List Int),
      tagNodesInCase head tail fuel pBB st = some st' →
      st.1.SameUpTo BB.eraseAnnot st'.1 := by
  intro fuel
  induction fuel with
  | zero =>
    intro pBB st st' h
    unfold tagNodesInCase at h
    cases h
  | succ n ih =>
    intro pBB st st' h
    unfold tagNodesInCase at h
    simp only at h
    split at h
    · have h1 := annot_foldlM_pair _ (fun i s s' hs => by
        split at hs
        · cases hs
        · split at hs
          · exact ih _ _ _ hs
          · cases hs
            exact Function.SameUpTo.refl _ _) _ _ _ h
      exact ((annot_setTraversed st.1 pBB _).trans (annot_setCaseHead _ pBB head)).trans h1
    · cases h
      exact annot_setTraversed st.1 pBB _

theorem structCasesNode_annot (K : Sentinels) (fuel : Nat) (st st' : Function × Int × List Int)
    (i : Int) (h : structCasesNode K fuel st i = some st') :
    st.1.SameUpTo BB.eraseAnnot st'.1 := by
  unfold structCasesNode at h
  split at h
  · cases h
  · rename_i caseHeader _
    split at h
    · split at h
      · cases h
      · rename_i exitNode _
        simp only at h
        split at h
        · cases h
        · rename_i P3 caseNodes hfold
          have h1 : ((st.1.setCaseTail caseHeader exitNode).setCaseHead caseHeader
              i).SameUpTo BB.eraseAnnot P3 :=
            annot_foldlM_pair _ (fun j s s' hs => by
              unfold structCasesTag at hs
              split at hs
              · cases hs
              · exact tagNodesInCase_annot _ _ _ _ _ _ hs) _ _ _ hfold
          have h0 := ((annot_setCaseTail st.1 caseHeader exitNode).trans
            (annot_setCaseHead _ caseHeader i)).trans h1
          split at h
          · split at h
            · cases h
            · cases h
              exact h0.trans (annot_setCaseHead _ _ _)
          · cases h
            exact h0
    · cases h
      exact Function.SameUpTo.refl _ _

theorem structCases_annot (K : Sentinels) (fuel : Nat) (P P' : Function)
    (h : structCases K fuel P = some P') : P.SameUpTo BB.eraseAnnot P' := by
  unfold structCases at h
  cases hf : (indicesDown P.numBBs).foldlM (structCasesNode K fuel) (P, K.NO_NODE, []) with
  | none => rw [hf] at h; cases h
  | some r =>
    rw [hf] at h
    simp only [Option.map_some', Option.some.injEq] at h
    subst h
    exact annot_foldlM_pair _ (fun i s s' hs => structCasesNode_annot K fuel s s' i hs) _ _ _ hf

/-! ### The loop structurer -/

theorem findEndlessFollow_annot (K : Sentinels) (P : Function) (loopNodes : List Int)
    (head : Nat) (Q : Function) (h : findEndlessFollow K P loopNodes head = some Q) :
    P.SameUpTo BB.eraseAnnot Q := by
  unfold findEndlessFollow at h
  refine (annot_setLoopFollow P head K.MAX).trans (annot_foldlM _ (fun p s s' hs => ?_) _ _ _ h)
  unfold findEndlessFollowNode at hs
  split at hs
  · cases hs
  · refine annot_foldlM _ (fun j t t' ht => ?_) _ _ _ hs
    unfold findEndlessFollowEdge at ht
    split at ht
    · cases ht
    · split at ht
      · cases ht
        exact annot_setLoopFollow _ _ _
      · cases ht
        exact Function.SameUpTo.refl _ _

theorem findNodesInLoopNodes_annot (K : Sentinels) (L H : Nat) (P : Function)
    (intNodes : List Nat) (P1 : Function) (M : List Int)
    (h : findNodesInLoopNodes K L H P intNodes = some (P1, M)) :
    P.SameUpTo BB.eraseAnnot P1 := by
  unfold findNodesInLoopNodes at h
  simp only at h
  split at h
  · cases h
  · rename_i P2 loopNodes hfold
    have h1 : (P.setLoopHead H (P.blocks H).dfsLastNum).SameUpTo BB.eraseAnnot P2 :=
      annot_foldlM_pair _ (fun i s s' hs => by
        unfold findNodesInLoopTag at hs
        split at hs
        · cases hs
        · split at hs
          · cases hs
            exact Function.SameUpTo.refl _ _
          · simp only at hs
            split at hs
            · split at hs
              · cases hs
                exact annot_setLoopHead _ _ _
              · cases hs
                exact Function.SameUpTo.refl _ _
            · cases hs
              exact Function.SameUpTo.refl _ _) _ _ _ hfold
    have h2 := ((annot_setLoopHead P H _).trans h1).trans
      (annot_setLoopHead P2 L (P.blocks H).dfsLastNum)
    split at h
    · cases h
      exact h2
    · cases h
      exact h2

theorem findNodesInLoopWalk_annot (K : Sentinels) (loopNodes : List Int) (head : Nat)
    (thenDfs elseDfs : Int) :
    ∀ (fuel : Nat) (P : Function) (pbb : Nat) (Q : Function) (w : Nat),
      findNodesInLoopWalk K loopNodes head thenDfs elseDfs fuel P pbb = some (Q, w) →
      P.SameUpTo BB.eraseAnnot Q := by
  intro fuel
  induction fuel with
  | zero =>
    intro P pbb Q w h
    unfold findNodesInLoopWalk at h
    cases h
  | succ n ih =>
    intro P pbb Q w h
    unfold findNodesInLoopWalk at h
    split at h
    · cases h
      exact annot_setLoopFollow _ _ _
    · split at h
      · cases h
        exact annot_setLoopFollow _ _ _
      · split at h
        · split at h
          · cases h
          · rename_i P1 hP1
            cases h
            exact (annot_setLoopType P head _).trans
              (findEndlessFollow_annot K _ loopNodes head _ hP1)
        · split at h
          · cases h
          · exact ih P _ Q w h

theorem findNodesInLoopWalkEnd_annot (K : Sentinels) (H : Nat) (P2 : Function) (w : Nat)
    (P' : Function) (h : findNodesInLoopWalkEnd K H P2 w = some P') :
    P2.SameUpTo BB.eraseAnnot P' := by
  unfold findNodesInLoopWalkEnd at h
  split at h
  · split at h
    · cases h
    · cases h
      exact (annot_setLoopHead _ _ _).trans (annot_setLlFlag _ _)
  · cases h
    exact annot_setLlFlag _ _

theorem findNodesInLoopType_annot (K : Sentinels) (fuel : Nat) (L H : Nat) (P : Function)
    (M : List Int) (P' : Function) (h : findNodesInLoopType K fuel L H P M = some P') :
    P.SameUpTo BB.eraseAnnot P' := by
  have hset : ∀ (t : eNodeHeaderType) (f : Int) (j : Int),
      P.SameUpTo BB.eraseAnnot ((P.setLoop H t f).SetLlFlagJX_LOOP j) :=
    fun t f j => (annot_setLoop P H t f).trans (annot_setLlFlag _ _)
  unfold findNodesInLoopType at h
  simp only at h
  by_cases hL : (P.blocks L).nodeType = eBBKind.TWO_BRANCH
  · rw [if_pos hL] at h
    repeat' split at h
    all_goals first
      | (cases h; done)
      | (cases h; exact hset _ _ _)
  · rw [if_neg hL] at h
    by_cases hL' : (P.blocks L).nodeType = eBBKind.LOOP_NODE
    · rw [if_pos hL'] at h
      split at h
      · cases h
      · cases h
        exact annot_setLoop P H _ _
    · rw [if_neg hL'] at h
      by_cases hH : (P.blocks H).nodeType = eBBKind.TWO_BRANCH
      · rw [if_pos hH] at h
        split at h
        · cases h
        · split at h
          · cases h
          · split at h
            · cases h
            · rename_i P2 pbb hwalk
              exact ((annot_setLoopType P H _).trans
                (findNodesInLoopWalk_annot K M H _ _ fuel _ L P2 pbb hwalk)).trans
                (findNodesInLoopWalkEnd_annot K H P2 pbb P' h)
      · rw [if_neg hH] at h
        exact (annot_setLoopType P H _).trans (findEndlessFollow_annot K _ M H P' h)

theorem findNodesInLoop_annot (K : Sentinels) (fuel : Nat) (L H : Nat) (P : Function)
    (intNodes : List Nat) (P' : Function)
    (h : findNodesInLoop K fuel L H P intNodes = some P') : P.SameUpTo BB.eraseAnnot P' := by
  unfold findNodesInLoop at h
  split at h
  · cases h
  · rename_i P1 M h1
    exact (findNodesInLoopNodes_annot K L H P intNodes P1 M h1).trans
      (findNodesInLoopType_annot K fuel L H P1 M P' h)

theorem structLoopsLatch_annot (intNodes : List Nat) (H : Nat) (P : Function) :
    P.SameUpTo BB.eraseAnnot (structLoopsLatch intNodes H P).1 :=
  structLoopsLatch_keeps (fun Q => P.SameUpTo BB.eraseAnnot Q)
    (fun Q s hQ => hQ.trans (annot_incNumBackEdges Q s)) intNodes H P
    (Function.SameUpTo.refl _ P)

theorem structLoopsAccept_annot (K : Sentinels) (fuel : Nat) (intNodes : List Nat) (H : Nat)
    (P : Function) (o : Option Nat) (P' : Function)
    (h : structLoopsAccept K fuel intNodes H P o = some P') : P.SameUpTo BB.eraseAnnot P' := by
  cases o with
  | none =>
    unfold structLoopsAccept at h
    cases h
    exact Function.SameUpTo.refl _ _
  | some L =>
    unfold structLoopsAccept at h
    simp only at h
    by_cases hc : (P.blocks L).caseHead = (P.blocks H).caseHead ∧
        (P.blocks L).loopHead = K.NO_NODE
    · rw [if_pos hc] at h
      cases h2 : findNodesInLoop K fuel L H (P.setLatchNode H (P.blocks L).dfsLastNum)
          intNodes with
      | none => simp only [h2] at h; cases h
      | some P2 =>
        simp only [h2, Option.some.injEq] at h
        subst h
        exact ((annot_setLatchNode P H _).trans
          (findNodesInLoop_annot K fuel L H _ intNodes P2 h2)).trans (annot_setIsLatchNode P2 L)
    · rw [if_neg hc] at h
      cases h
      exact Function.SameUpTo.refl _ _

theorem structLoopsInterval_annot (K : Sentinels) (fuel : Nat) (level : Nat) (P : Function)
    (Ii : interval) (P' : Function) (h : structLoopsInterval K fuel level P Ii = some P') :
    P.SameUpTo BB.eraseAnnot P' := by
  unfold structLoopsInterval at h
  split at h
  · cases h
  · split at h
    · cases h
    · split at h
      · cases h
      · split at h
        · simp only at h
          exact (structLoopsLatch_annot _ _ P).trans
            (structLoopsAccept_annot K fuel _ _ _ _ P' h)
        · cases h

theorem structLoops_annot (K : Sentinels) (fuel : Nat) (P : Function) (derivedG : derSeq)
    (P' : Function) (h : structLoops K fuel P derivedG = some P') :
    P.SameUpTo BB.eraseAnnot P' := by
  unfold structLoops at h
  split at h
  · cases h
  · rename_i r hr
    cases h
    have := foldlM_rel (structLoopsLevel K fuel)
      (fun (s s' : Nat × Function) => s.2.SameUpTo BB.eraseAnnot s'.2)
      (fun _ => Function.SameUpTo.refl _ _) (fun _ _ _ h1 h2 => h1.trans h2) derivedG
      (fun Iis _ s s' hs => by
        unfold structLoopsLevel at hs
        split at hs
        · cases hs
        · rename_i Q hQ
          cases hs
          exact annot_foldlM _ (fun Ii t t' ht => structLoopsInterval_annot K fuel _ t Ii t' ht)
            _ _ _ hQ) (0, P) r hr
    exact this

/-! ### The if structurer -/

theorem flagNodes_annot (P : Function) (l : List Int) (f : Int) (P' : Function)
    (h : flagNodes P l f = some P') : P.SameUpTo BB.eraseAnnot P' := by
  unfold flagNodes at h
  refine annot_foldlM _ (fun p s s' hs => ?_) _ _ _ h
  simp only at hs
  split at hs
  · cases hs
  · cases hs
    exact annot_setIfFollow _ _ _

theorem structIfsNode_annot (st st' : Function × List Int) (curr : Int)
    (h : structIfsNode st curr = some st') : st.1.SameUpTo BB.eraseAnnot st'.1 := by
  unfold structIfsNode at h
  split at h
  · cases h
  · split at h
    · cases h
      exact Function.SameUpTo.refl _ _
    · split at h
      · split at h
        · cases h
        · split at h
          · simp only at h
            split at h
            · split at h
              · cases h
              · rename_i P2 h2
                cases h
                exact (annot_setIfFollow _ _ _).trans (flagNodes_annot _ _ _ P2 h2)
            · cases h
              exact annot_setIfFollow _ _ _
          · cases h
            exact Function.SameUpTo.refl _ _
      · cases h
        exact Function.SameUpTo.refl _ _

theorem structIfs_annot (P P' : Function) (h : structIfs P = some P') :
    P.SameUpTo BB.eraseAnnot P' := by
  unfold structIfs at h
  cases hf : (indicesDown P.numBBs).foldlM structIfsNode (P, []) with
  | none => rw [hf] at h; cases h
  | some r =>
    rw [hf] at h
    simp only [Option.map_some', Option.some.injEq] at h
    subst h
    exact annot_foldlM_pair _ (fun i s s' hs => structIfsNode_annot s s' i hs) _ _ _ hf

/-! ## A second run of the structuring pass -/

theorem sameGraph_symm {P Q : Function} (h : P.SameGraph Q) : Q.SameGraph P :=
  ⟨h.1.symm, h.2.1.symm, fun b =>
    ⟨(h.2.2 b).1.symm, (h.2.2 b).2.1.symm, (h.2.2 b).2.2.1.symm, (h.2.2 b).2.2.2.symm⟩⟩

theorem sameGraph_isBlock {P Q : Function} (h : P.SameGraph Q) (b : Nat) :
    Q.IsBlock b ↔ P.IsBlock b := by
  unfold Function.IsBlock
  rw [h.1, h.2.1]

theorem sameGraph_blockAt {P Q : Function} (h : P.SameGraph Q) (i b : Nat) :
    Q.BlockAt i b ↔ P.BlockAt i b := by
  unfold Function.BlockAt
  rw [h.1, h.2.1]

theorem sameGraph_cfgEdge {P Q : Function} (h : P.SameGraph Q) (u v : Nat) :
    Q.CfgEdge u v ↔ P.CfgEdge u v := by
  unfold Function.CfgEdge
  rw [sameGraph_isBlock h, sameGraph_isBlock h, (h.2.2 u).1]

theorem sameGraph_cfgPath_mp {P Q : Function} (h : P.SameGraph Q) (e : Nat) (π : List Nat)
    (v : Nat) (hp : Q.CfgPath e π v) : P.CfgPath e π v := by
  induction hp with
  | entry => exact Function.CfgPath.entry
  | step _ hedge ih => exact Function.CfgPath.step ih ((sameGraph_cfgEdge h _ _).mp hedge)

theorem sameGraph_cfgPath {P Q : Function} (h : P.SameGraph Q) (e : Nat) (π : List Nat)
    (v : Nat) : Q.CfgPath e π v ↔ P.CfgPath e π v :=
  ⟨sameGraph_cfgPath_mp h e π v, sameGraph_cfgPath_mp (sameGraph_symm h) e π v⟩

theorem sameGraph_dominates {P Q : Function} (h : P.SameGraph Q) (e d v : Nat) :
    Q.Dominates e d v ↔ P.Dominates e d v := by
  unfold Function.Dominates
  constructor
  · intro hd π hπ
    exact hd π ((sameGraph_cfgPath h e π v).mpr hπ)
  · intro hd π hπ
    exact hd π ((sameGraph_cfgPath h e π v).mp hπ)

theorem sameGraph_isImmedDom {P Q : Function} (h : P.SameGraph Q) (e d v : Nat) :
    Q.IsImmedDom e d v ↔ P.IsImmedDom e d v := by
  unfold Function.IsImmedDom
  rw [sameGraph_dominates h]
  constructor
  · rintro ⟨h1, h2, h3⟩
    exact ⟨h1, h2, fun d' hd' hdom =>
      (sameGraph_dominates h e d' d).mp (h3 d' hd' ((sameGraph_dominates h e d' v).mpr hdom))⟩
  · rintro ⟨h1, h2, h3⟩
    exact ⟨h1, h2, fun d' hd' hdom =>
      (sameGraph_dominates h e d' d).mpr (h3 d' hd' ((sameGraph_dominates h e d' v).mp hdom))⟩

theorem sameGraph_reducible {P Q : Function} (h : P.SameGraph Q) (e : Nat)
    (hred : P.Reducible e) : Q.Reducible e := by
  intro u v huv
  rcases hred u v ((sameGraph_cfgEdge h u v).mp huv) with h1 | h1
  · left
    rw [(h.2.2 u).2.2.1, (h.2.2 v).2.2.1]
    exact h1
  · right
    exact (sameGraph_dominates h e v u).mpr h1

theorem sameGraph_dfsLastOK {P Q : Function} (h : P.SameGraph Q) (htab : P.DfsLastOK) :
    Q.DfsLastOK := by
  intro k hk
  rw [h.2.1] at hk
  obtain ⟨b, hb, hn⟩ := htab k hk
  exact ⟨b, by rw [h.1]; exact hb, by rw [(h.2.2 b).2.2.1]; exact hn⟩

theorem sameGraph_of_sameButImmedDom {P Q : Function} (h : P.SameButImmedDom Q) :
    P.SameGraph Q :=
  ⟨h.1, h.2.1, fun b => ⟨h.edges b, h.inEdges b, h.dfsLastNum b, by rw [h.flg b]⟩⟩

theorem sameGraph_of_annot {P Q : Function} (h : P.SameUpTo BB.eraseAnnot Q) :
    P.SameGraph Q :=
  ⟨h.1, h.2.1, fun b =>
    ⟨show (Q.blocks b).eraseAnnot.edges = (P.blocks b).eraseAnnot.edges from
        congrArg BB.edges (h.2.2.2 b),
      show (Q.blocks b).eraseAnnot.inEdges = (P.blocks b).eraseAnnot.inEdges from
        congrArg BB.inEdges (h.2.2.2 b),
      show (Q.blocks b).eraseAnnot.dfsLastNum = (P.blocks b).eraseAnnot.dfsLastNum from
        congrArg BB.dfsLastNum (h.2.2.2 b),
      show (Q.blocks b).eraseAnnot.flg.INVALID_BB = (P.blocks b).eraseAnnot.flg.INVALID_BB from
        congrArg (fun x => x.flg.INVALID_BB) (h.2.2.2 b)⟩⟩

theorem sameGraph_trans {P Q R : Function} (h1 : P.SameGraph Q) (h2 : Q.SameGraph R) :
    P.SameGraph R :=
  ⟨h2.1.trans h1.1, h2.2.1.trans h1.2.1, fun b =>
    ⟨(h2.2.2 b).1.trans (h1.2.2 b).1, (h2.2.2 b).2.1.trans (h1.2.2 b).2.1,
      (h2.2.2 b).2.2.1.trans (h1.2.2 b).2.2.1, (h2.2.2 b).2.2.2.trans (h1.2.2 b).2.2.2⟩⟩

theorem annot_immedDom {P Q : Function} (h : P.SameUpTo BB.eraseAnnot Q) (b : Nat) :
    (Q.blocks b).immedDom = (P.blocks b).immedDom :=
  show (Q.blocks b).eraseAnnot.immedDom = (P.blocks b).eraseAnnot.immedDom from
    congrArg BB.immedDom (h.2.2.2 b)

theorem bb_eq_of_immedDom (x y : BB)
    (h1 : { x with immedDom := 0 } = { y with immedDom := 0 }) (h2 : x.immedDom = y.immedDom) :
    x = y := by
  cases x
  cases y
  simp only [BB.mk.injEq] at h1 ⊢
  simp only at h2
  simp_all

/-- Two states of the solver with the same `immedDom` fields are the same. -/
theorem sameButImmedDom_eq {P Q Q1 : Function} (h : P.SameButImmedDom Q)
    (h1 : P.SameButImmedDom Q1)
    (himm : ∀ b, (Q1.blocks b).immedDom = (Q.blocks b).immedDom) : Q1 = Q := by
  obtain ⟨a1, a2, a3, a4, a5⟩ := h
  obtain ⟨b1, b2, b3, b4, b5⟩ := h1
  cases Q
  cases Q1
  simp only at a1 a2 a3 a4 a5 b1 b2 b3 b4 b5 himm
  subst a1 a2 a3 a4
  subst b1 b2 b3 b4
  simp only [Function.mk.injEq, and_true, true_and]
  funext b
  exact bb_eq_of_immedDom _ _ ((b5 b).trans (a5 b).symm) (himm b)

/-- On a solved table an iteration of the outer loop of `findImmedDom` changes
nothing. -/
theorem findImmedDomNode_fixed (K : Sentinels) (fuel : Nat) (P : Function) (e : Nat)
    (n k v : Nat) (htab : P.DfsLastOK) (hK : K.NO_DOM < 0 ∨ P.numBBs ≤ K.NO_DOM)
    (he : P.BlockAt 0 e) (hv : P.BlockAt k v) (hkn : k < n)
    (hvalid : (P.blocks v).flg.INVALID_BB = false)
    (hin : ∀ p, p ∈ (P.blocks v).inEdges ↔ P.CfgEdge p v) (hred : P.Reducible e)
    (hreach : ∃ π, P.CfgPath e π v) (hfuel : 2 * P.numBBs < fuel)
    (Q : Function) (hs : P.SolvedBelow K e n Q) :
    findImmedDomNode K fuel Q k = some Q := by
  have hnumv := blockAt_num P htab hv
  have hsk : P.SolvedBelow K e k Q := ⟨hs.1, fun j b hj hb => hs.2 j b (by omega) hb⟩
  have hrun : ∀ Q1, (P.blocks v).inEdges.foldlM (findImmedDomEdge K fuel k v) Q = some Q1 →
      findImmedDomNode K fuel Q k = some Q1 := by
    intro Q1 hQ1
    unfold findImmedDomNode
    rw [dfsLastAt_natCast, hs.1.1, hv.2]
    simp only
    rw [hs.1.flg, hvalid, if_neg (by simp), hs.1.inEdges]
    exact hQ1
  have hblk : ∀ a ∈ (P.blocks v).inEdges, P.IsBlock a := fun a ha => ((hin a).mp ha).1
  rcases hs.2 k v hkn hv with ⟨hve, himm⟩ | ⟨hve, d, l0, hd, himm, hl0, hidom⟩
  · -- the entry
    subst hve
    have hk0 : k = 0 := blockAt_idx_inj P htab hv he
    obtain ⟨Q1, hQ1, hs1, hacc, hfr⟩ := findImmedDomEdges_solved K fuel P v k v htab hK he hv
      hfuel (P.blocks v).inEdges [] hblk Q hsk (Or.inl ⟨by simp, himm⟩)
    have hsame : ∀ b, (Q1.blocks b).immedDom = (Q.blocks b).immedDom := by
      intro b
      by_cases hb : b = v
      · subst hb
        rcases hacc with ⟨_, h1⟩ | ⟨l, m, _, _, hlk, _⟩
        · rw [h1, himm]
        · omega
      · exact hfr b hb
    rw [hrun Q1 hQ1, sameButImmedDom_eq hs.1 hs1.1 hsame]
  · -- another block
    rw [hnumv] at hl0
    have hl0' : l0 < k := by exact_mod_cast hl0
    obtain ⟨π, hπ⟩ := hreach
    obtain ⟨u, _, hu1, hu2, _, _⟩ := forward_pred_of_path P e v hred hve π.length π
      (le_refl _) hπ
    rw [hnumv] at hu2
    have hvle : ∀ (j : Nat) (b : Nat), j < k → P.BlockAt j b → ¬ P.Dominates e v b := by
      intro j b hj hb hdom
      obtain ⟨i, hi, hij⟩ := dominates_le K P e Q k htab he hsk j b hj hb v hdom
      have := blockAt_idx_inj P htab hi hv
      omega
    have hdom0 : ∀ x, P.Dominates e x d ↔
        ∀ p ∈ (P.blocks v).inEdges, (P.blocks p).dfsLastNum < k → P.Dominates e x p := by
      intro x
      constructor
      · intro hxd p hp hpk
        have hxv : x ≠ v := by
          rintro rfl
          exact hvle l0 d hl0' hd hxd
        have hxv' := dominates_trans P e x d v hxd hidom.2.1
        exact (dominates_iff_forward_preds P e v x hred hve hxv).mp hxv' p ((hin p).mp hp)
          (by rw [hnumv]; exact hpk)
      · intro hall
        have hxu := hall u ((hin u).mpr hu1) hu2
        have hxv : x ≠ v := by
          rintro rfl
          obtain ⟨ju, hju⟩ : ∃ j : Nat, P.BlockAt j u := hu1.1
          have hju' := blockAt_num P htab hju
          rw [hju'] at hu2
          exact hvle ju u (by exact_mod_cast hu2) hju hxu
        refine hidom.2.2 x hxv ?_
        refine (dominates_iff_forward_preds P e v x hred hve hxv).mpr (fun w hw hlt => ?_)
        exact hall w ((hin w).mpr hw) (by rw [← hnumv]; exact hlt)
    obtain ⟨Q1, hQ1, hs1, hacc, hfr⟩ := findImmedDomEdges_solved K fuel P e k v htab hK he hv
      hfuel (P.blocks v).inEdges (P.blocks v).inEdges hblk Q hsk
      (Or.inr ⟨l0, d, hd, himm, hl0', hdom0⟩)
    have hsame : ∀ b, (Q1.blocks b).immedDom = (Q.blocks b).immedDom := by
      intro b
      by_cases hb : b = v
      · subst hb
        rcases hacc with ⟨hnone, _⟩ | ⟨l1, m1, hm1, himm1, hl1, hdom1⟩
        · exact absurd hu2 (hnone u (List.mem_append_left _ ((hin u).mpr hu1)))
        · have hiff : ∀ x, P.Dominates e x m1 ↔ P.Dominates e x d := by
            intro x
            rw [hdom1 x, hdom0 x]
            constructor
            · intro h p hp hpk
              exact h p (List.mem_append_left _ hp) hpk
            · intro h p hp hpk
              rcases List.mem_append.mp hp with hp' | hp'
              · exact h p hp' hpk
              · exact h p hp' hpk
          have h1 : P.Dominates e m1 d := (hiff m1).mp (dominates_refl P e m1)
          have h2 : P.Dominates e d m1 := (hiff d).mpr (dominates_refl P e d)
          obtain ⟨i1, hi1, hi1le⟩ := dominates_le K P e Q k htab he hsk l0 d hl0' hd m1 h1
          obtain ⟨i2, hi2, hi2le⟩ := dominates_le K P e Q k htab he hsk l1 m1 hl1 hm1 d h2
          have e1 := blockAt_idx_inj P htab hi1 hm1
          have e2 := blockAt_idx_inj P htab hi2 hd
          have : l1 = l0 := by omega
          rw [himm1, himm, this]
      · exact hfr b hb
    rw [hrun Q1 hQ1, sameButImmedDom_eq hs.1 hs1.1 hsame]

theorem foldlM_fixed {α : Type} (f : Function → α → Option Function) (Q : Function) :
    ∀ l : List α, (∀ a ∈ l, f Q a = some Q) → l.foldlM f Q = some Q := by
  intro l
  induction l with
  | nil => intro _; rfl
  | cons a l ih =>
    intro h
    rw [List.foldlM_cons, h a (List.mem_cons_self _ _)]
    exact ih (fun b hb => h b (List.mem_cons_of_mem _ hb))

/-- On a solved table `findImmedDom` changes nothing. -/
theorem findImmedDom_fixed (K : Sentinels) (fuel : Nat) (P : Function) (e : Nat)
    (htab : P.DfsLastOK) (hK : K.NO_DOM < 0 ∨ P.numBBs ≤ K.NO_DOM) (he : P.BlockAt 0 e)
    (hvalid : ∀ b, P.IsBlock b → (P.blocks b).flg.INVALID_BB = false)
    (hin : ∀ v, P.IsBlock v → ∀ p, p ∈ (P.blocks v).inEdges ↔ P.CfgEdge p v)
    (hred : P.Reducible e) (hreach : ∀ b, P.IsBlock b → ∃ π, P.CfgPath e π b)
    (hfuel : 2 * P.numBBs < fuel)
    (Q : Function) (hs : P.SolvedBelow K e P.numBBs.toNat Q) :
    findImmedDom K fuel Q = some Q := by
  unfold findImmedDom
  refine foldlM_fixed _ Q _ (fun k hk => ?_)
  rw [hs.1.2.1] at hk
  have hk' : k < P.numBBs.toNat := List.mem_range.mp hk
  have hk2 : (k : Int) < P.numBBs := by omega
  obtain ⟨v, hv, _⟩ := htab k hk2
  have hbv : P.BlockAt k v := ⟨hk2, hv⟩
  have hisb : P.IsBlock v := ⟨k, hk2, hv⟩
  exact findImmedDomNode_fixed K fuel P e _ k v htab hK he hbv hk' (hvalid v hisb)
    (hin v hisb) hred (hreach v hisb) hfuel Q hs

/-- The stages after the dominator stage write annotations only. -/
theorem laterStages_annot (K : Sentinels) (fuel : Nat) (P1 P4 : Function) (derivedG : derSeq)
    (h : (match (if P1.hasCase then structCases K fuel P1 else some P1) with
      | none => none
      | some P2 =>
        match structLoops K fuel P2 derivedG with
        | none => none
        | some P3 => structIfs P3) = some P4) : P1.SameUpTo BB.eraseAnnot P4 := by
  split at h
  · cases h
  · rename_i P2 h2
    have h12 : P1.SameUpTo BB.eraseAnnot P2 := by
      by_cases hc : P1.hasCase = true
      · rw [if_pos hc] at h2
        exact structCases_annot K fuel P1 P2 h2
      · rw [if_neg hc] at h2
        cases h2
        exact Function.SameUpTo.refl _ _
    split at h
    · cases h
    · rename_i P3 h3
      exact (h12.trans (structLoops_annot K fuel P2 derivedG P3 h3)).trans
        (structIfs_annot P3 P4 h)

/-- C23 (amended): on a reducible CFG whose blocks are valid and reachable from the entry,
with `dfsLast[k].dfsLastNum = k`, in-edge vectors that hold the predecessors and every
`immedDom` equal to `NO_DOM` before the first run, running `Function::structure` a second
time on its own output, with the same derived sequence, changes no `immedDom`: the
dominator stage of the second run returns its input, and the later stages write
annotations only. -/
theorem structure_twice_keeps_immedDom (K : Sentinels) (fuel : Nat) (P : Function) (e : Nat)
    (derivedG : derSeq) (P4 P8 : Function)
    (htab : P.DfsLastOK) (hK : K.NO_DOM < 0 ∨ P.numBBs ≤ K.NO_DOM) (he : P.BlockAt 0 e)
    (hvalid : ∀ b, P.IsBlock b → (P.blocks b).flg.INVALID_BB = false)
    (hin : ∀ v, P.IsBlock v → ∀ p, p ∈ (P.blocks v).inEdges ↔ P.CfgEdge p v)
    (hred : P.Reducible e) (hreach : ∀ b, P.IsBlock b → ∃ π, P.CfgPath e π b)
    (hinit : ∀ b, (P.blocks b).immedDom = K.NO_DOM)
    (hfuel : 2 * P.numBBs < fuel)
    (h1 : structurePass K fuel P derivedG = some P4)
    (h2 : structurePass K fuel P4 derivedG = some P8) :
    findImmedDom K fuel P4 = some P4 ∧
      ∀ b, (P8.blocks b).immedDom = (P4.blocks b).immedDom := by
  obtain ⟨P1, hP1, hs1⟩ := findImmedDom_solved_frame K fuel P e htab hK he hvalid hin hred
    hreach hinit hfuel
  unfold structurePass at h1
  rw [hP1] at h1
  simp only at h1
  have hA := laterStages_annot K fuel P1 P4 derivedG h1
  have hG : P.SameGraph P4 :=
    sameGraph_trans (sameGraph_of_sameButImmedDom hs1.1) (sameGraph_of_annot hA)
  have hn : P4.numBBs = P.numBBs := hG.2.1
  have hs4 : P4.SolvedBelow K e P4.numBBs.toNat P4 := by
    refine ⟨Function.SameButImmedDom.reflexive P4, fun j b hj hb => ?_⟩
    rw [hn] at hj
    have hb' := (sameGraph_blockAt hG j b).mp hb
    rcases hs1.2 j b hj hb' with ⟨hbe, himm⟩ | ⟨hbe, d, l, hd, himm, hl, hidom⟩
    · exact Or.inl ⟨hbe, by rw [annot_immedDom hA b]; exact himm⟩
    · exact Or.inr ⟨hbe, d, l, (sameGraph_blockAt hG l d).mpr hd,
        by rw [annot_immedDom hA b]; exact himm, by rw [(hG.2.2 b).2.2.1]; exact hl,
        (sameGraph_isImmedDom hG e d b).mpr hidom⟩
  have hfix : findImmedDom K fuel P4 = some P4 :=
    findImmedDom_fixed K fuel P4 e (sameGraph_dfsLastOK hG htab) (by rw [hn]; exact hK)
      ((sameGraph_blockAt hG 0 e).mpr he)
      (fun b hb => by
        rw [(hG.2.2 b).2.2.2]
        exact hvalid b ((sameGraph_isBlock hG b).mp hb))
      (fun v hv p => by
        rw [(hG.2.2 v).2.1, sameGraph_cfgEdge hG]
        exact hin v ((sameGraph_isBlock hG v).mp hv) p)
      (sameGraph_reducible hG e hred)
      (fun b hb => by
        obtain ⟨π, hπ⟩ := hreach b ((sameGraph_isBlock hG b).mp hb)
        exact ⟨π, (sameGraph_cfgPath hG e π b).mpr hπ⟩)
      (by rw [hn]; exact hfuel) P4 hs4
  refine ⟨hfix, ?_⟩
  unfold structurePass at h2
  rw [hfix] at h2
  simp only at h2
  exact annot_immedDom (laterStages_annot K fuel P4 P8 derivedG h2)

theorem structure_twice_keeps_immedDom_witness :
    findImmedDom K0 9
        ((structurePass K0 9 (rawOf K0 (preTestProc K0)) seqABCD).getD (preTestProc K0)) =
      some ((structurePass K0 9 (rawOf K0 (preTestProc K0)) seqABCD).getD (preTestProc K0)) ∧
    ∀ b,
      ((((structurePass K0 9 (rawOf K0 (preTestProc K0)) seqABCD).bind
        (fun Q => structurePass K0 9 Q seqABCD)).getD (preTestProc K0)).blocks b).immedDom =
      (((structurePass K0 9 (rawOf K0 (preTestProc K0)) seqABCD).getD
        (preTestProc K0)).blocks b).immedDom :=
  structure_twice_keeps_immedDom K0 9 (rawOf K0 (preTestProc K0)) 10 seqABCD
    ((structurePass K0 9 (rawOf K0 (preTestProc K0)) seqABCD).getD (preTestProc K0))
    (((structurePass K0 9 (rawOf K0 (preTestProc K0)) seqABCD).bind
      (fun Q => structurePass K0 9 Q seqABCD)).getD (preTestProc K0))
    rawPreTest_dfsLastOK (Or.inr (by decide)) ⟨by decide, rfl⟩
    (fun b hb => by
      rw [rawPreTest_isBlock] at hb
      rcases hb with rfl | rfl | rfl | rfl <;> rfl)
    rawPreTest_inEdges rawPreTest_reducible rawPreTest_reach (fun _ => rfl) (by decide)
    rfl rfl

/-- C23 (counterexample): on the loop with an exit from its body, the first run of
`Function::structure` leaves the block 15, the header of its own loop, with
`numBackEdges = 1` and `loopHead = NO_NODE`; after the second run on that output, with
the same derived sequence, its `numBackEdges` is 2 and its `loopHead` is 5. -/
theorem structure_twice_changes_annotations :
    (structurePass K0 20 (rawOf K0 (exitLoopProc K0)) exitLoopSeq).map
        (fun P => ((P.blocks 15).numBackEdges, (P.blocks 15).loopHead)) =
      some (1, K0.NO_NODE) ∧
    ((structurePass K0 20 (rawOf K0 (exitLoopProc K0)) exitLoopSeq).bind
        (fun P => structurePass K0 20 P exitLoopSeq)).map
        (fun P => ((P.blocks 15).numBackEdges, (P.blocks 15).loopHead)) =
      some (2, 5) := by
  decide

end Dcc
